import Mathlib

/-! Window operator: boundary masks, frame boundaries and window functions.

A shallow embedding of `src/execution/operator/aggregate/physical_window.cpp`.

Conventions of the embedding.
* `idx_t` row positions and counts are natural numbers. Row counts are far below
  `2^63`, so sums of row positions do not wrap; where the source relies on unsigned or
  signed 64-bit wrap-around (the `--n` of the mask scans, the offset arithmetic of
  LEAD/LAG) the reduction modulo `2^64` is written out.
* A nullable cell is an `Option`; `none` is SQL NULL.
* Functions that throw return `Except`.
* Loops are recursive functions on a fuel argument that bounds the number of
  iterations; the top-level function supplies the bound of the loop it embeds.
-/

namespace Window

/-! ## Validity masks -/

/-- The constant `ValidityMask::BITS_PER_VALUE`. -/
def BITS_PER_VALUE : Nat := 64

/-- Modelled from the spec: the validity bit-vector (`ValidityMask`, declared outside the
sources at hand). A mask without a buffer (`validity_mask = none`) marks every row valid;
otherwise `validity_mask = some w` gives the 64-bit word `w e` of every entry `e`. -/
structure ValidityMask where
  validity_mask : Option (Nat → Nat)

namespace ValidityMask

/-- Modelled from the spec: `AllValid()` holds when the mask has no buffer. -/
def AllValid (mask : ValidityMask) : Bool := mask.validity_mask.isNone

/-- Modelled from the spec: `GetEntryIndex(row, entry_idx, idx_in_entry)`. -/
def GetEntryIndex (row : Nat) : Nat × Nat := (row / BITS_PER_VALUE, row % BITS_PER_VALUE)

/-- Modelled from the spec: `GetValidityEntry(entry_idx)`; a mask without a buffer yields
the all-ones word. -/
def GetValidityEntry (mask : ValidityMask) (entry_idx : Nat) : Nat :=
  match mask.validity_mask with
  | none => 2 ^ 64 - 1
  | some w => w entry_idx

/-- Modelled from the spec: `NoneValid(entry)`. -/
def NoneValid (entry : Nat) : Bool := entry == 0

/-- Modelled from the spec: `RowIsValid(entry, idx_in_entry)`, the bit test on one word. -/
def EntryRowIsValid (entry idx_in_entry : Nat) : Bool := entry.testBit idx_in_entry

/-- Modelled from the spec: `RowIsValidUnsafe(row)`, the bit test on the whole mask. -/
def RowIsValidUnsafe (mask : ValidityMask) (row : Nat) : Bool :=
  EntryRowIsValid (mask.GetValidityEntry (GetEntryIndex row).1) (GetEntryIndex row).2

/-- Modelled from the spec: `RowIsValid(row)`. -/
def RowIsValid (mask : ValidityMask) (row : Nat) : Bool :=
  if mask.AllValid then true else mask.RowIsValidUnsafe row

/-- A materialised mask built from a list of 64-bit words (entries past the list are 0). -/
def ofWords (ws : List Nat) : ValidityMask := ⟨some (fun e => ws.getD e 0)⟩

/-- The mask without a buffer. -/
def allValid : ValidityMask := ⟨none⟩

end ValidityMask

open ValidityMask

/-- The value of `--n` on an unsigned 64-bit counter. -/
def decr64 (n : Nat) : Nat := if n = 0 then 2 ^ 64 - 1 else n - 1

/-- The sum `a + b` of two `idx_t` values (unsigned 64-bit, wrapping). -/
def add64 (a b : Nat) : Nat := (a + b) % 2 ^ 64

/-- The difference `a - b` of two `idx_t` values (unsigned 64-bit, wrapping). -/
def sub64 (a b : Nat) : Nat := (a + (2 ^ 64 - b % 2 ^ 64)) % 2 ^ 64

/-- Outcome of an inner block loop of the mask scans: the function returned with an index
and the residual count, or the loop ran to its end at a position with a count. -/
inductive BlockScan where
  | found (idx n : Nat)
  | next (pos n : Nat)
deriving DecidableEq, Repr

/-- The inner loop of `FindNextStart`:
`for (; shift < BITS_PER_VALUE && l < r; ++shift, ++l) if (valid(block, shift) && --n == 0) return min(l, r)`. -/
def FindNextStartBlock (block r : Nat) : Nat → Nat → Nat → Nat → BlockScan
  | 0, _, l, n => .next l n
  | fuel + 1, shift, l, n =>
    if shift < BITS_PER_VALUE ∧ l < r then
      if EntryRowIsValid block shift then
        if decr64 n = 0 then .found (min l r) (decr64 n)
        else FindNextStartBlock block r fuel (shift + 1) (l + 1) (decr64 n)
      else FindNextStartBlock block r fuel (shift + 1) (l + 1) n
    else .next l n

/-- The outer loop `while (l < r)` of `FindNextStart`; the skip of a blank block,
`l += BITS_PER_VALUE`, is an `idx_t` sum. -/
def FindNextStartLoop (mask : ValidityMask) (r : Nat) : Nat → Nat → Nat → Nat × Nat
  | 0, _, n => (r, n)
  | fuel + 1, l, n =>
    if l < r then
      let entry_idx := (GetEntryIndex l).1
      let shift := (GetEntryIndex l).2
      let block := mask.GetValidityEntry entry_idx
      if NoneValid block ∧ shift = 0 then
        FindNextStartLoop mask r fuel (add64 l BITS_PER_VALUE) n
      else
        match FindNextStartBlock block r BITS_PER_VALUE shift l n with
        | .found idx n1 => (idx, n1)
        | .next l1 n1 => FindNextStartLoop mask r fuel l1 n1
    else (r, n)

/-- The function `FindNextStart(mask, l, r, n)`: the returned index and the final value of
the in-out counter `n`. The fast path for a mask without a buffer computes
`MinValue(l + n - 1, r)` and `n -= MinValue(n, r - l)` in `idx_t` arithmetic. As long as
no skip of a blank block wraps (which needs `r > 2^64 - 64`), every iteration of the outer
loop advances `l`, so `r - l` iterations are enough; after a skip that wraps, the loop of
the source restarts from row 0 and does not end when it finds no further set bit, and the
loop here stops with the fuel. -/
def FindNextStart (mask : ValidityMask) (l r n : Nat) : Nat × Nat :=
  if mask.AllValid then
    (min (sub64 (add64 l n) 1) r, sub64 n (min n (sub64 r l)))
  else
    FindNextStartLoop mask r (r - l) l n

/-- The inner loop of `FindPrevStart`:
`for (++shift; shift-- > 0; --r) if (valid(block, shift) && --n == 0) return max(l, r - 1)`;
the first argument is the value of `shift` tested by the loop condition. -/
def FindPrevStartBlock (block l : Nat) : Nat → Nat → Nat → BlockScan
  | 0, r, n => .next r n
  | shift + 1, r, n =>
    if EntryRowIsValid block shift then
      if decr64 n = 0 then .found (max l (r - 1)) (decr64 n)
      else FindPrevStartBlock block l shift (r - 1) (decr64 n)
    else FindPrevStartBlock block l shift (r - 1) n

/-- The outer loop `while (l < r)` of `FindPrevStart`. -/
def FindPrevStartLoop (mask : ValidityMask) (l : Nat) : Nat → Nat → Nat → Nat × Nat
  | 0, _, n => (l, n)
  | fuel + 1, r, n =>
    if l < r then
      let entry_idx := (GetEntryIndex (r - 1)).1
      let shift := (GetEntryIndex (r - 1)).2
      let block := mask.GetValidityEntry entry_idx
      if NoneValid block ∧ shift + 1 = BITS_PER_VALUE then
        FindPrevStartLoop mask l fuel (r - BITS_PER_VALUE) n
      else
        match FindPrevStartBlock block l (shift + 1) r n with
        | .found idx n1 => (idx, n1)
        | .next r1 n1 => FindPrevStartLoop mask l fuel r1 n1
    else (l, n)

/-- The function `FindPrevStart(mask, l, r, n)`: the returned index and the final value of
the in-out counter `n`. The fast path for a mask without a buffer computes
`(r <= l + n) ? l : r - n` and `n -= r - start` in `idx_t` arithmetic. Every iteration of
the outer loop lowers `r`, so `r - l` iterations are enough. -/
def FindPrevStart (mask : ValidityMask) (l r n : Nat) : Nat × Nat :=
  if mask.AllValid then
    let start := if r ≤ add64 l n then l else sub64 r n
    (start, sub64 n (sub64 r start))
  else
    FindPrevStartLoop mask l (r - l) r n

/-! ## Expressions, columns and the RANGE search -/

/-- Modelled from the spec: the frame boundary kinds (`WindowBoundary`, declared outside the
sources at hand). -/
inductive WindowBoundary where
  | INVALID
  | UNBOUNDED_PRECEDING
  | UNBOUNDED_FOLLOWING
  | CURRENT_ROW_RANGE
  | CURRENT_ROW_ROWS
  | EXPR_PRECEDING_ROWS
  | EXPR_FOLLOWING_ROWS
  | EXPR_PRECEDING_RANGE
  | EXPR_FOLLOWING_RANGE
deriving DecidableEq, Repr

/-- Modelled from the spec: the window members of `ExpressionType`. -/
inductive ExpressionType where
  | WINDOW_AGGREGATE
  | WINDOW_RANK
  | WINDOW_RANK_DENSE
  | WINDOW_NTILE
  | WINDOW_PERCENT_RANK
  | WINDOW_CUME_DIST
  | WINDOW_ROW_NUMBER
  | WINDOW_FIRST_VALUE
  | WINDOW_LAST_VALUE
  | WINDOW_LEAD
  | WINDOW_LAG
  | WINDOW_NTH_VALUE
deriving DecidableEq, Repr

/-- Modelled from the spec: the sort senses (`OrderType`). -/
inductive OrderType where
  | INVALID
  | ASCENDING
  | DESCENDING
deriving DecidableEq, Repr

/-- Modelled from the spec: the physical types of an ordering column; `OTHER` stands for
every type that the RANGE search does not list. -/
inductive PhysicalType where
  | INT8 | INT16 | INT32 | INT64 | UINT8 | UINT16 | UINT32 | UINT64 | INT128
  | FLOAT | DOUBLE | INTERVAL | OTHER
deriving DecidableEq, Repr

/-- The errors thrown by the window operator, one per throw site. -/
inductive WindowError where
  -- OutOfRangeException: Overflow computing ROWS PRECEDING start
  | OverflowRowsPrecedingStart
  -- OutOfRangeException: Overflow computing ROWS FOLLOWING start
  | OverflowRowsFollowingStart
  -- OutOfRangeException: Overflow computing ROWS PRECEDING end
  | OverflowRowsPrecedingEnd
  -- OutOfRangeException: Overflow computing ROWS FOLLOWING end
  | OverflowRowsFollowingEnd
  -- InternalException: Unsupported window start boundary
  | UnsupportedStartBoundary
  -- InternalException: Unsupported window end boundary
  | UnsupportedEndBoundary
  -- InternalException: Unsupported column type for RANGE
  | UnsupportedRangeType
  -- InternalException: Unsupported ORDER BY sense for RANGE
  | UnsupportedRangeSense
  -- InternalException: Failed to compute window boundaries
  | FailedToComputeBoundaries
  -- InvalidInputException: Argument for ntile must be greater than zero
  | NtileArgument
  -- integer division by zero (undefined behaviour in the source)
  | DivisionByZero
deriving DecidableEq, Repr

/-- The evaluated chunk of a `WindowInputExpression` for the current batch: the values and
NULL flags of `chunk.data[0]`, whether the expression is scalar and whether the vector is a
constant vector. Cell values are integers. -/
structure WindowInputExpression where
  scalar : Bool
  is_constant_vector : Bool
  data : Nat → Int
  is_null : Nat → Bool

namespace WindowInputExpression

/-- The accessor `GetCell<T>(i)`. -/
def GetCell (e : WindowInputExpression) (i : Nat) : Int := e.data (if e.scalar then 0 else i)

/-- The test `CellIsNull(i)`. -/
def CellIsNull (e : WindowInputExpression) (i : Nat) : Bool :=
  if e.is_constant_vector then e.is_null 0 else e.is_null i

/-- The method `CopyCell(target, target_offset)`: the cell written to the target (`none` is NULL). -/
def CopyCell (e : WindowInputExpression) (target_offset : Nat) : Option Int :=
  let source_offset := if e.scalar then 0 else target_offset
  if e.is_null source_offset then none else some (e.data source_offset)

/-- A scalar, constant expression of value `v`. -/
def const (v : Int) : WindowInputExpression := ⟨true, true, fun _ => v, fun _ => false⟩

/-- A scalar, constant NULL. -/
def null : WindowInputExpression := ⟨true, true, fun _ => 0, fun _ => true⟩

/-- A flat, per-row expression read from a list of cells. -/
def ofList (cells : List (Option Int)) : WindowInputExpression :=
  ⟨false, false, fun i => (cells.getD i none).getD 0, fun i => (cells.getD i none).isNone⟩

end WindowInputExpression

/-- The materialised ordering column of a `WindowInputColumn` after all batches were
appended: its physical type, whether the expression is scalar, the values and NULL flags of
`target`. -/
structure WindowInputColumn where
  ptype : PhysicalType
  scalar : Bool
  data : Nat → Int
  is_null : Nat → Bool

namespace WindowInputColumn

/-- The test `CellIsNull(i)`. -/
def CellIsNull (c : WindowInputColumn) (i : Nat) : Bool := c.is_null (if c.scalar then 0 else i)

/-- The accessor `GetCell<T>(i)`. -/
def GetCell (c : WindowInputColumn) (i : Nat) : Int := c.data (if c.scalar then 0 else i)

/-- A flat 64-bit integer column read from a list of cells. -/
def ofList (cells : List (Option Int)) : WindowInputColumn :=
  ⟨.INT64, false, fun i => (cells.getD i none).getD 0, fun i => (cells.getD i none).isNone⟩

/-- The column of a window without RANGE expression bounds (never read). -/
def empty : WindowInputColumn := ⟨.OTHER, true, fun _ => 0, fun _ => false⟩

end WindowInputColumn

/-- The loop of `std::lower_bound(first, last, val, comp)` on column positions: `count` is
the signed distance `last - first`, halved at every step. -/
def lower_bound_loop (over : WindowInputColumn) (comp : Int → Int → Bool) (val : Int) :
    Nat → Nat → Nat → Nat
  | 0, first, _ => first
  | fuel + 1, first, count =>
    if 0 < count then
      let step := count / 2
      let it := first + step
      if comp (over.GetCell it) val then
        lower_bound_loop over comp val fuel (it + 1) (count - (step + 1))
      else
        lower_bound_loop over comp val fuel first step
    else first

/-- The loop of `std::upper_bound(first, last, val, comp)` on column positions. -/
def upper_bound_loop (over : WindowInputColumn) (comp : Int → Int → Bool) (val : Int) :
    Nat → Nat → Nat → Nat
  | 0, first, _ => first
  | fuel + 1, first, count =>
    if 0 < count then
      let step := count / 2
      let it := first + step
      if !comp val (over.GetCell it) then
        upper_bound_loop over comp val fuel (it + 1) (count - (step + 1))
      else
        upper_bound_loop over comp val fuel first step
    else first

/-- The call `std::lower_bound` over `WindowColumnIterator`s at positions `first` and `last`; a
distance that is not positive leaves `first`. -/
def lower_bound (over : WindowInputColumn) (first last : Nat) (val : Int)
    (comp : Int → Int → Bool) : Nat :=
  lower_bound_loop over comp val (last - first) first (last - first)

/-- The call `std::upper_bound` over `WindowColumnIterator`s at positions `first` and `last`. -/
def upper_bound (over : WindowInputColumn) (first last : Nat) (val : Int)
    (comp : Int → Int → Bool) : Nat :=
  upper_bound_loop over comp val (last - first) first (last - first)

/-- The function `FindTypedRangeBound<T, OP, FROM>`: `comp` is the comparison `OP`, `FROM` selects the
lower bound, `prev` is the pair of range hints. -/
def FindTypedRangeBound (comp : Int → Int → Bool) (FROM : Bool) (over : WindowInputColumn)
    (order_begin order_end : Nat) (boundary : WindowInputExpression) (chunk_idx : Nat)
    (prev : Nat × Nat) : Nat :=
  let val := boundary.GetCell chunk_idx
  let first :=
    if order_begin < prev.1 ∧ prev.1 < order_end ∧ ¬ comp val (over.GetCell prev.1) = true then
      order_begin + (prev.1 - order_begin)
    else order_begin
  let last :=
    if order_begin ≤ prev.2 ∧ prev.2 < order_end ∧ ¬ comp (over.GetCell prev.2) val = true then
      order_end - (order_end - prev.2 - 1)
    else order_end
  if FROM then lower_bound over first last val comp else upper_bound over first last val comp

/-- The function `FindRangeBound<OP, FROM>`: the dispatch on the physical type of the ordering column. -/
def FindRangeBound (comp : Int → Int → Bool) (FROM : Bool) (over : WindowInputColumn)
    (order_begin order_end : Nat) (boundary : WindowInputExpression) (chunk_idx : Nat)
    (prev : Nat × Nat) : Except WindowError Nat :=
  match over.ptype with
  | .OTHER => .error .UnsupportedRangeType
  | _ => .ok (FindTypedRangeBound comp FROM over order_begin order_end boundary chunk_idx prev)

/-- The function `FindOrderedRangeBound<FROM>`: the dispatch on the sort sense. -/
def FindOrderedRangeBound (FROM : Bool) (over : WindowInputColumn) (range_sense : OrderType)
    (order_begin order_end : Nat) (boundary : WindowInputExpression) (chunk_idx : Nat)
    (prev : Nat × Nat) : Except WindowError Nat :=
  match range_sense with
  | .ASCENDING =>
    FindRangeBound (fun a b => decide (a < b)) FROM over order_begin order_end boundary chunk_idx prev
  | .DESCENDING =>
    FindRangeBound (fun a b => decide (a > b)) FROM over order_begin order_end boundary chunk_idx prev
  | .INVALID => .error .UnsupportedRangeSense

/-- Modelled from the spec: `TrySubtractOperator::Operation` on `int64_t` (checked
subtraction, declared outside the sources at hand); `none` reports an overflow. -/
def TrySubtractOperator (left right : Int) : Option Int :=
  if -(2 ^ 63) ≤ left - right ∧ left - right < 2 ^ 63 then some (left - right) else none

/-- Modelled from the spec: `TryAddOperator::Operation` on `int64_t` (checked addition,
declared outside the sources at hand); `none` reports an overflow. -/
def TryAddOperator (left right : Int) : Option Int :=
  if -(2 ^ 63) ≤ left + right ∧ left + right < 2 ^ 63 then some (left + right) else none

/-! ## Frame boundaries -/

/-- The fields of a `BoundWindowExpression` that the operator reads: the function kind, the
two frame boundary kinds, the number of PARTITION BY keys, the sort senses of the ORDER BY
keys, and which optional expressions are present. -/
structure BoundWindowExpression where
  type : ExpressionType
  start : WindowBoundary
  end_boundary : WindowBoundary
  partitions : Nat
  orders : List OrderType
  has_offset_expr : Bool
  has_default_expr : Bool
  ignore_nulls : Bool
deriving DecidableEq, Repr

/-- The helper `BoundaryNeedsPeer`. -/
def BoundaryNeedsPeer (boundary : WindowBoundary) : Bool :=
  match boundary with
  | .CURRENT_ROW_RANGE => true
  | .EXPR_PRECEDING_RANGE => true
  | .EXPR_FOLLOWING_RANGE => true
  | _ => false

/-- The struct `WindowBoundariesState`: the cached lookups and the running indices. -/
structure WindowBoundariesState where
  type : ExpressionType
  input_size : Nat
  start_boundary : WindowBoundary
  end_boundary : WindowBoundary
  partition_count : Nat
  order_count : Nat
  range_sense : OrderType
  has_preceding_range : Bool
  has_following_range : Bool
  needs_peer : Bool
  partition_start : Nat
  partition_end : Nat
  peer_start : Nat
  peer_end : Nat
  valid_start : Nat
  valid_end : Nat
  window_start : Int
  window_end : Int
  prev : Nat × Nat
deriving DecidableEq, Repr

namespace WindowBoundariesState

/-- The constructor `WindowBoundariesState(wexpr, input_size)` with the default member
initialisers. -/
def new (wexpr : BoundWindowExpression) (input_size : Nat) : WindowBoundariesState where
  type := wexpr.type
  input_size := input_size
  start_boundary := wexpr.start
  end_boundary := wexpr.end_boundary
  partition_count := wexpr.partitions
  order_count := wexpr.orders.length
  range_sense := wexpr.orders.headD .INVALID
  has_preceding_range :=
    wexpr.start == .EXPR_PRECEDING_RANGE || wexpr.end_boundary == .EXPR_PRECEDING_RANGE
  has_following_range :=
    wexpr.start == .EXPR_FOLLOWING_RANGE || wexpr.end_boundary == .EXPR_FOLLOWING_RANGE
  needs_peer := BoundaryNeedsPeer wexpr.end_boundary || wexpr.type == .WINDOW_CUME_DIST
  partition_start := 0
  partition_end := 0
  peer_start := 0
  peer_end := 0
  valid_start := 0
  valid_end := 0
  window_start := -1
  window_end := -1
  prev := (0, 0)

/-- First part of `Update` (partition and peer group boundaries): the body of
`if (!is_same_partition)`, which starts a new partition at `row_idx`. -/
def NewPartition (s : WindowBoundariesState) (row_idx : Nat)
    (range_collection : WindowInputColumn) (partition_mask order_mask : ValidityMask) :
    WindowBoundariesState :=
  let partition_start := row_idx
  let peer_start := row_idx
  let partition_end :=
    if s.partition_count ≠ 0 then
      (FindNextStart partition_mask (partition_start + 1) s.input_size 1).1
    else s.input_size
  let valid_start0 := partition_start
  let valid_end0 := partition_end
  let valid_start :=
    if valid_start0 < valid_end0 ∧ s.has_preceding_range = true ∧
        range_collection.CellIsNull valid_start0 = true then
      (FindNextStart order_mask (valid_start0 + 1) valid_end0 1).1
    else valid_start0
  if valid_start < valid_end0 ∧ s.has_following_range = true then
    let valid_end :=
      if range_collection.CellIsNull (valid_end0 - 1) then
        (FindPrevStart order_mask valid_start valid_end0 1).1
      else valid_end0
    { s with partition_start := partition_start, peer_start := peer_start,
             partition_end := partition_end, valid_start := valid_start,
             valid_end := valid_end, prev := (valid_start, valid_end) }
  else
    { s with partition_start := partition_start, peer_start := peer_start,
             partition_end := partition_end, valid_start := valid_start,
             valid_end := valid_end0 }

/-- First part of `Update`: the statement `if (partition_count + order_count > 0) ... else ...`
that determines partition and peer group boundaries. -/
def UpdatePartition (s : WindowBoundariesState) (row_idx : Nat)
    (range_collection : WindowInputColumn) (partition_mask order_mask : ValidityMask) :
    WindowBoundariesState :=
  if s.partition_count + s.order_count > 0 then
    let is_same_partition := !partition_mask.RowIsValidUnsafe row_idx
    let is_peer := !order_mask.RowIsValidUnsafe row_idx
    let s1 :=
      if !is_same_partition then
        s.NewPartition row_idx range_collection partition_mask order_mask
      else if !is_peer then { s with peer_start := row_idx }
      else s
    if s1.needs_peer then
      { s1 with peer_end :=
          if s1.order_count ≠ 0 then
            (FindNextStart order_mask (s1.peer_start + 1) s1.partition_end 1).1
          else s1.partition_end }
    else s1
  else
    { s with partition_end := s.input_size, peer_end := s.input_size }

/-- Second part of `Update`: `switch (start_boundary)`. -/
def UpdateStart (s : WindowBoundariesState) (row_idx : Nat)
    (range_collection : WindowInputColumn) (chunk_idx : Nat)
    (boundary_start : WindowInputExpression) : Except WindowError WindowBoundariesState :=
  match s.start_boundary with
  | .UNBOUNDED_PRECEDING => .ok { s with window_start := s.partition_start }
  | .CURRENT_ROW_ROWS => .ok { s with window_start := row_idx }
  | .CURRENT_ROW_RANGE => .ok { s with window_start := s.peer_start }
  | .EXPR_PRECEDING_ROWS =>
    match TrySubtractOperator row_idx (boundary_start.GetCell chunk_idx) with
    | some w => .ok { s with window_start := w }
    | none => .error .OverflowRowsPrecedingStart
  | .EXPR_FOLLOWING_ROWS =>
    match TryAddOperator row_idx (boundary_start.GetCell chunk_idx) with
    | some w => .ok { s with window_start := w }
    | none => .error .OverflowRowsFollowingStart
  | .EXPR_PRECEDING_RANGE =>
    if boundary_start.CellIsNull chunk_idx then .ok { s with window_start := s.peer_start }
    else
      match FindOrderedRangeBound true range_collection s.range_sense s.valid_start row_idx
          boundary_start chunk_idx s.prev with
      | .ok b => .ok { s with prev := (b, s.prev.2), window_start := b }
      | .error e => .error e
  | .EXPR_FOLLOWING_RANGE =>
    if boundary_start.CellIsNull chunk_idx then .ok { s with window_start := s.peer_start }
    else
      match FindOrderedRangeBound true range_collection s.range_sense row_idx s.valid_end
          boundary_start chunk_idx s.prev with
      | .ok b => .ok { s with prev := (b, s.prev.2), window_start := b }
      | .error e => .error e
  | _ => .error .UnsupportedStartBoundary

/-- Third part of `Update`: `switch (end_boundary)`. -/
def UpdateEnd (s : WindowBoundariesState) (row_idx : Nat)
    (range_collection : WindowInputColumn) (chunk_idx : Nat)
    (boundary_end : WindowInputExpression) : Except WindowError WindowBoundariesState :=
  match s.end_boundary with
  | .CURRENT_ROW_ROWS => .ok { s with window_end := row_idx + 1 }
  | .CURRENT_ROW_RANGE => .ok { s with window_end := s.peer_end }
  | .UNBOUNDED_FOLLOWING => .ok { s with window_end := s.partition_end }
  | .EXPR_PRECEDING_ROWS =>
    match TrySubtractOperator (row_idx + 1) (boundary_end.GetCell chunk_idx) with
    | some w => .ok { s with window_end := w }
    | none => .error .OverflowRowsPrecedingEnd
  | .EXPR_FOLLOWING_ROWS =>
    match TryAddOperator (row_idx + 1) (boundary_end.GetCell chunk_idx) with
    | some w => .ok { s with window_end := w }
    | none => .error .OverflowRowsFollowingEnd
  | .EXPR_PRECEDING_RANGE =>
    if boundary_end.CellIsNull chunk_idx then .ok { s with window_end := s.peer_end }
    else
      match FindOrderedRangeBound false range_collection s.range_sense s.valid_start row_idx
          boundary_end chunk_idx s.prev with
      | .ok b => .ok { s with prev := (s.prev.1, b), window_end := b }
      | .error e => .error e
  | .EXPR_FOLLOWING_RANGE =>
    if boundary_end.CellIsNull chunk_idx then .ok { s with window_end := s.peer_end }
    else
      match FindOrderedRangeBound false range_collection s.range_sense row_idx s.valid_end
          boundary_end chunk_idx s.prev with
      | .ok b => .ok { s with prev := (s.prev.1, b), window_end := b }
      | .error e => .error e
  | _ => .error .UnsupportedEndBoundary

/-- Last part of `Update`: the four clamping statements and the final check. -/
def UpdateClamp (s : WindowBoundariesState) : Except WindowError WindowBoundariesState :=
  let ws1 := if s.window_start < (s.partition_start : Int) then (s.partition_start : Int)
             else s.window_start
  let ws2 := if ws1 > (s.partition_end : Int) then (s.partition_end : Int) else ws1
  let we1 := if s.window_end < (s.partition_start : Int) then (s.partition_start : Int)
             else s.window_end
  let we2 := if we1 > (s.partition_end : Int) then (s.partition_end : Int) else we1
  if ws2 < 0 ∨ we2 < 0 then .error .FailedToComputeBoundaries
  else .ok { s with window_start := ws2, window_end := we2 }

/-- The method `WindowBoundariesState::Update`: the state after the call, or the error it
throws. -/
def Update (s : WindowBoundariesState) (row_idx : Nat) (range_collection : WindowInputColumn)
    (chunk_idx : Nat) (boundary_start boundary_end : WindowInputExpression)
    (partition_mask order_mask : ValidityMask) : Except WindowError WindowBoundariesState :=
  match (s.UpdatePartition row_idx range_collection partition_mask order_mask).UpdateStart
      row_idx range_collection chunk_idx boundary_start with
  | .error e => .error e
  | .ok s2 =>
    match s2.UpdateEnd row_idx range_collection chunk_idx boundary_end with
    | .error e => .error e
    | .ok s3 => s3.UpdateClamp

end WindowBoundariesState

/-- The array `a` after the store `a[i] = v`. -/
def store {α : Type} (a : Nat → α) (i : Nat) (v : α) : Nat → α :=
  fun j => if j = i then v else a j

/-- The six-column `bounds` chunk: the data arrays of its columns, indexed by the position
in the batch. The two frame columns are written as `int64_t`. -/
structure BoundsChunk where
  partition_begin : Nat → Nat
  partition_end : Nat → Nat
  peer_begin : Nat → Nat
  peer_end : Nat → Nat
  window_begin : Nat → Int
  window_end : Nat → Int

/-- A `bounds` chunk whose six arrays hold the value `v` everywhere. -/
def BoundsChunk.fill (v : Nat) : BoundsChunk :=
  ⟨fun _ => v, fun _ => v, fun _ => v, fun _ => v, fun _ => v, fun _ => v⟩

/-- An `int64_t` frame index read back through an `idx_t` pointer. -/
def asIdx (v : Int) : Nat := (v % 2 ^ 64).toNat

namespace WindowBoundariesState

/-- The loop of `Bounds`: `for (chunk_idx = 0; chunk_idx < count; ++chunk_idx, ++row_idx)`;
the first argument counts the iterations that remain. -/
def BoundsLoop (range : WindowInputColumn) (boundary_start boundary_end : WindowInputExpression)
    (partition_mask order_mask : ValidityMask) :
    Nat → Nat → Nat → WindowBoundariesState → BoundsChunk →
      Except WindowError (WindowBoundariesState × BoundsChunk)
  | 0, _, _, s, bounds => .ok (s, bounds)
  | k + 1, chunk_idx, row_idx, s, bounds =>
    match s.Update row_idx range chunk_idx boundary_start boundary_end partition_mask
        order_mask with
    | .error e => .error e
    | .ok s1 =>
      let b1 : BoundsChunk :=
        { bounds with
          partition_begin := store bounds.partition_begin chunk_idx s1.partition_start,
          partition_end := store bounds.partition_end chunk_idx s1.partition_end }
      let b2 : BoundsChunk :=
        if s1.needs_peer then
          { b1 with peer_begin := store b1.peer_begin chunk_idx s1.peer_start,
                    peer_end := store b1.peer_end chunk_idx s1.peer_end }
        else b1
      let b3 : BoundsChunk :=
        { b2 with window_begin := store b2.window_begin chunk_idx s1.window_start,
                  window_end := store b2.window_end chunk_idx s1.window_end }
      BoundsLoop range boundary_start boundary_end partition_mask order_mask k
        (chunk_idx + 1) (row_idx + 1) s1 b3

/-- The method `WindowBoundariesState::Bounds`: it fills the first `count` positions of the
`bounds` chunk for the rows `row_idx, row_idx + 1, ...` and leaves the other cells as they
were (`Reset` keeps the buffers). -/
def Bounds (s : WindowBoundariesState) (bounds : BoundsChunk) (row_idx : Nat)
    (range : WindowInputColumn) (count : Nat)
    (boundary_start boundary_end : WindowInputExpression)
    (partition_mask order_mask : ValidityMask) :
    Except WindowError (WindowBoundariesState × BoundsChunk) :=
  BoundsLoop range boundary_start boundary_end partition_mask order_mask count 0 row_idx s
    bounds

end WindowBoundariesState

/-! ## Arithmetic in `double` -/

/-- The integer nearest to a rational, and the even one of the two nearest integers when the
rational lies halfway between them. -/
def roundHalfEven (q : Rat) : Int :=
  if q - ⌊q⌋ < 1 / 2 then ⌊q⌋
  else if 1 / 2 < q - ⌊q⌋ then ⌊q⌋ + 1
  else if ⌊q⌋ % 2 = 0 then ⌊q⌋ else ⌊q⌋ + 1

/-- The value of a conversion to `double` or of an operation on `double` values whose exact
result is `q`: the number with a significand of 53 bits that is nearest to `q`, ties going
to the even significand (IEEE 754 binary64, rounding to nearest). For `2^e ≤ |q| < 2^(e+1)`
the significand is `|q| / 2^(e - 52)` rounded to an integer. The exponent range of binary64
is not modelled: the values rounded by the window functions are integers below `2^64` and
quotients of such integers, which lie inside it. -/
def roundDouble (q : Rat) : Rat :=
  if q = 0 then 0
  else
    let e : Int := Int.log 2 |q| - 52
    (if q < 0 then -1 else 1) * (roundHalfEven (|q| / 2 ^ e) : Rat) * 2 ^ e

/-! ## The window executor -/

/-- The members of a `WindowExecutor` that evaluation reads or writes. The expression
chunks (`leadlag_offset`, `leadlag_default`, `boundary_start`, `boundary_end`) hold the
values of the current batch; `payload_collection col row` is a cell of the materialised
payload (`none` is NULL). Modelled from the spec: `aggregate_state b e` is the value that
the aggregator (declared outside the sources at hand) evaluates on the frame `[b, e)`. -/
structure WindowExecutor where
  wexpr : BoundWindowExpression
  state : WindowBoundariesState
  bounds : BoundsChunk
  dense_rank : Nat
  rank_equal : Nat
  rank : Nat
  payload_collection : Nat → Nat → Option Int
  leadlag_offset : WindowInputExpression
  leadlag_default : WindowInputExpression
  boundary_start : WindowInputExpression
  boundary_end : WindowInputExpression
  range : WindowInputColumn
  ignore_nulls : ValidityMask
  aggregate_state : Nat → Nat → Option Int

/-- The value of an `int64_t` computation: reduction to the two's complement range. -/
def wrap64 (x : Int) : Int := (x + 2 ^ 63) % 2 ^ 64 - 2 ^ 63

namespace WindowExecutor

/-- The method `NextRank(partition_begin, peer_begin, row_idx)`. -/
def NextRank (ex : WindowExecutor) (partition_begin peer_begin row_idx : Nat) : WindowExecutor :=
  let ex1 :=
    if partition_begin = row_idx then
      { ex with dense_rank := 1, rank := 1, rank_equal := 0 }
    else if peer_begin = row_idx then
      { ex with dense_rank := ex.dense_rank + 1, rank := ex.rank + ex.rank_equal, rank_equal := 0 }
    else ex
  { ex1 with rank_equal := ex1.rank_equal + 1 }

/-- The loop of `RowNumber`: `rdata[i] = row_idx - partition_begin[i] + 1`; the first
argument counts the iterations that remain. -/
def RowNumberLoop (bounds : BoundsChunk) : Nat → Nat → Nat → List (Option Int)
  | 0, _, _ => []
  | k + 1, i, row_idx =>
    some ((row_idx : Int) - (bounds.partition_begin i : Int) + 1) ::
      RowNumberLoop bounds k (i + 1) (row_idx + 1)

/-- The method `RowNumber(bounds, result, count, row_idx)`: the first `count` cells of the
result. -/
def RowNumber (_ex : WindowExecutor) (bounds : BoundsChunk) (count row_idx : Nat) :
    List (Option Int) :=
  RowNumberLoop bounds count 0 row_idx

/-- The loop of `Rank`: `NextRank(...); rdata[i] = rank`. -/
def RankLoop (bounds : BoundsChunk) :
    Nat → Nat → Nat → WindowExecutor → WindowExecutor × List (Option Int)
  | 0, _, _, ex => (ex, [])
  | k + 1, i, row_idx, ex =>
    let ex1 := ex.NextRank (bounds.partition_begin i) (bounds.peer_begin i) row_idx
    let rest := RankLoop bounds k (i + 1) (row_idx + 1) ex1
    (rest.1, some (ex1.rank : Int) :: rest.2)

/-- The method `Rank(bounds, result, count, row_idx)`. -/
def Rank (ex : WindowExecutor) (bounds : BoundsChunk) (count row_idx : Nat) :
    WindowExecutor × List (Option Int) :=
  RankLoop bounds count 0 row_idx ex

/-- The loop of `DenseRank`: `NextRank(...); rdata[i] = dense_rank`. -/
def DenseRankLoop (bounds : BoundsChunk) :
    Nat → Nat → Nat → WindowExecutor → WindowExecutor × List (Option Int)
  | 0, _, _, ex => (ex, [])
  | k + 1, i, row_idx, ex =>
    let ex1 := ex.NextRank (bounds.partition_begin i) (bounds.peer_begin i) row_idx
    let rest := DenseRankLoop bounds k (i + 1) (row_idx + 1) ex1
    (rest.1, some (ex1.dense_rank : Int) :: rest.2)

/-- The method `DenseRank(bounds, result, count, row_idx)`. -/
def DenseRank (ex : WindowExecutor) (bounds : BoundsChunk) (count row_idx : Nat) :
    WindowExecutor × List (Option Int) :=
  DenseRankLoop bounds count 0 row_idx ex

/-- The local variables of one iteration of `Ntile` for a non-NULL argument. -/
structure NtileLocals where
  n_total : Int
  n_param : Int
  n_size : Int
  adjusted_row_idx : Int
  n_large : Int
  i_small : Int
  result_ntile : Int
deriving DecidableEq, Repr

/-- The body of `Ntile` after the argument check, for the argument `n_param0` read at
`row_idx`; `/` on `int64_t` truncates (`Int.tdiv`). -/
def NtileCompute (n_param0 : Int) (partition_begin partition_end row_idx : Nat) : NtileLocals :=
  let n_total : Int := (partition_end : Int) - (partition_begin : Int)
  let n_param : Int := if n_param0 > n_total then n_total else n_param0
  let n_size : Int := n_total.tdiv n_param
  let adjusted_row_idx : Int := (row_idx : Int) - (partition_begin : Int)
  let n_large : Int := n_total - n_param * n_size
  let i_small : Int := n_large * (n_size + 1)
  let result_ntile : Int :=
    if adjusted_row_idx < i_small then 1 + adjusted_row_idx.tdiv (n_size + 1)
    else 1 + n_large + (adjusted_row_idx - i_small).tdiv n_size
  ⟨n_total, n_param, n_size, adjusted_row_idx, n_large, i_small, result_ntile⟩

/-- The first assertion of `Ntile`:
`D_ASSERT((n_large * (n_size + 1) + (n_param - n_large) * n_size) == n_total)`. -/
def NtileLocals.AssertTotal (v : NtileLocals) : Prop :=
  v.n_large * (v.n_size + 1) + (v.n_param - v.n_large) * v.n_size = v.n_total

/-- The second assertion of `Ntile`:
`D_ASSERT(result_ntile >= 1 && result_ntile <= n_param)`. -/
def NtileLocals.AssertResult (v : NtileLocals) : Prop :=
  v.result_ntile ≥ 1 ∧ v.result_ntile ≤ v.n_param

/-- The divisors that one iteration of `Ntile` uses are nonzero: `n_param` for `n_size`,
and the divisor of the branch taken for `result_ntile`. -/
def NtileLocals.DivisorsNonzero (v : NtileLocals) : Prop :=
  v.n_param ≠ 0 ∧ (if v.adjusted_row_idx < v.i_small then v.n_size + 1 ≠ 0 else v.n_size ≠ 0)

instance (v : NtileLocals) : Decidable v.AssertTotal := by
  unfold NtileLocals.AssertTotal; infer_instance

instance (v : NtileLocals) : Decidable v.AssertResult := by
  unfold NtileLocals.AssertResult; infer_instance

instance (v : NtileLocals) : Decidable v.DivisorsNonzero := by
  unfold NtileLocals.DivisorsNonzero; infer_instance

/-- One iteration of the loop of `Ntile` at batch position `i`, row `row_idx`: the cell
written to the result, or the error thrown. -/
def NtileRow (ex : WindowExecutor) (bounds : BoundsChunk) (i row_idx : Nat) :
    Except WindowError (Option Int) :=
  match ex.payload_collection 0 row_idx with
  | none => .ok none
  | some n_param =>
    if n_param < 1 then .error .NtileArgument
    else
      let v := NtileCompute n_param (bounds.partition_begin i) (bounds.partition_end i) row_idx
      if v.DivisorsNonzero then .ok (some v.result_ntile) else .error .DivisionByZero

/-- The loop of `Ntile`. -/
def NtileLoop (ex : WindowExecutor) (bounds : BoundsChunk) :
    Nat → Nat → Nat → Except WindowError (List (Option Int))
  | 0, _, _ => .ok []
  | k + 1, i, row_idx =>
    match ex.NtileRow bounds i row_idx with
    | .error e => .error e
    | .ok v =>
      match NtileLoop ex bounds k (i + 1) (row_idx + 1) with
      | .error e => .error e
      | .ok vs => .ok (v :: vs)

/-- The method `Ntile(bounds, result, count, row_idx)`. -/
def Ntile (ex : WindowExecutor) (bounds : BoundsChunk) (count row_idx : Nat) :
    Except WindowError (List (Option Int)) :=
  NtileLoop ex bounds count 0 row_idx

/-- The target search of one iteration of `LeadLag`: the final `val_idx` and `delta`. -/
def LeadLagTarget (ex : WindowExecutor) (bounds : BoundsChunk) (i row_idx : Nat) : Int × Nat :=
  let offset : Int := if ex.wexpr.has_offset_expr then ex.leadlag_offset.GetCell i else 1
  let val_idx : Int :=
    if ex.wexpr.type = .WINDOW_LEAD then wrap64 ((row_idx : Int) + offset)
    else wrap64 ((row_idx : Int) - offset)
  if val_idx < (row_idx : Int) then
    let delta := asIdx ((row_idx : Int) - val_idx)
    let found := FindPrevStart ex.ignore_nulls (bounds.partition_begin i) row_idx delta
    ((found.1 : Int), found.2)
  else if val_idx > (row_idx : Int) then
    let delta := asIdx (val_idx - (row_idx : Int))
    let found := FindNextStart ex.ignore_nulls (row_idx + 1) (bounds.partition_end i) delta
    ((found.1 : Int), found.2)
  else (val_idx, 0)

/-- One iteration of the loop of `LeadLag`: the cell written to `result[i]`. -/
def LeadLagRow (ex : WindowExecutor) (bounds : BoundsChunk) (i row_idx : Nat) : Option Int :=
  let target := ex.LeadLagTarget bounds i row_idx
  if target.2 = 0 then ex.payload_collection 0 (asIdx target.1)
  else if ex.wexpr.has_default_expr then ex.leadlag_default.CopyCell i
  else none

/-- The loop of `LeadLag`. -/
def LeadLagLoop (ex : WindowExecutor) (bounds : BoundsChunk) : Nat → Nat → Nat → List (Option Int)
  | 0, _, _ => []
  | k + 1, i, row_idx => ex.LeadLagRow bounds i row_idx :: LeadLagLoop ex bounds k (i + 1) (row_idx + 1)

/-- The method `LeadLag(bounds, result, count, row_idx)`. -/
def LeadLag (ex : WindowExecutor) (bounds : BoundsChunk) (count row_idx : Nat) :
    List (Option Int) :=
  LeadLagLoop ex bounds count 0 row_idx

/-- The method `Aggregate(bounds, result, count, row_idx)`: the aggregator evaluated on the
frame of every position of the batch. -/
def Aggregate (ex : WindowExecutor) (bounds : BoundsChunk) (count _row_idx : Nat) :
    List (Option Int) :=
  (List.range count).map
    (fun i => ex.aggregate_state (asIdx (bounds.window_begin i)) (asIdx (bounds.window_end i)))

/-- The loop of `PercentRank`. `int64_t denom = partition_end[i] - partition_begin[i] - 1`
is an `idx_t` difference converted to `int64_t` (`wrap64`). A `double` is the rational it
denotes; `((double)rank - 1) / denom` converts `rank` and `denom` to `double`, subtracts and
divides, each step rounding (`roundDouble`). -/
def PercentRankLoop (bounds : BoundsChunk) :
    Nat → Nat → Nat → WindowExecutor → WindowExecutor × List (Option Rat)
  | 0, _, _, ex => (ex, [])
  | k + 1, i, row_idx, ex =>
    let ex1 := ex.NextRank (bounds.partition_begin i) (bounds.peer_begin i) row_idx
    let denom : Int :=
      wrap64 ((bounds.partition_end i : Int) - (bounds.partition_begin i : Int) - 1)
    let percent_rank : Rat :=
      if denom > 0 then
        roundDouble (roundDouble (roundDouble (ex1.rank : Rat) - 1) / roundDouble (denom : Rat))
      else 0
    let rest := PercentRankLoop bounds k (i + 1) (row_idx + 1) ex1
    (rest.1, some percent_rank :: rest.2)

/-- The method `PercentRank(bounds, result, count, row_idx)`. -/
def PercentRank (ex : WindowExecutor) (bounds : BoundsChunk) (count row_idx : Nat) :
    WindowExecutor × List (Option Rat) :=
  PercentRankLoop bounds count 0 row_idx ex

/-- The loop of `CumeDist`. `int64_t denom = partition_end[i] - partition_begin[i]` is an
`idx_t` difference converted to `int64_t` (`wrap64`). A `double` is the rational it denotes;
`((double)(peer_end[i] - partition_begin[i])) / denom` converts the `idx_t` difference and
`denom` to `double` and divides, each step rounding (`roundDouble`). -/
def CumeDistLoop (bounds : BoundsChunk) :
    Nat → Nat → Nat → WindowExecutor → WindowExecutor × List (Option Rat)
  | 0, _, _, ex => (ex, [])
  | k + 1, i, row_idx, ex =>
    let ex1 := ex.NextRank (bounds.partition_begin i) (bounds.peer_begin i) row_idx
    let denom : Int :=
      wrap64 ((bounds.partition_end i : Int) - (bounds.partition_begin i : Int))
    let cume_dist : Rat :=
      if denom > 0 then
        roundDouble
          (roundDouble
              ((asIdx ((bounds.peer_end i : Int) - (bounds.partition_begin i : Int)) : Nat) :
                Rat) /
            roundDouble (denom : Rat))
      else 0
    let rest := CumeDistLoop bounds k (i + 1) (row_idx + 1) ex1
    (rest.1, some cume_dist :: rest.2)

/-- The method `CumeDist(bounds, result, count, row_idx)`. -/
def CumeDist (ex : WindowExecutor) (bounds : BoundsChunk) (count row_idx : Nat) :
    WindowExecutor × List (Option Rat) :=
  CumeDistLoop bounds count 0 row_idx ex

/-- One iteration of the loop of `FirstValue`. -/
def FirstValueRow (ex : WindowExecutor) (bounds : BoundsChunk) (i : Nat) : Option Int :=
  let window_begin := asIdx (bounds.window_begin i)
  let window_end := asIdx (bounds.window_end i)
  if window_begin ≥ window_end then none
  else
    let found := FindNextStart ex.ignore_nulls window_begin window_end 1
    if found.2 = 0 then ex.payload_collection 0 found.1 else none

/-- The method `FirstValue(bounds, result, count, row_idx)`. -/
def FirstValue (ex : WindowExecutor) (bounds : BoundsChunk) (count _row_idx : Nat) :
    List (Option Int) :=
  (List.range count).map (fun i => ex.FirstValueRow bounds i)

/-- One iteration of the loop of `LastValue`. -/
def LastValueRow (ex : WindowExecutor) (bounds : BoundsChunk) (i : Nat) : Option Int :=
  let window_begin := asIdx (bounds.window_begin i)
  let window_end := asIdx (bounds.window_end i)
  if window_begin ≥ window_end then none
  else
    let found := FindPrevStart ex.ignore_nulls window_begin window_end 1
    if found.2 = 0 then ex.payload_collection 0 found.1 else none

/-- The method `LastValue(bounds, result, count, row_idx)`. -/
def LastValue (ex : WindowExecutor) (bounds : BoundsChunk) (count _row_idx : Nat) :
    List (Option Int) :=
  (List.range count).map (fun i => ex.LastValueRow bounds i)

/-- One iteration of the loop of `NthValue` at batch position `i`, row `row_idx`. -/
def NthValueRow (ex : WindowExecutor) (bounds : BoundsChunk) (i row_idx : Nat) : Option Int :=
  let window_begin := asIdx (bounds.window_begin i)
  let window_end := asIdx (bounds.window_end i)
  if window_begin ≥ window_end then none
  else
    match ex.payload_collection 1 row_idx with
    | none => none
    | some n_param =>
      if n_param < 1 then none
      else
        let found := FindNextStart ex.ignore_nulls window_begin window_end (asIdx n_param)
        if found.2 = 0 then ex.payload_collection 0 found.1 else none

/-- The method `NthValue(bounds, result, count, row_idx)`. -/
def NthValue (ex : WindowExecutor) (bounds : BoundsChunk) (count row_idx : Nat) :
    List (Option Int) :=
  (List.range count).map (fun i => ex.NthValueRow bounds i (row_idx + i))

/-- A result vector: 64-bit integer (or payload) cells, or `double` cells, each the rational
that the `double` denotes. -/
inductive ResultVector where
  | bigint (cells : List (Option Int))
  | double (cells : List (Option Rat))
deriving DecidableEq

/-- The method `Evaluate(row_idx, input_chunk, result, partition_mask, order_mask)` for a
batch of `count` rows whose expression chunks are those held by the executor: the executor
after the call and the first `count` cells of the result, or the error thrown. -/
def Evaluate (ex : WindowExecutor) (row_idx count : Nat)
    (partition_mask order_mask : ValidityMask) :
    Except WindowError (WindowExecutor × ResultVector) :=
  match ex.state.Bounds ex.bounds row_idx ex.range count ex.boundary_start ex.boundary_end
      partition_mask order_mask with
  | .error e => .error e
  | .ok sb =>
    let ex1 : WindowExecutor := { ex with state := sb.1, bounds := sb.2 }
    match ex1.wexpr.type with
    | .WINDOW_AGGREGATE => .ok (ex1, .bigint (ex1.Aggregate ex1.bounds count row_idx))
    | .WINDOW_ROW_NUMBER => .ok (ex1, .bigint (ex1.RowNumber ex1.bounds count row_idx))
    | .WINDOW_RANK_DENSE =>
      let r := ex1.DenseRank ex1.bounds count row_idx
      .ok (r.1, .bigint r.2)
    | .WINDOW_RANK =>
      let r := ex1.Rank ex1.bounds count row_idx
      .ok (r.1, .bigint r.2)
    | .WINDOW_PERCENT_RANK =>
      let r := ex1.PercentRank ex1.bounds count row_idx
      .ok (r.1, .double r.2)
    | .WINDOW_CUME_DIST =>
      let r := ex1.CumeDist ex1.bounds count row_idx
      .ok (r.1, .double r.2)
    | .WINDOW_NTILE =>
      match ex1.Ntile ex1.bounds count row_idx with
      | .error e => .error e
      | .ok cells => .ok (ex1, .bigint cells)
    | .WINDOW_LEAD => .ok (ex1, .bigint (ex1.LeadLag ex1.bounds count row_idx))
    | .WINDOW_LAG => .ok (ex1, .bigint (ex1.LeadLag ex1.bounds count row_idx))
    | .WINDOW_FIRST_VALUE => .ok (ex1, .bigint (ex1.FirstValue ex1.bounds count row_idx))
    | .WINDOW_LAST_VALUE => .ok (ex1, .bigint (ex1.LastValue ex1.bounds count row_idx))
    | .WINDOW_NTH_VALUE => .ok (ex1, .bigint (ex1.NthValue ex1.bounds count row_idx))

/-- The constructor `WindowExecutor(wexpr, context, partition_mask, count, mode)` for a
partition of `count` rows: fresh boundary state and rank counters. The `bounds` chunk is
allocated but not written, so its initial contents `bounds` are whatever the allocator
left there; the materialised payload, ordering column and IGNORE NULLS mask are those that
`Sink` produces, and the expression chunks those of the first batch. -/
def new (wexpr : BoundWindowExpression) (count : Nat) (bounds : BoundsChunk)
    (payload_collection : Nat → Nat → Option Int)
    (leadlag_offset leadlag_default boundary_start boundary_end : WindowInputExpression)
    (range : WindowInputColumn) (ignore_nulls : ValidityMask)
    (aggregate_state : Nat → Nat → Option Int) : WindowExecutor where
  wexpr := wexpr
  state := WindowBoundariesState.new wexpr count
  bounds := bounds
  dense_rank := 1
  rank_equal := 0
  rank := 1
  payload_collection := payload_collection
  leadlag_offset := leadlag_offset
  leadlag_default := leadlag_default
  boundary_start := boundary_start
  boundary_end := boundary_end
  range := range
  ignore_nulls := ignore_nulls
  aggregate_state := aggregate_state

end WindowExecutor

/-! ## Reachable boundary states -/

/-- The boundary states that `Update` produces: the constructor's state for a window
expression over `input_size` rows, and every state that a successful `Update` on a row
below `input_size` yields from such a state (in any batching). -/
inductive WindowBoundariesState.Reachable (wexpr : BoundWindowExpression) (input_size : Nat)
    (range : WindowInputColumn) (partition_mask order_mask : ValidityMask) :
    WindowBoundariesState → Prop where
  | init : Reachable wexpr input_size range partition_mask order_mask
      (WindowBoundariesState.new wexpr input_size)
  | step {s s' : WindowBoundariesState} (row_idx chunk_idx : Nat)
      (boundary_start boundary_end : WindowInputExpression) :
      Reachable wexpr input_size range partition_mask order_mask s →
      row_idx < input_size →
      s.Update row_idx range chunk_idx boundary_start boundary_end partition_mask order_mask
        = .ok s' →
      Reachable wexpr input_size range partition_mask order_mask s'

/-! ## Concrete inputs -/

/-- The frame columns written by `Bounds` at batch position `i`: partition begin, window
begin, window end, partition end (`none` when `Bounds` threw). -/
def frameAt (r : Except WindowError (WindowBoundariesState × BoundsChunk)) (i : Nat) :
    Option (Nat × Int × Int × Nat) :=
  match r with
  | .ok sb =>
    some (sb.2.partition_begin i, sb.2.window_begin i, sb.2.window_end i, sb.2.partition_end i)
  | .error _ => none

/-- The ordering `partition_begin ≤ window_begin ≤ window_end ≤ partition_end` of a frame. -/
def FrameOrdered (f : Nat × Int × Int × Nat) : Prop :=
  (f.1 : Int) ≤ f.2.1 ∧ f.2.1 ≤ f.2.2.1 ∧ f.2.2.1 ≤ (f.2.2.2 : Int)

/-- An aggregate `OVER (ORDER BY o ROWS BETWEEN .. PRECEDING AND .. PRECEDING)`. -/
def precedingFrameExpr : BoundWindowExpression :=
  ⟨.WINDOW_AGGREGATE, .EXPR_PRECEDING_ROWS, .EXPR_PRECEDING_ROWS, 0, [.ASCENDING], false, false,
    false⟩

/-- The state that `Update` produces at row 0 of the ten-row input with the frame
`ROWS BETWEEN 1 PRECEDING AND 3 PRECEDING`. -/
def precedingFrameState : WindowBoundariesState :=
  { WindowBoundariesState.new precedingFrameExpr 10 with
    partition_end := 10, valid_end := 10, window_start := 0, window_end := 0 }

/-! ## Partitions and peer groups according to the masks -/

/-- The first row of the run of `r` according to a mask: the largest position `p ≤ r` whose
bit is set, and 0 when no bit is set up to `r`. -/
def lastStart (mask : ValidityMask) : Nat → Nat
  | 0 => 0
  | r + 1 => if mask.RowIsValidUnsafe (r + 1) then r + 1 else lastStart mask r

/-- The number of set bits of a mask at the positions `a, a + 1, ..., a + k - 1`. -/
def countSet (mask : ValidityMask) (a : Nat) : Nat → Nat
  | 0 => 0
  | k + 1 => countSet mask a k + (if mask.RowIsValidUnsafe (a + k) then 1 else 0)

/-- The cells that `Bounds` writes at batch position `i` are those of the state `s` after
`Update`; the peer columns keep the cells of the chunk `b0` when `needs_peer` is off. -/
def BoundsChunk.RowIs (b : BoundsChunk) (i : Nat) (s : WindowBoundariesState)
    (b0 : BoundsChunk) : Prop :=
  b.partition_begin i = s.partition_start ∧ b.partition_end i = s.partition_end ∧
  b.window_begin i = s.window_start ∧ b.window_end i = s.window_end ∧
  (if s.needs_peer then b.peer_begin i = s.peer_start ∧ b.peer_end i = s.peer_end
   else b.peer_begin i = b0.peer_begin i ∧ b.peer_end i = b0.peer_end i)

/-- Two `bounds` chunks agree on the batch positions below `i`. -/
def BoundsChunk.AgreeBelow (b b0 : BoundsChunk) (i : Nat) : Prop :=
  ∀ j, j < i →
    b.partition_begin j = b0.partition_begin j ∧ b.partition_end j = b0.partition_end j ∧
    b.peer_begin j = b0.peer_begin j ∧ b.peer_end j = b0.peer_end j ∧
    b.window_begin j = b0.window_begin j ∧ b.window_end j = b0.window_end j

/-- The start boundary kinds that read no boundary expression. -/
def WindowBoundary.IsPlainStart (b : WindowBoundary) : Prop :=
  b = .UNBOUNDED_PRECEDING ∨ b = .CURRENT_ROW_ROWS ∨ b = .CURRENT_ROW_RANGE

/-- The end boundary kinds that read no boundary expression. -/
def WindowBoundary.IsPlainEnd (b : WindowBoundary) : Prop :=
  b = .CURRENT_ROW_ROWS ∨ b = .CURRENT_ROW_RANGE ∨ b = .UNBOUNDED_FOLLOWING

/-- The cells of a result vector of 64-bit integers (empty for a `double` vector). -/
def WindowExecutor.ResultVector.cells (v : WindowExecutor.ResultVector) : List (Option Int) :=
  match v with
  | .bigint cells => cells
  | .double _ => []

/-- The query `ROW_NUMBER() OVER (PARTITION BY p ORDER BY o)` with the default frame. -/
def rowNumberExpr : BoundWindowExpression :=
  ⟨.WINDOW_ROW_NUMBER, .UNBOUNDED_PRECEDING, .CURRENT_ROW_RANGE, 1, [.ASCENDING], false, false,
    false⟩

/-- An executor for a function without arguments, offsets or boundary expressions over
`count` rows, with a zero-filled `bounds` chunk. -/
def plainExecutor (wexpr : BoundWindowExpression) (count : Nat) : WindowExecutor :=
  WindowExecutor.new wexpr count (BoundsChunk.fill 0) (fun _ _ => none) (.const 1) .null
    (.const 0) (.const 0) .empty .allValid (fun _ _ => none)

/-- The result cells of `Evaluate` (`none` when it threw). -/
def resultCells (r : Except WindowError (WindowExecutor × WindowExecutor.ResultVector)) :
    Option (List (Option Int)) :=
  match r with
  | .ok out => some out.2.cells
  | .error _ => none

/-- Invariant of the boundary state before row `row` is processed: the key counts are `pc`
and `oc`, and the partition start is `lastStart` of the partition mask at the previous row. -/
def PartInv (pm : ValidityMask) (pc oc : Nat) (row : Nat) (s : WindowBoundariesState) : Prop :=
  s.partition_count = pc ∧ s.order_count = oc ∧ s.partition_start = lastStart pm (row - 1)

/-- Invariant of the boundary state before row `row` is processed, for a function that
needs peers: the key counts are `pc` and `oc`, and the partition and peer starts are
`lastStart` of the two masks at the previous row. -/
def PeerInv (pm om : ValidityMask) (pc oc : Nat) (row : Nat) (s : WindowBoundariesState) :
    Prop :=
  s.partition_count = pc ∧ s.order_count = oc ∧ s.needs_peer = true ∧
    s.partition_start = lastStart pm (row - 1) ∧ s.peer_start = lastStart om (row - 1)

/-- The number of peer groups of the partition of row `r` that start at or before `r`: the
number of set bits of the order mask at the positions `partition_begin(r), ..., r`. -/
def denseRankAt (pm om : ValidityMask) (r : Nat) : Nat :=
  countSet om (lastStart pm r) (r + 1 - lastStart pm r)

/-- The mask invariants: bit 0 is set in both masks and every partition start is a peer
start. -/
def MaskInvariants (pm om : ValidityMask) : Prop :=
  pm.RowIsValidUnsafe 0 = true ∧ om.RowIsValidUnsafe 0 = true ∧
    ∀ i, pm.RowIsValidUnsafe i = true → om.RowIsValidUnsafe i = true

/-- The masks of a window without keys: only bit 0 is set. -/
def SimpleMasks (pm om : ValidityMask) : Prop :=
  ∀ i, 0 < i → pm.RowIsValidUnsafe i = false ∧ om.RowIsValidUnsafe i = false

/-- The query `DENSE_RANK() OVER (ORDER BY o)` with the default frame. -/
def denseRankExpr : BoundWindowExpression :=
  ⟨.WINDOW_RANK_DENSE, .UNBOUNDED_PRECEDING, .CURRENT_ROW_RANGE, 0, [.ASCENDING], false, false,
    false⟩

/-- The query `RANK() OVER (ORDER BY o)` with the default frame. -/
def rankExpr : BoundWindowExpression :=
  ⟨.WINDOW_RANK, .UNBOUNDED_PRECEDING, .CURRENT_ROW_RANGE, 0, [.ASCENDING], false, false, false⟩

/-- The query `RANK() OVER (ORDER BY o ROWS BETWEEN UNBOUNDED PRECEDING AND CURRENT ROW)`. -/
def rankRowsExpr : BoundWindowExpression :=
  ⟨.WINDOW_RANK, .UNBOUNDED_PRECEDING, .CURRENT_ROW_ROWS, 0, [.ASCENDING], false, false, false⟩

/-! ## NTILE in natural numbers -/

/-- The NTILE value of the row at offset `j` of a partition of `N` rows for the argument
`B`, computed in natural numbers by the formula of `Ntile`. -/
def ntileValue (N B j : Nat) : Nat :=
  if j < (N - min B N * (N / min B N)) * (N / min B N + 1) then 1 + j / (N / min B N + 1)
  else
    1 + (N - min B N * (N / min B N)) +
      (j - (N - min B N * (N / min B N)) * (N / min B N + 1)) / (N / min B N)

/-- The size of bucket `b + 1` of `B'` buckets over `N` rows: the first `N - B' * (N / B')`
buckets hold `N / B' + 1` rows and the others `N / B'` rows. -/
def ntileBucketSize (N B' b : Nat) : Nat :=
  if b < N - B' * (N / B') then N / B' + 1 else N / B'

/-- The NTILE values of a partition of `N` rows for the argument `B` in row order, bucket by
bucket: with `B' = min B N`, bucket `b + 1` repeated `ntileBucketSize N B' b` times for
`b = 0, ..., B' - 1`. -/
def ntileBuckets (N B : Nat) : List Int :=
  (List.range (min B N)).flatMap
    (fun b => List.replicate (ntileBucketSize N (min B N) b) ((b : Int) + 1))

/-- The cell that `Ntile` writes at a row `row` of the partition `[pb, pe)` for the argument
cell `arg`: NULL for a NULL argument, else the value of the formula. -/
def ntileCell (arg : Option Int) (pb pe row : Nat) : Option Int :=
  arg.map (fun v => ((ntileValue (pe - pb) v.toNat (row - pb) : Nat) : Int))

/-- An executor for `NTILE` whose argument column holds the cells `args` (NULL past the
list), with a zero-filled `bounds` chunk. -/
def ntileExecutor (count : Nat) (args : List (Option Int)) : WindowExecutor :=
  WindowExecutor.new
    ⟨.WINDOW_NTILE, .UNBOUNDED_PRECEDING, .CURRENT_ROW_RANGE, 0, [.ASCENDING], false, false, false⟩
    count (BoundsChunk.fill 0) (fun _ row => args.getD row none) (.const 1) .null (.const 0)
    (.const 0) .empty .allValid (fun _ _ => none)

/-- The `bounds` chunk of a batch that lies in one partition `[pb, pe)`. -/
def onePartitionBounds (pb pe : Nat) : BoundsChunk :=
  ⟨fun _ => pb, fun _ => pe, fun _ => pb, fun _ => pe, fun _ => pb, fun _ => pe⟩

/-- An executor for `LAG` or `LEAD` over `count` rows: payload cells `xs` (NULL past the
list), constant offset `offset`, optional constant default, IGNORE NULLS mask `ign`, with
`partitions` PARTITION BY keys and a zero-filled `bounds` chunk. -/
def leadLagExecutor (type : ExpressionType) (partitions count : Nat) (xs : List (Option Int))
    (offset : Int) (dflt : Option Int) (ignore_nulls : Bool) (ign : ValidityMask) :
    WindowExecutor :=
  WindowExecutor.new
    ⟨type, .UNBOUNDED_PRECEDING, .CURRENT_ROW_RANGE, partitions, [.ASCENDING], true,
      dflt.isSome, ignore_nulls⟩
    count (BoundsChunk.fill 0) (fun _ row => xs.getD row none) (.const offset)
    (.const (dflt.getD 0)) (.const 0) (.const 0) .empty ign (fun _ _ => none)

/-- The offset expression whose cells are the negated cells of `off`. -/
def WindowInputExpression.neg (off : WindowInputExpression) : WindowInputExpression :=
  { off with data := fun j => -(off.data j) }

/-- The offset expression whose cells are the cells of `off` negated in 64-bit
arithmetic. -/
def WindowInputExpression.neg64 (off : WindowInputExpression) : WindowInputExpression :=
  { off with data := fun j => wrap64 (-(off.data j)) }

/-- The executor `ex` evaluating the function kind `type` with the offset expression
`off`. -/
def WindowExecutor.withOffset (ex : WindowExecutor) (type : ExpressionType)
    (off : WindowInputExpression) : WindowExecutor :=
  { ex with wexpr := { ex.wexpr with type := type, has_offset_expr := true },
            leadlag_offset := off }

/-! ## The mask scans, bit by bit -/

/-- The forward scan in the words of the specification: scan the `k` positions from `l`
upward, decrementing `n` at each set bit; the result is the position at which `n` reached
zero, together with 0, or the end `l + k` of the range with the residual `n`. -/
def findNext (mask : ValidityMask) : Nat → Nat → Nat → Nat × Nat
  | l, 0, n => (l, n)
  | l, k + 1, n =>
    if mask.RowIsValidUnsafe l then
      if n = 1 then (l, 0) else findNext mask (l + 1) k (n - 1)
    else findNext mask (l + 1) k n

/-- The largest position with a set bit among the `k` positions from `l` upward, if any. -/
def findLast (mask : ValidityMask) (l : Nat) : Nat → Option Nat
  | 0 => none
  | k + 1 => if mask.RowIsValidUnsafe (l + k) then some (l + k) else findLast mask l k

/-! ## Example executors for the value functions and aggregates -/

/-- Modelled from the spec: the SUM aggregator over the cells `xs` on the frame `[b, e)`,
NULL cells counting as 0 (the aggregators are declared outside the sources at hand). -/
def sumCells (xs : List (Option Int)) (b e : Nat) : Option Int :=
  some (((List.range (e - b)).map (fun j => (xs.getD (b + j) none).getD 0)).sum)

/-- An executor over `count` rows without PARTITION BY keys for the function kind `type`
with the frame bounds `start` and `end_boundary`: payload column 0 holds the cells `xs`
and column 1 the cells `args` (NULL past the lists), the boundary expressions are the
constants `boundary_start` and `boundary_end`, the IGNORE NULLS mask is `ign`, the
aggregator is SUM over `xs`, and the `bounds` chunk is zero-filled. -/
def valueExecutor (type : ExpressionType) (start end_boundary : WindowBoundary) (count : Nat)
    (xs args : List (Option Int)) (boundary_start boundary_end : Int) (ignore_nulls : Bool)
    (ign : ValidityMask) : WindowExecutor :=
  WindowExecutor.new
    ⟨type, start, end_boundary, 0, [.ASCENDING], false, false, ignore_nulls⟩
    count (BoundsChunk.fill 0)
    (fun col row => if col = 0 then xs.getD row none else args.getD row none)
    (.const 1) .null (.const boundary_start) (.const boundary_end) .empty ign (sumCells xs)

/-- The `bounds` chunk of a batch whose frame is `[a, b)` at every position. -/
def frameBounds (a b : Int) : BoundsChunk :=
  ⟨fun _ => 0, fun _ => 0, fun _ => 0, fun _ => 0, fun _ => a, fun _ => b⟩

/-- The value `clamp(v, lo, hi)` of the specification: `lo` when `v < lo`, `hi` when
`hi < v`, and `v` otherwise. -/
def clamp (v lo hi : Int) : Int := if v < lo then lo else if hi < v then hi else v

/-- The query `SUM(x) OVER (ORDER BY o ROWS BETWEEN 1 PRECEDING AND 1 FOLLOWING)`. -/
def rowsAroundExpr : BoundWindowExpression :=
  ⟨.WINDOW_AGGREGATE, .EXPR_PRECEDING_ROWS, .EXPR_FOLLOWING_ROWS, 0, [.ASCENDING], false, false,
    false⟩

/-! ## Partition and peer group ends according to the masks -/

/-- One past the last row of the run of `r` according to a mask, among `count` rows: the
smallest position above `r` and below `count` whose bit is set, and `count` when there is
none. -/
def nextStart (mask : ValidityMask) (count r : Nat) : Nat :=
  (findNext mask (r + 1) (count - (r + 1)) 1).1

/-- The masks agree with the keys of the window: without PARTITION BY keys the partition
mask has no set bit after bit 0, and without ORDER BY keys the order mask is the partition
mask. -/
def MasksOfKeys (wexpr : BoundWindowExpression) (pm om : ValidityMask) : Prop :=
  (wexpr.partitions = 0 → ∀ i, 0 < i → pm.RowIsValidUnsafe i = false) ∧
  (wexpr.orders.length = 0 → ∀ i, om.RowIsValidUnsafe i = pm.RowIsValidUnsafe i)

/-- Invariant of the boundary state before row `row` of `count` rows is processed, for a
function that needs peers: `PeerInv`, and after the first row the partition and peer ends
are `nextStart` of the two masks at the previous row. -/
def FullInv (pm om : ValidityMask) (pc oc count : Nat) (row : Nat)
    (s : WindowBoundariesState) : Prop :=
  PeerInv pm om pc oc row s ∧ s.input_size = count ∧
    (0 < row → row ≤ count →
      s.partition_end = nextStart pm count (row - 1) ∧
        s.peer_end = nextStart om count (row - 1))

/-- The value of RANK at row `r`: one more than the number of rows of the partition of `r`
before the peer group of `r`. -/
def rankAt (pm om : ValidityMask) (r : Nat) : Nat :=
  1 + (lastStart om r - lastStart pm r)

/-- The number of rows of the partition of `r`, among `count` rows. -/
def partitionSize (pm : ValidityMask) (count r : Nat) : Nat :=
  nextStart pm count r - lastStart pm r

/-- The value of PERCENT_RANK at row `r` in the words of the specification:
`(rank - 1) / (size - 1)` when the partition has more than one row, else 0. -/
def percentRankAt (pm om : ValidityMask) (count r : Nat) : Rat :=
  if partitionSize pm count r > 1 then
    ((rankAt pm om r : Rat) - 1) / ((partitionSize pm count r : Rat) - 1)
  else 0

/-- The value of CUME_DIST at row `r` in the words of the specification:
`(peer_end - partition_begin) / size`. -/
def cumeDistAt (pm om : ValidityMask) (count r : Nat) : Rat :=
  ((nextStart om count r - lastStart pm r : Nat) : Rat) / (partitionSize pm count r : Rat)

/-- The query `PERCENT_RANK() OVER (ORDER BY o)` with the default frame. -/
def percentRankExpr : BoundWindowExpression :=
  ⟨.WINDOW_PERCENT_RANK, .UNBOUNDED_PRECEDING, .CURRENT_ROW_RANGE, 0, [.ASCENDING], false,
    false, false⟩

/-- The query `CUME_DIST() OVER (ORDER BY o)` with the default frame. -/
def cumeDistExpr : BoundWindowExpression :=
  ⟨.WINDOW_CUME_DIST, .UNBOUNDED_PRECEDING, .CURRENT_ROW_RANGE, 0, [.ASCENDING], false, false,
    false⟩

/-- The query `RANK() OVER (PARTITION BY p)` with the default frame. -/
def rankPartitionExpr : BoundWindowExpression :=
  ⟨.WINDOW_RANK, .UNBOUNDED_PRECEDING, .CURRENT_ROW_RANGE, 1, [], false, false, false⟩

/-! ## Rows processed in order, in any batching -/

/-- The boundary states after the rows `0 .. row - 1` of an input of `count` rows have been
processed in order: the constructor's state for no row, and the state that a successful
`Update` on row `row` yields from the state after the rows `0 .. row - 1`, at any position
`chunk_idx` of any batch and with any chunks of the boundary expressions. -/
inductive WindowBoundariesState.AfterRows (wexpr : BoundWindowExpression) (count : Nat)
    (range : WindowInputColumn) (partition_mask order_mask : ValidityMask) :
    Nat → WindowBoundariesState → Prop where
  | init : AfterRows wexpr count range partition_mask order_mask 0
      (WindowBoundariesState.new wexpr count)
  | step {row : Nat} {s s' : WindowBoundariesState} (chunk_idx : Nat)
      (boundary_start boundary_end : WindowInputExpression) :
      AfterRows wexpr count range partition_mask order_mask row s →
      row < count →
      s.Update row range chunk_idx boundary_start boundary_end partition_mask order_mask
        = .ok s' →
      AfterRows wexpr count range partition_mask order_mask (row + 1) s'

/-- A call of `Bounds` for the next batch, on the state and the chunk that the previous call
left. -/
def thenBounds (r : Except WindowError (WindowBoundariesState × BoundsChunk)) (row_idx : Nat)
    (range : WindowInputColumn) (count : Nat)
    (boundary_start boundary_end : WindowInputExpression)
    (partition_mask order_mask : ValidityMask) :
    Except WindowError (WindowBoundariesState × BoundsChunk) :=
  match r with
  | .ok sb =>
    sb.1.Bounds sb.2 row_idx range count boundary_start boundary_end partition_mask order_mask
  | .error e => .error e

/-- The query `SUM(x) OVER (PARTITION BY p ROWS BETWEEN UNBOUNDED PRECEDING AND CURRENT
ROW)`. -/
def runningSumExpr : BoundWindowExpression :=
  ⟨.WINDOW_AGGREGATE, .UNBOUNDED_PRECEDING, .CURRENT_ROW_ROWS, 1, [], false, false, false⟩

/-- An executor for `runningSumExpr` over `count` rows: the aggregator is SUM over the cells
`xs`, and the `bounds` chunk is zero-filled. -/
def runningSumExecutor (count : Nat) (xs : List (Option Int)) : WindowExecutor :=
  WindowExecutor.new runningSumExpr count (BoundsChunk.fill 0)
    (fun _ row => xs.getD row none) (.const 1) .null (.const 0) (.const 0) .empty .allValid
    (sumCells xs)

/-! ## Overflow of the ROWS offsets -/

/-- The errors raised as an `OutOfRangeException`. -/
def WindowError.IsOutOfRange (e : WindowError) : Bool :=
  match e with
  | .OverflowRowsPrecedingStart => true
  | .OverflowRowsFollowingStart => true
  | .OverflowRowsPrecedingEnd => true
  | .OverflowRowsFollowingEnd => true
  | _ => false

/-- The integers that are values of `int64_t`: those of `[-2^63, 2^63 - 1]`. -/
def inInt64 (x : Int) : Prop := -(2 ^ 63) ≤ x ∧ x < 2 ^ 63

instance (x : Int) : Decidable (inInt64 x) := by unfold inInt64; infer_instance

/-- The exact integer of the ROWS offset of a start bound at row `row` for the offset `v`:
`row - v` for `EXPR_PRECEDING_ROWS` and `row + v` for `EXPR_FOLLOWING_ROWS`; `none` for the
bounds that compute nothing. -/
def rowsStartExact (b : WindowBoundary) (row : Nat) (v : Int) : Option Int :=
  match b with
  | .EXPR_PRECEDING_ROWS => some ((row : Int) - v)
  | .EXPR_FOLLOWING_ROWS => some ((row : Int) + v)
  | _ => none

/-- The exact integer of the ROWS offset of an end bound at row `row` for the offset `v`:
`(row + 1) - v` for `EXPR_PRECEDING_ROWS` and `(row + 1) + v` for `EXPR_FOLLOWING_ROWS`;
`none` for the bounds that compute nothing. -/
def rowsEndExact (b : WindowBoundary) (row : Nat) (v : Int) : Option Int :=
  match b with
  | .EXPR_PRECEDING_ROWS => some ((row : Int) + 1 - v)
  | .EXPR_FOLLOWING_ROWS => some ((row : Int) + 1 + v)
  | _ => none

/-- The query `SUM(x) OVER (ORDER BY o RANGE BETWEEN a PRECEDING AND b FOLLOWING)`. -/
def rangeAroundExpr : BoundWindowExpression :=
  ⟨.WINDOW_AGGREGATE, .EXPR_PRECEDING_RANGE, .EXPR_FOLLOWING_RANGE, 0, [.ASCENDING], false,
    false, false⟩

/-- The query `SUM(x) OVER (ORDER BY o RANGE BETWEEN UNBOUNDED PRECEDING AND b PRECEDING)`. -/
def rangeEndPrecedingExpr : BoundWindowExpression :=
  ⟨.WINDOW_AGGREGATE, .UNBOUNDED_PRECEDING, .EXPR_PRECEDING_RANGE, 0, [.ASCENDING], false,
    false, false⟩

/-- The query `SUM(x) OVER (ORDER BY o RANGE BETWEEN a PRECEDING AND UNBOUNDED FOLLOWING)`. -/
def rangeStartPrecedingExpr : BoundWindowExpression :=
  ⟨.WINDOW_AGGREGATE, .EXPR_PRECEDING_RANGE, .UNBOUNDED_FOLLOWING, 0, [.ASCENDING], false,
    false, false⟩

/-- The end of the frame in the words of the specification, for an end bound `v PRECEDING`
of a RANGE frame over an ascending column: one past the last row `i` of `[valid_start, r]`
with `order_value(i) ≤ v` (`valid_start` when there is none). -/
def rangeEndThroughRow (range : WindowInputColumn) (valid_start r : Nat) (v : Int) : Nat :=
  (List.range (r + 1 - valid_start)).foldl
    (fun acc k => if range.GetCell (valid_start + k) ≤ v then valid_start + k + 1 else acc)
    valid_start

/-! ## The source: `MaxThreads` and `Scan` -/

/-- The members of `PartitionGlobalSinkState` that `MaxThreads` reads (the class is declared
outside the sources at hand): whether the pointer `grouping_data` is set, the global row
count, and the size of `hash_groups`. -/
structure PartitionGlobalSinkState where
  grouping_data : Bool
  count : Nat
  hash_groups : Nat
deriving DecidableEq, Repr

/-- The method `WindowGlobalSourceState::MaxThreads`; the constant
`STANDARD_ROW_GROUPS_SIZE` is declared outside the sources at hand and is a parameter. -/
def WindowGlobalSourceState.MaxThreads (STANDARD_ROW_GROUPS_SIZE : Nat)
    (gsink : PartitionGlobalSinkState) : Nat :=
  if !gsink.grouping_data then 1
  else if gsink.count < STANDARD_ROW_GROUPS_SIZE then 1
  else gsink.hash_groups

/-- The number of threads in the words of the specification:
`max(1, number_of_hash_groups)` if the count is at least the threshold, else 1. -/
def maxThreadsSpec (threshold count hash_groups : Nat) : Nat :=
  if threshold ≤ count then max 1 hash_groups else 1

/-- Modelled from the spec: the members of a `DataChunk` that `Scan` uses (the class is
declared outside the sources at hand): the cardinality, the number of columns, and the
column vectors by index. -/
structure DataChunk where
  count : Nat
  column_count : Nat
  data : Nat → WindowExecutor.ResultVector

namespace DataChunk

/-- Modelled from the spec: the method `Reset`, which empties the chunk. -/
def Reset (c : DataChunk) : DataChunk := { c with count := 0, data := fun _ => .bigint [] }

/-- Modelled from the spec: the method `SetCardinality`. -/
def SetCardinality (c : DataChunk) (n : Nat) : DataChunk := { c with count := n }

end DataChunk

/-- Modelled from the spec: a `RowDataCollectionScanner` over the materialised payload of a
partition (the class is declared outside the sources at hand): the payload columns, the
number of rows, the number of rows scanned so far, and the number of rows of a full
batch. -/
structure RowDataCollectionScanner where
  columns : List (List (Option Int))
  total_count : Nat
  total_scanned : Nat
  vector_size : Nat

namespace RowDataCollectionScanner

/-- Modelled from the spec: the method `Remaining`. -/
def Remaining (sc : RowDataCollectionScanner) : Nat := sc.total_count - sc.total_scanned

/-- Modelled from the spec: the method `Scanned`. -/
def Scanned (sc : RowDataCollectionScanner) : Nat := sc.total_scanned

/-- Modelled from the spec: the method `Scan(chunk)`, which reads the next rows (a full
batch, or the remaining rows) into the columns of `chunk`. -/
def Scan (sc : RowDataCollectionScanner) (chunk : DataChunk) :
    RowDataCollectionScanner × DataChunk :=
  let n := min sc.vector_size sc.Remaining
  ({ sc with total_scanned := sc.total_scanned + n },
   { chunk with
     count := n,
     data := fun i =>
       if i < chunk.column_count then
         .bigint (((sc.columns.getD i []).drop sc.total_scanned).take n)
       else chunk.data i })

end RowDataCollectionScanner

/-- The members of `WindowLocalSourceState` that `Scan` uses. -/
structure WindowLocalSourceState where
  partition_mask : ValidityMask
  order_mask : ValidityMask
  window_execs : List WindowExecutor
  scanner : RowDataCollectionScanner
  input_chunk : DataChunk
  output_chunk : DataChunk

namespace WindowLocalSourceState

/-- The first loop of `Scan`: the executors from index `expr_idx` on evaluate the batch, each
into the column `expr_idx` of the output chunk. -/
def EvaluateLoop (position count : Nat) (partition_mask order_mask : ValidityMask) :
    List WindowExecutor → Nat → DataChunk →
      Except WindowError (List WindowExecutor × DataChunk)
  | [], _, output_chunk => .ok ([], output_chunk)
  | executor :: rest, expr_idx, output_chunk =>
    match executor.Evaluate position count partition_mask order_mask with
    | .error e => .error e
    | .ok r =>
      match EvaluateLoop position count partition_mask order_mask rest (expr_idx + 1)
          { output_chunk with data := store output_chunk.data expr_idx r.2 } with
      | .error e => .error e
      | .ok out => .ok (r.1 :: out.1, out.2)

/-- The two last loops of `Scan`: the remaining `n` columns of `source` from `col_idx` on are
referenced by the result columns from `out_idx` on; the columns and the next `out_idx`. -/
def ReferenceLoop (source : DataChunk) :
    Nat → Nat → Nat → (Nat → WindowExecutor.ResultVector) →
      (Nat → WindowExecutor.ResultVector) × Nat
  | 0, _, out_idx, data => (data, out_idx)
  | n + 1, col_idx, out_idx, data =>
    ReferenceLoop source n (col_idx + 1) (out_idx + 1)
      (store data out_idx (source.data col_idx))

/-- The method `WindowLocalSourceState::Scan(result)`: the state and the result chunk after
the call, or the error that an executor throws. -/
def Scan (ls : WindowLocalSourceState) (result : DataChunk) :
    Except WindowError (WindowLocalSourceState × DataChunk) :=
  if ls.scanner.Remaining = 0 then .ok (ls, result)
  else
    let position := ls.scanner.Scanned
    let sc := ls.scanner.Scan ls.input_chunk.Reset
    match EvaluateLoop position sc.2.count ls.partition_mask ls.order_mask ls.window_execs 0
        ls.output_chunk.Reset with
    | .error e => .error e
    | .ok out =>
      let output_chunk := out.2.SetCardinality sc.2.count
      let result1 := result.SetCardinality sc.2.count
      let r1 := ReferenceLoop sc.2 sc.2.column_count 0 0 result1.data
      let r2 := ReferenceLoop output_chunk output_chunk.column_count 0 r1.2 r1.1
      .ok ({ ls with scanner := sc.1, input_chunk := sc.2, output_chunk := output_chunk,
                     window_execs := out.1 },
           { result1 with data := r2.1 })

end WindowLocalSourceState

/-- The column `i` of the result chunk of `Scan` and its cardinality (`none` when `Scan`
threw). -/
def scanColumn (r : Except WindowError (WindowLocalSourceState × DataChunk)) (i : Nat) :
    Option (Nat × WindowExecutor.ResultVector) :=
  match r with
  | .ok out => some (out.2.count, out.2.data i)
  | .error _ => none

/-- The source state for `RANK() OVER (ORDER BY o), DENSE_RANK() OVER (ORDER BY o)` on one
partition of three rows with the payload column `o = [10, 10, 20]`, before the first batch
is scanned. -/
def rankSource : WindowLocalSourceState :=
  ⟨.ofWords [1], .ofWords [5], [plainExecutor rankExpr 3, plainExecutor denseRankExpr 3],
    ⟨[[some 10, some 10, some 20]], 3, 0, 2048⟩, ⟨0, 1, fun _ => .bigint []⟩,
    ⟨0, 2, fun _ => .bigint []⟩⟩

/-- An empty chunk of `n` columns. -/
def emptyChunk (n : Nat) : DataChunk := ⟨0, n, fun _ => .bigint []⟩

/-- The peer columns written by `Bounds` at batch position `i`: peer begin and peer end
(`none` when `Bounds` threw). -/
def peersAt (r : Except WindowError (WindowBoundariesState × BoundsChunk)) (i : Nat) :
    Option (Nat × Nat) :=
  match r with
  | .ok sb => some (sb.2.peer_begin i, sb.2.peer_end i)
  | .error _ => none

/-- The method `WindowExecutor::IsConstantAggregate`; `aggregate` tells whether
`wexpr.aggregate` is set and `children` is the size of `wexpr.children`, the two members of
the expression that `BoundWindowExpression` above does not carry. -/
def IsConstantAggregate (wexpr : BoundWindowExpression) (aggregate : Bool) (children : Nat) :
    Bool :=
  if !aggregate then false
  else if children = 0 then false
  else if (match wexpr.start with
      | .UNBOUNDED_PRECEDING => false
      | .CURRENT_ROW_RANGE => !wexpr.orders.isEmpty
      | _ => true) then false
  else if (match wexpr.end_boundary with
      | .UNBOUNDED_FOLLOWING => false
      | .CURRENT_ROW_RANGE => !wexpr.orders.isEmpty
      | _ => true) then false
  else true

/-- The query `SUM(x) OVER (PARTITION BY p RANGE BETWEEN CURRENT ROW AND UNBOUNDED
FOLLOWING)`, without ORDER BY. -/
def constantSumExpr : BoundWindowExpression :=
  ⟨.WINDOW_AGGREGATE, .CURRENT_ROW_RANGE, .UNBOUNDED_FOLLOWING, 1, [], false, false, false⟩

/-- The last part of `Update` with its integer conversions written out: the casts
`(int64_t)partition_start`, `(int64_t)partition_end` and the conversions of the assignments
`window_start = partition_start`, ... reduce the `idx_t` value to the two's complement
range. `UpdateClamp` takes the values as they are, which is the same below `2^63`. -/
def WindowBoundariesState.UpdateClampCast (s : WindowBoundariesState) :
    Except WindowError WindowBoundariesState :=
  let ws1 := if s.window_start < wrap64 (s.partition_start : Int)
             then wrap64 (s.partition_start : Int) else s.window_start
  let ws2 := if ws1 > wrap64 (s.partition_end : Int) then wrap64 (s.partition_end : Int)
             else ws1
  let we1 := if s.window_end < wrap64 (s.partition_start : Int)
             then wrap64 (s.partition_start : Int) else s.window_end
  let we2 := if we1 > wrap64 (s.partition_end : Int) then wrap64 (s.partition_end : Int)
             else we1
  if ws2 < 0 ∨ we2 < 0 then .error .FailedToComputeBoundaries
  else .ok { s with window_start := ws2, window_end := we2 }

/-- A materialised mask whose words are all ones: it has a buffer, and every bit is set. -/
def ValidityMask.allSet : ValidityMask := ⟨some (fun _ => 2 ^ 64 - 1)⟩

/-! ## The RANGE searches in the words of the specification -/

/-- The ordering column is sorted ascending on the rows `[order_begin, order_end)`. -/
def SortedAscending (over : WindowInputColumn) (order_begin order_end : Nat) : Prop :=
  ∀ i j, order_begin ≤ i → i ≤ j → j < order_end → over.GetCell i ≤ over.GetCell j

/-- The lower bound of `v` in the words of the specification: the smallest index `i` among
the `k` rows from `b` on with `column[i] ≥ v`, or the end `b + k` when there is none. -/
def lowerBoundSpec (over : WindowInputColumn) (v : Int) : Nat → Nat → Nat
  | b, 0 => b
  | b, k + 1 => if over.GetCell b < v then lowerBoundSpec over v (b + 1) k else b

/-- The upper bound of `v` in the words of the specification: one past the last index `i`
among the `k` rows from `b` on with `column[i] ≤ v`, or `b` when there is none. -/
def upperBoundSpec (over : WindowInputColumn) (v : Int) (b : Nat) : Nat → Nat
  | 0 => b
  | k + 1 => if over.GetCell (b + k) ≤ v then b + k + 1 else upperBoundSpec over v b k

/-- The query `SUM(x) OVER (ORDER BY o RANGE BETWEEN CURRENT ROW AND b FOLLOWING)`. -/
def rangeCurrentFollowingExpr : BoundWindowExpression :=
  ⟨.WINDOW_AGGREGATE, .CURRENT_ROW_RANGE, .EXPR_FOLLOWING_RANGE, 0, [.ASCENDING], false,
    false, false⟩

/-- The NULL ordering values of the partition `[pb, pe)` form one peer group at its start or
at its end: when the row `pb` is NULL the NULL rows are those of the first peer group (the
rows before the next set bit of the order mask), when the row `pe - 1` is NULL they are those
of the last peer group (the rows from the last set bit on), and otherwise no row is NULL. -/
def NullsOnePeerGroup (range : WindowInputColumn) (om : ValidityMask) (pb pe : Nat) : Prop :=
  (range.CellIsNull pb = true →
    ∀ i, pb ≤ i → i < pe → (range.CellIsNull i = true ↔ i < nextStart om pe pb)) ∧
  (range.CellIsNull (pe - 1) = true →
    ∀ i, pb ≤ i → i < pe → (range.CellIsNull i = true ↔ lastStart om (pe - 1) ≤ i)) ∧
  (range.CellIsNull pb = false → range.CellIsNull (pe - 1) = false →
    ∀ i, pb ≤ i → i < pe → range.CellIsNull i = false)

/-! ## The IGNORE NULLS mask built by `Sink` -/

/-- Modelled from the spec: `EntryCount(count)`, the number of 64-bit entries that hold
`count` bits. -/
def ValidityMask.EntryCount (count : Nat) : Nat :=
  (count + (BITS_PER_VALUE - 1)) / BITS_PER_VALUE

/-- Modelled from the spec: `Initialize(count)`, which allocates a buffer whose entries are
all ones. -/
def ValidityMask.Initialize (_count : Nat) : ValidityMask := ⟨some (fun _ => 2 ^ 64 - 1)⟩

/-- Modelled from the spec: `Set(row, valid)`: `SetValid` sets the bit of the row with
`|= 1 << idx_in_entry` when there is a buffer, `SetInvalid` clears it with
`&= ~(1 << idx_in_entry)` after allocating an all-ones buffer when there is none. -/
def ValidityMask.Set (mask : ValidityMask) (row : Nat) (valid : Bool) : ValidityMask :=
  let e := (GetEntryIndex row).1
  let b := (GetEntryIndex row).2
  match mask.validity_mask with
  | none =>
    if valid then mask
    else ⟨some (store (fun _ => 2 ^ 64 - 1) e ((2 ^ 64 - 1) &&& ((2 ^ 64 - 1) ^^^ 2 ^ b)))⟩
  | some w =>
    ⟨some (store w e (if valid then w e ||| 2 ^ b else w e &&& ((2 ^ 64 - 1) ^^^ 2 ^ b)))⟩

/-- The part of an input batch that `Sink` reads for the IGNORE NULLS mask: the size of the
chunk and the validity mask of the first payload column in unified format, for a flat
vector (row `i` of the batch is non-NULL when the mask has no buffer or its bit `i` is
set). -/
structure PayloadBatch where
  count : Nat
  validity : ValidityMask

namespace WindowExecutor

/-- The flag `check_nulls` of `Sink`: IGNORE NULLS on LEAD, LAG, FIRST_VALUE, LAST_VALUE or
NTH_VALUE. -/
def check_nulls (wexpr : BoundWindowExpression) : Bool :=
  if wexpr.ignore_nulls then
    match wexpr.type with
    | .WINDOW_LEAD => true
    | .WINDOW_LAG => true
    | .WINDOW_FIRST_VALUE => true
    | .WINDOW_LAST_VALUE => true
    | .WINDOW_NTH_VALUE => true
    | _ => false
  else false

/-- The loop `for (entry_count = EntryCount(count); entry_count-- > 0;) *dst++ = *src++` of
`Sink`: the first argument counts the entries that remain, `d` and `s` are the positions of
`dst` and `src`. -/
def CopyEntries (src : ValidityMask) : Nat → Nat → Nat → (Nat → Nat) → (Nat → Nat)
  | 0, _, _, dst => dst
  | k + 1, d, s, dst => CopyEntries src k (d + 1) (s + 1) (store dst d (src.GetValidityEntry s))

/-- The loop `for (i = 0; i < count; ++i) ignore_nulls.Set(input_idx + i, validity.RowIsValid(i))`
of `Sink`: the first argument counts the iterations that remain. -/
def SetRows (validity : ValidityMask) (input_idx : Nat) : Nat → Nat → ValidityMask → ValidityMask
  | 0, _, mask => mask
  | k + 1, i, mask =>
    SetRows validity input_idx k (i + 1) (mask.Set (input_idx + i) (validity.RowIsValid i))

/-- The method `WindowExecutor::Sink(input_chunk, input_idx, total_count)`, of which the
statements that maintain `ignore_nulls` are embedded; `children` is the size of
`wexpr.children`. The payload, the ordering column and the aggregator state are the
materialised members of the executor. -/
def Sink (ex : WindowExecutor) (children : Nat) (batch : PayloadBatch)
    (input_idx total_count : Nat) : WindowExecutor :=
  if children ≠ 0 ∧ check_nulls ex.wexpr = true ∧ batch.validity.AllValid = false then
    let ignore_nulls :=
      if ex.ignore_nulls.AllValid then ValidityMask.Initialize total_count
      else ex.ignore_nulls
    if input_idx % BITS_PER_VALUE = 0 then
      { ex with ignore_nulls :=
          ⟨some (CopyEntries batch.validity (ValidityMask.EntryCount batch.count)
            (ValidityMask.EntryCount input_idx) 0 ignore_nulls.GetValidityEntry)⟩ }
    else
      { ex with ignore_nulls := SetRows batch.validity input_idx batch.count 0 ignore_nulls }
  else ex

/-- The first pass of `GeneratePartition` over the input: every batch is sunk with
`input_idx` the number of rows sunk before it. -/
def SinkAll (children total_count : Nat) : List PayloadBatch → Nat → WindowExecutor →
    WindowExecutor
  | [], _, ex => ex
  | batch :: rest, input_idx, ex =>
    SinkAll children total_count rest (input_idx + batch.count)
      (ex.Sink children batch input_idx total_count)

end WindowExecutor

/-- The number of rows of a list of batches. -/
def totalCount : List PayloadBatch → Nat
  | [] => 0
  | batch :: rest => batch.count + totalCount rest

/-- Whether the first payload column is non-NULL at the absolute row `i` of a list of
batches (true past the last row). -/
def payloadValid : List PayloadBatch → Nat → Bool
  | [], _ => true
  | batch :: rest, i =>
    if i < batch.count then batch.validity.RowIsValid i else payloadValid rest (i - batch.count)

/-- The validity buffer of a batch as `Sink` receives it (`Vector` and `ValidityMask` are
declared outside the sources at hand): a buffer is allocated with all its bits set, as
`Initialize` does for `ignore_nulls`, and only the bits of rows of the batch are cleared, as
`Set` does, so the bits of its last copied entry past the rows of the batch are set. -/
def PayloadBatch.SpillValid (batch : PayloadBatch) : Prop :=
  ∀ j, j < BITS_PER_VALUE * ValidityMask.EntryCount batch.count → batch.count ≤ j →
    batch.validity.RowIsValidUnsafe j = true

/-- An executor for `FIRST_VALUE(x IGNORE NULLS) OVER (ORDER BY o)` over `count` rows before
the first batch is sunk: the IGNORE NULLS mask has no buffer. -/
def ignoreNullsExecutor (count : Nat) : WindowExecutor :=
  valueExecutor .WINDOW_FIRST_VALUE .UNBOUNDED_PRECEDING .CURRENT_ROW_RANGE count [] [] 0 0
    true .allValid

/-! ## Batches evaluated in order -/

/-- Invariant of the rank counters of an executor before row `row` is processed: after the
first row they are the rank, the number of rows of the peer group and the dense rank of the
previous row. -/
def RankInv (pm om : ValidityMask) (row : Nat) (ex : WindowExecutor) : Prop :=
  row = 0 ∨
    (ex.rank = rankAt pm om (row - 1) ∧ ex.rank_equal = row - lastStart om (row - 1) ∧
      ex.dense_rank = denseRankAt pm om (row - 1))

/-- The executors after the rows `0 .. row - 1` of a hash bin of `count` rows have been
evaluated in order, batch by batch, as `Scan` does with `position` the running row total:
the constructor's executor for no row; an executor whose row-level expression chunks have
been replaced by those of the next batch (the four `Execute` calls at the start of
`Evaluate`); and the executor that a successful `Evaluate` of a batch of `k` rows at `row`
leaves. -/
inductive WindowExecutor.AfterBatches (wexpr : BoundWindowExpression) (count : Nat)
    (range : WindowInputColumn) (partition_mask order_mask : ValidityMask) :
    Nat → WindowExecutor → Prop where
  | init (bounds : BoundsChunk) (payload_collection : Nat → Nat → Option Int)
      (leadlag_offset leadlag_default boundary_start boundary_end : WindowInputExpression)
      (ignore_nulls : ValidityMask) (aggregate_state : Nat → Nat → Option Int) :
      AfterBatches wexpr count range partition_mask order_mask 0
        (WindowExecutor.new wexpr count bounds payload_collection leadlag_offset
          leadlag_default boundary_start boundary_end range ignore_nulls aggregate_state)
  | execute {row : Nat} {ex : WindowExecutor}
      (leadlag_offset leadlag_default boundary_start boundary_end : WindowInputExpression) :
      AfterBatches wexpr count range partition_mask order_mask row ex →
      AfterBatches wexpr count range partition_mask order_mask row
        { ex with leadlag_offset := leadlag_offset, leadlag_default := leadlag_default,
                  boundary_start := boundary_start, boundary_end := boundary_end }
  | evaluate {row : Nat} {ex : WindowExecutor}
      {out : WindowExecutor × WindowExecutor.ResultVector} (k : Nat) :
      AfterBatches wexpr count range partition_mask order_mask row ex →
      row + k ≤ count →
      ex.Evaluate row k partition_mask order_mask = .ok out →
      AfterBatches wexpr count range partition_mask order_mask (row + k) out.1

/-- A call of `Evaluate` for the next batch, on the executor that the previous call left. -/
def thenEvaluate (r : Except WindowError (WindowExecutor × WindowExecutor.ResultVector))
    (row_idx count : Nat) (partition_mask order_mask : ValidityMask) :
    Except WindowError (WindowExecutor × WindowExecutor.ResultVector) :=
  match r with
  | .ok out => out.1.Evaluate row_idx count partition_mask order_mask
  | .error e => .error e

/-- The `double` cells of the result of `Evaluate` (`none` when it threw or the result is a
vector of integers). -/
def doubleCells (r : Except WindowError (WindowExecutor × WindowExecutor.ResultVector)) :
    Option (List (Option Rat)) :=
  match r with
  | .ok (_, .double cells) => some cells
  | _ => none

/-- Modelled from the spec: the states of the sink that the source receives
(`PartitionGlobalSinkState` is declared outside the sources at hand; the sorter yields one
or more sorted hash groups, and a single buffer when there is no partition key). Without
grouping data `hash_groups` is empty or holds the one group (`MaxThreads` comments "only one
partition", and `GetData` counts `hash_groups.empty() ? 1 : hash_groups.size()` bins). With
grouping data `Finalize` announces output only when there is a group, and `hash_groups` has
an entry for every hash bin. -/
def PartitionGlobalSinkState.Receivable (gsink : PartitionGlobalSinkState) : Prop :=
  (gsink.grouping_data = true → 1 ≤ gsink.hash_groups) ∧
    (gsink.grouping_data = false → gsink.hash_groups ≤ 1)

/-- A `bounds` chunk whose PEER_BEGIN column holds its own position in every cell. The
constructor allocates the chunk (`bounds.Initialize(Allocator::Get(context), bounds_types)`)
without filling it, so the cells that `Bounds` never writes hold what the memory held. -/
def staleBounds : BoundsChunk :=
  ⟨fun _ => 0, fun _ => 0, fun i => i, fun _ => 0, fun _ => 0, fun _ => 0⟩

end Window


/-! # The text tree renderer

A shallow embedding of `AdjustTextForRendering` of
`src/common/tree_renderer/text_tree_renderer.cpp`. An ASCII string is the list of its
characters; `idx_t` differences are reduced modulo `2^64`. -/

namespace TextTreeRenderer

open Window (add64 sub64)

/-- The struct `StringSegment`. -/
structure StringSegment where
  start : Nat
  width : Nat
deriving DecidableEq, Repr

/-- Modelled from the spec: `Utf8Proc::RenderWidth` (declared outside the sources at hand)
on an ASCII string, where every character has the width 1. -/
def RenderWidth (_INPUT : List Char) (_SIZE _pos : Nat) : Nat := 1

/-- Modelled from the spec: `Utf8Proc::NextGraphemeCluster` (declared outside the sources at
hand) on an ASCII string, where every character is a cluster. -/
def NextGraphemeCluster (_INPUT : List Char) (_SIZE pos : Nat) : Nat := pos + 1

/-- The string literal of three dots. -/
def dots : List Char := ['.', '.', '.']

/-- The loop `while (current_position < SIZE)` of `AdjustTextForRendering`: the final
`render_width` and the vector `render_widths`. Every iteration advances the position, so
`SIZE` iterations are enough. -/
def SegmentLoop (INPUT : List Char) (SIZE max_render_width : Nat) :
    Nat → Nat → Nat → List StringSegment → Nat × List StringSegment
  | 0, _, render_width, render_widths => (render_width, render_widths)
  | fuel + 1, current_position, render_width, render_widths =>
    if current_position < SIZE then
      let char_render_width := RenderWidth INPUT SIZE current_position
      let next_position := NextGraphemeCluster INPUT SIZE current_position
      let render_width1 := add64 render_width char_render_width
      let render_widths1 := render_widths ++ [⟨next_position, render_width1⟩]
      if render_width1 > max_render_width then (render_width1, render_widths1)
      else SegmentLoop INPUT SIZE max_render_width fuel next_position render_width1
        render_widths1
    else (render_width, render_widths)

/-- The loop `for (pos = render_widths.size(); pos > 0; pos--)` of `AdjustTextForRendering`:
the string it returns, or `none` when it runs to its end. -/
def TruncateLoop (source : List Char) (max_render_width : Nat)
    (render_widths : List StringSegment) : Nat → Option (List Char)
  | 0 => none
  | pos + 1 =>
    let source_range := render_widths.getD pos ⟨0, 0⟩
    if source_range.width < sub64 max_render_width 4 then
      some (source.take source_range.start ++ dots ++
        List.replicate (sub64 (sub64 max_render_width source_range.width) 3) ' ')
    else TruncateLoop source max_render_width render_widths pos

/-- The function `AdjustTextForRendering(source, max_render_width)`. A count of spaces that
no string can hold (the wrapped differences are above `2^62`) stands for the
`std::length_error` that the construction of such a string throws. -/
def AdjustTextForRendering (source : List Char) (max_render_width : Nat) : List Char :=
  let SIZE := source.length
  let r := SegmentLoop source SIZE max_render_width SIZE 0 0 []
  let render_width := r.1
  match (if render_width > max_render_width then
      TruncateLoop source max_render_width r.2 r.2.length else none) with
  | some result => result
  | none =>
    let source1 := if render_width > max_render_width then dots else source
    let total_spaces := sub64 max_render_width render_width
    let half_spaces := total_spaces / 2
    let extra_left_space := if total_spaces % 2 = 0 then 0 else 1
    List.replicate (add64 half_spaces extra_left_space) ' ' ++ source1 ++
      List.replicate half_spaces ' '

/-- The vector `render_widths` after `n` characters of an ASCII string. -/
def segments (n : Nat) : List StringSegment :=
  (List.range n).map (fun i => ⟨i + 1, i + 1⟩)

end TextTreeRenderer

/-! # Theorems -/

namespace Window

/-! ## Unsigned 64-bit arithmetic without wrap -/

theorem add64_eq (a b : Nat) (h : a + b < 2 ^ 64) : add64 a b = a + b := by
  unfold add64
  omega

theorem sub64_eq (a b : Nat) (h1 : b ≤ a) (h2 : a < 2 ^ 64) : sub64 a b = a - b := by
  unfold sub64
  omega

/-- The index `l + n - 1` of the fast path of `FindNextStart` when it does not wrap. -/
theorem sub64_add64_one (l n : Nat) (hn : 1 ≤ n) (h : l + n - 1 < 2 ^ 64) :
    sub64 (add64 l n) 1 = l + n - 1 := by
  unfold sub64 add64
  omega

/-- The skip `l += BITS_PER_VALUE` of a blank block does not wrap when no blank block starts
within 64 rows of `2^64`. -/
theorem add64_skip (mask : ValidityMask) (r l : Nat)
    (hskip : ∀ l, l < r → l % 64 = 0 → mask.GetValidityEntry (l / 64) = 0 → l + 64 < 2 ^ 64)
    (hl : l < r)
    (hc : ValidityMask.NoneValid (mask.GetValidityEntry (ValidityMask.GetEntryIndex l).1) = true ∧
      (ValidityMask.GetEntryIndex l).2 = 0) :
    add64 l BITS_PER_VALUE = l + BITS_PER_VALUE := by
  have hz : mask.GetValidityEntry (l / 64) = 0 := by
    have := hc.1
    unfold ValidityMask.NoneValid at this
    exact beq_iff_eq.1 this
  have h0 : l % 64 = 0 := hc.2
  have := hskip l hl h0 hz
  unfold add64 BITS_PER_VALUE
  omega

/-- No skip wraps when the range ends at or before `2^64 - 64`. -/
theorem skip_of_le (mask : ValidityMask) (r : Nat) (h : r ≤ 2 ^ 64 - 64) :
    ∀ l, l < r → l % 64 = 0 → mask.GetValidityEntry (l / 64) = 0 → l + 64 < 2 ^ 64 := by
  intro l hl _ _
  omega

/-- No skip wraps on a mask without a blank block, such as a mask without a buffer. -/
theorem skip_of_fit (mask : ValidityMask) (r : Nat)
    (h : mask.AllValid = true ∨ r ≤ 2 ^ 64 - 64) :
    ∀ l, l < r → l % 64 = 0 → mask.GetValidityEntry (l / 64) = 0 → l + 64 < 2 ^ 64 := by
  intro l hl _ hz
  rcases h with h | h
  · exfalso
    unfold ValidityMask.AllValid at h
    unfold ValidityMask.GetValidityEntry at hz
    cases hm : mask.validity_mask with
    | none =>
      rw [hm] at hz
      simp at hz
    | some w =>
      rw [hm] at h
      cases h
  · omega

end Window

namespace Window
open ValidityMask

/-! ## Range of the indices returned by the mask scans -/

theorem FindNextStartBlock_found_range (block r : Nat) :
    ∀ (fuel shift l n idx n1 : Nat),
      FindNextStartBlock block r fuel shift l n = .found idx n1 → l ≤ idx ∧ idx < r := by
  intro fuel
  induction fuel with
  | zero => intro shift l n idx n1 h; simp [FindNextStartBlock] at h
  | succ fuel ih =>
    intro shift l n idx n1 h
    unfold FindNextStartBlock at h
    split at h
    · rename_i hc
      split at h
      · split at h
        · injection h with h1 h2
          subst h1
          have := hc.2
          constructor <;> omega
        · have := ih _ _ _ _ _ h
          omega
      · have := ih _ _ _ _ _ h
        omega
    · cases h

theorem FindNextStartBlock_next_range (block r : Nat) :
    ∀ (fuel shift l n l1 n1 : Nat),
      FindNextStartBlock block r fuel shift l n = .next l1 n1 → l ≤ l1 := by
  intro fuel
  induction fuel with
  | zero =>
    intro shift l n l1 n1 h
    simp [FindNextStartBlock] at h
    omega
  | succ fuel ih =>
    intro shift l n l1 n1 h
    unfold FindNextStartBlock at h
    split at h
    · split at h
      · split at h
        · cases h
        · have := ih _ _ _ _ _ h
          omega
      · have := ih _ _ _ _ _ h
        omega
    · injection h with h1 h2
      omega

theorem FindNextStartLoop_range (mask : ValidityMask) (r : Nat)
    (hskip : ∀ l, l < r → l % 64 = 0 → mask.GetValidityEntry (l / 64) = 0 → l + 64 < 2 ^ 64) :
    ∀ (fuel l n : Nat),
      min l r ≤ (FindNextStartLoop mask r fuel l n).1 ∧ (FindNextStartLoop mask r fuel l n).1 ≤ r := by
  intro fuel
  induction fuel with
  | zero => intro l n; simp [FindNextStartLoop]
  | succ fuel ih =>
    intro l n
    unfold FindNextStartLoop
    split
    · rename_i hlr
      simp only []
      split
      · rename_i hc
        rw [add64_skip mask r l hskip hlr hc]
        have := ih (l + BITS_PER_VALUE) n
        constructor <;> omega
      · split
        · rename_i idx n1 hb
          have := FindNextStartBlock_found_range _ _ _ _ _ _ _ _ hb
          simp only []
          constructor <;> omega
        · rename_i l1 n1 hb
          have h1 := FindNextStartBlock_next_range _ _ _ _ _ _ _ _ hb
          have := ih l1 n1
          constructor <;> omega
    · simp

/-- The index returned by `FindNextStart` for a count `n ≥ 1` lies in `[l, r]`, when the
sum `l + n - 1` and the skips of blank blocks do not wrap. -/
theorem FindNextStart_range (mask : ValidityMask) (l r n : Nat) (hlr : l ≤ r) (hn : 1 ≤ n)
    (h64 : l + n - 1 < 2 ^ 64)
    (hskip : ∀ l, l < r → l % 64 = 0 → mask.GetValidityEntry (l / 64) = 0 →
      l + 64 < 2 ^ 64) :
    l ≤ (FindNextStart mask l r n).1 ∧ (FindNextStart mask l r n).1 ≤ r := by
  unfold FindNextStart
  split
  · simp only [sub64_add64_one l n hn h64]
    constructor <;> omega
  · have := FindNextStartLoop_range mask r hskip (r - l) l n
    constructor <;> omega

end Window

namespace Window
open ValidityMask

/-! ## The fuel of the loops is sufficient

Every loop of the embedding gets a fuel that bounds its number of iterations. The lemmas
below show that the bound supplied by the top-level functions is never exhausted: any
larger fuel gives the same result. -/

theorem FindNextStartBlock_fuel (block r : Nat) :
    ∀ (fuel1 fuel2 shift l n : Nat), BITS_PER_VALUE ≤ shift + fuel1 →
      BITS_PER_VALUE ≤ shift + fuel2 →
      FindNextStartBlock block r fuel1 shift l n = FindNextStartBlock block r fuel2 shift l n := by
  intro fuel1
  induction fuel1 with
  | zero =>
    intro fuel2 shift l n h1 _
    cases fuel2 with
    | zero => rfl
    | succ fuel2 =>
      rw [FindNextStartBlock, FindNextStartBlock, if_neg (by omega)]
  | succ fuel1 ih =>
    intro fuel2 shift l n h1 h2
    cases fuel2 with
    | zero =>
      rw [FindNextStartBlock, FindNextStartBlock, if_neg (by omega)]
    | succ fuel2 =>
      rw [FindNextStartBlock, FindNextStartBlock]
      rw [ih fuel2 (shift + 1) (l + 1) (decr64 n) (by omega) (by omega),
        ih fuel2 (shift + 1) (l + 1) n (by omega) (by omega)]

theorem FindNextStartBlock_next_advance (block r shift l n l1 n1 : Nat) (hl : l < r)
    (hs : shift < BITS_PER_VALUE)
    (h : FindNextStartBlock block r BITS_PER_VALUE shift l n = .next l1 n1) : l < l1 := by
  rw [show BITS_PER_VALUE = 63 + 1 from rfl, FindNextStartBlock,
    if_pos ⟨hs, hl⟩] at h
  split at h
  · split at h
    · cases h
    · have := FindNextStartBlock_next_range _ _ _ _ _ _ _ _ h
      omega
  · have := FindNextStartBlock_next_range _ _ _ _ _ _ _ _ h
    omega

/-- The outer loop of `FindNextStart` does not depend on the fuel once it is at least
`r - l`, when no skip of a blank block wraps. -/
theorem FindNextStartLoop_fuel (mask : ValidityMask) (r : Nat)
    (hskip : ∀ l, l < r → l % 64 = 0 → mask.GetValidityEntry (l / 64) = 0 → l + 64 < 2 ^ 64) :
    ∀ (fuel1 fuel2 l n : Nat), r - l ≤ fuel1 → r - l ≤ fuel2 →
      FindNextStartLoop mask r fuel1 l n = FindNextStartLoop mask r fuel2 l n := by
  intro fuel1
  induction fuel1 with
  | zero =>
    intro fuel2 l n h1 _
    cases fuel2 with
    | zero => rfl
    | succ fuel2 => rw [FindNextStartLoop, FindNextStartLoop, if_neg (by omega)]
  | succ fuel1 ih =>
    intro fuel2 l n h1 h2
    cases fuel2 with
    | zero => rw [FindNextStartLoop, FindNextStartLoop, if_neg (by omega)]
    | succ fuel2 =>
      rw [FindNextStartLoop, FindNextStartLoop]
      by_cases hl : l < r
      · rw [if_pos hl, if_pos hl]
        simp only []
        split
        · rename_i hc
          rw [add64_skip mask r l hskip hl hc]
          exact ih fuel2 _ n (by unfold BITS_PER_VALUE; omega) (by unfold BITS_PER_VALUE; omega)
        · split
          · rfl
          · rename_i l1 n1 hb
            have := FindNextStartBlock_next_advance _ _ _ _ _ _ _ hl
              (by simp only [GetEntryIndex]; exact Nat.mod_lt _ (by decide)) hb
            exact ih fuel2 l1 n1 (by omega) (by omega)
      · rw [if_neg hl, if_neg hl]

theorem FindPrevStartBlock_next_value (block l : Nat) :
    ∀ (k r n r1 n1 : Nat), FindPrevStartBlock block l k r n = .next r1 n1 → r1 = r - k := by
  intro k
  induction k with
  | zero =>
    intro r n r1 n1 h
    rw [FindPrevStartBlock] at h
    injection h with h1 _
    omega
  | succ k ih =>
    intro r n r1 n1 h
    rw [FindPrevStartBlock] at h
    split at h
    · split at h
      · cases h
      · have := ih _ _ _ _ h
        omega
    · have := ih _ _ _ _ h
      omega

/-- The outer loop of `FindPrevStart` does not depend on the fuel once it is at least
`r - l`. -/
theorem FindPrevStartLoop_fuel (mask : ValidityMask) (l : Nat) :
    ∀ (fuel1 fuel2 r n : Nat), r - l ≤ fuel1 → r - l ≤ fuel2 →
      FindPrevStartLoop mask l fuel1 r n = FindPrevStartLoop mask l fuel2 r n := by
  intro fuel1
  induction fuel1 with
  | zero =>
    intro fuel2 r n h1 _
    cases fuel2 with
    | zero => rfl
    | succ fuel2 => rw [FindPrevStartLoop, FindPrevStartLoop, if_neg (by omega)]
  | succ fuel1 ih =>
    intro fuel2 r n h1 h2
    cases fuel2 with
    | zero => rw [FindPrevStartLoop, FindPrevStartLoop, if_neg (by omega)]
    | succ fuel2 =>
      rw [FindPrevStartLoop, FindPrevStartLoop]
      by_cases hl : l < r
      · rw [if_pos hl, if_pos hl]
        simp only []
        split
        · exact ih fuel2 _ n (by unfold BITS_PER_VALUE; omega) (by unfold BITS_PER_VALUE; omega)
        · split
          · rfl
          · rename_i r1 n1 hb
            have := FindPrevStartBlock_next_value _ _ _ _ _ _ _ hb
            exact ih fuel2 r1 n1 (by omega) (by omega)
      · rw [if_neg hl, if_neg hl]

/-- The loop of `std::lower_bound` does not depend on the fuel once it is at least the
distance `count`. -/
theorem lower_bound_loop_fuel (over : WindowInputColumn) (comp : Int → Int → Bool) (val : Int) :
    ∀ (fuel1 fuel2 first count : Nat), count ≤ fuel1 → count ≤ fuel2 →
      lower_bound_loop over comp val fuel1 first count =
        lower_bound_loop over comp val fuel2 first count := by
  intro fuel1
  induction fuel1 with
  | zero =>
    intro fuel2 first count h1 _
    cases fuel2 with
    | zero => rfl
    | succ fuel2 => rw [lower_bound_loop, lower_bound_loop, if_neg (by omega)]
  | succ fuel1 ih =>
    intro fuel2 first count h1 h2
    cases fuel2 with
    | zero => rw [lower_bound_loop, lower_bound_loop, if_neg (by omega)]
    | succ fuel2 =>
      rw [lower_bound_loop, lower_bound_loop]
      by_cases hc : 0 < count
      · rw [if_pos hc, if_pos hc]
        simp only []
        rw [ih fuel2 _ (count - (count / 2 + 1)) (by omega) (by omega),
          ih fuel2 first (count / 2) (by omega) (by omega)]
      · rw [if_neg hc, if_neg hc]

/-- The loop of `std::upper_bound` does not depend on the fuel once it is at least the
distance `count`. -/
theorem upper_bound_loop_fuel (over : WindowInputColumn) (comp : Int → Int → Bool) (val : Int) :
    ∀ (fuel1 fuel2 first count : Nat), count ≤ fuel1 → count ≤ fuel2 →
      upper_bound_loop over comp val fuel1 first count =
        upper_bound_loop over comp val fuel2 first count := by
  intro fuel1
  induction fuel1 with
  | zero =>
    intro fuel2 first count h1 _
    cases fuel2 with
    | zero => rfl
    | succ fuel2 => rw [upper_bound_loop, upper_bound_loop, if_neg (by omega)]
  | succ fuel1 ih =>
    intro fuel2 first count h1 h2
    cases fuel2 with
    | zero => rw [upper_bound_loop, upper_bound_loop, if_neg (by omega)]
    | succ fuel2 =>
      rw [upper_bound_loop, upper_bound_loop]
      by_cases hc : 0 < count
      · rw [if_pos hc, if_pos hc]
        simp only []
        rw [ih fuel2 _ (count - (count / 2 + 1)) (by omega) (by omega),
          ih fuel2 first (count / 2) (by omega) (by omega)]
      · rw [if_neg hc, if_neg hc]

end Window

namespace Window
open ValidityMask
namespace WindowBoundariesState

/-! ## Shape of the state after `Update` -/

theorem UpdateStart_shape {s s' : WindowBoundariesState} {row_idx chunk_idx : Nat}
    {range : WindowInputColumn} {bs : WindowInputExpression}
    (h : s.UpdateStart row_idx range chunk_idx bs = .ok s') :
    ∃ ws p, s' = { s with window_start := ws, prev := p } := by
  unfold UpdateStart at h
  split at h
  · injection h with h; exact ⟨_, _, h.symm⟩
  · injection h with h; exact ⟨_, _, h.symm⟩
  · injection h with h; exact ⟨_, _, h.symm⟩
  · split at h
    · injection h with h; exact ⟨_, _, h.symm⟩
    · cases h
  · split at h
    · injection h with h; exact ⟨_, _, h.symm⟩
    · cases h
  · split at h
    · injection h with h; exact ⟨_, _, h.symm⟩
    · split at h
      · injection h with h; exact ⟨_, _, h.symm⟩
      · cases h
  · split at h
    · injection h with h; exact ⟨_, _, h.symm⟩
    · split at h
      · injection h with h; exact ⟨_, _, h.symm⟩
      · cases h
  · cases h

theorem UpdateEnd_shape {s s' : WindowBoundariesState} {row_idx chunk_idx : Nat}
    {range : WindowInputColumn} {be : WindowInputExpression}
    (h : s.UpdateEnd row_idx range chunk_idx be = .ok s') :
    ∃ we p, s' = { s with window_end := we, prev := p } := by
  unfold UpdateEnd at h
  split at h
  · injection h with h; exact ⟨_, _, h.symm⟩
  · injection h with h; exact ⟨_, _, h.symm⟩
  · injection h with h; exact ⟨_, _, h.symm⟩
  · split at h
    · injection h with h; exact ⟨_, _, h.symm⟩
    · cases h
  · split at h
    · injection h with h; exact ⟨_, _, h.symm⟩
    · cases h
  · split at h
    · injection h with h; exact ⟨_, _, h.symm⟩
    · split at h
      · injection h with h; exact ⟨_, _, h.symm⟩
      · cases h
  · split at h
    · injection h with h; exact ⟨_, _, h.symm⟩
    · split at h
      · injection h with h; exact ⟨_, _, h.symm⟩
      · cases h
  · cases h

theorem UpdateClamp_shape {s s' : WindowBoundariesState} (h : s.UpdateClamp = .ok s') :
    ∃ ws we, s' = { s with window_start := ws, window_end := we } ∧
      (s.partition_start ≤ s.partition_end →
        (s.partition_start : Int) ≤ ws ∧ ws ≤ (s.partition_end : Int) ∧
        (s.partition_start : Int) ≤ we ∧ we ≤ (s.partition_end : Int)) := by
  unfold UpdateClamp at h
  simp only [] at h
  split_ifs at h <;>
    first
    | (cases h; done)
    | (injection h with h
       subst h
       refine ⟨_, _, rfl, fun hle => ?_⟩
       have hle2 : (s.partition_start : Int) ≤ (s.partition_end : Int) := by exact_mod_cast hle
       refine ⟨?_, ?_, ?_, ?_⟩ <;> omega)

/-- The state after a successful `Update` is the state after its first part with new frame
indices and range hints, and both frame indices lie within the partition. -/
theorem Update_shape {s s' : WindowBoundariesState} {row_idx chunk_idx : Nat}
    {range : WindowInputColumn} {bs be : WindowInputExpression} {pm om : ValidityMask}
    (h : s.Update row_idx range chunk_idx bs be pm om = .ok s') :
    ∃ ws we p,
      s' = { s.UpdatePartition row_idx range pm om with
             window_start := ws, window_end := we, prev := p } ∧
      ((s.UpdatePartition row_idx range pm om).partition_start ≤
          (s.UpdatePartition row_idx range pm om).partition_end →
        ((s.UpdatePartition row_idx range pm om).partition_start : Int) ≤ ws ∧
        ws ≤ ((s.UpdatePartition row_idx range pm om).partition_end : Int) ∧
        ((s.UpdatePartition row_idx range pm om).partition_start : Int) ≤ we ∧
        we ≤ ((s.UpdatePartition row_idx range pm om).partition_end : Int)) := by
  unfold Update at h
  split at h
  · cases h
  · rename_i s2 h2
    split at h
    · cases h
    · rename_i s3 h3
      obtain ⟨ws2, p2, e2⟩ := UpdateStart_shape h2
      obtain ⟨we3, p3, e3⟩ := UpdateEnd_shape h3
      obtain ⟨ws, we, e4, hc⟩ := UpdateClamp_shape h
      subst e2 e3
      refine ⟨ws, we, p3, ?_, ?_⟩
      · rw [e4]
      · intro hle
        exact hc hle

end WindowBoundariesState
end Window

namespace Window
open ValidityMask
namespace WindowBoundariesState

/-! ## The first part of `Update` -/

theorem NewPartition_input_size (s : WindowBoundariesState) (row_idx : Nat)
    (range : WindowInputColumn) (pm om : ValidityMask) :
    (s.NewPartition row_idx range pm om).input_size = s.input_size := by
  unfold NewPartition
  simp only [apply_ite WindowBoundariesState.input_size, ite_self]

theorem NewPartition_partition_start (s : WindowBoundariesState) (row_idx : Nat)
    (range : WindowInputColumn) (pm om : ValidityMask) :
    (s.NewPartition row_idx range pm om).partition_start = row_idx := by
  unfold NewPartition
  simp only [apply_ite WindowBoundariesState.partition_start, ite_self]

theorem NewPartition_peer_start (s : WindowBoundariesState) (row_idx : Nat)
    (range : WindowInputColumn) (pm om : ValidityMask) :
    (s.NewPartition row_idx range pm om).peer_start = row_idx := by
  unfold NewPartition
  simp only [apply_ite WindowBoundariesState.peer_start, ite_self]

theorem NewPartition_partition_end (s : WindowBoundariesState) (row_idx : Nat)
    (range : WindowInputColumn) (pm om : ValidityMask) :
    (s.NewPartition row_idx range pm om).partition_end =
      if s.partition_count ≠ 0 then (FindNextStart pm (row_idx + 1) s.input_size 1).1
      else s.input_size := by
  unfold NewPartition
  simp only [apply_ite WindowBoundariesState.partition_end, ite_self]

theorem NewPartition_needs_peer (s : WindowBoundariesState) (row_idx : Nat)
    (range : WindowInputColumn) (pm om : ValidityMask) :
    (s.NewPartition row_idx range pm om).needs_peer = s.needs_peer := by
  unfold NewPartition
  simp only [apply_ite WindowBoundariesState.needs_peer, ite_self]

theorem NewPartition_order_count (s : WindowBoundariesState) (row_idx : Nat)
    (range : WindowInputColumn) (pm om : ValidityMask) :
    (s.NewPartition row_idx range pm om).order_count = s.order_count := by
  unfold NewPartition
  simp only [apply_ite WindowBoundariesState.order_count, ite_self]

theorem UpdatePartition_input_size (s : WindowBoundariesState) (row_idx : Nat)
    (range : WindowInputColumn) (pm om : ValidityMask) :
    (s.UpdatePartition row_idx range pm om).input_size = s.input_size := by
  unfold UpdatePartition
  simp only [apply_ite WindowBoundariesState.input_size, NewPartition_input_size, ite_self]

theorem UpdatePartition_partition_start (s : WindowBoundariesState) (row_idx : Nat)
    (range : WindowInputColumn) (pm om : ValidityMask) :
    (s.UpdatePartition row_idx range pm om).partition_start =
      if 0 < s.partition_count + s.order_count ∧ pm.RowIsValidUnsafe row_idx = true then row_idx
      else s.partition_start := by
  unfold UpdatePartition
  simp only [apply_ite WindowBoundariesState.partition_start, NewPartition_partition_start,
    ite_self]
  by_cases hk : 0 < s.partition_count + s.order_count <;>
    by_cases hb : pm.RowIsValidUnsafe row_idx = true <;> simp [hk, hb]

theorem UpdatePartition_partition_end (s : WindowBoundariesState) (row_idx : Nat)
    (range : WindowInputColumn) (pm om : ValidityMask) :
    (s.UpdatePartition row_idx range pm om).partition_end =
      if 0 < s.partition_count + s.order_count then
        if pm.RowIsValidUnsafe row_idx = true then
          if s.partition_count ≠ 0 then (FindNextStart pm (row_idx + 1) s.input_size 1).1
          else s.input_size
        else s.partition_end
      else s.input_size := by
  unfold UpdatePartition
  simp only [apply_ite WindowBoundariesState.partition_end, NewPartition_partition_end,
    ite_self]
  by_cases hk : 0 < s.partition_count + s.order_count <;>
    by_cases hb : pm.RowIsValidUnsafe row_idx = true <;> simp [hk, hb]

theorem UpdatePartition_peer_start (s : WindowBoundariesState) (row_idx : Nat)
    (range : WindowInputColumn) (pm om : ValidityMask) :
    (s.UpdatePartition row_idx range pm om).peer_start =
      if 0 < s.partition_count + s.order_count ∧
          (pm.RowIsValidUnsafe row_idx = true ∨ om.RowIsValidUnsafe row_idx = true) then row_idx
      else s.peer_start := by
  unfold UpdatePartition
  simp only [apply_ite WindowBoundariesState.peer_start, NewPartition_peer_start, ite_self]
  by_cases hk : 0 < s.partition_count + s.order_count <;>
    by_cases hb : pm.RowIsValidUnsafe row_idx = true <;>
    by_cases ho : om.RowIsValidUnsafe row_idx = true <;> simp [hk, hb, ho]

theorem UpdatePartition_needs_peer (s : WindowBoundariesState) (row_idx : Nat)
    (range : WindowInputColumn) (pm om : ValidityMask) :
    (s.UpdatePartition row_idx range pm om).needs_peer = s.needs_peer := by
  unfold UpdatePartition
  simp only [apply_ite WindowBoundariesState.needs_peer, NewPartition_needs_peer, ite_self]

/-- The first part of `Update` keeps the partition bounds ordered. -/
theorem UpdatePartition_ordered (s : WindowBoundariesState) (row_idx : Nat)
    (range : WindowInputColumn) (pm om : ValidityMask) (hrow : row_idx < s.input_size)
    (hsz : s.input_size ≤ 2 ^ 64 - 64)
    (h1 : s.partition_start ≤ s.partition_end) (h2 : s.partition_start ≤ s.input_size) :
    (s.UpdatePartition row_idx range pm om).partition_start ≤
        (s.UpdatePartition row_idx range pm om).partition_end ∧
      (s.UpdatePartition row_idx range pm om).partition_start ≤ s.input_size := by
  rw [UpdatePartition_partition_start, UpdatePartition_partition_end]
  have hf := FindNextStart_range pm (row_idx + 1) s.input_size 1 (by omega) (by omega)
    (by omega) (skip_of_le pm _ hsz)
  by_cases hk : 0 < s.partition_count + s.order_count <;>
    by_cases hb : pm.RowIsValidUnsafe row_idx = true <;>
    simp only [hk, hb, and_self, if_true, if_false, true_and, and_false, false_and,
      and_true] <;>
    first
    | omega
    | (split_ifs <;> omega)

theorem Reachable_ordered {wexpr : BoundWindowExpression} {input_size : Nat}
    {range : WindowInputColumn} {pm om : ValidityMask} {s : WindowBoundariesState}
    (h : Reachable wexpr input_size range pm om s) (hsize : input_size ≤ 2 ^ 64 - 64) :
    s.input_size = input_size ∧ s.partition_start ≤ s.partition_end ∧
      s.partition_start ≤ s.input_size := by
  induction h with
  | init => simp [new]
  | @step s0 s1 row_idx chunk_idx bs be _ hrow hupd ih =>
    obtain ⟨ws, we, p, e, _⟩ := Update_shape hupd
    have hsz := UpdatePartition_input_size s0 row_idx range pm om
    have ho := UpdatePartition_ordered s0 row_idx range pm om (by omega) (by omega) ih.2.1
      ih.2.2
    subst e
    simp only []
    refine ⟨by omega, ho.1, by omega⟩

end WindowBoundariesState
end Window

namespace Window
open ValidityMask
open WindowBoundariesState


/-- C1 (counterexample): with the frame `ROWS BETWEEN 1 PRECEDING AND 3 PRECEDING` over one
partition of ten rows, `Bounds` writes at row 5 the indices `partition_begin = 0`,
`window_begin = 4`, `window_end = 3`, `partition_end = 10`, so `window_begin ≤ window_end`
fails. -/
theorem Update_frame_not_ordered :
    frameAt ((WindowBoundariesState.new precedingFrameExpr 10).Bounds (BoundsChunk.fill 0) 0
        .empty 10 (.const 1) (.const 3) (ofWords [1]) (ofWords [1023])) 5 = some (0, 4, 3, 10) ∧
      ¬ FrameOrdered (0, 4, 3, 10) := by
  constructor
  · decide
  · unfold FrameOrdered; decide

/-- C1 (amended): for every state `s` that `Update` has produced so far over an input of
at most `2 ^ 64 - 64` rows and every row below the input size, a call of `Update` that does
not throw leaves both frame indices within the partition:
`partition_start ≤ window_start ≤ partition_end` and
`partition_start ≤ window_end ≤ partition_end`. -/
theorem Update_frame_within_partition {wexpr : BoundWindowExpression} {input_size : Nat}
    {range : WindowInputColumn} {pm om : ValidityMask} {s s' : WindowBoundariesState}
    (hs : Reachable wexpr input_size range pm om s) (hsize : input_size ≤ 2 ^ 64 - 64)
    (row_idx chunk_idx : Nat) (bs be : WindowInputExpression) (hrow : row_idx < input_size)
    (hupd : s.Update row_idx range chunk_idx bs be pm om = .ok s') :
    ((s'.partition_start : Int) ≤ s'.window_start ∧ s'.window_start ≤ (s'.partition_end : Int)) ∧
      ((s'.partition_start : Int) ≤ s'.window_end ∧ s'.window_end ≤ (s'.partition_end : Int)) := by
  obtain ⟨hsz, h1, h2⟩ := Reachable_ordered hs hsize
  obtain ⟨ws, we, p, e, hc⟩ := Update_shape hupd
  have ho := UpdatePartition_ordered s row_idx range pm om (by omega) (by omega) h1 h2
  have := hc ho.1
  subst e
  simp only []
  omega

end Window

namespace Window
open ValidityMask
open WindowBoundariesState

/-- C1 (amended), at a concrete input: the first row of a ten-row partition with the frame
`ROWS BETWEEN 1 PRECEDING AND 3 PRECEDING`. -/
theorem Update_frame_within_partition_witness :
    (Reachable precedingFrameExpr 10 .empty (ofWords [1]) (ofWords [1023])
        (WindowBoundariesState.new precedingFrameExpr 10) ∧ 10 ≤ 2 ^ 64 - 64 ∧ 0 < 10 ∧
      (WindowBoundariesState.new precedingFrameExpr 10).Update 0 .empty 0 (.const 1) (.const 3)
        (ofWords [1]) (ofWords [1023]) = .ok precedingFrameState) ∧
    (((precedingFrameState.partition_start : Int) ≤ precedingFrameState.window_start ∧
        precedingFrameState.window_start ≤ (precedingFrameState.partition_end : Int)) ∧
      ((precedingFrameState.partition_start : Int) ≤ precedingFrameState.window_end ∧
        precedingFrameState.window_end ≤ (precedingFrameState.partition_end : Int))) :=
  ⟨⟨.init, by decide, by decide, rfl⟩,
   @Update_frame_within_partition precedingFrameExpr 10 .empty (ofWords [1]) (ofWords [1023])
     _ _ .init (by decide) 0 0 (.const 1) (.const 3) (by decide) rfl⟩

/-! ## The cells written by `Bounds` -/

namespace WindowBoundariesState

/-- Invariant principle for the loop of `Bounds`: when `Inv row s` holds for the state `s`
before row `row` is processed and every successful `Update` carries it to the next row, then
after the loop the invariant holds for the final state, every written position holds the
cells of a state that satisfies the invariant of its row, and the positions below the first
one are unchanged. -/
theorem BoundsLoop_inv (range : WindowInputColumn) (bs be : WindowInputExpression)
    (pm om : ValidityMask) (Inv : Nat → WindowBoundariesState → Prop)
    (hstep : ∀ row ci s s', Inv row s → s.Update row range ci bs be pm om = .ok s' →
      Inv (row + 1) s') :
    ∀ (k ci row : Nat) (s : WindowBoundariesState) (b : BoundsChunk)
      (s' : WindowBoundariesState) (b' : BoundsChunk),
      Inv row s →
      BoundsLoop range bs be pm om k ci row s b = .ok (s', b') →
      Inv (row + k) s' ∧ b'.AgreeBelow b ci ∧
        ∀ i, i < k → ∃ si, Inv (row + i + 1) si ∧ b'.RowIs (ci + i) si b := by
  intro k
  induction k with
  | zero =>
    intro ci row s b s' b' hinv h
    simp only [BoundsLoop] at h
    injection h with h
    injection h with h1 h2
    subst h1 h2
    refine ⟨hinv, ?_, ?_⟩
    · intro j _; simp
    · intro i hi; omega
  | succ k ih =>
    intro ci row s b s' b' hinv h
    unfold BoundsLoop at h
    split at h
    · cases h
    · rename_i s1 hu
      have hinv1 := hstep _ _ _ _ hinv hu
      obtain ⟨hI, hA, hR⟩ := ih _ _ _ _ _ _ hinv1 h
      refine ⟨by rw [show row + (k + 1) = row + 1 + k by omega]; exact hI, ?_, ?_⟩
      · intro j hj
        have := hA j (by omega)
        have hne : j ≠ ci := by omega
        by_cases hp : s1.needs_peer = true <;> simp [hp, store, hne] at this <;> exact this
      · intro i hi
        cases i with
        | zero =>
          refine ⟨s1, hinv1, ?_⟩
          have := hA ci (by omega)
          unfold BoundsChunk.RowIs
          by_cases hp : s1.needs_peer = true <;> simp [hp, store] at this ⊢ <;>
            simp [this]
        | succ i =>
          obtain ⟨si, h1, h2⟩ := hR i (by omega)
          refine ⟨si, by rw [show row + (i + 1) + 1 = row + 1 + i + 1 by omega]; exact h1, ?_⟩
          rw [show ci + (i + 1) = ci + 1 + i by omega]
          unfold BoundsChunk.RowIs at h2 ⊢
          have hne : ci + 1 + i ≠ ci := by omega
          by_cases hp : s1.needs_peer = true <;> by_cases hq : si.needs_peer = true <;>
            simp [hp, hq, store, hne] at h2 ⊢ <;> exact h2

end WindowBoundariesState
end Window

namespace Window
open ValidityMask
namespace WindowBoundariesState

/-! ## Fields that `Update` keeps or sets -/

theorem NewPartition_shape (s : WindowBoundariesState) (row_idx : Nat)
    (range : WindowInputColumn) (pm om : ValidityMask) :
    ∃ pe vs ve p, s.NewPartition row_idx range pm om =
      { s with partition_start := row_idx, peer_start := row_idx, partition_end := pe,
               valid_start := vs, valid_end := ve, prev := p } := by
  unfold NewPartition
  simp only []
  split_ifs <;> exact ⟨_, _, _, _, rfl⟩

theorem UpdatePartition_shape (s : WindowBoundariesState) (row_idx : Nat)
    (range : WindowInputColumn) (pm om : ValidityMask) :
    ∃ ps pe ks ke vs ve p, s.UpdatePartition row_idx range pm om =
      { s with partition_start := ps, partition_end := pe, peer_start := ks, peer_end := ke,
               valid_start := vs, valid_end := ve, prev := p } := by
  obtain ⟨pe, vs, ve, p, hn⟩ := NewPartition_shape s row_idx range pm om
  unfold UpdatePartition
  rw [hn]
  simp only []
  split_ifs <;> exact ⟨_, _, _, _, _, _, _, rfl⟩

/-- The cached lookups of the state are not changed by `Update`. -/
theorem Update_config {s s' : WindowBoundariesState} {row_idx chunk_idx : Nat}
    {range : WindowInputColumn} {bs be : WindowInputExpression} {pm om : ValidityMask}
    (h : s.Update row_idx range chunk_idx bs be pm om = .ok s') :
    s'.type = s.type ∧ s'.input_size = s.input_size ∧ s'.start_boundary = s.start_boundary ∧
      s'.end_boundary = s.end_boundary ∧ s'.partition_count = s.partition_count ∧
      s'.order_count = s.order_count ∧ s'.range_sense = s.range_sense ∧
      s'.has_preceding_range = s.has_preceding_range ∧
      s'.has_following_range = s.has_following_range ∧ s'.needs_peer = s.needs_peer := by
  obtain ⟨ws, we, p, e, _⟩ := Update_shape h
  obtain ⟨ps, pe, ks, ke, vs, ve, p2, e2⟩ := UpdatePartition_shape s row_idx range pm om
  rw [e2] at e
  subst e
  simp

theorem Update_partition_start {s s' : WindowBoundariesState} {row_idx chunk_idx : Nat}
    {range : WindowInputColumn} {bs be : WindowInputExpression} {pm om : ValidityMask}
    (h : s.Update row_idx range chunk_idx bs be pm om = .ok s') :
    s'.partition_start =
      if 0 < s.partition_count + s.order_count ∧ pm.RowIsValidUnsafe row_idx = true then row_idx
      else s.partition_start := by
  obtain ⟨ws, we, p, e, _⟩ := Update_shape h
  rw [← UpdatePartition_partition_start s row_idx range pm om, e]

theorem Update_peer_start {s s' : WindowBoundariesState} {row_idx chunk_idx : Nat}
    {range : WindowInputColumn} {bs be : WindowInputExpression} {pm om : ValidityMask}
    (h : s.Update row_idx range chunk_idx bs be pm om = .ok s') :
    s'.peer_start =
      if 0 < s.partition_count + s.order_count ∧
          (pm.RowIsValidUnsafe row_idx = true ∨ om.RowIsValidUnsafe row_idx = true) then row_idx
      else s.peer_start := by
  obtain ⟨ws, we, p, e, _⟩ := Update_shape h
  rw [← UpdatePartition_peer_start s row_idx range pm om, e]

theorem Update_partition_end {s s' : WindowBoundariesState} {row_idx chunk_idx : Nat}
    {range : WindowInputColumn} {bs be : WindowInputExpression} {pm om : ValidityMask}
    (h : s.Update row_idx range chunk_idx bs be pm om = .ok s') :
    s'.partition_end =
      if 0 < s.partition_count + s.order_count then
        if pm.RowIsValidUnsafe row_idx = true then
          if s.partition_count ≠ 0 then (FindNextStart pm (row_idx + 1) s.input_size 1).1
          else s.input_size
        else s.partition_end
      else s.input_size := by
  obtain ⟨ws, we, p, e, _⟩ := Update_shape h
  rw [← UpdatePartition_partition_end s row_idx range pm om, e]

/-! ## `Update` without boundary expressions does not throw -/

theorem UpdateClamp_ok (s : WindowBoundariesState) : ∃ s', s.UpdateClamp = .ok s' := by
  unfold UpdateClamp
  simp only []
  split_ifs with h1 h2 h3 h4 h5 <;> first | exact ⟨_, rfl⟩ | (exfalso; omega)

theorem Update_ok_of_plain (s : WindowBoundariesState) (row_idx chunk_idx : Nat)
    (range : WindowInputColumn) (bs be : WindowInputExpression) (pm om : ValidityMask)
    (h1 : s.start_boundary.IsPlainStart) (h2 : s.end_boundary.IsPlainEnd) :
    ∃ s', s.Update row_idx range chunk_idx bs be pm om = .ok s' := by
  obtain ⟨ps, pe, ks, ke, vs, ve, p2, e2⟩ := UpdatePartition_shape s row_idx range pm om
  unfold Update
  rw [e2]
  unfold WindowBoundary.IsPlainStart at h1
  unfold WindowBoundary.IsPlainEnd at h2
  rcases h1 with h1 | h1 | h1 <;> rcases h2 with h2 | h2 | h2 <;>
    simp only [UpdateStart, UpdateEnd, h1, h2] <;> exact UpdateClamp_ok _

theorem BoundsLoop_ok_of_plain (range : WindowInputColumn) (bs be : WindowInputExpression)
    (pm om : ValidityMask) :
    ∀ (k ci row : Nat) (s : WindowBoundariesState) (b : BoundsChunk),
      s.start_boundary.IsPlainStart → s.end_boundary.IsPlainEnd →
      ∃ sb, BoundsLoop range bs be pm om k ci row s b = .ok sb := by
  intro k
  induction k with
  | zero => intro ci row s b _ _; exact ⟨_, rfl⟩
  | succ k ih =>
    intro ci row s b h1 h2
    obtain ⟨s1, hu⟩ := Update_ok_of_plain s row ci range bs be pm om h1 h2
    have hc := Update_config hu
    unfold BoundsLoop
    rw [hu]
    simp only []
    apply ih
    · rw [hc.2.2.1]; exact h1
    · rw [hc.2.2.2.1]; exact h2

end WindowBoundariesState
end Window

namespace Window
open ValidityMask
open WindowBoundariesState

/-! ## ROW_NUMBER -/

theorem lastStart_simple (pm : ValidityMask) (h : ∀ i, 0 < i → pm.RowIsValidUnsafe i = false) :
    ∀ r, lastStart pm r = 0 := by
  intro r
  induction r with
  | zero => rfl
  | succ r ih => simp [lastStart, h (r + 1) (by omega), ih]

theorem PartInv_step (pm om : ValidityMask) (pc oc : Nat) (range : WindowInputColumn)
    (bs be : WindowInputExpression)
    (hkeys : 0 < pc + oc ∨ ∀ i, 0 < i → pm.RowIsValidUnsafe i = false) :
    ∀ row ci s s', PartInv pm pc oc row s → s.Update row range ci bs be pm om = .ok s' →
      PartInv pm pc oc (row + 1) s' := by
  intro row ci s s' hinv hu
  obtain ⟨h1, h2, h3⟩ := hinv
  have hc := Update_config hu
  have hp := Update_partition_start hu
  refine ⟨by rw [hc.2.2.2.2.1, h1], by rw [hc.2.2.2.2.2.1, h2], ?_⟩
  rw [hp, h1, h2, h3, Nat.add_sub_cancel]
  cases row with
  | zero =>
    simp only [lastStart]
    split_ifs <;> rfl
  | succ r =>
    simp only [Nat.add_sub_cancel, lastStart]
    rcases hkeys with hk | hk
    · simp [hk]
    · have := hk (r + 1) (by omega)
      simp [this]

theorem lastStart_run (pm : ValidityMask) (p : Nat) (hp : pm.RowIsValidUnsafe p = true) :
    ∀ j, (∀ i, p < i → i < p + j + 1 → pm.RowIsValidUnsafe i = false) →
      lastStart pm (p + j) = p := by
  intro j
  induction j with
  | zero =>
    intro _
    cases p with
    | zero => rfl
    | succ p => simp [lastStart, hp]
  | succ j ih =>
    intro h
    have h1 := h (p + (j + 1)) (by omega) (by omega)
    have h2 := ih (fun i hi hi2 => h i hi (by omega))
    rw [show p + (j + 1) = (p + j) + 1 by omega] at h1 ⊢
    simp [lastStart, h1, h2]

theorem RowNumberLoop_eq (b : BoundsChunk) :
    ∀ k i row, WindowExecutor.RowNumberLoop b k i row =
      (List.range k).map
        (fun j => some (((row + j : Nat) : Int) - (b.partition_begin (i + j) : Int) + 1)) := by
  intro k
  induction k with
  | zero => intro i row; rfl
  | succ k ih =>
    intro i row
    rw [WindowExecutor.RowNumberLoop, ih, List.range_succ_eq_map, List.map_cons, List.map_map]
    congr 1
    apply List.map_congr_left
    intro j _
    simp only [Function.comp, Nat.succ_eq_add_one]
    rw [show row + 1 + j = row + (j + 1) by omega, show i + 1 + j = i + (j + 1) by omega]

end Window

namespace Window
open ValidityMask
open WindowBoundariesState

/-! ## RANK and DENSE_RANK -/

theorem lastStart_le (m : ValidityMask) : ∀ r, lastStart m r ≤ r := by
  intro r
  induction r with
  | zero => simp [lastStart]
  | succ r ih =>
    simp only [lastStart]
    split_ifs <;> omega

theorem lastStart_eq_self (m : ValidityMask) (h0 : m.RowIsValidUnsafe 0 = true) :
    ∀ r, lastStart m r = r ↔ m.RowIsValidUnsafe r = true := by
  intro r
  cases r with
  | zero => simp [lastStart, h0]
  | succ r =>
    have := lastStart_le m r
    simp only [lastStart]
    split_ifs with hb
    · simp [hb]
    · constructor
      · intro h; omega
      · intro h; exact absurd h hb

theorem PeerInv_step (pm om : ValidityMask) (pc oc : Nat) (range : WindowInputColumn)
    (bs be : WindowInputExpression) (hsub : ∀ i, pm.RowIsValidUnsafe i = true →
      om.RowIsValidUnsafe i = true)
    (hkeys : 0 < pc + oc ∨ SimpleMasks pm om) :
    ∀ row ci s s', PeerInv pm om pc oc row s → s.Update row range ci bs be pm om = .ok s' →
      PeerInv pm om pc oc (row + 1) s' := by
  intro row ci s s' hinv hu
  obtain ⟨h1, h2, h3, h4, h5⟩ := hinv
  have hc := Update_config hu
  have hp := Update_partition_start hu
  have hk := Update_peer_start hu
  refine ⟨by rw [hc.2.2.2.2.1, h1], by rw [hc.2.2.2.2.2.1, h2],
    by rw [hc.2.2.2.2.2.2.2.2.2, h3], ?_, ?_⟩
  · rw [hp, h1, h2, h4, Nat.add_sub_cancel]
    cases row with
    | zero =>
      simp only [lastStart]
      split_ifs <;> rfl
    | succ r =>
      simp only [Nat.add_sub_cancel, lastStart]
      rcases hkeys with hk | hk
      · simp [hk]
      · have := (hk (r + 1) (by omega)).1
        simp [this]
  · rw [hk, h1, h2, h5, Nat.add_sub_cancel]
    cases row with
    | zero =>
      simp only [lastStart]
      split_ifs <;> rfl
    | succ r =>
      simp only [Nat.add_sub_cancel, lastStart]
      rcases hkeys with hk | hk
      · by_cases ho : om.RowIsValidUnsafe (r + 1) = true
        · simp [hk, ho]
        · have hpm : ¬ pm.RowIsValidUnsafe (r + 1) = true := fun h => ho (hsub _ h)
          simp [ho, hpm]
      · have := hk (r + 1) (by omega)
        simp [this.1, this.2]

theorem countSet_succ (m : ValidityMask) (a k : Nat) :
    countSet m a (k + 1) = countSet m a k + (if m.RowIsValidUnsafe (a + k) then 1 else 0) := rfl

/-- One step of the dense rank: at the first row of a partition the count is 1, otherwise
it grows by one exactly at a set bit of the order mask. -/
theorem denseRankAt_step (pm om : ValidityMask) (hinv : MaskInvariants pm om) (r : Nat) :
    denseRankAt pm om r =
      if lastStart pm r = r then 1
      else if lastStart om r = r then denseRankAt pm om (r - 1) + 1
      else denseRankAt pm om (r - 1) := by
  obtain ⟨hp0, ho0, hsub⟩ := hinv
  cases r with
  | zero => simp [denseRankAt, lastStart, countSet, ho0]
  | succ r =>
    have hle := lastStart_le pm r
    have hpe := lastStart_eq_self pm hp0 (r + 1)
    have hoe := lastStart_eq_self om ho0 (r + 1)
    by_cases hb : pm.RowIsValidUnsafe (r + 1) = true
    · have ho := hsub _ hb
      have h1 : lastStart pm (r + 1) = r + 1 := hpe.2 hb
      simp [denseRankAt, h1, countSet, ho]
    · have h1 : lastStart pm (r + 1) = lastStart pm r := by simp [lastStart, hb]
      have h2 : lastStart pm (r + 1) ≠ r + 1 := fun h => hb (hpe.1 h)
      have h3 : r + 1 + 1 - lastStart pm r = (r + 1 - lastStart pm r) + 1 := by omega
      have h4 : lastStart pm r + (r + 1 - lastStart pm r) = r + 1 := by omega
      simp only [denseRankAt, h1, Nat.add_sub_cancel]
      rw [if_neg (by rw [← h1]; exact h2), h3, countSet_succ, h4]
      by_cases ho : om.RowIsValidUnsafe (r + 1) = true
      · rw [if_pos (hoe.2 ho)]; simp [ho]
      · rw [if_neg (fun h => ho (hoe.1 h))]; simp [ho]

/-- The loop of `DenseRank` on a chunk whose partition and peer columns follow the masks
writes `denseRankAt` at every row. -/
theorem DenseRankLoop_eq (pm om : ValidityMask) (hinv : MaskInvariants pm om)
    (b : BoundsChunk) :
    ∀ k i row (ex : WindowExecutor),
      (row = 0 ∨ ex.dense_rank = denseRankAt pm om (row - 1)) →
      (∀ j, j < k → b.partition_begin (i + j) = lastStart pm (row + j) ∧
        b.peer_begin (i + j) = lastStart om (row + j)) →
      (WindowExecutor.DenseRankLoop b k i row ex).2 =
        (List.range k).map (fun j => some ((denseRankAt pm om (row + j) : Nat) : Int)) := by
  intro k
  induction k with
  | zero => intro i row ex _ _; rfl
  | succ k ih =>
    intro i row ex hex hb
    have hb0 := hb 0 (by omega)
    simp only [Nat.add_zero] at hb0
    have hd : (ex.NextRank (b.partition_begin i) (b.peer_begin i) row).dense_rank =
        denseRankAt pm om row := by
      rw [denseRankAt_step pm om hinv row, hb0.1, hb0.2]
      unfold WindowExecutor.NextRank
      simp only []
      by_cases h1 : lastStart pm row = row
      · simp [h1]
      · have hrow : row ≠ 0 := by
          intro h; subst h; exact h1 rfl
        have hex2 : ex.dense_rank = denseRankAt pm om (row - 1) := by
          rcases hex with h | h
          · exact absurd h hrow
          · exact h
        by_cases h2 : lastStart om row = row
        · simp [h1, h2, hex2]
        · simp [h1, h2, hex2]
    rw [WindowExecutor.DenseRankLoop]
    simp only []
    rw [ih (i + 1) (row + 1) _ (Or.inr (by rw [Nat.add_sub_cancel]; exact hd))
      (fun j hj => by
        have := hb (j + 1) (by omega)
        rw [show i + 1 + j = i + (j + 1) by omega, show row + 1 + j = row + (j + 1) by omega]
        exact this)]
    rw [hd, List.range_succ_eq_map, List.map_cons, List.map_map]
    congr 1
    apply List.map_congr_left
    intro j _
    simp only [Function.comp, Nat.succ_eq_add_one]
    rw [show row + 1 + j = row + (j + 1) by omega]

end Window

namespace Window
open ValidityMask
open WindowBoundariesState

/-- A mask of a single word has no set bit at or after position 64. -/
theorem ofWords_single_lt (w i : Nat) (h : (ofWords [w]).RowIsValidUnsafe i = true) :
    i < 64 := by
  by_contra hge
  obtain ⟨k, hk⟩ : ∃ k, i / 64 = k + 1 := ⟨i / 64 - 1, by omega⟩
  simp [RowIsValidUnsafe, GetEntryIndex, GetValidityEntry, ofWords, BITS_PER_VALUE,
    EntryRowIsValid, hk] at h

/-- Inclusion of two single-word masks follows from inclusion on the first 64 positions. -/
theorem ofWords_single_sub (w1 w2 : Nat)
    (h : ∀ i, i < 64 → (ofWords [w1]).RowIsValidUnsafe i = true →
      (ofWords [w2]).RowIsValidUnsafe i = true) :
    ∀ i, (ofWords [w1]).RowIsValidUnsafe i = true → (ofWords [w2]).RowIsValidUnsafe i = true :=
  fun i hi => h i (ofWords_single_lt w1 i hi) hi

theorem denseRankAt_first_group (pm om : ValidityMask) (hinv : MaskInvariants pm om) :
    ∀ r, lastStart om r = lastStart pm r → denseRankAt pm om r = 1 := by
  intro r
  induction r with
  | zero => intro _; simp [denseRankAt, lastStart, countSet, hinv.2.1]
  | succ r ih =>
    intro h
    rw [denseRankAt_step pm om hinv]
    by_cases h1 : lastStart pm (r + 1) = r + 1
    · simp [h1]
    · have h2 : lastStart om (r + 1) ≠ r + 1 := by rw [h]; exact h1
      rw [if_neg h1, if_neg h2, Nat.add_sub_cancel]
      apply ih
      have hp := (lastStart_eq_self pm hinv.1 (r + 1)).not.1 h1
      have ho := (lastStart_eq_self om hinv.2.1 (r + 1)).not.1 h2
      simp only [lastStart, hp, ho] at h
      simpa using h

end Window

namespace Window
open ValidityMask
open WindowBoundariesState

/-- The cells written by the loop of `Rank` depend on the chunk only through its
PARTITION_BEGIN and PEER_BEGIN columns, and on the executor only through its counters. -/
theorem RankLoop_congr (b b' : BoundsChunk) :
    ∀ k i row (ex ex' : WindowExecutor),
      ex.rank = ex'.rank → ex.rank_equal = ex'.rank_equal →
      (∀ j, j < k → b.partition_begin (i + j) = b'.partition_begin (i + j) ∧
        b.peer_begin (i + j) = b'.peer_begin (i + j)) →
      (WindowExecutor.RankLoop b k i row ex).2 = (WindowExecutor.RankLoop b' k i row ex').2 := by
  intro k
  induction k with
  | zero => intro i row ex ex' _ _ _; rfl
  | succ k ih =>
    intro i row ex ex' h1 h2 hb
    have hb0 := hb 0 (by omega)
    simp only [Nat.add_zero] at hb0
    rw [WindowExecutor.RankLoop, WindowExecutor.RankLoop]
    simp only []
    have hr : (ex.NextRank (b.partition_begin i) (b.peer_begin i) row).rank =
        (ex'.NextRank (b'.partition_begin i) (b'.peer_begin i) row).rank := by
      rw [hb0.1, hb0.2]
      unfold WindowExecutor.NextRank
      simp only []
      split_ifs <;> simp [h1, h2]
    have hq : (ex.NextRank (b.partition_begin i) (b.peer_begin i) row).rank_equal =
        (ex'.NextRank (b'.partition_begin i) (b'.peer_begin i) row).rank_equal := by
      rw [hb0.1, hb0.2]
      unfold WindowExecutor.NextRank
      simp only []
      split_ifs <;> simp [h2]
    rw [hr, ih (i + 1) (row + 1) _ _ hr hq (fun j hj => by
      have := hb (j + 1) (by omega)
      rw [show i + 1 + j = i + (j + 1) by omega]
      exact this)]

/-- When the end bound is not a RANGE bound, `RANK` does not depend on the order mask: the
PEER_BEGIN column keeps what the chunk held before. -/
theorem Rank_independent_of_order_mask (wexpr : BoundWindowExpression) (count : Nat)
    (b0 : BoundsChunk) (payload : Nat → Nat → Option Int)
    (off dflt bs be : WindowInputExpression) (range : WindowInputColumn) (ign : ValidityMask)
    (agg : Nat → Nat → Option Int) (pm om1 om2 : ValidityMask)
    (htype : wexpr.type = .WINDOW_RANK) (hstart : wexpr.start.IsPlainStart)
    (hend : wexpr.end_boundary = .CURRENT_ROW_ROWS ∨ wexpr.end_boundary = .UNBOUNDED_FOLLOWING)
    (hkeys : 0 < wexpr.partitions + wexpr.orders.length) :
    resultCells ((WindowExecutor.new wexpr count b0 payload off dflt bs be range ign
        agg).Evaluate 0 count pm om1) =
      resultCells ((WindowExecutor.new wexpr count b0 payload off dflt bs be range ign
        agg).Evaluate 0 count pm om2) := by
  have hplain : wexpr.end_boundary.IsPlainEnd := by
    rcases hend with h | h
    · exact Or.inl h
    · exact Or.inr (Or.inr h)
  have hnp : (WindowBoundariesState.new wexpr count).needs_peer = false := by
    rcases hend with h | h <;> simp [WindowBoundariesState.new, h, BoundaryNeedsPeer, htype]
  have key : ∀ om sb, BoundsLoop range bs be pm om count 0 0
      (WindowBoundariesState.new wexpr count) b0 = .ok sb →
      ∀ j, j < count → sb.2.partition_begin (0 + j) = lastStart pm j ∧
        sb.2.peer_begin (0 + j) = b0.peer_begin j := by
    intro om sb hb j hj
    obtain ⟨_, _, hR⟩ := BoundsLoop_inv range bs be pm om
      (fun row s => PartInv pm wexpr.partitions wexpr.orders.length row s ∧ s.needs_peer = false)
      (fun row ci s s' hinv hu =>
        ⟨PartInv_step pm om _ _ range bs be (Or.inl hkeys) row ci s s' hinv.1 hu,
          by rw [(Update_config hu).2.2.2.2.2.2.2.2.2, hinv.2]⟩)
      count 0 0 _ b0 sb.1 sb.2 ⟨⟨rfl, rfl, rfl⟩, hnp⟩ hb
    obtain ⟨si, hi, hrow⟩ := hR j hj
    unfold BoundsChunk.RowIs at hrow
    have hps := hi.1.2.2
    simp only [hi.2, Nat.zero_add, Nat.add_sub_cancel] at hrow hps
    rw [Nat.zero_add, hrow.1, hps]
    exact ⟨rfl, by simpa using hrow.2.2.2.2.1⟩
  obtain ⟨sb1, hb1⟩ := BoundsLoop_ok_of_plain range bs be pm om1 count 0 0
    (WindowBoundariesState.new wexpr count) b0 hstart hplain
  obtain ⟨sb2, hb2⟩ := BoundsLoop_ok_of_plain range bs be pm om2 count 0 0
    (WindowBoundariesState.new wexpr count) b0 hstart hplain
  simp only [WindowExecutor.Evaluate, WindowExecutor.new, Bounds, hb1, hb2, htype,
    WindowExecutor.Rank, resultCells, WindowExecutor.ResultVector.cells]
  congr 1
  refine RankLoop_congr _ _ count 0 0 _ _ ?_ ?_ ?_
  · rfl
  · rfl
  intro j hj
  have h1 := key om1 sb1 hb1 j hj
  have h2 := key om2 sb2 hb2 j hj
  rw [h1.1, h1.2, h2.1, h2.2]
  exact ⟨rfl, rfl⟩

/-- C3 (the code at the failing input): `RANK() OVER (ORDER BY o ROWS BETWEEN UNBOUNDED
PRECEDING AND CURRENT ROW)` on `o = [10, 20, 20, 30]`. The end bound is not a RANGE bound, so
`needs_peer` is off and `Bounds` never writes the PEER_BEGIN column that `Rank` reads: with a
zero-filled `bounds` chunk the result is `[1, 1, 1, 1]`, whereas the same function with the
default frame gives `[1, 2, 2, 4]`; and whatever the chunk held when it was allocated, the
result for `o = [10, 20, 20, 30]` is that for `o = [10, 10, 10, 10]`. -/
theorem Rank_rows_frame_reads_unwritten_peers :
    resultCells ((plainExecutor rankRowsExpr 4).Evaluate 0 4 (ofWords [1]) (ofWords [11])) =
        some [some 1, some 1, some 1, some 1] ∧
      resultCells ((plainExecutor rankExpr 4).Evaluate 0 4 (ofWords [1]) (ofWords [11])) =
        some [some 1, some 2, some 2, some 4] ∧
      ∀ b0 : BoundsChunk,
        resultCells ((WindowExecutor.new rankRowsExpr 4 b0 (fun _ _ => none) (.const 1) .null
            (.const 0) (.const 0) .empty .allValid (fun _ _ => none)).Evaluate 0 4 (ofWords [1])
            (ofWords [11])) =
          resultCells ((WindowExecutor.new rankRowsExpr 4 b0 (fun _ _ => none) (.const 1) .null
            (.const 0) (.const 0) .empty .allValid (fun _ _ => none)).Evaluate 0 4 (ofWords [1])
            (ofWords [1])) :=
  ⟨by decide, by decide, fun b0 =>
    Rank_independent_of_order_mask rankRowsExpr 4 b0 _ _ _ _ _ _ _ _ _ _ _ rfl (Or.inl rfl)
      (Or.inl rfl) (by decide)⟩

end Window

namespace Window
open ValidityMask
open WindowBoundariesState

/-! ## NTILE -/

/-- The local variables of `Ntile` for a natural argument `B` at a row of the partition are the
natural-number quantities of the formula. -/
theorem NtileCompute_nat (B pb pe r : Nat) (h1 : pb ≤ r) (h2 : r < pe) :
    WindowExecutor.NtileCompute (B : Int) pb pe r =
      { n_total := ((pe - pb : Nat) : Int)
        n_param := ((min B (pe - pb) : Nat) : Int)
        n_size := (((pe - pb) / min B (pe - pb) : Nat) : Int)
        adjusted_row_idx := ((r - pb : Nat) : Int)
        n_large := ((pe - pb - min B (pe - pb) * ((pe - pb) / min B (pe - pb)) : Nat) : Int)
        i_small := (((pe - pb - min B (pe - pb) * ((pe - pb) / min B (pe - pb))) *
          ((pe - pb) / min B (pe - pb) + 1) : Nat) : Int)
        result_ntile := ((ntileValue (pe - pb) B (r - pb) : Nat) : Int) } := by
  have hN : (pe : Int) - (pb : Int) = ((pe - pb : Nat) : Int) := by omega
  have hj : (r : Int) - (pb : Int) = ((r - pb : Nat) : Int) := by omega
  generalize hNd : pe - pb = N at *
  generalize hjd : r - pb = j at *
  have hBc : (if (B : Int) > (N : Int) then (N : Int) else (B : Int)) = ((min B N : Nat) : Int) := by
    split_ifs <;> omega
  generalize hBcd : min B N = Bc at *
  have hle : Bc * (N / Bc) ≤ N := Nat.mul_div_le N Bc
  have hlarge : (N : Int) - (Bc : Int) * ((N / Bc : Nat) : Int) =
      ((N - Bc * (N / Bc) : Nat) : Int) := by
    push_cast [Nat.cast_sub hle]
    rfl
  unfold WindowExecutor.NtileCompute
  simp only [hN, hj, hBc, ← Int.ofNat_tdiv, hlarge]
  have hsmall : ((N - Bc * (N / Bc) : Nat) : Int) * (((N / Bc : Nat) : Int) + 1) =
      (((N - Bc * (N / Bc)) * (N / Bc + 1) : Nat) : Int) := by norm_cast
  have hsucc : ((N / Bc : Nat) : Int) + 1 = ((N / Bc + 1 : Nat) : Int) := by norm_cast
  rw [hsmall]
  congr 1
  unfold ntileValue
  rw [hBcd]
  by_cases hlt : j < (N - Bc * (N / Bc)) * (N / Bc + 1)
  · rw [if_pos hlt, if_pos (by exact_mod_cast hlt), hsucc, ← Int.ofNat_tdiv]
    norm_cast
  · have hsub : (j : Int) - (((N - Bc * (N / Bc)) * (N / Bc + 1) : Nat) : Int) =
        ((j - (N - Bc * (N / Bc)) * (N / Bc + 1) : Nat) : Int) := by omega
    rw [if_neg hlt, if_neg (by exact_mod_cast hlt), hsub, ← Int.ofNat_tdiv]
    norm_cast

/-- Basic facts on the clamped bucket count `Bc = min B N`, the bucket size `q = N / Bc`
and the number of large buckets `L = N - Bc * q`. -/
theorem ntile_facts (N B : Nat) (hN : 1 ≤ N) (hB : 1 ≤ B) :
    1 ≤ min B N ∧ min B N ≤ N ∧ 1 ≤ N / min B N ∧
      N - min B N * (N / min B N) < min B N ∧
      min B N * (N / min B N) + (N - min B N * (N / min B N)) = N := by
  have h1 : 1 ≤ min B N := by omega
  have h2 : min B N ≤ N := by omega
  generalize min B N = Bc at *
  have h3 : 1 ≤ N / Bc := (Nat.le_div_iff_mul_le (by omega)).2 (by omega)
  have h4 := Nat.div_add_mod N Bc
  have h5 := Nat.mod_lt N (show Bc > 0 by omega)
  refine ⟨h1, h2, h3, ?_, ?_⟩ <;> omega

/-- The value at offset `t` of bucket `k + 1` is `k + 1`, where bucket `k + 1` starts at the
offset `k * q + min k L`. -/
theorem ntileValue_bucket (N B : Nat) (hN : 1 ≤ N) (hB : 1 ≤ B) (k t : Nat)
    (ht : t < ntileBucketSize N (min B N) k) :
    ntileValue N B
        (k * (N / min B N) + min k (N - min B N * (N / min B N)) + t) = k + 1 := by
  obtain ⟨h1, h2, h3, h4, h5⟩ := ntile_facts N B hN hB
  unfold ntileValue
  unfold ntileBucketSize at ht
  generalize min B N = Bc at *
  generalize hq : N / Bc = q at *
  generalize hL : N - Bc * q = L at *
  have e2 : L * (q + 1) = L * q + L := by ring
  by_cases hkL : k < L
  · rw [if_pos hkL] at ht
    have hm : min k L = k := by omega
    have e3 : (k + 1) * q ≤ L * q := Nat.mul_le_mul_right q (by omega)
    have e4 : (k + 1) * q = k * q + q := by ring
    rw [hm, if_pos (by omega)]
    have : (k * q + k + t) / (q + 1) = k :=
      Nat.div_eq_of_lt_le (by rw [show k * (q + 1) = k * q + k by ring]; omega)
        (by rw [show (k + 1) * (q + 1) = k * q + k + q + 1 by ring]; omega)
    omega
  · rw [if_neg hkL] at ht
    have hm : min k L = L := by omega
    have e3 : L * q ≤ k * q := Nat.mul_le_mul_right q (by omega)
    rw [hm, if_neg (by omega)]
    have : (k * q + L + t - L * (q + 1)) / q = k - L :=
      Nat.div_eq_of_lt_le
        (by rw [Nat.sub_mul]; omega)
        (by rw [show (k - L + 1) * q = (k - L) * q + q by ring, Nat.sub_mul]; omega)
    omega

/-- The values of the rows before bucket `k + 1`, bucket by bucket. -/
theorem ntile_staircase (N B : Nat) (hN : 1 ≤ N) (hB : 1 ≤ B) :
    ∀ k, (List.range (k * (N / min B N) + min k (N - min B N * (N / min B N)))).map
        (ntileValue N B) =
      (List.range k).flatMap
        (fun b => List.replicate (ntileBucketSize N (min B N) b) (b + 1)) := by
  intro k
  induction k with
  | zero => simp
  | succ k ih =>
    have hs : (k + 1) * (N / min B N) + min (k + 1) (N - min B N * (N / min B N)) =
        (k * (N / min B N) + min k (N - min B N * (N / min B N))) +
          ntileBucketSize N (min B N) k := by
      unfold ntileBucketSize
      rw [show (k + 1) * (N / min B N) = k * (N / min B N) + N / min B N by ring]
      split_ifs <;> omega
    rw [hs, List.range_add, List.map_append, ih, List.range_succ, List.flatMap_append]
    congr 1
    simp only [List.flatMap_cons, List.flatMap_nil, List.append_nil, List.map_map]
    rw [List.eq_replicate_iff]
    refine ⟨by simp, ?_⟩
    intro v hv
    simp only [List.mem_map, List.mem_range, Function.comp] at hv
    obtain ⟨t, ht, rfl⟩ := hv
    exact ntileValue_bucket N B hN hB k t ht

/-- The values of a partition in row order are the buckets of the claim. -/
theorem ntile_values_eq_buckets (N B : Nat) (hN : 1 ≤ N) (hB : 1 ≤ B) :
    (List.range N).map (fun j => ((ntileValue N B j : Nat) : Int)) = ntileBuckets N B := by
  obtain ⟨h1, h2, h3, h4, h5⟩ := ntile_facts N B hN hB
  have hs := ntile_staircase N B hN hB (min B N)
  have hend : min B N * (N / min B N) + min (min B N) (N - min B N * (N / min B N)) = N := by
    omega
  rw [hend] at hs
  have := congrArg (List.map (fun (v : Nat) => (v : Int))) hs
  rw [List.map_map] at this
  rw [show (fun j => ((ntileValue N B j : Nat) : Int)) =
    (fun (v : Nat) => (v : Int)) ∘ ntileValue N B from rfl, this]
  unfold ntileBuckets
  rw [List.map_flatMap]
  congr 1
  funext b
  simp

/-- The values are non-decreasing in the row offset. -/
theorem ntileValue_mono (N B : Nat) (hN : 1 ≤ N) (hB : 1 ≤ B) (j j' : Nat) (hjj : j ≤ j') :
    ntileValue N B j ≤ ntileValue N B j' := by
  obtain ⟨h1, h2, h3, h4, h5⟩ := ntile_facts N B hN hB
  unfold ntileValue
  generalize min B N = Bc at *
  generalize hq : N / Bc = q at *
  generalize hL : N - Bc * q = L at *
  by_cases c1 : j < L * (q + 1) <;> by_cases c2 : j' < L * (q + 1)
  · rw [if_pos c1, if_pos c2]
    have := Nat.div_le_div_right (c := q + 1) hjj
    omega
  · rw [if_pos c1, if_neg c2]
    have : j / (q + 1) < L := Nat.div_lt_of_lt_mul (by rw [Nat.mul_comm]; exact c1)
    have hnn := Nat.zero_le ((j' - L * (q + 1)) / q)
    omega
  · omega
  · rw [if_neg c1, if_neg c2]
    have := Nat.div_le_div_right (c := q) (show j - L * (q + 1) ≤ j' - L * (q + 1) by omega)
    omega

/-- The value of every row of the partition lies between 1 and the clamped bucket count. -/
theorem ntileValue_range (N B : Nat) (hN : 1 ≤ N) (hB : 1 ≤ B) (j : Nat) (hj : j < N) :
    1 ≤ ntileValue N B j ∧ ntileValue N B j ≤ min B N := by
  obtain ⟨h1, h2, h3, h4, h5⟩ := ntile_facts N B hN hB
  unfold ntileValue
  generalize min B N = Bc at *
  generalize hq : N / Bc = q at *
  generalize hL : N - Bc * q = L at *
  have e2 : L * (q + 1) = L * q + L := by ring
  by_cases c1 : j < L * (q + 1)
  · rw [if_pos c1]
    have : j / (q + 1) < L := Nat.div_lt_of_lt_mul (by rw [Nat.mul_comm]; exact c1)
    have hnn := Nat.zero_le (j / (q + 1))
    omega
  · rw [if_neg c1]
    have e3 : (Bc - L) * q = Bc * q - L * q := Nat.sub_mul Bc L q
    have e4 : L * q ≤ Bc * q := Nat.mul_le_mul_right q (by omega)
    have e5 : j - L * (q + 1) < q * (Bc - L) := by rw [Nat.mul_comm q, e3]; omega
    have : (j - L * (q + 1)) / q < Bc - L := Nat.div_lt_of_lt_mul e5
    have hnn := Nat.zero_le ((j - L * (q + 1)) / q)
    omega

end Window

namespace Window
open ValidityMask
open WindowBoundariesState

theorem NtileRow_ok (ex : WindowExecutor) (bounds : BoundsChunk) (i row : Nat) (B : Int)
    (hp : ex.payload_collection 0 row = some B) (hB : 1 ≤ B)
    (h1 : bounds.partition_begin i ≤ row) (h2 : row < bounds.partition_end i) :
    ex.NtileRow bounds i row =
      .ok (ntileCell (some B) (bounds.partition_begin i) (bounds.partition_end i) row) := by
  obtain ⟨n, rfl⟩ : ∃ n : Nat, B = (n : Int) := ⟨B.toNat, by omega⟩
  have hn : 1 ≤ n := by omega
  obtain ⟨f1, f2, f3, f4, f5⟩ := ntile_facts (bounds.partition_end i - bounds.partition_begin i)
    n (by omega) hn
  unfold WindowExecutor.NtileRow
  rw [hp]
  simp only []
  rw [if_neg (by omega), NtileCompute_nat _ _ _ _ h1 h2]
  have hd : WindowExecutor.NtileLocals.DivisorsNonzero
      { n_total := ((bounds.partition_end i - bounds.partition_begin i : Nat) : Int)
        n_param := ((min n (bounds.partition_end i - bounds.partition_begin i) : Nat) : Int)
        n_size := (((bounds.partition_end i - bounds.partition_begin i) /
          min n (bounds.partition_end i - bounds.partition_begin i) : Nat) : Int)
        adjusted_row_idx := ((row - bounds.partition_begin i : Nat) : Int)
        n_large := ((bounds.partition_end i - bounds.partition_begin i -
          min n (bounds.partition_end i - bounds.partition_begin i) *
            ((bounds.partition_end i - bounds.partition_begin i) /
              min n (bounds.partition_end i - bounds.partition_begin i)) : Nat) : Int)
        i_small := (((bounds.partition_end i - bounds.partition_begin i -
          min n (bounds.partition_end i - bounds.partition_begin i) *
            ((bounds.partition_end i - bounds.partition_begin i) /
              min n (bounds.partition_end i - bounds.partition_begin i))) *
          ((bounds.partition_end i - bounds.partition_begin i) /
            min n (bounds.partition_end i - bounds.partition_begin i) + 1) : Nat) : Int)
        result_ntile := ((ntileValue (bounds.partition_end i - bounds.partition_begin i) n
          (row - bounds.partition_begin i) : Nat) : Int) } := by
    unfold WindowExecutor.NtileLocals.DivisorsNonzero
    simp only []
    refine ⟨by omega, ?_⟩
    split_ifs <;> omega
  rw [if_pos hd]
  simp [ntileCell]

/-- The loop of `Ntile` on rows that lie in their partitions: it throws the argument error
exactly when some argument is below 1, and otherwise writes `ntileCell` at every row. -/
theorem NtileLoop_spec (ex : WindowExecutor) (bounds : BoundsChunk) :
    ∀ k i row,
      (∀ j, j < k → bounds.partition_begin (i + j) ≤ row + j ∧
        row + j < bounds.partition_end (i + j)) →
      ((∃ j, j < k ∧ ∃ v, ex.payload_collection 0 (row + j) = some v ∧ v < 1) ∧
          WindowExecutor.NtileLoop ex bounds k i row = .error .NtileArgument) ∨
        ((∀ j, j < k → ∀ v, ex.payload_collection 0 (row + j) = some v → 1 ≤ v) ∧
          WindowExecutor.NtileLoop ex bounds k i row =
            .ok ((List.range k).map (fun j =>
              ntileCell (ex.payload_collection 0 (row + j)) (bounds.partition_begin (i + j))
                (bounds.partition_end (i + j)) (row + j)))) := by
  intro k
  induction k with
  | zero =>
    intro i row _
    right
    exact ⟨fun j hj => by omega, rfl⟩
  | succ k ih =>
    intro i row hb
    have hb0 := hb 0 (by omega)
    simp only [Nat.add_zero] at hb0
    have hrest := ih (i + 1) (row + 1) (fun j hj => by
      have := hb (j + 1) (by omega)
      rw [show i + 1 + j = i + (j + 1) by omega, show row + 1 + j = row + (j + 1) by omega]
      exact this)
    unfold WindowExecutor.NtileLoop
    cases hp : ex.payload_collection 0 row with
    | none =>
      have hrow : ex.NtileRow bounds i row = .ok none := by
        unfold WindowExecutor.NtileRow; rw [hp]
      rw [hrow]
      simp only []
      rcases hrest with ⟨⟨j, hj, v, hv, hlt⟩, he⟩ | ⟨hall, he⟩
      · left
        refine ⟨⟨j + 1, by omega, v, ?_, hlt⟩, by rw [he]⟩
        rw [show row + (j + 1) = row + 1 + j by omega]; exact hv
      · right
        refine ⟨?_, ?_⟩
        · intro j hj v hv
          cases j with
          | zero => rw [Nat.add_zero, hp] at hv; cases hv
          | succ j =>
            exact hall j (by omega) v (by
              rw [show row + 1 + j = row + (j + 1) by omega]; exact hv)
        · rw [he, List.range_succ_eq_map, List.map_cons, List.map_map]
          simp only [Nat.add_zero, hp, ntileCell, Option.map_none']
          congr 2
          apply List.map_congr_left
          intro j _
          simp only [Function.comp, Nat.succ_eq_add_one]
          rw [show row + 1 + j = row + (j + 1) by omega, show i + 1 + j = i + (j + 1) by omega]
    | some B =>
      by_cases hB : B < 1
      · left
        refine ⟨⟨0, by omega, B, by rw [Nat.add_zero]; exact hp, hB⟩, ?_⟩
        have hrow : ex.NtileRow bounds i row = .error .NtileArgument := by
          unfold WindowExecutor.NtileRow; rw [hp]; simp only []; rw [if_pos hB]
        rw [hrow]
      · have hrow := NtileRow_ok ex bounds i row B hp (by omega) hb0.1 hb0.2
        rw [hrow]
        simp only []
        rcases hrest with ⟨⟨j, hj, v, hv, hlt⟩, he⟩ | ⟨hall, he⟩
        · left
          refine ⟨⟨j + 1, by omega, v, ?_, hlt⟩, by rw [he]⟩
          rw [show row + (j + 1) = row + 1 + j by omega]; exact hv
        · right
          refine ⟨?_, ?_⟩
          · intro j hj v hv
            cases j with
            | zero =>
              rw [Nat.add_zero, hp] at hv
              injection hv with hv
              omega
            | succ j =>
              exact hall j (by omega) v (by
                rw [show row + 1 + j = row + (j + 1) by omega]; exact hv)
          · rw [he, List.range_succ_eq_map, List.map_cons, List.map_map]
            simp only [Nat.add_zero, hp]
            congr 2
            apply List.map_congr_left
            intro j _
            simp only [Function.comp, Nat.succ_eq_add_one]
            rw [show row + 1 + j = row + (j + 1) by omega,
              show i + 1 + j = i + (j + 1) by omega]

end Window

namespace Window
open ValidityMask
open WindowBoundariesState

end Window

namespace Window
open ValidityMask
open WindowBoundariesState

/-- C6: for every row `r` of a partition `[pb, pe)` and every argument `B ≥ 1` read at that
row, the local variables of `Ntile` satisfy `n_total = pe - pb`, `n_param = min B n_total`,
both assertions of the source (`n_large * (n_size + 1) + (n_param - n_large) * n_size =
n_total` and `1 ≤ result_ntile ≤ n_param`), and no divisor is zero: `n_size ≥ 1`. -/
theorem Ntile_assertions (B : Int) (pb pe r : Nat) (hB : 1 ≤ B) (h1 : pb ≤ r) (h2 : r < pe) :
    (WindowExecutor.NtileCompute B pb pe r).n_total = (pe : Int) - (pb : Int) ∧
      (WindowExecutor.NtileCompute B pb pe r).n_param = min B ((pe : Int) - (pb : Int)) ∧
      (WindowExecutor.NtileCompute B pb pe r).AssertTotal ∧
      (WindowExecutor.NtileCompute B pb pe r).AssertResult ∧
      (WindowExecutor.NtileCompute B pb pe r).DivisorsNonzero ∧
      1 ≤ (WindowExecutor.NtileCompute B pb pe r).n_size := by
  obtain ⟨n, rfl⟩ : ∃ n : Nat, B = (n : Int) := ⟨B.toNat, by omega⟩
  have hn : 1 ≤ n := by omega
  obtain ⟨f1, f2, f3, f4, f5⟩ := ntile_facts (pe - pb) n (by omega) hn
  have hr := ntileValue_range (pe - pb) n (by omega) hn (r - pb) (by omega)
  rw [NtileCompute_nat _ _ _ _ h1 h2]
  unfold WindowExecutor.NtileLocals.AssertTotal WindowExecutor.NtileLocals.AssertResult
    WindowExecutor.NtileLocals.DivisorsNonzero
  simp only []
  have hN : ((pe - pb : Nat) : Int) = (pe : Int) - (pb : Int) := by omega
  have hmin : ((min n (pe - pb) : Nat) : Int) = min (n : Int) ((pe : Int) - (pb : Int)) := by
    omega
  generalize pe - pb = N at *
  generalize ntileValue N n (r - pb) = val at *
  generalize min n N = Bc at *
  generalize N / Bc = q at *
  generalize N - Bc * q = L at *
  have f5' : (Bc : Int) * (q : Int) + (L : Int) = (N : Int) := by exact_mod_cast f5
  refine ⟨hN, ?_, ?_, ⟨by omega, by omega⟩, ⟨by omega, ?_⟩, by omega⟩
  · exact hmin
  · linear_combination f5'
  · split_ifs <;> omega

/-- C6, at a concrete input: row 4 of a partition of 10 rows with the argument 3. -/
theorem Ntile_assertions_witness :
    ((1 : Int) ≤ 3 ∧ 0 ≤ 4 ∧ 4 < 10) ∧
      ((WindowExecutor.NtileCompute 3 0 10 4).n_total = ((10 : Nat) : Int) - ((0 : Nat) : Int) ∧
        (WindowExecutor.NtileCompute 3 0 10 4).n_param =
          min 3 (((10 : Nat) : Int) - ((0 : Nat) : Int)) ∧
        (WindowExecutor.NtileCompute 3 0 10 4).AssertTotal ∧
        (WindowExecutor.NtileCompute 3 0 10 4).AssertResult ∧
        (WindowExecutor.NtileCompute 3 0 10 4).DivisorsNonzero ∧
        1 ≤ (WindowExecutor.NtileCompute 3 0 10 4).n_size) :=
  ⟨⟨by decide, by decide, by decide⟩,
   Ntile_assertions 3 0 10 4 (by decide) (by decide) (by decide)⟩

/-- C7: on a batch whose rows lie in their partitions, `Ntile` throws the error "Argument
for ntile must be greater than zero" if and only if some row of the batch has a non-NULL
argument below 1, and it throws no other error; when it returns, it has written one cell
per row, and the cell of a row is NULL exactly when the argument of that row is NULL. -/
theorem Ntile_error_iff (ex : WindowExecutor) (bounds : BoundsChunk) (count row_idx : Nat)
    (hbounds : ∀ i, i < count → bounds.partition_begin i ≤ row_idx + i ∧
      row_idx + i < bounds.partition_end i) :
    (ex.Ntile bounds count row_idx = .error .NtileArgument ↔
        ∃ i, i < count ∧ ∃ v, ex.payload_collection 0 (row_idx + i) = some v ∧ v < 1) ∧
      (∀ e, ex.Ntile bounds count row_idx = .error e → e = .NtileArgument) ∧
      ((¬ ∃ i, i < count ∧ ∃ v, ex.payload_collection 0 (row_idx + i) = some v ∧ v < 1) →
        ∃ cells, ex.Ntile bounds count row_idx = .ok cells) ∧
      (∀ cells, ex.Ntile bounds count row_idx = .ok cells →
        cells.length = count ∧
          ∀ i, i < count →
            (cells[i]? = some none ↔ ex.payload_collection 0 (row_idx + i) = none)) := by
  have hspec := NtileLoop_spec ex bounds count 0 row_idx (fun j hj => by
    rw [Nat.zero_add]; exact hbounds j hj)
  unfold WindowExecutor.Ntile
  rcases hspec with ⟨hbad, he⟩ | ⟨hall, he⟩
  · rw [he]
    refine ⟨⟨fun _ => hbad, fun _ => rfl⟩, ?_, ?_, ?_⟩
    · intro e h; injection h with h; exact h.symm
    · intro h; exact absurd hbad h
    · intro cells h; cases h
  · rw [he]
    have hnone : ¬ ∃ i, i < count ∧ ∃ v, ex.payload_collection 0 (row_idx + i) = some v ∧ v < 1 := by
      rintro ⟨i, hi, v, hv, hlt⟩
      have := hall i hi v hv
      omega
    refine ⟨⟨fun h => (by cases h), fun h => absurd h hnone⟩, ?_, ?_, ?_⟩
    · intro e h; cases h
    · intro _; exact ⟨_, rfl⟩
    · intro cells h
      injection h with h
      subst h
      refine ⟨by simp, ?_⟩
      intro i hi
      rw [List.getElem?_map, List.getElem?_range hi]
      simp only [Option.map_some', ntileCell]
      cases ex.payload_collection 0 (row_idx + i) <;> simp

/-- C7, at a concrete input: the arguments `[2, NULL, 0]` make `Ntile` throw, the
arguments `[2, NULL, 1]` give `[1, NULL, 1]`. -/
theorem Ntile_error_iff_witness :
    (∀ i, i < 3 → (onePartitionBounds 0 3).partition_begin i ≤ 0 + i ∧
      0 + i < (onePartitionBounds 0 3).partition_end i) ∧
    (ntileExecutor 3 [some 2, none, some 0]).Ntile (onePartitionBounds 0 3) 3 0 =
      .error .NtileArgument ∧
    (ntileExecutor 3 [some 2, none, some 1]).Ntile (onePartitionBounds 0 3) 3 0 =
      .ok [some 1, none, some 1] :=
  ⟨by decide,
   (Ntile_error_iff (ntileExecutor 3 [some 2, none, some 0]) (onePartitionBounds 0 3) 3 0
      (by decide)).1.2 ⟨2, by decide, 0, rfl, by decide⟩,
   rfl⟩

end Window

namespace Window
open ValidityMask
open WindowBoundariesState

/-! ## LEAD and LAG -/

/-- The target search of `LeadLag` on a mask without a buffer: for the target row
`t = row ± offset`, the search ends at `t` with `delta = 0` when `t` lies in the
partition, and with `delta ≠ 0` otherwise. -/
theorem LeadLagTarget_all_valid (ex : WindowExecutor) (bounds : BoundsChunk) (i row : Nat)
    (hall : ex.ignore_nulls.AllValid = true)
    (h1 : bounds.partition_begin i ≤ row) (h2 : row < bounds.partition_end i)
    (hsize : bounds.partition_end i ≤ 2 ^ 62) (d t : Int)
    (hd : d = if ex.wexpr.has_offset_expr then ex.leadlag_offset.GetCell i else 1)
    (hd64 : -(2 ^ 63) ≤ d ∧ d < 2 ^ 63)
    (ht : t = if ex.wexpr.type = .WINDOW_LEAD then (row : Int) + d else (row : Int) - d) :
    (((bounds.partition_begin i : Int) ≤ t ∧ t < (bounds.partition_end i : Int)) →
        ex.LeadLagTarget bounds i row = (t, 0)) ∧
      (¬ ((bounds.partition_begin i : Int) ≤ t ∧ t < (bounds.partition_end i : Int)) →
        (ex.LeadLagTarget bounds i row).2 ≠ 0) := by
  unfold WindowExecutor.LeadLagTarget FindPrevStart FindNextStart
  rw [hall, ← hd]
  simp only [if_true]
  generalize bounds.partition_begin i = pb at *
  generalize bounds.partition_end i = pe at *
  unfold wrap64 asIdx add64 sub64
  by_cases hty : ex.wexpr.type = .WINDOW_LEAD
  · simp only [hty, if_true] at ht ⊢
    subst ht
    split_ifs <;> constructor <;> intro h <;> simp only [Prod.mk.injEq, and_true] <;> omega
  · simp only [hty, if_false] at ht ⊢
    subst ht
    split_ifs <;> constructor <;> intro h <;> simp only [Prod.mk.injEq, and_true] <;> omega

end Window

namespace Window
open ValidityMask
open WindowBoundariesState

/-- C8: LEAD and LAG without IGNORE NULLS (the mask has no buffer), at a row `row` of the
partition `[pb, pe)` with the 64-bit offset `d` (1 when there is no offset expression). With
the target row `t = row - d` for LAG and `t = row + d` for LEAD, the cell written is the
payload at `t` when `pb ≤ t < pe`; otherwise it is the cell of the default expression at
this row when a default is present, and NULL when not. -/
theorem LeadLag_without_ignore_nulls (ex : WindowExecutor) (bounds : BoundsChunk)
    (i row : Nat) (hall : ex.ignore_nulls.AllValid = true)
    (h1 : bounds.partition_begin i ≤ row) (h2 : row < bounds.partition_end i)
    (hsize : bounds.partition_end i ≤ 2 ^ 62) (d : Int)
    (hd : d = if ex.wexpr.has_offset_expr then ex.leadlag_offset.GetCell i else 1)
    (hd64 : -(2 ^ 63) ≤ d ∧ d < 2 ^ 63) :
    (ex.wexpr.type = .WINDOW_LAG →
      ex.LeadLagRow bounds i row =
        if (bounds.partition_begin i : Int) ≤ (row : Int) - d ∧
            (row : Int) - d < (bounds.partition_end i : Int) then
          ex.payload_collection 0 ((row : Int) - d).toNat
        else if ex.wexpr.has_default_expr then ex.leadlag_default.CopyCell i
        else none) ∧
    (ex.wexpr.type = .WINDOW_LEAD →
      ex.LeadLagRow bounds i row =
        if (bounds.partition_begin i : Int) ≤ (row : Int) + d ∧
            (row : Int) + d < (bounds.partition_end i : Int) then
          ex.payload_collection 0 ((row : Int) + d).toNat
        else if ex.wexpr.has_default_expr then ex.leadlag_default.CopyCell i
        else none) := by
  constructor
  · intro hty
    obtain ⟨hin, hout⟩ := LeadLagTarget_all_valid ex bounds i row hall h1 h2 hsize d
      ((row : Int) - d) hd hd64 (by rw [hty]; simp)
    unfold WindowExecutor.LeadLagRow
    simp only []
    by_cases hc : (bounds.partition_begin i : Int) ≤ (row : Int) - d ∧
        (row : Int) - d < (bounds.partition_end i : Int)
    · rw [hin hc, if_pos hc]
      simp only [if_true]
      congr 1
      unfold asIdx
      omega
    · rw [if_neg hc, if_neg (hout hc)]
  · intro hty
    obtain ⟨hin, hout⟩ := LeadLagTarget_all_valid ex bounds i row hall h1 h2 hsize d
      ((row : Int) + d) hd hd64 (by rw [hty]; simp)
    unfold WindowExecutor.LeadLagRow
    simp only []
    by_cases hc : (bounds.partition_begin i : Int) ≤ (row : Int) + d ∧
        (row : Int) + d < (bounds.partition_end i : Int)
    · rw [hin hc, if_pos hc]
      simp only [if_true]
      congr 1
      unfold asIdx
      omega
    · rw [if_neg hc, if_neg (hout hc)]

/-- C8, at a concrete input: `LAG(x, 2, -1)` on `x = [10, 20, 30, 40]` gives
`[-1, -1, 10, 20]`; row 2 reads the payload of row 0 and row 1 the default. -/
theorem LeadLag_without_ignore_nulls_witness :
    ((leadLagExecutor .WINDOW_LAG 0 4 [some 10, some 20, some 30, some 40] 2 (some (-1)) false
          .allValid).ignore_nulls.AllValid = true ∧
      (onePartitionBounds 0 4).partition_begin 2 ≤ 2 ∧
      2 < (onePartitionBounds 0 4).partition_end 2 ∧
      (onePartitionBounds 0 4).partition_end 2 ≤ 2 ^ 62 ∧
      (-(2 ^ 63) ≤ (2 : Int) ∧ (2 : Int) < 2 ^ 63)) ∧
    (leadLagExecutor .WINDOW_LAG 0 4 [some 10, some 20, some 30, some 40] 2 (some (-1)) false
        .allValid).LeadLagRow (onePartitionBounds 0 4) 2 2 = some 10 ∧
    (leadLagExecutor .WINDOW_LAG 0 4 [some 10, some 20, some 30, some 40] 2 (some (-1)) false
        .allValid).LeadLag (onePartitionBounds 0 4) 4 0 =
      [some (-1), some (-1), some 10, some 20] :=
  ⟨⟨rfl, by decide, by decide, by decide, by decide⟩,
   ((LeadLag_without_ignore_nulls
      (leadLagExecutor .WINDOW_LAG 0 4 [some 10, some 20, some 30, some 40] 2 (some (-1)) false
        .allValid)
      (onePartitionBounds 0 4) 2 2 rfl (by decide) (by decide) (by decide) 2 rfl
      (by decide)).1 rfl).trans (by decide),
   by decide⟩

/-- C9: for every payload, partition, IGNORE NULLS mask, default expression, row and offset
expression, LEAD with the offset `k` writes the same cell as LAG with the offset `-k`, also
when `-k` is computed in 64-bit arithmetic. -/
theorem Lead_eq_Lag_neg (ex : WindowExecutor) (bounds : BoundsChunk) (i row : Nat)
    (off : WindowInputExpression) :
    (ex.withOffset .WINDOW_LEAD off).LeadLagRow bounds i row =
        (ex.withOffset .WINDOW_LAG off.neg).LeadLagRow bounds i row ∧
      (ex.withOffset .WINDOW_LEAD off).LeadLagRow bounds i row =
        (ex.withOffset .WINDOW_LAG off.neg64).LeadLagRow bounds i row := by
  have key : wrap64 ((row : Int) - wrap64 (-(off.GetCell i))) =
      wrap64 ((row : Int) + off.GetCell i) := by
    unfold wrap64
    omega
  constructor
  · simp [WindowExecutor.LeadLagRow, WindowExecutor.LeadLagTarget, WindowExecutor.withOffset,
      WindowInputExpression.neg, WindowInputExpression.GetCell]
  · have hcell : off.neg64.GetCell i = wrap64 (-(off.GetCell i)) := rfl
    simp only [WindowExecutor.LeadLagRow, WindowExecutor.LeadLagTarget,
      WindowExecutor.withOffset, if_true, hcell, key]
    simp

/-- C10 (the code at the failing input): `LAG(x, 1, -1) IGNORE NULLS OVER (PARTITION BY p)`
on `x = [1, NULL, NULL]` with the partitions `[0, 1)` and `[1, 3)`. At row 2 no row of
`[1, 2)` is non-NULL, so the default `-1` is due; `FindPrevStart` scans the mask word down to
bit 0, below `l = 1`, and returns index 1 with `n = 0`, so the code copies the payload of
row 1, which is NULL. -/
theorem Lag_ignore_nulls_scans_below_partition :
    FindPrevStart (ofWords [1]) 1 2 1 = (1, 0) ∧
      resultCells ((leadLagExecutor .WINDOW_LAG 1 3 [some 1, none, none] 1 (some (-1)) true
          (ofWords [1])).Evaluate 0 3 (ofWords [3]) (ofWords [3])) =
        some [some (-1), some (-1), none] := by
  constructor <;> decide

end Window

namespace Window
open ValidityMask

/-! ## `FindNextStart` is the bit-by-bit forward scan -/

theorem RowIsValidUnsafe_eq (mask : ValidityMask) (e shift : Nat) (hs : shift < 64) :
    mask.RowIsValidUnsafe (64 * e + shift) =
      EntryRowIsValid (mask.GetValidityEntry e) shift := by
  unfold RowIsValidUnsafe GetEntryIndex BITS_PER_VALUE
  simp only []
  rw [show (64 * e + shift) / 64 = e by omega, show (64 * e + shift) % 64 = shift by omega]

theorem RowIsValidUnsafe_of_AllValid (mask : ValidityMask) (h : mask.AllValid = true) (q : Nat) :
    mask.RowIsValidUnsafe q = true := by
  unfold AllValid at h
  unfold RowIsValidUnsafe GetEntryIndex GetValidityEntry EntryRowIsValid BITS_PER_VALUE
  cases hm : mask.validity_mask with
  | none =>
    simp only [Nat.testBit_two_pow_sub_one]
    exact decide_eq_true (Nat.mod_lt _ (by decide))
  | some w => rw [hm] at h; cases h

theorem findNext_append (mask : ValidityMask) :
    ∀ (a l n b : Nat), 1 ≤ n →
      findNext mask l (a + b) n =
        if (findNext mask l a n).2 = 0 then findNext mask l a n
        else findNext mask (l + a) b (findNext mask l a n).2 := by
  intro a
  induction a with
  | zero =>
    intro l n b hn
    simp only [Nat.zero_add, findNext, Nat.add_zero]
    rw [if_neg (by omega)]
  | succ a ih =>
    intro l n b hn
    rw [show a + 1 + b = (a + b) + 1 by omega, findNext, findNext]
    rw [show l + (a + 1) = l + 1 + a by omega]
    split
    · split
      · simp
      · exact ih (l + 1) (n - 1) b (by omega)
    · exact ih (l + 1) n b hn

theorem findNext_skip (mask : ValidityMask) :
    ∀ (a l n b : Nat), (∀ q, l ≤ q → q < l + a → mask.RowIsValidUnsafe q = false) →
      findNext mask l (a + b) n = findNext mask (l + a) b n := by
  intro a
  induction a with
  | zero => intro l n b _; simp
  | succ a ih =>
    intro l n b h
    rw [show a + 1 + b = (a + b) + 1 by omega, findNext, h l (by omega) (by omega)]
    simp only [Bool.false_eq_true, if_false]
    rw [ih (l + 1) n b (fun q h1 h2 => h q (by omega) (by omega)),
      show l + (a + 1) = l + 1 + a by omega]

theorem findNext_all_set (mask : ValidityMask) (h : ∀ q, mask.RowIsValidUnsafe q = true) :
    ∀ (k l n : Nat), 1 ≤ n →
      findNext mask l k n = (min (l + n - 1) (l + k), n - min n k) := by
  intro k
  induction k with
  | zero =>
    intro l n hn
    simp only [findNext, Prod.mk.injEq]
    omega
  | succ k ih =>
    intro l n hn
    rw [findNext, h l]
    simp only [if_true]
    split
    · simp only [Prod.mk.injEq]; omega
    · rw [ih (l + 1) (n - 1) (by omega)]
      simp only [Prod.mk.injEq]
      omega

/-- The inner loop of `FindNextStart` on the word of entry `e`, started at position
`64 * e + shift`, is the forward scan over the rest of the word, cut at `r`. -/
theorem FindNextStartBlock_eq (mask : ValidityMask) (r e : Nat) :
    ∀ (fuel shift l n : Nat), 1 ≤ n → l = 64 * e + shift → 64 ≤ shift + fuel →
      FindNextStartBlock (mask.GetValidityEntry e) r fuel shift l n =
        if (findNext mask l (min (r - l) (64 - shift)) n).2 = 0 then
          .found (findNext mask l (min (r - l) (64 - shift)) n).1 0
        else
          .next (l + min (r - l) (64 - shift)) (findNext mask l (min (r - l) (64 - shift)) n).2 := by
  intro fuel
  induction fuel with
  | zero =>
    intro shift l n hn hl hf
    rw [show min (r - l) (64 - shift) = 0 by omega]
    simp only [findNext, FindNextStartBlock, Nat.add_zero]
    rw [if_neg (by omega)]
  | succ fuel ih =>
    intro shift l n hn hl hf
    rw [FindNextStartBlock]
    by_cases hc : shift < BITS_PER_VALUE ∧ l < r
    · have hs : shift < 64 := hc.1
      rw [if_pos hc, ← RowIsValidUnsafe_eq mask e shift hs, ← hl]
      rw [show min (r - l) (64 - shift) = min (r - (l + 1)) (64 - (shift + 1)) + 1 by omega,
        findNext]
      have ih1 := ih (shift + 1) (l + 1)
      by_cases hb : mask.RowIsValidUnsafe l = true
      · simp only [hb, if_true]
        by_cases hn1 : n = 1
        · subst hn1
          simp only [decr64, if_true]
          simp
          omega
        · have hd : decr64 n = n - 1 := by unfold decr64; rw [if_neg (by omega)]
          rw [hd, if_neg (by omega), if_neg hn1, ih1 (n - 1) (by omega) (by omega) (by omega)]
          rw [show l + 1 + min (r - (l + 1)) (64 - (shift + 1)) =
            l + (min (r - (l + 1)) (64 - (shift + 1)) + 1) by omega]
      · simp only [hb, if_false, Bool.false_eq_true]
        rw [ih1 n hn (by omega) (by omega)]
        rw [show l + 1 + min (r - (l + 1)) (64 - (shift + 1)) =
          l + (min (r - (l + 1)) (64 - (shift + 1)) + 1) by omega]
    · rw [if_neg hc]
      have hm : min (r - l) (64 - shift) = 0 := by
        unfold BITS_PER_VALUE at hc
        omega
      rw [hm]
      simp only [findNext, Nat.add_zero]
      rw [if_neg (by omega)]

theorem FindNextStartLoop_done (mask : ValidityMask) (r : Nat) :
    ∀ (fuel l n : Nat), r ≤ l → FindNextStartLoop mask r fuel l n = (r, n) := by
  intro fuel l n h
  cases fuel with
  | zero => rfl
  | succ fuel => rw [FindNextStartLoop, if_neg (by omega)]

/-- The outer loop of `FindNextStart` is the forward scan of `[l, r)`, when no skip of a
blank block wraps. -/
theorem FindNextStartLoop_eq (mask : ValidityMask) (r : Nat)
    (hskip : ∀ l, l < r → l % 64 = 0 → mask.GetValidityEntry (l / 64) = 0 → l + 64 < 2 ^ 64) :
    ∀ (fuel l n : Nat), 1 ≤ n → l ≤ r → r - l ≤ fuel →
      FindNextStartLoop mask r fuel l n = findNext mask l (r - l) n := by
  intro fuel
  induction fuel with
  | zero =>
    intro l n _ hl hf
    rw [show r - l = 0 by omega]
    simp only [FindNextStartLoop, findNext, Prod.mk.injEq, and_true]
    omega
  | succ fuel ih =>
    intro l n hn hl hf
    rw [FindNextStartLoop]
    by_cases hlr : l < r
    · rw [if_pos hlr]
      simp only [GetEntryIndex, BITS_PER_VALUE]
      have hdiv : l = 64 * (l / 64) + l % 64 := by omega
      by_cases hsk : NoneValid (mask.GetValidityEntry (l / 64)) = true ∧ l % 64 = 0
      · rw [if_pos hsk]
        have hzero : mask.GetValidityEntry (l / 64) = 0 := by
          have := hsk.1
          unfold NoneValid at this
          exact beq_iff_eq.1 this
        have hunset : ∀ q, l ≤ q → q < l + 64 → mask.RowIsValidUnsafe q = false := by
          intro q h1 h2
          have hq : q = 64 * (l / 64) + (q - l) := by omega
          rw [hq, RowIsValidUnsafe_eq mask (l / 64) (q - l) (by omega), hzero]
          simp [EntryRowIsValid]
        have hadd : add64 l 64 = l + 64 := by
          have := hskip l hlr hsk.2 hzero
          unfold add64
          omega
        rw [hadd]
        by_cases hfar : l + 64 ≤ r
        · rw [ih (l + 64) n hn hfar (by omega)]
          rw [show r - l = 64 + (r - (l + 64)) by omega, findNext_skip mask 64 l n _ hunset]
        · rw [FindNextStartLoop_done mask r fuel (l + 64) n (by omega)]
          have := findNext_skip mask (r - l) l n 0
            (fun q h1 h2 => hunset q h1 (by omega))
          simp only [Nat.add_zero, findNext] at this
          rw [this]
          simp only [Prod.mk.injEq, and_true]
          omega
      · rw [if_neg hsk]
        have hb := FindNextStartBlock_eq mask r (l / 64) 64 (l % 64) l n hn hdiv (by omega)
        have happ := findNext_append mask (min (r - l) (64 - l % 64)) l n
          (r - l - min (r - l) (64 - l % 64)) hn
        rw [show min (r - l) (64 - l % 64) + (r - l - min (r - l) (64 - l % 64)) = r - l by
          omega] at happ
        rw [hb, happ]
        by_cases hfound : (findNext mask l (min (r - l) (64 - l % 64)) n).2 = 0
        · rw [if_pos hfound, if_pos hfound]
          simp only []
          rw [← hfound]
        · rw [if_neg hfound, if_neg hfound]
          simp only []
          rw [ih _ _ (by omega) (by omega) (by omega)]
          congr 1
          omega
    · rw [if_neg hlr, show r - l = 0 by omega]
      simp only [findNext, Prod.mk.injEq, and_true]
      omega

/-- The function `FindNextStart` on a materialised mask is the forward scan of `[l, r)` for
every count `n ≥ 1`, when no skip of a blank block wraps. -/
theorem FindNextStart_buffer (mask : ValidityMask) (hall : ¬ mask.AllValid = true)
    (l r n : Nat) (hn : 1 ≤ n) (hlr : l ≤ r)
    (hskip : ∀ l, l < r → l % 64 = 0 → mask.GetValidityEntry (l / 64) = 0 →
      l + 64 < 2 ^ 64) :
    FindNextStart mask l r n = findNext mask l (r - l) n := by
  unfold FindNextStart
  rw [if_neg hall]
  exact FindNextStartLoop_eq mask r hskip (r - l) l n hn hlr (Nat.le_refl _)

/-- The fast path of `FindNextStart` on a mask without a buffer, for indices and a count
below `2 ^ 64`: the residual is `n - min n (r - l)`, and the index is `min (l + n - 1) r`
when the sum `l + n - 1` does not wrap. -/
theorem FindNextStart_fast (mask : ValidityMask) (hall : mask.AllValid = true) (l r n : Nat)
    (hn : 1 ≤ n) (hlr : l ≤ r) (hr : r < 2 ^ 64) (hn64 : n < 2 ^ 64) :
    (FindNextStart mask l r n).2 = n - min n (r - l) ∧
      (l + n - 1 < 2 ^ 64 → (FindNextStart mask l r n).1 = min (l + n - 1) r) := by
  unfold FindNextStart
  rw [if_pos hall, sub64_eq r l hlr hr]
  simp only []
  refine ⟨sub64_eq _ _ (by omega) hn64, fun h => ?_⟩
  rw [sub64_add64_one l n hn h]

/-- The function `FindNextStart` is the forward scan of `[l, r)` for every count `n ≥ 1`
whose sum `l + n - 1` does not wrap, when no skip of a blank block wraps: on a mask without
a buffer and on a materialised mask. -/
theorem FindNextStart_eq_findNext (mask : ValidityMask) (l r n : Nat) (hn : 1 ≤ n)
    (hlr : l ≤ r) (hr : r < 2 ^ 64) (hn64 : n < 2 ^ 64) (h64 : l + n - 1 < 2 ^ 64)
    (hskip : ∀ l, l < r → l % 64 = 0 → mask.GetValidityEntry (l / 64) = 0 →
      l + 64 < 2 ^ 64) :
    FindNextStart mask l r n = findNext mask l (r - l) n := by
  by_cases hall : mask.AllValid = true
  · obtain ⟨h1, h2⟩ := FindNextStart_fast mask hall l r n hn hlr hr hn64
    rw [findNext_all_set mask (RowIsValidUnsafe_of_AllValid mask hall) _ _ _ hn,
      show l + (r - l) = r by omega]
    exact Prod.ext (h2 h64) h1
  · exact FindNextStart_buffer mask hall l r n hn hlr hskip

end Window

namespace Window
open ValidityMask

/-! ## The forward scan finds the `n`-th set bit -/

theorem countSet_front (m : ValidityMask) (a : Nat) :
    ∀ k, countSet m a (k + 1) =
      (if m.RowIsValidUnsafe a then 1 else 0) + countSet m (a + 1) k := by
  intro k
  induction k with
  | zero => simp [countSet]
  | succ k ih =>
    rw [countSet_succ, ih, countSet_succ, show a + 1 + k = a + (k + 1) by omega]
    omega

theorem countSet_le (m : ValidityMask) (a : Nat) : ∀ k, countSet m a k ≤ k := by
  intro k
  induction k with
  | zero => simp [countSet]
  | succ k ih =>
    rw [countSet_succ]
    split <;> omega

theorem countSet_mono (m : ValidityMask) (a : Nat) :
    ∀ j k, j ≤ k → countSet m a j ≤ countSet m a k := by
  intro j k h
  induction k with
  | zero =>
    rw [show j = 0 by omega]
  | succ k ih =>
    by_cases hj : j = k + 1
    · rw [hj]
    · have := ih (by omega)
      rw [countSet_succ]
      omega

theorem countSet_eq_zero (m : ValidityMask) (a : Nat) :
    ∀ k, (∀ q, a ≤ q → q < a + k → m.RowIsValidUnsafe q = false) → countSet m a k = 0 := by
  intro k
  induction k with
  | zero => intro _; rfl
  | succ k ih =>
    intro h
    rw [countSet_succ, ih (fun q h1 h2 => h q h1 (by omega)), h (a + k) (by omega) (by omega)]
    simp

theorem countSet_all_set (m : ValidityMask) (h : ∀ q, m.RowIsValidUnsafe q = true) (a : Nat) :
    ∀ k, countSet m a k = k := by
  intro k
  induction k with
  | zero => rfl
  | succ k ih => rw [countSet_succ, ih, h]; simp

/-- When the range holds at least `n` set bits, the forward scan stops with residual 0 at
the `n`-th of them. -/
theorem findNext_found (mask : ValidityMask) :
    ∀ (k l n : Nat), 1 ≤ n → n ≤ countSet mask l k →
      (findNext mask l k n).2 = 0 ∧ l ≤ (findNext mask l k n).1 ∧
        (findNext mask l k n).1 < l + k ∧
        mask.RowIsValidUnsafe (findNext mask l k n).1 = true ∧
        countSet mask l ((findNext mask l k n).1 - l) = n - 1 := by
  intro k
  induction k with
  | zero =>
    intro l n hn hc
    simp only [countSet] at hc
    omega
  | succ k ih =>
    intro l n hn hc
    rw [countSet_front] at hc
    rw [findNext]
    by_cases hb : mask.RowIsValidUnsafe l = true
    · rw [if_pos hb]
      by_cases hn1 : n = 1
      · rw [if_pos hn1]
        subst hn1
        refine ⟨rfl, Nat.le_refl _, by omega, hb, ?_⟩
        simp [countSet]
      · rw [if_neg hn1]
        rw [if_pos hb] at hc
        obtain ⟨h1, h2, h3, h4, h5⟩ := ih (l + 1) (n - 1) (by omega) (by omega)
        refine ⟨h1, by omega, by omega, h4, ?_⟩
        rw [show (findNext mask (l + 1) k (n - 1)).1 - l =
          ((findNext mask (l + 1) k (n - 1)).1 - (l + 1)) + 1 by omega, countSet_front,
          if_pos hb, h5]
        omega
    · rw [if_neg hb]
      rw [if_neg hb] at hc
      obtain ⟨h1, h2, h3, h4, h5⟩ := ih (l + 1) n hn (by omega)
      refine ⟨h1, by omega, by omega, h4, ?_⟩
      rw [show (findNext mask (l + 1) k n).1 - l =
        ((findNext mask (l + 1) k n).1 - (l + 1)) + 1 by omega, countSet_front,
        if_neg hb, h5]
      omega

/-- When the range holds fewer than `n` set bits, the forward scan ends at the end of the
range with the residual `n` minus their number. -/
theorem findNext_short (mask : ValidityMask) :
    ∀ (k l n : Nat), countSet mask l k < n →
      findNext mask l k n = (l + k, n - countSet mask l k) := by
  intro k
  induction k with
  | zero => intro l n _; simp [findNext, countSet]
  | succ k ih =>
    intro l n hc
    rw [countSet_front] at hc
    rw [findNext, countSet_front]
    by_cases hb : mask.RowIsValidUnsafe l = true
    · rw [if_pos hb] at hc
      rw [if_pos hb, if_pos hb, if_neg (by omega), ih (l + 1) (n - 1) (by omega)]
      simp only [Prod.mk.injEq]
      omega
    · rw [if_neg hb] at hc
      rw [if_neg hb, if_neg hb, ih (l + 1) n (by omega)]
      simp only [Prod.mk.injEq]
      omega

/-- No bit is set between the start of the range and the first set bit found. -/
theorem countSet_zero_unset (m : ValidityMask) (a : Nat) :
    ∀ k, countSet m a k = 0 → ∀ q, a ≤ q → q < a + k → m.RowIsValidUnsafe q = false := by
  intro k
  induction k with
  | zero => intro _ q h1 h2; omega
  | succ k ih =>
    intro h q h1 h2
    rw [countSet_succ] at h
    by_cases hq : q = a + k
    · subst hq
      by_cases hb : m.RowIsValidUnsafe (a + k) = true
      · rw [if_pos hb] at h; omega
      · simpa using hb
    · exact ih (by omega) q h1 (by omega)

/-! ## A backward scan for more rows than there are finds none -/

theorem FindPrevStartBlock_large (block l : Nat) :
    ∀ (shift r n : Nat), shift ≤ r → r < n →
      ∃ n1, FindPrevStartBlock block l shift r n = .next (r - shift) n1 ∧ r - shift < n1 := by
  intro shift
  induction shift with
  | zero => intro r n _ h; exact ⟨n, rfl, by omega⟩
  | succ shift ih =>
    intro r n hs h
    rw [FindPrevStartBlock]
    have hd : decr64 n = n - 1 := by unfold decr64; rw [if_neg (by omega)]
    have hne : ¬ (n - 1 = 0) := by omega
    rw [hd, if_neg hne]
    by_cases hb : EntryRowIsValid block shift = true
    · rw [if_pos hb]
      obtain ⟨n1, h1, h2⟩ := ih (r - 1) (n - 1) (by omega) (by omega)
      exact ⟨n1, by rw [h1]; congr 1; omega, by omega⟩
    · rw [if_neg hb]
      obtain ⟨n1, h1, h2⟩ := ih (r - 1) n (by omega) (by omega)
      exact ⟨n1, by rw [h1]; congr 1; omega, by omega⟩

theorem FindPrevStartLoop_large (mask : ValidityMask) (l : Nat) :
    ∀ (fuel r n : Nat), r < n → 0 < (FindPrevStartLoop mask l fuel r n).2 := by
  intro fuel
  induction fuel with
  | zero => intro r n h; simp only [FindPrevStartLoop]; omega
  | succ fuel ih =>
    intro r n h
    rw [FindPrevStartLoop]
    split
    · simp only [GetEntryIndex, BITS_PER_VALUE]
      split
      · exact ih _ _ (by omega)
      · obtain ⟨n1, h1, h2⟩ := FindPrevStartBlock_large
          (mask.GetValidityEntry ((r - 1) / 64)) l ((r - 1) % 64 + 1) r n (by omega) h
        rw [h1]
        exact ih _ _ h2
    · simp only []; omega

/-- The function `FindPrevStart` asked for more set bits than there are positions below `r`
returns a non-zero residual, when the sum `l + n` does not wrap. -/
theorem FindPrevStart_large (mask : ValidityMask) (l r n : Nat) (h : r < n) (hlr : l ≤ r)
    (h64 : l + n < 2 ^ 64) : 0 < (FindPrevStart mask l r n).2 := by
  unfold FindPrevStart
  split
  · simp only []
    rw [add64_eq l n h64, if_pos (by omega), sub64_eq r l hlr (by omega),
      sub64_eq n (r - l) (by omega) (by omega)]
    omega
  · exact FindPrevStartLoop_large mask l _ r n h

/-- When the range holds at least `n` set bits, `FindNextStart` is the forward scan: the sum
`l + n - 1` stays below `r`. -/
theorem FindNextStart_found_eq (mask : ValidityMask) (l r n : Nat) (hn : 1 ≤ n) (hlr : l ≤ r)
    (hr : r < 2 ^ 64) (hc : n ≤ countSet mask l (r - l))
    (hskip : ∀ l, l < r → l % 64 = 0 → mask.GetValidityEntry (l / 64) = 0 →
      l + 64 < 2 ^ 64) :
    FindNextStart mask l r n = findNext mask l (r - l) n := by
  have := countSet_le mask l (r - l)
  exact FindNextStart_eq_findNext mask l r n hn hlr hr (by omega) (by omega) hskip

/-- When the range holds fewer than `n` set bits, `FindNextStart` leaves the residual `n`
minus their number. -/
theorem FindNextStart_residual (mask : ValidityMask) (l r n : Nat) (hn : 1 ≤ n) (hlr : l ≤ r)
    (hr : r < 2 ^ 64) (hn64 : n < 2 ^ 64) (hc : countSet mask l (r - l) < n)
    (hskip : ∀ l, l < r → l % 64 = 0 → mask.GetValidityEntry (l / 64) = 0 →
      l + 64 < 2 ^ 64) :
    (FindNextStart mask l r n).2 = n - countSet mask l (r - l) := by
  by_cases hall : mask.AllValid = true
  · rw [(FindNextStart_fast mask hall l r n hn hlr hr hn64).1]
    rw [countSet_all_set mask (RowIsValidUnsafe_of_AllValid mask hall)] at hc ⊢
    omega
  · rw [FindNextStart_buffer mask hall l r n hn hlr hskip, findNext_short mask _ _ _ hc]

theorem asIdx_lt (v : Int) : asIdx v < 2 ^ 64 := by
  unfold asIdx
  omega

end Window

namespace Window
open ValidityMask
open WindowBoundariesState

/-- C12: `FIRST_VALUE` without IGNORE NULLS (the mask has no buffer), at a position whose
frame is `[a, b)`: the cell written is the payload at row `a` when `a < b`, and NULL when
`a ≥ b`. -/
theorem FirstValue_without_ignore_nulls (ex : WindowExecutor) (bounds : BoundsChunk)
    (i a b : Nat) (hall : ex.ignore_nulls.AllValid = true)
    (ha : asIdx (bounds.window_begin i) = a) (hb : asIdx (bounds.window_end i) = b) :
    ex.FirstValueRow bounds i = if a < b then ex.payload_collection 0 a else none := by
  have hb64 : b < 2 ^ 64 := by rw [← hb]; exact asIdx_lt _
  unfold WindowExecutor.FirstValueRow
  simp only [ha, hb]
  by_cases h : a < b
  · obtain ⟨h1, h2⟩ := FindNextStart_fast ex.ignore_nulls hall a b 1 (Nat.le_refl 1) (by omega)
      hb64 (by omega)
    rw [if_neg (by omega), if_pos h, if_pos (by rw [h1]; omega), h2 (by omega)]
    congr 1
    omega
  · rw [if_pos (by omega), if_neg h]

/-- C12, at a concrete input: `FIRST_VALUE(x)` on `x = [5, NULL, 7]` with the frame `[1, 3)`
reads the payload of row 1, the NULL; over the whole batch with the frame
`ROWS BETWEEN UNBOUNDED PRECEDING AND CURRENT ROW` every row reads row 0. -/
theorem FirstValue_without_ignore_nulls_witness :
    ((valueExecutor .WINDOW_FIRST_VALUE .UNBOUNDED_PRECEDING .CURRENT_ROW_ROWS 3
          [some 5, none, some 7] [] 0 0 false .allValid).ignore_nulls.AllValid = true ∧
      asIdx ((frameBounds 1 3).window_begin 0) = 1 ∧
      asIdx ((frameBounds 1 3).window_end 0) = 3) ∧
    (valueExecutor .WINDOW_FIRST_VALUE .UNBOUNDED_PRECEDING .CURRENT_ROW_ROWS 3
        [some 5, none, some 7] [] 0 0 false .allValid).FirstValueRow (frameBounds 1 3) 0 =
      none ∧
    resultCells ((valueExecutor .WINDOW_FIRST_VALUE .UNBOUNDED_PRECEDING .CURRENT_ROW_ROWS 3
        [some 5, none, some 7] [] 0 0 false .allValid).Evaluate 0 3 (.ofWords [1])
        (.ofWords [7])) = some [some 5, some 5, some 5] :=
  ⟨⟨rfl, by decide, by decide⟩,
   (FirstValue_without_ignore_nulls
      (valueExecutor .WINDOW_FIRST_VALUE .UNBOUNDED_PRECEDING .CURRENT_ROW_ROWS 3
        [some 5, none, some 7] [] 0 0 false .allValid)
      (frameBounds 1 3) 0 1 3 rfl (by decide) (by decide)).trans (by decide),
   by decide⟩

/-- C13: `FIRST_VALUE` with IGNORE NULLS, for a mask whose bit `q` is set exactly when the
payload at row `q` is non-NULL (on the rows of the frame), at a position whose frame is
`[a, b)` with `b ≤ 2^64 - 64` (so that no skip of a blank block of the mask wraps): the cell
written is the payload at the smallest row of `[a, b)` with a non-NULL payload, and it is
NULL when the frame is empty or holds no non-NULL payload. -/
theorem FirstValue_ignore_nulls (ex : WindowExecutor) (bounds : BoundsChunk) (i a b : Nat)
    (hmask : ∀ q, a ≤ q → q < b →
      ex.ignore_nulls.RowIsValidUnsafe q = (ex.payload_collection 0 q).isSome)
    (ha : asIdx (bounds.window_begin i) = a) (hb : asIdx (bounds.window_end i) = b)
    (hfit : ex.ignore_nulls.AllValid = true ∨ b ≤ 2 ^ 64 - 64) :
    (∀ idx, a ≤ idx → idx < b → (ex.payload_collection 0 idx).isSome = true →
        (∀ j, a ≤ j → j < idx → ex.payload_collection 0 j = none) →
        ex.FirstValueRow bounds i = ex.payload_collection 0 idx) ∧
      ((b ≤ a ∨ ∀ j, a ≤ j → j < b → ex.payload_collection 0 j = none) →
        ex.FirstValueRow bounds i = none) := by
  have hb64 : b < 2 ^ 64 := by rw [← hb]; exact asIdx_lt _
  unfold WindowExecutor.FirstValueRow
  simp only [ha, hb]
  constructor
  · intro idx h1 h2 hsome hmin
    rw [if_neg (by omega), FindNextStart_eq_findNext _ _ _ _ (Nat.le_refl 1) (by omega) hb64
      (by omega) (by omega) (skip_of_fit _ _ hfit)]
    by_cases hc : 1 ≤ countSet ex.ignore_nulls a (b - a)
    · obtain ⟨f1, f2, f3, f4, f5⟩ := findNext_found ex.ignore_nulls (b - a) a 1
        (Nat.le_refl 1) hc
      rw [if_pos f1]
      congr 1
      have hun := countSet_zero_unset ex.ignore_nulls a _ f5
      rcases Nat.lt_trichotomy (findNext ex.ignore_nulls a (b - a) 1).1 idx with h | h | h
      · have := hmin _ f2 h
        rw [hmask _ f2 (by omega), this] at f4
        cases f4
      · exact h
      · have := hun idx h1 (by omega)
        rw [hmask idx h1 h2, hsome] at this
        cases this
    · have hz : countSet ex.ignore_nulls a (b - a) = 0 := by omega
      have := countSet_zero_unset ex.ignore_nulls a _ hz idx h1 (by omega)
      rw [hmask idx h1 h2, hsome] at this
      cases this
  · intro h
    by_cases hab : b ≤ a
    · rw [if_pos hab]
    · rw [if_neg hab, FindNextStart_eq_findNext _ _ _ _ (Nat.le_refl 1) (by omega) hb64
        (by omega) (by omega) (skip_of_fit _ _ hfit)]
      have hnone : ∀ j, a ≤ j → j < b → ex.payload_collection 0 j = none := by
        rcases h with h | h
        · exact absurd h hab
        · exact h
      have hz : countSet ex.ignore_nulls a (b - a) = 0 :=
        countSet_eq_zero _ _ _ (fun q h1 h2 => by
          rw [hmask q h1 (by omega), hnone q h1 (by omega)]; rfl)
      rw [findNext_short _ _ _ _ (by omega), hz]
      simp

/-- C13, at a concrete input: `FIRST_VALUE(x) IGNORE NULLS` on `x = [NULL, NULL, 7, 8]` with
the frame `[0, 4)` reads row 2, and with the frame
`ROWS BETWEEN UNBOUNDED PRECEDING AND CURRENT ROW` the batch is `[NULL, NULL, 7, 7]`. -/
theorem FirstValue_ignore_nulls_witness :
    ((∀ q, 0 ≤ q → q < 4 →
        (valueExecutor .WINDOW_FIRST_VALUE .UNBOUNDED_PRECEDING .CURRENT_ROW_ROWS 4
          [none, none, some 7, some 8] [] 0 0 true
          (.ofWords [12])).ignore_nulls.RowIsValidUnsafe q =
        ((valueExecutor .WINDOW_FIRST_VALUE .UNBOUNDED_PRECEDING .CURRENT_ROW_ROWS 4
          [none, none, some 7, some 8] [] 0 0 true
          (.ofWords [12])).payload_collection 0 q).isSome) ∧
      asIdx ((frameBounds 0 4).window_begin 0) = 0 ∧
      asIdx ((frameBounds 0 4).window_end 0) = 4 ∧ 4 ≤ 2 ^ 64 - 64) ∧
    (valueExecutor .WINDOW_FIRST_VALUE .UNBOUNDED_PRECEDING .CURRENT_ROW_ROWS 4
        [none, none, some 7, some 8] [] 0 0 true (.ofWords [12])).FirstValueRow
        (frameBounds 0 4) 0 = some 7 ∧
    resultCells ((valueExecutor .WINDOW_FIRST_VALUE .UNBOUNDED_PRECEDING .CURRENT_ROW_ROWS 4
        [none, none, some 7, some 8] [] 0 0 true (.ofWords [12])).Evaluate 0 4
        (.ofWords [1]) (.ofWords [15])) = some [none, none, some 7, some 7] :=
  ⟨⟨by intro q _ h; interval_cases q <;> decide, by decide, by decide, by decide⟩,
   ((FirstValue_ignore_nulls
      (valueExecutor .WINDOW_FIRST_VALUE .UNBOUNDED_PRECEDING .CURRENT_ROW_ROWS 4
        [none, none, some 7, some 8] [] 0 0 true (.ofWords [12]))
      (frameBounds 0 4) 0 0 4 (by intro q _ h; interval_cases q <;> decide) (by decide)
      (by decide) (Or.inr (by decide))).1 2 (by decide) (by decide) (by decide)
      (by intro j _ h; interval_cases j <;> decide)).trans (by decide),
   by decide⟩

end Window

namespace Window
open ValidityMask
open WindowBoundariesState

/-- C15: `NTH_VALUE` at a position whose frame is `[a, b)`, for every IGNORE NULLS mask and
argument cell `n` of the row, with `b ≤ 2^64 - 64` when the mask has a buffer (so that no
skip of a blank block wraps). The cell written is NULL when the frame is empty, when `n` is
NULL and when `n < 1`. For `1 ≤ n` and a non-empty frame: when the frame has at least `n`
rows whose mask bit is set, the cell is the payload of the `n`-th of them counting from `a`
(row `a + n - 1` when the mask has no buffer); when it has fewer, the cell is NULL. -/
theorem NthValue_nth_set_row (ex : WindowExecutor) (bounds : BoundsChunk) (i row a b : Nat)
    (ha : asIdx (bounds.window_begin i) = a) (hb : asIdx (bounds.window_end i) = b)
    (hfit : ex.ignore_nulls.AllValid = true ∨ b ≤ 2 ^ 64 - 64) :
    (b ≤ a → ex.NthValueRow bounds i row = none) ∧
    (ex.payload_collection 1 row = none → ex.NthValueRow bounds i row = none) ∧
    (∀ n : Int, ex.payload_collection 1 row = some n → n < 1 →
      ex.NthValueRow bounds i row = none) ∧
    (∀ n : Int, ex.payload_collection 1 row = some n → 1 ≤ n → n < 2 ^ 63 → a < b →
      (n.toNat ≤ countSet ex.ignore_nulls a (b - a) →
        ∃ idx, a ≤ idx ∧ idx < b ∧ ex.ignore_nulls.RowIsValidUnsafe idx = true ∧
          countSet ex.ignore_nulls a (idx - a) = n.toNat - 1 ∧
          (ex.ignore_nulls.AllValid = true → idx = a + n.toNat - 1) ∧
          ex.NthValueRow bounds i row = ex.payload_collection 0 idx) ∧
      (countSet ex.ignore_nulls a (b - a) < n.toNat →
        ex.NthValueRow bounds i row = none)) := by
  unfold WindowExecutor.NthValueRow
  simp only [ha, hb]
  refine ⟨fun h => by rw [if_pos h], fun h => by rw [h]; simp, fun n h1 h2 => ?_,
    fun n h1 h2 h3 h4 => ?_⟩
  · rw [h1]
    simp only [if_pos h2, ite_self]
  · have hidx : asIdx n = n.toNat := by unfold asIdx; omega
    have hn : 1 ≤ n.toNat := by omega
    rw [h1]
    have hb64 : b < 2 ^ 64 := by rw [← hb]; exact asIdx_lt _
    simp only [if_neg (show ¬ a ≥ b by omega), if_neg (show ¬ n < 1 by omega), hidx]
    constructor
    · intro hc
      rw [FindNextStart_found_eq _ _ _ _ hn (by omega) hb64 hc (skip_of_fit _ _ hfit)]
      obtain ⟨f1, f2, f3, f4, f5⟩ := findNext_found ex.ignore_nulls (b - a) a n.toNat hn hc
      refine ⟨(findNext ex.ignore_nulls a (b - a) n.toNat).1, f2, by omega, f4, f5, ?_, ?_⟩
      · intro hall
        rw [countSet_all_set _ (RowIsValidUnsafe_of_AllValid _ hall)] at f5
        omega
      · rw [if_pos f1]
    · intro hc
      rw [if_neg (by
        rw [FindNextStart_residual _ _ _ _ hn (by omega) hb64 (by omega) hc
          (skip_of_fit _ _ hfit)]
        omega)]

/-- C15, at a concrete input: `NTH_VALUE(x, 2) IGNORE NULLS` on `x = [NULL, 5, NULL, 7]`
with the frame `[0, 4)` reads row 3, the second row whose bit is set; with the frame
`ROWS BETWEEN UNBOUNDED PRECEDING AND CURRENT ROW` the batch is `[NULL, NULL, NULL, 7]`. -/
theorem NthValue_nth_set_row_witness :
    (asIdx ((frameBounds 0 4).window_begin 0) = 0 ∧
      asIdx ((frameBounds 0 4).window_end 0) = 4 ∧ 4 ≤ 2 ^ 64 - 64 ∧
      (2 : Int).toNat ≤ countSet (valueExecutor .WINDOW_NTH_VALUE .UNBOUNDED_PRECEDING
        .CURRENT_ROW_ROWS 4 [none, some 5, none, some 7] [some 2, some 2, some 2, some 2] 0 0
        true (.ofWords [10])).ignore_nulls 0 (4 - 0)) ∧
    (∃ idx, 0 ≤ idx ∧ idx < 4 ∧
      (valueExecutor .WINDOW_NTH_VALUE .UNBOUNDED_PRECEDING .CURRENT_ROW_ROWS 4
        [none, some 5, none, some 7] [some 2, some 2, some 2, some 2] 0 0 true
        (.ofWords [10])).ignore_nulls.RowIsValidUnsafe idx = true ∧
      countSet (valueExecutor .WINDOW_NTH_VALUE .UNBOUNDED_PRECEDING .CURRENT_ROW_ROWS 4
        [none, some 5, none, some 7] [some 2, some 2, some 2, some 2] 0 0 true
        (.ofWords [10])).ignore_nulls 0 (idx - 0) = (2 : Int).toNat - 1 ∧
      ((valueExecutor .WINDOW_NTH_VALUE .UNBOUNDED_PRECEDING .CURRENT_ROW_ROWS 4
        [none, some 5, none, some 7] [some 2, some 2, some 2, some 2] 0 0 true
        (.ofWords [10])).ignore_nulls.AllValid = true → idx = 0 + (2 : Int).toNat - 1) ∧
      (valueExecutor .WINDOW_NTH_VALUE .UNBOUNDED_PRECEDING .CURRENT_ROW_ROWS 4
        [none, some 5, none, some 7] [some 2, some 2, some 2, some 2] 0 0 true
        (.ofWords [10])).NthValueRow (frameBounds 0 4) 0 0 =
      (valueExecutor .WINDOW_NTH_VALUE .UNBOUNDED_PRECEDING .CURRENT_ROW_ROWS 4
        [none, some 5, none, some 7] [some 2, some 2, some 2, some 2] 0 0 true
        (.ofWords [10])).payload_collection 0 idx) ∧
    (valueExecutor .WINDOW_NTH_VALUE .UNBOUNDED_PRECEDING .CURRENT_ROW_ROWS 4
        [none, some 5, none, some 7] [some 2, some 2, some 2, some 2] 0 0 true
        (.ofWords [10])).NthValueRow (frameBounds 0 4) 0 0 = some 7 ∧
    resultCells ((valueExecutor .WINDOW_NTH_VALUE .UNBOUNDED_PRECEDING .CURRENT_ROW_ROWS 4
        [none, some 5, none, some 7] [some 2, some 2, some 2, some 2] 0 0 true
        (.ofWords [10])).Evaluate 0 4 (.ofWords [1]) (.ofWords [15])) =
      some [none, none, none, some 7] :=
  ⟨⟨by decide, by decide, by decide, by decide⟩,
   ((NthValue_nth_set_row
      (valueExecutor .WINDOW_NTH_VALUE .UNBOUNDED_PRECEDING .CURRENT_ROW_ROWS 4
        [none, some 5, none, some 7] [some 2, some 2, some 2, some 2] 0 0 true
        (.ofWords [10]))
      (frameBounds 0 4) 0 0 0 4 (by decide) (by decide) (Or.inr (by decide))).2.2.2 2 rfl (by decide) (by decide)
      (by decide)).1 (by decide),
   by decide, by decide⟩

/-- C11: `LEAD` with IGNORE NULLS, for a mask whose bit `q` is set exactly when the payload at
row `q` is non-NULL (on the rows after `row` in the partition), at a row `row` of the
partition `[pb, pe)` with the 64-bit offset `d ≥ 1` (1 when there is no offset expression).
When at least `d` rows of `(row, pe)` are non-NULL, the cell written is the payload of the
`d`-th of them counting forward from `row + 1`; otherwise it is the cell of the default
expression at this row when a default is present, and NULL when not. -/
theorem Lead_ignore_nulls (ex : WindowExecutor) (bounds : BoundsChunk) (i row : Nat)
    (htype : ex.wexpr.type = .WINDOW_LEAD)
    (hmask : ∀ q, row < q → q < bounds.partition_end i →
      ex.ignore_nulls.RowIsValidUnsafe q = (ex.payload_collection 0 q).isSome)
    (h1 : bounds.partition_begin i ≤ row) (h2 : row < bounds.partition_end i)
    (hsize : bounds.partition_end i ≤ 2 ^ 62) (d : Int)
    (hd : d = if ex.wexpr.has_offset_expr then ex.leadlag_offset.GetCell i else 1)
    (hd1 : 1 ≤ d) (hd64 : d < 2 ^ 63) :
    (d.toNat ≤ countSet ex.ignore_nulls (row + 1) (bounds.partition_end i - (row + 1)) →
      ∃ idx, row < idx ∧ idx < bounds.partition_end i ∧
        (ex.payload_collection 0 idx).isSome = true ∧
        countSet ex.ignore_nulls (row + 1) (idx - (row + 1)) = d.toNat - 1 ∧
        ex.LeadLagRow bounds i row = ex.payload_collection 0 idx) ∧
    (countSet ex.ignore_nulls (row + 1) (bounds.partition_end i - (row + 1)) < d.toNat →
      ex.LeadLagRow bounds i row =
        if ex.wexpr.has_default_expr then ex.leadlag_default.CopyCell i else none) := by
  have hcnt := countSet_le ex.ignore_nulls (row + 1) (bounds.partition_end i - (row + 1))
  have hdn : 1 ≤ d.toNat := by omega
  unfold WindowExecutor.LeadLagRow
  simp only []
  by_cases hov : (row : Int) + d < 2 ^ 63
  · have hw : wrap64 ((row : Int) + d) = (row : Int) + d := by unfold wrap64; omega
    have hdelta : asIdx ((row : Int) + d - (row : Int)) = d.toNat := by unfold asIdx; omega
    have ht : ex.LeadLagTarget bounds i row =
        (((findNext ex.ignore_nulls (row + 1) (bounds.partition_end i - (row + 1))
            d.toNat).1 : Int),
          (findNext ex.ignore_nulls (row + 1) (bounds.partition_end i - (row + 1))
            d.toNat).2) := by
      unfold WindowExecutor.LeadLagTarget
      rw [← hd]
      simp only [htype, if_true, hw]
      rw [if_neg (by omega), if_pos (by omega), hdelta,
        FindNextStart_eq_findNext _ _ _ _ hdn (by omega) (by omega) (by omega) (by omega)
          (skip_of_le _ _ (by omega))]
    rw [ht]
    simp only []
    constructor
    · intro hc
      obtain ⟨f1, f2, f3, f4, f5⟩ := findNext_found ex.ignore_nulls _ (row + 1) d.toNat hdn hc
      refine ⟨(findNext ex.ignore_nulls (row + 1) (bounds.partition_end i - (row + 1))
        d.toNat).1, by omega, by omega, ?_, f5, ?_⟩
      · rw [← hmask _ (by omega) (by omega)]
        exact f4
      · rw [if_pos f1]
        congr 1
        unfold asIdx
        omega
    · intro hc
      rw [findNext_short _ _ _ _ hc]
      simp only []
      rw [if_neg (by omega)]
  · have hw : wrap64 ((row : Int) + d) = (row : Int) + d - 2 ^ 64 := by unfold wrap64; omega
    have hdelta : asIdx ((row : Int) - ((row : Int) + d - 2 ^ 64)) = (2 ^ 64 - d).toNat := by
      unfold asIdx
      omega
    have hres := FindPrevStart_large ex.ignore_nulls (bounds.partition_begin i) row
      (2 ^ 64 - d).toNat (by omega) h1 (by omega)
    have ht : (ex.LeadLagTarget bounds i row).2 =
        (FindPrevStart ex.ignore_nulls (bounds.partition_begin i) row
          (2 ^ 64 - d).toNat).2 := by
      unfold WindowExecutor.LeadLagTarget
      rw [← hd]
      simp only [htype, if_true, hw]
      rw [if_pos (by omega), hdelta]
    rw [ht]
    constructor
    · intro hc
      omega
    · intro _
      rw [if_neg (by omega)]

/-- C11, at a concrete input: `LEAD(x, 2, -1) IGNORE NULLS` on `x = [1, NULL, 2, NULL, 3]`
gives `[3, 3, -1, -1, -1]`; row 0 reads row 4, the second non-NULL row after it. -/
theorem Lead_ignore_nulls_witness :
    ((leadLagExecutor .WINDOW_LEAD 0 5 [some 1, none, some 2, none, some 3] 2 (some (-1)) true
          (.ofWords [21])).wexpr.type = .WINDOW_LEAD ∧
      (onePartitionBounds 0 5).partition_begin 0 ≤ 0 ∧
      0 < (onePartitionBounds 0 5).partition_end 0 ∧
      (onePartitionBounds 0 5).partition_end 0 ≤ 2 ^ 62 ∧
      (1 ≤ (2 : Int) ∧ (2 : Int) < 2 ^ 63) ∧
      (2 : Int).toNat ≤ countSet (leadLagExecutor .WINDOW_LEAD 0 5
        [some 1, none, some 2, none, some 3] 2 (some (-1)) true (.ofWords [21])).ignore_nulls
        (0 + 1) ((onePartitionBounds 0 5).partition_end 0 - (0 + 1))) ∧
    (∃ idx, 0 < idx ∧ idx < (onePartitionBounds 0 5).partition_end 0 ∧
      ((leadLagExecutor .WINDOW_LEAD 0 5 [some 1, none, some 2, none, some 3] 2 (some (-1))
        true (.ofWords [21])).payload_collection 0 idx).isSome = true ∧
      countSet (leadLagExecutor .WINDOW_LEAD 0 5 [some 1, none, some 2, none, some 3] 2
        (some (-1)) true (.ofWords [21])).ignore_nulls (0 + 1) (idx - (0 + 1)) =
        (2 : Int).toNat - 1 ∧
      (leadLagExecutor .WINDOW_LEAD 0 5 [some 1, none, some 2, none, some 3] 2 (some (-1)) true
        (.ofWords [21])).LeadLagRow (onePartitionBounds 0 5) 0 0 =
      (leadLagExecutor .WINDOW_LEAD 0 5 [some 1, none, some 2, none, some 3] 2 (some (-1)) true
        (.ofWords [21])).payload_collection 0 idx) ∧
    (leadLagExecutor .WINDOW_LEAD 0 5 [some 1, none, some 2, none, some 3] 2 (some (-1)) true
        (.ofWords [21])).LeadLag (onePartitionBounds 0 5) 5 0 =
      [some 3, some 3, some (-1), some (-1), some (-1)] :=
  ⟨⟨rfl, by decide, by decide, by decide, by decide, by decide⟩,
   (Lead_ignore_nulls
      (leadLagExecutor .WINDOW_LEAD 0 5 [some 1, none, some 2, none, some 3] 2 (some (-1)) true
        (.ofWords [21]))
      (onePartitionBounds 0 5) 0 0 rfl
      (by
        intro q h1 h2
        have h3 : q < 5 := h2
        interval_cases q <;> decide)
      (by decide) (by decide) (by decide) 2 rfl (by decide) (by decide)).1 (by decide),
   by decide⟩

end Window

namespace Window
open ValidityMask
open WindowBoundariesState

/-! ## `FindPrevStart` for one row is the backward scan from the word of `l` -/

theorem findLast_append (mask : ValidityMask) (l k : Nat) :
    ∀ s, findLast mask l (k + s) =
      (findLast mask (l + k) s).orElse (fun _ => findLast mask l k) := by
  intro s
  induction s with
  | zero => simp [findLast]
  | succ s ih =>
    rw [show k + (s + 1) = (k + s) + 1 by omega, findLast, findLast, ih,
      show l + (k + s) = l + k + s by omega]
    split <;> simp

theorem findLast_some (mask : ValidityMask) (l : Nat) :
    ∀ k p, findLast mask l k = some p →
      l ≤ p ∧ p < l + k ∧ mask.RowIsValidUnsafe p = true ∧
        ∀ q, p < q → q < l + k → mask.RowIsValidUnsafe q = false := by
  intro k
  induction k with
  | zero => intro p h; cases h
  | succ k ih =>
    intro p h
    rw [findLast] at h
    by_cases hb : mask.RowIsValidUnsafe (l + k) = true
    · rw [if_pos hb] at h
      injection h with h
      subst h
      exact ⟨by omega, by omega, hb, fun q h1 h2 => by omega⟩
    · rw [if_neg hb] at h
      obtain ⟨h1, h2, h3, h4⟩ := ih p h
      refine ⟨h1, by omega, h3, fun q hq1 hq2 => ?_⟩
      by_cases hq : q = l + k
      · subst hq; simpa using hb
      · exact h4 q hq1 (by omega)

theorem findLast_none (mask : ValidityMask) (l : Nat) :
    ∀ k, findLast mask l k = none →
      ∀ q, l ≤ q → q < l + k → mask.RowIsValidUnsafe q = false := by
  intro k
  induction k with
  | zero => intro _ q h1 h2; omega
  | succ k ih =>
    intro h q h1 h2
    rw [findLast] at h
    by_cases hb : mask.RowIsValidUnsafe (l + k) = true
    · rw [if_pos hb] at h; cases h
    · rw [if_neg hb] at h
      by_cases hq : q = l + k
      · subst hq; simpa using hb
      · exact ih h q h1 (by omega)

theorem findLast_of_unset (mask : ValidityMask) (l : Nat) :
    ∀ k, (∀ q, l ≤ q → q < l + k → mask.RowIsValidUnsafe q = false) →
      findLast mask l k = none := by
  intro k
  induction k with
  | zero => intro _; rfl
  | succ k ih =>
    intro h
    rw [findLast, h (l + k) (by omega) (by omega)]
    simp only [Bool.false_eq_true, if_false]
    exact ih (fun q h1 h2 => h q h1 (by omega))

/-- The inner loop of `FindPrevStart` for one row on the word of entry `e`, entered with
`s` bits left below `r = 64 * e + s`: it returns at the largest set bit of these, or runs
down to the start of the word. -/
theorem FindPrevStartBlock_one (mask : ValidityMask) (l e : Nat) :
    ∀ (s r : Nat), r = 64 * e + s → s ≤ 64 →
      FindPrevStartBlock (mask.GetValidityEntry e) l s r 1 =
        match findLast mask (64 * e) s with
        | some p => .found (max l p) 0
        | none => .next (64 * e) 1 := by
  intro s
  induction s with
  | zero =>
    intro r hr _
    subst hr
    rfl
  | succ s ih =>
    intro r hr hs
    rw [FindPrevStartBlock, findLast, ← RowIsValidUnsafe_eq mask e s (by omega)]
    by_cases hb : mask.RowIsValidUnsafe (64 * e + s) = true
    · rw [if_pos hb, if_pos hb]
      simp only [decr64]
      simp only [if_true, Nat.one_ne_zero, if_false, Nat.sub_self]
      rw [show r - 1 = 64 * e + s by omega]
    · rw [if_neg hb, if_neg hb]
      exact ih (r - 1) (by omega) (by omega)

theorem FindPrevStartLoop_done (mask : ValidityMask) (l : Nat) :
    ∀ (fuel r n : Nat), r ≤ l → FindPrevStartLoop mask l fuel r n = (l, n) := by
  intro fuel r n h
  cases fuel with
  | zero => rfl
  | succ fuel => rw [FindPrevStartLoop, if_neg (by omega)]

/-- The outer loop of `FindPrevStart` for one row scans down from `r` to the start of the
word of `l`: it returns `max l p` with residual 0 for the largest set bit `p` found there,
and `l` with residual 1 when there is none. -/
theorem FindPrevStartLoop_one (mask : ValidityMask) (l : Nat) :
    ∀ (fuel r : Nat), l < r → r - l ≤ fuel →
      FindPrevStartLoop mask l fuel r 1 =
        match findLast mask (64 * (l / 64)) (r - 64 * (l / 64)) with
        | some p => (max l p, 0)
        | none => (l, 1) := by
  intro fuel
  induction fuel with
  | zero => intro r h1 h2; omega
  | succ fuel ih =>
    intro r hlr hf
    rw [FindPrevStartLoop, if_pos hlr]
    simp only [GetEntryIndex, BITS_PER_VALUE]
    have hr : r = 64 * ((r - 1) / 64) + ((r - 1) % 64 + 1) := by omega
    have hbase : 64 * (l / 64) ≤ 64 * ((r - 1) / 64) := by omega
    have happ := findLast_append mask (64 * (l / 64))
      (64 * ((r - 1) / 64) - 64 * (l / 64)) ((r - 1) % 64 + 1)
    rw [show 64 * ((r - 1) / 64) - 64 * (l / 64) + ((r - 1) % 64 + 1) = r - 64 * (l / 64) by
      omega, show 64 * (l / 64) + (64 * ((r - 1) / 64) - 64 * (l / 64)) =
      64 * ((r - 1) / 64) by omega] at happ
    have hcont : FindPrevStartLoop mask l fuel (64 * ((r - 1) / 64)) 1 =
        match findLast mask (64 * (l / 64)) (64 * ((r - 1) / 64) - 64 * (l / 64)) with
        | some p => (max l p, 0)
        | none => (l, 1) := by
      by_cases hl : l < 64 * ((r - 1) / 64)
      · exact ih _ hl (by omega)
      · rw [FindPrevStartLoop_done mask l fuel _ 1 (by omega),
          show 64 * ((r - 1) / 64) - 64 * (l / 64) = 0 by omega]
        rfl
    by_cases hskip : NoneValid (mask.GetValidityEntry ((r - 1) / 64)) = true ∧
        (r - 1) % 64 + 1 = 64
    · rw [if_pos hskip]
      have hzero : mask.GetValidityEntry ((r - 1) / 64) = 0 := by
        have := hskip.1
        unfold NoneValid at this
        exact beq_iff_eq.1 this
      have hnone : findLast mask (64 * ((r - 1) / 64)) ((r - 1) % 64 + 1) = none := by
        apply findLast_of_unset
        intro q h1 h2
        have hq : q = 64 * ((r - 1) / 64) + (q - 64 * ((r - 1) / 64)) := by omega
        rw [hq, RowIsValidUnsafe_eq mask _ _ (by omega), hzero]
        simp [EntryRowIsValid]
      rw [happ, hnone, show r - 64 = 64 * ((r - 1) / 64) by omega, hcont]
      rfl
    · rw [if_neg hskip, FindPrevStartBlock_one mask l ((r - 1) / 64) _ r hr (by omega), happ]
      cases hfl : findLast mask (64 * ((r - 1) / 64)) ((r - 1) % 64 + 1) with
      | some p => rfl
      | none =>
        simp only []
        rw [hcont]
        rfl

/-- The function `FindPrevStart` for one row on a non-empty range `[l, r)`: either the
residual is 0 and the index is the largest set bit of `[l, r)`, or no bit of `[l, r)` is set
and the result is `l` with residual 0 or 1. -/
theorem FindPrevStart_one (mask : ValidityMask) (l r : Nat) (hlr : l < r)
    (hr : r < 2 ^ 64) :
    ((FindPrevStart mask l r 1).2 = 0 ∧ l ≤ (FindPrevStart mask l r 1).1 ∧
        (FindPrevStart mask l r 1).1 < r ∧
        mask.RowIsValidUnsafe (FindPrevStart mask l r 1).1 = true ∧
        ∀ q, (FindPrevStart mask l r 1).1 < q → q < r → mask.RowIsValidUnsafe q = false) ∨
      ((FindPrevStart mask l r 1).1 = l ∧
        ∀ q, l ≤ q → q < r → mask.RowIsValidUnsafe q = false) := by
  unfold FindPrevStart
  by_cases hall : mask.AllValid = true
  · rw [if_pos hall]
    left
    have hstart : (if r ≤ add64 l 1 then l else sub64 r 1) = r - 1 := by
      unfold add64 sub64
      split <;> omega
    simp only [hstart]
    refine ⟨by unfold sub64; omega, by omega, by omega,
      RowIsValidUnsafe_of_AllValid mask hall _, fun q h1 h2 => by omega⟩
  · rw [if_neg hall, FindPrevStartLoop_one mask l (r - l) r hlr (Nat.le_refl _)]
    have hbase : 64 * (l / 64) ≤ l := by omega
    cases hfl : findLast mask (64 * (l / 64)) (r - 64 * (l / 64)) with
    | some p =>
      obtain ⟨h1, h2, h3, h4⟩ := findLast_some mask _ _ p hfl
      simp only []
      by_cases hp : l ≤ p
      · left
        rw [show max l p = p by omega]
        exact ⟨trivial, hp, by omega, h3, fun q hq1 hq2 => h4 q hq1 (by omega)⟩
      · right
        exact ⟨by omega, fun q hq1 hq2 => h4 q (by omega) (by omega)⟩
    | none =>
      right
      exact ⟨rfl, fun q hq1 hq2 => findLast_none mask _ _ hfl q (by omega) (by omega)⟩

/-- C14: `LAST_VALUE` at a position whose frame is `[a, b)`. The cell written is NULL when
`a ≥ b`. Without IGNORE NULLS (the mask has no buffer) it is the payload at row `b - 1`. For
a mask whose bit `q` is set exactly when the payload at row `q` is non-NULL on the rows of
the frame, whatever the bits and payloads of the rows before `a`, it is the payload at the
largest row of `[a, b)` with a non-NULL payload, and NULL when no row of the frame has a
non-NULL payload. -/
theorem LastValue_rows (ex : WindowExecutor) (bounds : BoundsChunk) (i a b : Nat)
    (ha : asIdx (bounds.window_begin i) = a) (hb : asIdx (bounds.window_end i) = b) :
    (b ≤ a → ex.LastValueRow bounds i = none) ∧
    (ex.ignore_nulls.AllValid = true → a < b →
      ex.LastValueRow bounds i = ex.payload_collection 0 (b - 1)) ∧
    ((∀ q, a ≤ q → q < b →
        ex.ignore_nulls.RowIsValidUnsafe q = (ex.payload_collection 0 q).isSome) →
      (∀ idx, a ≤ idx → idx < b → (ex.payload_collection 0 idx).isSome = true →
        (∀ j, idx < j → j < b → ex.payload_collection 0 j = none) →
        ex.LastValueRow bounds i = ex.payload_collection 0 idx) ∧
      ((∀ j, a ≤ j → j < b → ex.payload_collection 0 j = none) →
        ex.LastValueRow bounds i = none)) := by
  have hb64 : b < 2 ^ 64 := by rw [← hb]; exact asIdx_lt _
  unfold WindowExecutor.LastValueRow
  simp only [ha, hb]
  refine ⟨fun h => by rw [if_pos h], fun hall hab => ?_, fun hmask => ⟨?_, ?_⟩⟩
  · rw [if_neg (by omega)]
    have hstart : (if b ≤ add64 a 1 then a else sub64 b 1) = b - 1 := by
      unfold add64 sub64
      split <;> omega
    unfold FindPrevStart
    simp only [hall, if_true, hstart]
    rw [if_pos (by unfold sub64; omega)]
  · intro idx h1 h2 hsome hmax
    have hab : a < b := by omega
    rw [if_neg (by omega)]
    have hbit : ex.ignore_nulls.RowIsValidUnsafe idx = true := by rw [hmask idx h1 h2, hsome]
    rcases FindPrevStart_one ex.ignore_nulls a b hab hb64 with ⟨f1, f2, f3, f4, f5⟩ | ⟨_, f2⟩
    · rw [if_pos f1]
      congr 1
      rcases Nat.lt_trichotomy (FindPrevStart ex.ignore_nulls a b 1).1 idx with h | h | h
      · rw [f5 idx h h2] at hbit
        cases hbit
      · exact h
      · rw [hmask _ f2 f3, hmax _ h f3] at f4
        cases f4
    · rw [f2 idx h1 h2] at hbit
      cases hbit
  · intro hnone
    by_cases hab : b ≤ a
    · rw [if_pos hab]
    · rw [if_neg hab]
      rcases FindPrevStart_one ex.ignore_nulls a b (by omega) hb64 with ⟨f1, f2, f3, f4, f5⟩ | ⟨f1, _⟩
      · rw [hmask _ f2 f3, hnone _ f2 f3] at f4
        cases f4
      · rw [f1, hnone a (Nat.le_refl a) (by omega)]
        simp

end Window

namespace Window
open ValidityMask
open WindowBoundariesState

/-- C14, at a concrete input: `LAST_VALUE(x) IGNORE NULLS` on `x = [5, NULL, NULL]` with the
frame `[1, 3)` is NULL although row 0, before the frame, is non-NULL; with the frame
`ROWS BETWEEN UNBOUNDED PRECEDING AND CURRENT ROW` the batch is `[5, 5, 5]`. -/
theorem LastValue_rows_witness :
    (asIdx ((frameBounds 1 3).window_begin 0) = 1 ∧
      asIdx ((frameBounds 1 3).window_end 0) = 3 ∧
      (∀ q, 1 ≤ q → q < 3 →
        (valueExecutor .WINDOW_LAST_VALUE .UNBOUNDED_PRECEDING .CURRENT_ROW_ROWS 3
          [some 5, none, none] [] 0 0 true (.ofWords [1])).ignore_nulls.RowIsValidUnsafe q =
        ((valueExecutor .WINDOW_LAST_VALUE .UNBOUNDED_PRECEDING .CURRENT_ROW_ROWS 3
          [some 5, none, none] [] 0 0 true (.ofWords [1])).payload_collection 0 q).isSome) ∧
      (∀ j, 1 ≤ j → j < 3 →
        (valueExecutor .WINDOW_LAST_VALUE .UNBOUNDED_PRECEDING .CURRENT_ROW_ROWS 3
          [some 5, none, none] [] 0 0 true (.ofWords [1])).payload_collection 0 j = none)) ∧
    (valueExecutor .WINDOW_LAST_VALUE .UNBOUNDED_PRECEDING .CURRENT_ROW_ROWS 3
        [some 5, none, none] [] 0 0 true (.ofWords [1])).LastValueRow (frameBounds 1 3) 0 =
      none ∧
    resultCells ((valueExecutor .WINDOW_LAST_VALUE .UNBOUNDED_PRECEDING .CURRENT_ROW_ROWS 3
        [some 5, none, none] [] 0 0 true (.ofWords [1])).Evaluate 0 3 (.ofWords [1])
        (.ofWords [7])) = some [some 5, some 5, some 5] :=
  ⟨⟨by decide, by decide, by intro q h1 h2; interval_cases q <;> decide,
      by intro j h1 h2; interval_cases j <;> decide⟩,
   ((LastValue_rows
      (valueExecutor .WINDOW_LAST_VALUE .UNBOUNDED_PRECEDING .CURRENT_ROW_ROWS 3
        [some 5, none, none] [] 0 0 true (.ofWords [1]))
      (frameBounds 1 3) 0 1 3 (by decide) (by decide)).2.2
      (by intro q h1 h2; interval_cases q <;> decide)).2
      (by intro j h1 h2; interval_cases j <;> decide),
   by decide⟩

end Window

namespace Window
open ValidityMask
open WindowBoundariesState

/-- The start switch of `Update` for `EXPR PRECEDING` in ROWS mode, without overflow. -/
theorem UpdateStart_preceding_rows (s : WindowBoundariesState) (row chunk_idx : Nat)
    (range : WindowInputColumn) (bs : WindowInputExpression)
    (hstart : s.start_boundary = .EXPR_PRECEDING_ROWS)
    (hov : -(2 ^ 63) ≤ (row : Int) - bs.GetCell chunk_idx ∧
      (row : Int) - bs.GetCell chunk_idx < 2 ^ 63) :
    s.UpdateStart row range chunk_idx bs =
      .ok { s with window_start := (row : Int) - bs.GetCell chunk_idx } := by
  unfold UpdateStart
  simp only [hstart, TrySubtractOperator, if_pos hov]

/-- The end switch of `Update` for `EXPR FOLLOWING` in ROWS mode, without overflow. -/
theorem UpdateEnd_following_rows (s : WindowBoundariesState) (row chunk_idx : Nat)
    (range : WindowInputColumn) (be : WindowInputExpression)
    (hend : s.end_boundary = .EXPR_FOLLOWING_ROWS)
    (hov : -(2 ^ 63) ≤ ((row : Int) + 1) + be.GetCell chunk_idx ∧
      ((row : Int) + 1) + be.GetCell chunk_idx < 2 ^ 63) :
    s.UpdateEnd row range chunk_idx be =
      .ok { s with window_end := ((row : Int) + 1) + be.GetCell chunk_idx } := by
  unfold UpdateEnd
  simp only [hend, TryAddOperator, if_pos hov]

/-- C20: `Update` at a row `row` of the partition `[pb, pe)` for a frame in ROWS mode with
start bound `k PRECEDING` and end bound `m FOLLOWING`, when the checked subtraction
`row - k` and the checked addition `row + 1 + m` do not overflow. The call succeeds with
`window_start = clamp(row - k, pb, pe)` and `window_end = clamp(row + 1 + m, pb, pe)`; for
`k, m ≥ 0` the frame is exactly the rows `i` of the partition with
`row - k ≤ i ≤ row + m`; and an offset `k` larger than the number of preceding rows yields
`window_start = pb` without an error. -/
theorem Update_rows_preceding_following (s : WindowBoundariesState) (row chunk_idx : Nat)
    (range : WindowInputColumn) (bs be : WindowInputExpression) (pm om : ValidityMask)
    (k m : Int) (pb pe : Nat)
    (hstart : s.start_boundary = .EXPR_PRECEDING_ROWS)
    (hend : s.end_boundary = .EXPR_FOLLOWING_ROWS)
    (hk : bs.GetCell chunk_idx = k) (hm : be.GetCell chunk_idx = m)
    (hpb : (s.UpdatePartition row range pm om).partition_start = pb)
    (hpe : (s.UpdatePartition row range pm om).partition_end = pe)
    (h1 : pb ≤ row) (h2 : row < pe)
    (hovk : -(2 ^ 63) ≤ (row : Int) - k ∧ (row : Int) - k < 2 ^ 63)
    (hovm : -(2 ^ 63) ≤ ((row : Int) + 1) + m ∧ ((row : Int) + 1) + m < 2 ^ 63) :
    ∃ s', s.Update row range chunk_idx bs be pm om = .ok s' ∧
      s'.partition_start = pb ∧ s'.partition_end = pe ∧
      s'.window_start = clamp ((row : Int) - k) pb pe ∧
      s'.window_end = clamp ((row : Int) + 1 + m) pb pe ∧
      (0 ≤ k → 0 ≤ m → ∀ i : Int, (s'.window_start ≤ i ∧ i < s'.window_end) ↔
        ((pb : Int) ≤ i ∧ i < (pe : Int) ∧ (row : Int) - k ≤ i ∧ i ≤ (row : Int) + m)) ∧
      ((row : Int) - (pb : Int) < k → s'.window_start = (pb : Int)) := by
  have hs1 : (s.UpdatePartition row range pm om).start_boundary = .EXPR_PRECEDING_ROWS ∧
      (s.UpdatePartition row range pm om).end_boundary = .EXPR_FOLLOWING_ROWS := by
    obtain ⟨ps, pe1, ks, ke, vs, ve, p, hshape⟩ := UpdatePartition_shape s row range pm om
    rw [hshape]
    exact ⟨hstart, hend⟩
  unfold Update
  rw [UpdateStart_preceding_rows _ row chunk_idx range bs hs1.1 (by rw [hk]; exact hovk)]
  simp only []
  rw [UpdateEnd_following_rows _ row chunk_idx range be (by exact hs1.2)
    (by rw [hm]; exact hovm)]
  simp only []
  unfold UpdateClamp
  simp only [hpb, hpe, hk, hm]
  rw [if_neg (by split_ifs <;> omega)]
  refine ⟨_, rfl, ?_, ?_, ?_, ?_, ?_, ?_⟩
  · rfl
  · rfl
  · simp only [clamp]
    split_ifs <;> omega
  · simp only [clamp]
    split_ifs <;> omega
  · intro hk0 hm0 i
    simp only []
    split_ifs <;> omega
  · intro hlt
    simp only []
    split_ifs <;> omega

/-- C20, at a concrete input: `SUM(x) OVER (ORDER BY o ROWS BETWEEN 1 PRECEDING AND
1 FOLLOWING)` on `x = [1, 2, 3, 4]`. At row 0 the start `0 - 1` is clamped to the partition
start 0 without an error and the frame is `[0, 2)`; the batch is `[3, 6, 9, 7]`. -/
theorem Update_rows_preceding_following_witness :
    ((WindowBoundariesState.new rowsAroundExpr 4).start_boundary = .EXPR_PRECEDING_ROWS ∧
      (WindowBoundariesState.new rowsAroundExpr 4).end_boundary = .EXPR_FOLLOWING_ROWS ∧
      (WindowInputExpression.const 1).GetCell 0 = 1 ∧
      ((WindowBoundariesState.new rowsAroundExpr 4).UpdatePartition 0 .empty (.ofWords [1])
        (.ofWords [15])).partition_start = 0 ∧
      ((WindowBoundariesState.new rowsAroundExpr 4).UpdatePartition 0 .empty (.ofWords [1])
        (.ofWords [15])).partition_end = 4 ∧
      (-(2 ^ 63) ≤ ((0 : Nat) : Int) - 1 ∧ ((0 : Nat) : Int) - 1 < 2 ^ 63) ∧
      (-(2 ^ 63) ≤ (((0 : Nat) : Int) + 1) + 1 ∧ (((0 : Nat) : Int) + 1) + 1 < 2 ^ 63)) ∧
    (∃ s', (WindowBoundariesState.new rowsAroundExpr 4).Update 0 .empty 0 (.const 1) (.const 1)
        (.ofWords [1]) (.ofWords [15]) = .ok s' ∧
      s'.partition_start = 0 ∧ s'.partition_end = 4 ∧
      s'.window_start = clamp (((0 : Nat) : Int) - 1) (0 : Nat) (4 : Nat) ∧
      s'.window_end = clamp (((0 : Nat) : Int) + 1 + 1) (0 : Nat) (4 : Nat) ∧
      ((0 : Int) ≤ 1 → (0 : Int) ≤ 1 → ∀ i : Int, (s'.window_start ≤ i ∧ i < s'.window_end) ↔
        (((0 : Nat) : Int) ≤ i ∧ i < ((4 : Nat) : Int) ∧ ((0 : Nat) : Int) - 1 ≤ i ∧
          i ≤ ((0 : Nat) : Int) + 1)) ∧
      (((0 : Nat) : Int) - ((0 : Nat) : Int) < 1 → s'.window_start = ((0 : Nat) : Int))) ∧
    (clamp (((0 : Nat) : Int) - 1) (0 : Nat) (4 : Nat) = 0 ∧
      clamp (((0 : Nat) : Int) + 1 + 1) (0 : Nat) (4 : Nat) = 2) ∧
    resultCells ((valueExecutor .WINDOW_AGGREGATE .EXPR_PRECEDING_ROWS .EXPR_FOLLOWING_ROWS 4
        [some 1, some 2, some 3, some 4] [] 1 1 false .allValid).Evaluate 0 4 (.ofWords [1])
        (.ofWords [15])) = some [some 3, some 6, some 9, some 7] :=
  ⟨⟨rfl, rfl, rfl, by decide, by decide, by decide, by decide⟩,
   Update_rows_preceding_following (WindowBoundariesState.new rowsAroundExpr 4) 0 0 .empty
     (.const 1) (.const 1) (.ofWords [1]) (.ofWords [15]) 1 1 0 4 rfl rfl rfl rfl (by decide)
     (by decide) (by decide) (by decide) (by decide) (by decide),
   ⟨by decide, by decide⟩, by decide⟩

end Window

namespace Window
open ValidityMask
open WindowBoundariesState

/-! ## Runs of a mask -/

theorem lastStart_unset (m : ValidityMask) :
    ∀ r q, lastStart m r < q → q ≤ r → m.RowIsValidUnsafe q = false := by
  intro r
  induction r with
  | zero => intro q h1 h2; omega
  | succ r ih =>
    intro q h1 h2
    rw [lastStart] at h1
    by_cases hb : m.RowIsValidUnsafe (r + 1) = true
    · rw [if_pos hb] at h1; omega
    · rw [if_neg hb] at h1
      by_cases hq : q = r + 1
      · subst hq; simpa using hb
      · exact ih q h1 (by omega)

theorem lastStart_set (m : ValidityMask) (h0 : m.RowIsValidUnsafe 0 = true) :
    ∀ r, m.RowIsValidUnsafe (lastStart m r) = true := by
  intro r
  induction r with
  | zero => exact h0
  | succ r ih =>
    rw [lastStart]
    split
    · assumption
    · exact ih

theorem lastStart_sub (pm om : ValidityMask) (hinv : MaskInvariants pm om) :
    ∀ r, lastStart pm r ≤ lastStart om r := by
  intro r
  by_contra h
  have h1 := lastStart_unset om r (lastStart pm r) (by omega) (lastStart_le pm r)
  rw [hinv.2.2 _ (lastStart_set pm hinv.1 r)] at h1
  cases h1

/-- The first set bit of a range: the scan for one row ends at a position `e` of
`[l, l + k]` with no set bit in `[l, e)`, and the bit of `e` is set when `e < l + k`. -/
theorem findNext_one (m : ValidityMask) (l k : Nat) :
    l ≤ (findNext m l k 1).1 ∧ (findNext m l k 1).1 ≤ l + k ∧
      (∀ q, l ≤ q → q < (findNext m l k 1).1 → m.RowIsValidUnsafe q = false) ∧
      ((findNext m l k 1).1 < l + k → m.RowIsValidUnsafe (findNext m l k 1).1 = true) := by
  by_cases hc : 1 ≤ countSet m l k
  · obtain ⟨_, f2, f3, f4, f5⟩ := findNext_found m k l 1 (Nat.le_refl 1) hc
    refine ⟨f2, by omega, fun q h1 h2 => ?_, fun _ => f4⟩
    exact countSet_zero_unset m l _ f5 q h1 (by omega)
  · have hz : countSet m l k = 0 := by omega
    rw [findNext_short m k l 1 (by omega)]
    simp only []
    refine ⟨by omega, by omega, fun q h1 h2 => countSet_zero_unset m l k hz q h1 h2,
      fun h => by omega⟩

theorem findNext_one_unique (m : ValidityMask) (l k e : Nat) (h1 : l ≤ e) (h2 : e ≤ l + k)
    (h3 : ∀ q, l ≤ q → q < e → m.RowIsValidUnsafe q = false)
    (h4 : e < l + k → m.RowIsValidUnsafe e = true) : (findNext m l k 1).1 = e := by
  obtain ⟨f1, f2, f3, f4⟩ := findNext_one m l k
  rcases Nat.lt_trichotomy (findNext m l k 1).1 e with h | h | h
  · have := f4 (by omega)
    rw [h3 _ f1 h] at this
    cases this
  · exact h
  · have := h4 (by omega)
    rw [f3 e h1 h] at this
    cases this

theorem nextStart_spec (m : ValidityMask) (count r : Nat) (hr : r < count) :
    r < nextStart m count r ∧ nextStart m count r ≤ count ∧
      (∀ q, r < q → q < nextStart m count r → m.RowIsValidUnsafe q = false) ∧
      (nextStart m count r < count → m.RowIsValidUnsafe (nextStart m count r) = true) := by
  obtain ⟨f1, f2, f3, f4⟩ := findNext_one m (r + 1) (count - (r + 1))
  unfold nextStart
  exact ⟨by omega, by omega, fun q h1 h2 => f3 q (by omega) h2, fun h => f4 (by omega)⟩

theorem nextStart_unique (m : ValidityMask) (count r e : Nat) (h1 : r < e) (h2 : e ≤ count)
    (h3 : ∀ q, r < q → q < e → m.RowIsValidUnsafe q = false)
    (h4 : e < count → m.RowIsValidUnsafe e = true) : nextStart m count r = e := by
  unfold nextStart
  exact findNext_one_unique m _ _ e (by omega) (by omega) (fun q hq1 hq2 => h3 q (by omega) hq2)
    (fun h => h4 (by omega))

theorem FindNextStart_one (m : ValidityMask) (count r : Nat) (hr : r < count)
    (hsize : count ≤ 2 ^ 64 - 64) :
    (FindNextStart m (r + 1) count 1).1 = nextStart m count r := by
  rw [FindNextStart_eq_findNext m _ _ 1 (Nat.le_refl 1) (by omega) (by omega) (by omega)
    (by omega) (skip_of_le m count hsize)]
  rfl

/-- A row that does not start a run has the run end of the row before it. -/
theorem nextStart_step (m : ValidityMask) (count r : Nat) (hr : r + 1 < count)
    (hb : m.RowIsValidUnsafe (r + 1) = false) :
    nextStart m count r = nextStart m count (r + 1) := by
  obtain ⟨f1, f2, f3, f4⟩ := nextStart_spec m count (r + 1) hr
  apply nextStart_unique m count r _ (by omega) f2 _ f4
  intro q h1 h2
  by_cases hq : q = r + 1
  · subst hq; exact hb
  · exact f3 q (by omega) h2

theorem nextStart_simple (m : ValidityMask) (count r : Nat) (hr : r < count)
    (h : ∀ i, 0 < i → m.RowIsValidUnsafe i = false) : nextStart m count r = count := by
  apply nextStart_unique m count r count hr (Nat.le_refl _) (fun q h1 _ => h q (by omega))
  intro h; omega

theorem nextStart_congr (m1 m2 : ValidityMask) (count r : Nat) (hr : r < count)
    (h : ∀ i, m1.RowIsValidUnsafe i = m2.RowIsValidUnsafe i) :
    nextStart m1 count r = nextStart m2 count r := by
  obtain ⟨f1, f2, f3, f4⟩ := nextStart_spec m2 count r hr
  exact nextStart_unique m1 count r _ f1 f2 (fun q h1 h2 => by rw [h]; exact f3 q h1 h2)
    (fun hlt => by rw [h]; exact f4 hlt)

/-- The peer group of a row ends at or before the end of its partition. -/
theorem nextStart_sub (pm om : ValidityMask) (hinv : MaskInvariants pm om) (count r : Nat)
    (hr : r < count) : nextStart om count r ≤ nextStart pm count r := by
  obtain ⟨f1, f2, f3, f4⟩ := nextStart_spec pm count r hr
  obtain ⟨g1, g2, g3, g4⟩ := nextStart_spec om count r hr
  by_contra hgt
  have hset := hinv.2.2 _ (f4 (by omega))
  rw [g3 _ f1 (by omega)] at hset
  cases hset

/-- The search for the end of the peer group, from the peer start up to the end of the
partition, ends at the next set bit of the order mask. -/
theorem peer_end_eq (pm om : ValidityMask) (hinv : MaskInvariants pm om) (count r : Nat)
    (hr : r < count) (hsize : count ≤ 2 ^ 64 - 64) :
    (FindNextStart om (lastStart om r + 1) (nextStart pm count r) 1).1 =
      nextStart om count r := by
  obtain ⟨f1, f2, f3, f4⟩ := nextStart_spec pm count r hr
  obtain ⟨g1, g2, g3, g4⟩ := nextStart_spec om count r hr
  have hle := lastStart_le om r
  have hsub := nextStart_sub pm om hinv count r hr
  rw [FindNextStart_eq_findNext om _ _ 1 (Nat.le_refl 1) (by omega) (by omega) (by omega)
    (by omega) (skip_of_le om _ (by omega))]
  apply findNext_one_unique om _ _ _ (by omega) (by omega)
  · intro q h1 h2
    by_cases hq : q ≤ r
    · exact lastStart_unset om r q (by omega) hq
    · exact g3 q (by omega) h2
  · intro h
    exact g4 (by omega)

end Window

namespace Window
open ValidityMask
namespace WindowBoundariesState

/-! ## The peer end computed by `Update` -/

theorem UpdatePartition_peer_end (s : WindowBoundariesState) (row_idx : Nat)
    (range : WindowInputColumn) (pm om : ValidityMask) (hnp : s.needs_peer = true) :
    (s.UpdatePartition row_idx range pm om).peer_end =
      if 0 < s.partition_count + s.order_count then
        if s.order_count ≠ 0 then
          (FindNextStart om ((s.UpdatePartition row_idx range pm om).peer_start + 1)
            (s.UpdatePartition row_idx range pm om).partition_end 1).1
        else (s.UpdatePartition row_idx range pm om).partition_end
      else s.input_size := by
  unfold UpdatePartition
  by_cases hk : 0 < s.partition_count + s.order_count
  · have hk2 : s.partition_count + s.order_count > 0 := hk
    simp only [hk, hk2, if_true]
    by_cases hb : pm.RowIsValidUnsafe row_idx = true
    · simp only [hb, Bool.not_true, Bool.not_false, if_true, NewPartition_needs_peer, hnp,
        NewPartition_order_count]
    · have hb2 : pm.RowIsValidUnsafe row_idx = false := by simpa using hb
      by_cases ho : om.RowIsValidUnsafe row_idx = true
      · simp only [hb2, ho, Bool.not_true, Bool.not_false, if_true, hnp]
        simp [hnp]
      · have ho2 : om.RowIsValidUnsafe row_idx = false := by simpa using ho
        simp only [hb2, ho2, Bool.not_true, Bool.not_false, if_true, hnp]
        simp [hnp]
  · have hk2 : ¬ s.partition_count + s.order_count > 0 := hk
    simp only [hk, hk2, if_false]

theorem Update_peer_end {s s' : WindowBoundariesState} {row_idx chunk_idx : Nat}
    {range : WindowInputColumn} {bs be : WindowInputExpression} {pm om : ValidityMask}
    (h : s.Update row_idx range chunk_idx bs be pm om = .ok s') (hnp : s.needs_peer = true) :
    s'.peer_end =
      if 0 < s.partition_count + s.order_count then
        if s.order_count ≠ 0 then (FindNextStart om (s'.peer_start + 1) s'.partition_end 1).1
        else s'.partition_end
      else s.input_size := by
  obtain ⟨ws, we, p, e, _⟩ := Update_shape h
  have h1 := UpdatePartition_peer_end s row_idx range pm om hnp
  rw [e]
  exact h1

end WindowBoundariesState
end Window
namespace Window

/-! ## Rounding to `double` -/

theorem wrap64_small (x : Int) (h1 : -(2 ^ 63) ≤ x) (h2 : x < 2 ^ 63) : wrap64 x = x := by
  unfold wrap64
  omega

theorem roundHalfEven_intCast (z : Int) : roundHalfEven (z : Rat) = z := by
  unfold roundHalfEven
  rw [Int.floor_intCast]
  simp

theorem roundHalfEven_mono {x y : Rat} (h : x ≤ y) : roundHalfEven x ≤ roundHalfEven y := by
  have hx1 := Int.floor_le x
  have hx2 := Int.lt_floor_add_one x
  have hy1 := Int.floor_le y
  have hy2 := Int.lt_floor_add_one y
  have hf : ⌊x⌋ ≤ ⌊y⌋ := Int.floor_mono h
  unfold roundHalfEven
  rcases lt_or_eq_of_le hf with hlt | heq
  · split_ifs <;> omega
  · rw [← heq] at hy1 hy2 ⊢
    split_ifs <;> first | omega | (exfalso; linarith)

/-- The rounding of a positive rational of the binade `[2^e, 2^(e+1))`. -/
theorem roundDouble_of_binade (q : Rat) (e : Int) (h1 : (2 : Rat) ^ e ≤ q)
    (h2 : q < (2 : Rat) ^ (e + 1)) :
    roundDouble q = (roundHalfEven (q / 2 ^ (e - 52)) : Rat) * 2 ^ (e - 52) := by
  have hpos : 0 < q := lt_of_lt_of_le (zpow_pos (by norm_num) e) h1
  have hlog : Int.log 2 q = e := by
    have a1 : e ≤ Int.log 2 q :=
      (Int.zpow_le_iff_le_log (R := Rat) (b := 2) (by norm_num) hpos).1 (by exact_mod_cast h1)
    have a2 : Int.log 2 q < e + 1 :=
      (Int.lt_zpow_iff_log_lt (R := Rat) (b := 2) (by norm_num) hpos).1 (by exact_mod_cast h2)
    omega
  unfold roundDouble
  rw [if_neg (ne_of_gt hpos), abs_of_pos hpos, hlog, if_neg (not_lt.2 (le_of_lt hpos))]
  simp

/-- The binade of a positive rational. -/
theorem binade_of_pos (q : Rat) (hpos : 0 < q) :
    (2 : Rat) ^ Int.log 2 q ≤ q ∧ q < (2 : Rat) ^ (Int.log 2 q + 1) := by
  have a1 := Int.zpow_log_le_self (R := Rat) (b := 2) (by norm_num) hpos
  have a2 := Int.lt_zpow_succ_log_self (R := Rat) (b := 2) (by norm_num) q
  exact ⟨by exact_mod_cast a1, by exact_mod_cast a2⟩

theorem zpow_two_split (e : Int) :
    (0 : Rat) < 2 ^ (e - 52) ∧ (2 : Rat) ^ e = 2 ^ (e - 52) * 2 ^ 52 ∧
      (2 : Rat) ^ (e + 1) = 2 ^ (e - 52) * 2 ^ 53 := by
  refine ⟨zpow_pos (by norm_num) _, ?_, ?_⟩
  · rw [show e = (e - 52) + 52 by omega, zpow_add₀ (by norm_num : (2 : Rat) ≠ 0)]
    norm_num
  · rw [show e + 1 = (e - 52) + 53 by omega, zpow_add₀ (by norm_num : (2 : Rat) ≠ 0)]
    norm_num

/-- The rounding of a positive rational stays in the closure of its binade. -/
theorem roundDouble_binade (q : Rat) (e : Int) (h1 : (2 : Rat) ^ e ≤ q)
    (h2 : q < (2 : Rat) ^ (e + 1)) :
    (2 : Rat) ^ e ≤ roundDouble q ∧ roundDouble q ≤ (2 : Rat) ^ (e + 1) := by
  obtain ⟨hu, e1, e2⟩ := zpow_two_split e
  rw [roundDouble_of_binade q e h1 h2, e1, e2]
  have hlo : (2 : Rat) ^ 52 ≤ q / 2 ^ (e - 52) := by
    rw [le_div_iff₀ hu]
    linarith
  have hhi : q / 2 ^ (e - 52) ≤ (2 : Rat) ^ 53 := by
    rw [div_le_iff₀ hu]
    linarith
  have r1 : ((2 ^ 52 : Int) : Rat) ≤ (roundHalfEven (q / 2 ^ (e - 52)) : Rat) := by
    have := roundHalfEven_mono (by push_cast; exact hlo :
      (((2 ^ 52 : Int) : Int) : Rat) ≤ q / 2 ^ (e - 52))
    rw [roundHalfEven_intCast] at this
    exact_mod_cast this
  have r2 : (roundHalfEven (q / 2 ^ (e - 52)) : Rat) ≤ ((2 ^ 53 : Int) : Rat) := by
    have := roundHalfEven_mono (by push_cast; exact hhi :
      q / 2 ^ (e - 52) ≤ (((2 ^ 53 : Int) : Int) : Rat))
    rw [roundHalfEven_intCast] at this
    exact_mod_cast this
  push_cast at r1 r2
  constructor
  · have := mul_le_mul_of_nonneg_left r1 (le_of_lt hu)
    linarith
  · have := mul_le_mul_of_nonneg_left r2 (le_of_lt hu)
    linarith

theorem roundDouble_zero : roundDouble 0 = 0 := by
  unfold roundDouble
  simp

theorem roundDouble_pos (q : Rat) (hpos : 0 < q) : 0 < roundDouble q := by
  obtain ⟨b1, b2⟩ := binade_of_pos q hpos
  exact lt_of_lt_of_le (zpow_pos (by norm_num) _) (roundDouble_binade q _ b1 b2).1

/-- Rounding to `double` is monotone on the non-negative rationals. -/
theorem roundDouble_mono (x y : Rat) (hx : 0 ≤ x) (h : x ≤ y) :
    roundDouble x ≤ roundDouble y := by
  rcases eq_or_lt_of_le hx with h0 | hxpos
  · rw [← h0, roundDouble_zero]
    rcases eq_or_lt_of_le (le_trans hx h) with h1 | h1
    · rw [← h1, roundDouble_zero]
    · exact le_of_lt (roundDouble_pos y h1)
  · have hypos : 0 < y := lt_of_lt_of_le hxpos h
    obtain ⟨a1, a2⟩ := binade_of_pos x hxpos
    obtain ⟨b1, b2⟩ := binade_of_pos y hypos
    have hlog : Int.log 2 x ≤ Int.log 2 y := Int.log_mono_right hxpos h
    rcases lt_or_eq_of_le hlog with hlt | heq
    · have c1 := (roundDouble_binade x _ a1 a2).2
      have c2 := (roundDouble_binade y _ b1 b2).1
      have c3 : (2 : Rat) ^ (Int.log 2 x + 1) ≤ 2 ^ Int.log 2 y :=
        zpow_le_zpow_right₀ (by norm_num) (by omega)
      linarith
    · rw [roundDouble_of_binade x _ a1 a2, roundDouble_of_binade y _ b1 b2, heq]
      have hu : (0 : Rat) < 2 ^ (Int.log 2 y - 52) := zpow_pos (by norm_num) _
      apply mul_le_mul_of_nonneg_right _ (le_of_lt hu)
      have := roundHalfEven_mono (div_le_div_of_nonneg_right h (le_of_lt hu))
      exact_mod_cast this

/-- A natural number below `2^53` is a `double`. -/
theorem roundDouble_natCast (n : Nat) (hn : n < 2 ^ 53) : roundDouble (n : Rat) = n := by
  rcases Nat.eq_zero_or_pos n with h0 | hpos
  · subst h0
    simpa using roundDouble_zero
  · have hq : (0 : Rat) < n := by exact_mod_cast hpos
    obtain ⟨b1, b2⟩ := binade_of_pos (n : Rat) hq
    have hlog : Int.log 2 (n : Rat) < 53 := by
      apply (Int.lt_zpow_iff_log_lt (R := Rat) (b := 2) (by norm_num) hq).1
      have : (n : Rat) < 2 ^ 53 := by exact_mod_cast hn
      exact_mod_cast this
    obtain ⟨k, hk⟩ : ∃ k : Nat, Int.log 2 (n : Rat) - 52 = -(k : Int) :=
      ⟨(52 - Int.log 2 (n : Rat)).toNat, by omega⟩
    rw [roundDouble_of_binade (n : Rat) _ b1 b2, hk, zpow_neg, zpow_natCast]
    have hcast : (n : Rat) / ((2 : Rat) ^ k)⁻¹ = (((n * 2 ^ k : Nat) : Int) : Rat) := by
      rw [div_inv_eq_mul]
      push_cast
      ring
    rw [hcast, roundHalfEven_intCast]
    push_cast
    field_simp

theorem roundDouble_one : roundDouble 1 = 1 := by
  have := roundDouble_natCast 1 (by norm_num)
  simpa using this

/-- The `double` nearest to one third, `0.333333333333333314829616256247...`. -/
theorem roundDouble_third :
    roundDouble (1 / 3) = 6004799503160661 / 18014398509481984 := by
  rw [roundDouble_of_binade (1 / 3) (-2) (by norm_num) (by norm_num)]
  have hq : (1 / 3 : Rat) / 2 ^ ((-2 : Int) - 52) = 18014398509481984 / 3 := by
    rw [show ((-2 : Int) - 52) = -(54 : Nat) by norm_num, zpow_neg, zpow_natCast]
    norm_num
  have hfl : ⌊(18014398509481984 / 3 : Rat)⌋ = 6004799503160661 := by
    rw [Int.floor_eq_iff]
    constructor <;> norm_num
  rw [hq]
  unfold roundHalfEven
  rw [hfl, if_pos (by norm_num)]
  rw [show ((-2 : Int) - 52) = -(54 : Nat) by norm_num, zpow_neg, zpow_natCast]
  norm_num

/-- A quotient of two non-negative rationals `a ≤ d`, `0 < d`, rounds into `[0, 1]`. -/
theorem roundDouble_unit (a d : Rat) (ha : 0 ≤ a) (hd : 0 < d) (had : a ≤ d) :
    0 ≤ roundDouble (a / d) ∧ roundDouble (a / d) ≤ 1 := by
  have h1 : 0 ≤ a / d := div_nonneg ha (le_of_lt hd)
  have h2 : a / d ≤ 1 := (div_le_one hd).2 had
  constructor
  · have := roundDouble_mono 0 (a / d) (le_refl _) h1
    rwa [roundDouble_zero] at this
  · have := roundDouble_mono (a / d) 1 h1 h2
    rwa [roundDouble_one] at this

end Window

namespace Window
open ValidityMask
open WindowBoundariesState

/-! ## The `bounds` chunk of a function that needs peers -/

theorem SimpleMasks_of_keys (wexpr : BoundWindowExpression) (pm om : ValidityMask)
    (hkeys : MasksOfKeys wexpr pm om)
    (hk : ¬ 0 < wexpr.partitions + wexpr.orders.length) : SimpleMasks pm om := by
  intro i hi
  have h1 := hkeys.1 (by omega) i hi
  exact ⟨h1, by rw [hkeys.2 (by omega) i, h1]⟩

theorem FullInv_step (wexpr : BoundWindowExpression) (count : Nat) (pm om : ValidityMask)
    (range : WindowInputColumn) (bs be : WindowInputExpression)
    (hinv : MaskInvariants pm om) (hkeys : MasksOfKeys wexpr pm om)
    (hsize : count ≤ 2 ^ 64 - 64) :
    ∀ row ci s s', FullInv pm om wexpr.partitions wexpr.orders.length count row s →
      s.Update row range ci bs be pm om = .ok s' →
      FullInv pm om wexpr.partitions wexpr.orders.length count (row + 1) s' := by
  intro row ci s s' hI hu
  obtain ⟨hP, hsz, hE⟩ := hI
  have hk1 : 0 < wexpr.partitions + wexpr.orders.length ∨ SimpleMasks pm om := by
    by_cases hk : 0 < wexpr.partitions + wexpr.orders.length
    · exact Or.inl hk
    · exact Or.inr (SimpleMasks_of_keys wexpr pm om hkeys hk)
  have hP1 := PeerInv_step pm om _ _ range bs be hinv.2.2 hk1 row ci s s' hP hu
  have hc := Update_config hu
  refine ⟨hP1, by rw [hc.2.1, hsz], ?_⟩
  intro _ hrow
  rw [Nat.add_sub_cancel]
  obtain ⟨h1, h2, h3, _, _⟩ := hP
  obtain ⟨_, _, _, h4, h5⟩ := hP1
  rw [Nat.add_sub_cancel] at h4 h5
  have hpe : s'.partition_end = nextStart pm count row := by
    rw [Update_partition_end hu, h1, h2, hsz]
    by_cases hk : 0 < wexpr.partitions + wexpr.orders.length
    · rw [if_pos hk]
      by_cases hb : pm.RowIsValidUnsafe row = true
      · rw [if_pos hb]
        by_cases hpc : wexpr.partitions ≠ 0
        · rw [if_pos hpc, FindNextStart_one pm count row (by omega) hsize]
        · rw [if_neg hpc, nextStart_simple pm count row (by omega) (hkeys.1 (by omega))]
      · rw [if_neg hb]
        have hrow0 : row ≠ 0 := by
          intro h0
          subst h0
          exact hb hinv.1
        have hb2 : pm.RowIsValidUnsafe (row - 1 + 1) = false := by
          rw [show row - 1 + 1 = row by omega]
          simpa using hb
        rw [(hE (by omega) (by omega)).1, nextStart_step pm count (row - 1) (by omega) hb2,
          show row - 1 + 1 = row by omega]
    · rw [if_neg hk, nextStart_simple pm count row (by omega) (hkeys.1 (by omega))]
  refine ⟨hpe, ?_⟩
  rw [Update_peer_end hu h3, h1, h2, hsz, h5, hpe]
  by_cases hk : 0 < wexpr.partitions + wexpr.orders.length
  · rw [if_pos hk]
    by_cases hoc : wexpr.orders.length ≠ 0
    · rw [if_pos hoc, peer_end_eq pm om hinv count row (by omega) hsize]
    · rw [if_neg hoc]
      exact (nextStart_congr om pm count row (by omega) (hkeys.2 (by omega))).symm
  · rw [if_neg hk]
    exact (nextStart_simple om count row (by omega)
      (fun i hi => (SimpleMasks_of_keys wexpr pm om hkeys hk i hi).2)).symm

/-- For a window whose function needs peers and whose frame bounds read no expression, the
loop of `Bounds` over the rows `0 .. count - 1` returns, and the four partition and peer
columns of the chunk hold the runs of the two masks. -/
theorem Bounds_peer_chunk (wexpr : BoundWindowExpression) (count : Nat) (b0 : BoundsChunk)
    (range : WindowInputColumn) (bs be : WindowInputExpression) (pm om : ValidityMask)
    (hstart : wexpr.start.IsPlainStart) (hend : wexpr.end_boundary.IsPlainEnd)
    (hnp : (WindowBoundariesState.new wexpr count).needs_peer = true)
    (hinv : MaskInvariants pm om) (hkeys : MasksOfKeys wexpr pm om)
    (hsize : count ≤ 2 ^ 64 - 64) :
    ∃ sb, BoundsLoop range bs be pm om count 0 0 (WindowBoundariesState.new wexpr count) b0 =
        .ok sb ∧
      ∀ j, j < count →
        sb.2.partition_begin j = lastStart pm j ∧ sb.2.partition_end j = nextStart pm count j ∧
        sb.2.peer_begin j = lastStart om j ∧ sb.2.peer_end j = nextStart om count j := by
  obtain ⟨sb, hb⟩ := BoundsLoop_ok_of_plain range bs be pm om count 0 0
    (WindowBoundariesState.new wexpr count) b0 hstart hend
  refine ⟨sb, hb, ?_⟩
  have hinv0 : FullInv pm om wexpr.partitions wexpr.orders.length count 0
      (WindowBoundariesState.new wexpr count) :=
    ⟨⟨rfl, rfl, hnp, rfl, rfl⟩, rfl, fun h => by omega⟩
  obtain ⟨_, _, hR⟩ := BoundsLoop_inv range bs be pm om
    (FullInv pm om wexpr.partitions wexpr.orders.length count)
    (FullInv_step wexpr count pm om range bs be hinv hkeys hsize) count 0 0 _ b0 sb.1 sb.2 hinv0 hb
  intro j hj
  obtain ⟨si, hi, hrow⟩ := hR j hj
  obtain ⟨⟨_, _, hnp1, hps, hks⟩, _, hE⟩ := hi
  obtain ⟨he1, he2⟩ := hE (by omega) (by omega)
  unfold BoundsChunk.RowIs at hrow
  simp only [hnp1, if_true, Nat.zero_add, Nat.add_sub_cancel] at hrow hps hks he1 he2
  rw [hrow.1, hrow.2.1, hrow.2.2.2.2.1, hrow.2.2.2.2.2, hps, hks, he1, he2]
  exact ⟨rfl, rfl, rfl, rfl⟩

end Window

namespace Window
open ValidityMask
open WindowBoundariesState

/-! ## The partition columns of the `bounds` chunk, for every frame without expressions -/

theorem PartEnd_step (wexpr : BoundWindowExpression) (count : Nat) (pm om : ValidityMask)
    (range : WindowInputColumn) (bs be : WindowInputExpression)
    (h0 : pm.RowIsValidUnsafe 0 = true)
    (hkeys : wexpr.partitions = 0 → ∀ i, 0 < i → pm.RowIsValidUnsafe i = false)
    (hsize : count ≤ 2 ^ 64 - 64) :
    ∀ row ci s s',
      (PartInv pm wexpr.partitions wexpr.orders.length row s ∧ s.input_size = count ∧
        (0 < row → row ≤ count → s.partition_end = nextStart pm count (row - 1))) →
      s.Update row range ci bs be pm om = .ok s' →
      (PartInv pm wexpr.partitions wexpr.orders.length (row + 1) s' ∧ s'.input_size = count ∧
        (0 < row + 1 → row + 1 ≤ count →
          s'.partition_end = nextStart pm count (row + 1 - 1))) := by
  intro row ci s s' hI hu
  obtain ⟨hP, hsz, hE⟩ := hI
  have hk1 : 0 < wexpr.partitions + wexpr.orders.length ∨
      ∀ i, 0 < i → pm.RowIsValidUnsafe i = false := by
    by_cases hk : 0 < wexpr.partitions + wexpr.orders.length
    · exact Or.inl hk
    · exact Or.inr (hkeys (by omega))
  have hP1 := PartInv_step pm om _ _ range bs be hk1 row ci s s' hP hu
  have hc := Update_config hu
  refine ⟨hP1, by rw [hc.2.1, hsz], ?_⟩
  intro _ hrow
  rw [Nat.add_sub_cancel]
  obtain ⟨h1, h2, _⟩ := hP
  rw [Update_partition_end hu, h1, h2, hsz]
  by_cases hk : 0 < wexpr.partitions + wexpr.orders.length
  · rw [if_pos hk]
    by_cases hb : pm.RowIsValidUnsafe row = true
    · rw [if_pos hb]
      by_cases hpc : wexpr.partitions ≠ 0
      · rw [if_pos hpc, FindNextStart_one pm count row (by omega) hsize]
      · rw [if_neg hpc, nextStart_simple pm count row (by omega) (hkeys (by omega))]
    · rw [if_neg hb]
      have hrow0 : row ≠ 0 := by
        intro hz
        subst hz
        exact hb h0
      have hb2 : pm.RowIsValidUnsafe (row - 1 + 1) = false := by
        rw [show row - 1 + 1 = row by omega]
        simpa using hb
      rw [hE (by omega) (by omega), nextStart_step pm count (row - 1) (by omega) hb2,
        show row - 1 + 1 = row by omega]
  · rw [if_neg hk, nextStart_simple pm count row (by omega) (hkeys (by omega))]

/-- For a window whose frame bounds read no expression, the loop of `Bounds` over the rows
`0 .. count - 1` returns, and the two partition columns of the chunk hold the runs of the
partition mask. -/
theorem Bounds_part_chunk (wexpr : BoundWindowExpression) (count : Nat) (b0 : BoundsChunk)
    (range : WindowInputColumn) (bs be : WindowInputExpression) (pm om : ValidityMask)
    (hstart : wexpr.start.IsPlainStart) (hend : wexpr.end_boundary.IsPlainEnd)
    (h0 : pm.RowIsValidUnsafe 0 = true)
    (hkeys : wexpr.partitions = 0 → ∀ i, 0 < i → pm.RowIsValidUnsafe i = false)
    (hsize : count ≤ 2 ^ 64 - 64) :
    ∃ sb, BoundsLoop range bs be pm om count 0 0 (WindowBoundariesState.new wexpr count) b0 =
        .ok sb ∧
      ∀ j, j < count →
        sb.2.partition_begin j = lastStart pm j ∧
          sb.2.partition_end j = nextStart pm count j := by
  obtain ⟨sb, hb⟩ := BoundsLoop_ok_of_plain range bs be pm om count 0 0
    (WindowBoundariesState.new wexpr count) b0 hstart hend
  refine ⟨sb, hb, ?_⟩
  obtain ⟨_, _, hR⟩ := BoundsLoop_inv range bs be pm om
    (fun row s => PartInv pm wexpr.partitions wexpr.orders.length row s ∧
      s.input_size = count ∧
      (0 < row → row ≤ count → s.partition_end = nextStart pm count (row - 1)))
    (PartEnd_step wexpr count pm om range bs be h0 hkeys hsize) count 0 0 _ b0 sb.1 sb.2
    ⟨⟨rfl, rfl, rfl⟩, rfl, fun h => by omega⟩ hb
  intro j hj
  obtain ⟨si, hi, hrow⟩ := hR j hj
  obtain ⟨⟨_, _, hps⟩, _, hE⟩ := hi
  have he := hE (by omega) (by omega)
  unfold BoundsChunk.RowIs at hrow
  simp only [Nat.zero_add, Nat.add_sub_cancel] at hrow hps he
  rw [hrow.1, hrow.2.1, hps, he]
  exact ⟨rfl, rfl⟩

/-- The loop of `Rank` writes 1 at every position that starts a partition. -/
theorem RankLoop_cell (b : BoundsChunk) :
    ∀ k i row (ex : WindowExecutor) j, j < k → b.partition_begin (i + j) = row + j →
      (WindowExecutor.RankLoop b k i row ex).2[j]? = some (some 1) := by
  intro k
  induction k with
  | zero => intro i row ex j hj; omega
  | succ k ih =>
    intro i row ex j hj hb
    rw [WindowExecutor.RankLoop]
    cases j with
    | zero =>
      simp only [Nat.add_zero] at hb
      simp [WindowExecutor.NextRank, hb]
    | succ j =>
      simp only [List.getElem?_cons_succ]
      exact ih (i + 1) (row + 1) _ j (by omega) (by
        rw [show i + 1 + j = i + (j + 1) by omega, show row + 1 + j = row + (j + 1) by omega]
        exact hb)

/-- The loop of `PercentRank` writes 0 at every position whose partition has one row. -/
theorem PercentRankLoop_cell (b : BoundsChunk) :
    ∀ k i row (ex : WindowExecutor) j, j < k →
      b.partition_end (i + j) = b.partition_begin (i + j) + 1 →
      (WindowExecutor.PercentRankLoop b k i row ex).2[j]? = some (some 0) := by
  intro k
  induction k with
  | zero => intro i row ex j hj; omega
  | succ k ih =>
    intro i row ex j hj hb
    rw [WindowExecutor.PercentRankLoop]
    cases j with
    | zero =>
      simp only [Nat.add_zero] at hb
      have h0 : wrap64 0 = 0 := wrap64_small 0 (by norm_num) (by norm_num)
      simp [hb, h0]
    | succ j =>
      simp only [List.getElem?_cons_succ]
      exact ih (i + 1) (row + 1) _ j (by omega) (by
        rw [show i + 1 + j = i + (j + 1) by omega]
        exact hb)

end Window

namespace Window
open ValidityMask
open WindowBoundariesState

/-! ## The rank counters follow the masks -/

theorem lastStart_succ_of_ne (m : ValidityMask) (r : Nat) (h : lastStart m (r + 1) ≠ r + 1) :
    lastStart m (r + 1) = lastStart m r := by
  simp only [lastStart] at h ⊢
  split_ifs at h ⊢ with hb
  · exact absurd rfl h
  · rfl

/-- One call of `NextRank` on the partition and peer starts of row `row`: the rank becomes
`rankAt` and `rank_equal` the number of rows of the peer group up to `row`. -/
theorem NextRank_rank (pm om : ValidityMask) (hinv : MaskInvariants pm om) (row : Nat)
    (ex : WindowExecutor)
    (h : row = 0 ∨ (ex.rank = rankAt pm om (row - 1) ∧
      ex.rank_equal = row - lastStart om (row - 1))) :
    (ex.NextRank (lastStart pm row) (lastStart om row) row).rank = rankAt pm om row ∧
      (ex.NextRank (lastStart pm row) (lastStart om row) row).rank_equal =
        row + 1 - lastStart om row := by
  have hsub := lastStart_sub pm om hinv row
  have hle := lastStart_le om row
  unfold WindowExecutor.NextRank rankAt
  by_cases h1 : lastStart pm row = row
  · simp only [h1, if_true]
    constructor <;> omega
  · cases row with
    | zero => exact absurd rfl h1
    | succ r =>
      rcases h with h | ⟨hr, hq⟩
      · omega
      · rw [Nat.add_sub_cancel] at hr hq
        have hp := lastStart_succ_of_ne pm r h1
        have hsub1 := lastStart_sub pm om hinv r
        have hle1 := lastStart_le om r
        unfold rankAt at hr
        by_cases h2 : lastStart om (r + 1) = r + 1
        · simp only [if_neg h1, h2, if_true, hr, hq]
          constructor <;> omega
        · have ho := lastStart_succ_of_ne om r h2
          simp only [if_neg h1, if_neg h2, hr, hq]
          constructor <;> omega

/-- The loop of `Rank` on a chunk whose partition and peer columns follow the masks writes
`rankAt` at every row. -/
theorem RankLoop_eq (pm om : ValidityMask) (hinv : MaskInvariants pm om) (b : BoundsChunk) :
    ∀ k i row (ex : WindowExecutor),
      (row = 0 ∨ (ex.rank = rankAt pm om (row - 1) ∧
        ex.rank_equal = row - lastStart om (row - 1))) →
      (∀ j, j < k → b.partition_begin (i + j) = lastStart pm (row + j) ∧
        b.peer_begin (i + j) = lastStart om (row + j)) →
      (WindowExecutor.RankLoop b k i row ex).2 =
        (List.range k).map (fun j => some ((rankAt pm om (row + j) : Nat) : Int)) := by
  intro k
  induction k with
  | zero => intro i row ex _ _; rfl
  | succ k ih =>
    intro i row ex hex hb
    have hb0 := hb 0 (by omega)
    simp only [Nat.add_zero] at hb0
    have hn := NextRank_rank pm om hinv row ex hex
    rw [← hb0.1, ← hb0.2] at hn
    rw [WindowExecutor.RankLoop]
    simp only []
    rw [ih (i + 1) (row + 1) _
      (Or.inr (by
        rw [Nat.add_sub_cancel, hn.1, hn.2]
        have := lastStart_le om row
        exact ⟨rfl, by rw [hb0.2]⟩))
      (fun j hj => by
        have := hb (j + 1) (by omega)
        rw [show i + 1 + j = i + (j + 1) by omega, show row + 1 + j = row + (j + 1) by omega]
        exact this)]
    rw [hn.1, List.range_succ_eq_map, List.map_cons, List.map_map]
    congr 1
    apply List.map_congr_left
    intro j _
    simp only [Function.comp, Nat.succ_eq_add_one]
    rw [show row + 1 + j = row + (j + 1) by omega]

/-- The quotient computed by `PercentRank` at a row of an input of fewer than `2^53` rows
is the `double` nearest to the value in the words of the specification: the conversions
and the subtraction are exact, and only the division rounds. -/
theorem percentRank_cell (pm om : ValidityMask) (count r : Nat) (hr : r < count)
    (h53 : count < 2 ^ 53) :
    (if wrap64 ((nextStart pm count r : Int) - (lastStart pm r : Int) - 1) > 0 then
        roundDouble (roundDouble (roundDouble (rankAt pm om r : Rat) - 1) /
          roundDouble ((wrap64 ((nextStart pm count r : Int) - (lastStart pm r : Int) - 1) :
            Int) : Rat))
      else 0) = roundDouble (percentRankAt pm om count r) := by
  obtain ⟨f1, f2, _, _⟩ := nextStart_spec pm count r hr
  have hle := lastStart_le pm r
  have hlo := lastStart_le om r
  rw [wrap64_small _ (by omega) (by omega)]
  unfold percentRankAt partitionSize
  by_cases h : nextStart pm count r - lastStart pm r > 1
  · rw [if_pos h, if_pos (by omega)]
    have hrank : 1 ≤ rankAt pm om r ∧ rankAt pm om r < 2 ^ 53 := by
      unfold rankAt
      constructor <;> omega
    have e1 : roundDouble (rankAt pm om r : Rat) = (rankAt pm om r : Rat) :=
      roundDouble_natCast _ hrank.2
    have e2 : roundDouble ((rankAt pm om r : Rat) - 1) = (rankAt pm om r : Rat) - 1 := by
      have := roundDouble_natCast (rankAt pm om r - 1) (by omega)
      rw [Nat.cast_sub hrank.1] at this
      simpa using this
    have e3 : ((((nextStart pm count r : Int) - (lastStart pm r : Int) - 1 : Int)) : Rat) =
        ((nextStart pm count r - lastStart pm r - 1 : Nat) : Rat) := by
      have hd : (nextStart pm count r : Int) - (lastStart pm r : Int) - 1 =
          ((nextStart pm count r - lastStart pm r - 1 : Nat) : Int) := by omega
      rw [hd]
      rfl
    have e4 : roundDouble ((nextStart pm count r - lastStart pm r - 1 : Nat) : Rat) =
        ((nextStart pm count r - lastStart pm r - 1 : Nat) : Rat) :=
      roundDouble_natCast _ (by omega)
    rw [e1, e2, e3, e4]
    congr 2
    rw [Nat.cast_sub (by omega), Nat.cast_sub (by omega)]
    simp
  · rw [if_neg h, if_neg (by omega), roundDouble_zero]

/-- The quotient computed by `CumeDist` at a row of an input of fewer than `2^53` rows is
the `double` nearest to the value in the words of the specification. -/
theorem cumeDist_cell (pm om : ValidityMask) (count r : Nat) (hr : r < count)
    (h53 : count < 2 ^ 53) :
    (if wrap64 ((nextStart pm count r : Int) - (lastStart pm r : Int)) > 0 then
        roundDouble
          (roundDouble
              ((asIdx ((nextStart om count r : Int) - (lastStart pm r : Int)) : Nat) : Rat) /
            roundDouble ((wrap64 ((nextStart pm count r : Int) - (lastStart pm r : Int)) :
              Int) : Rat))
      else 0) = roundDouble (cumeDistAt pm om count r) := by
  obtain ⟨f1, f2, _, _⟩ := nextStart_spec pm count r hr
  obtain ⟨g1, g2, _, _⟩ := nextStart_spec om count r hr
  have hle := lastStart_le pm r
  rw [wrap64_small _ (by omega) (by omega)]
  have hidx : asIdx ((nextStart om count r : Int) - (lastStart pm r : Int)) =
      nextStart om count r - lastStart pm r := by
    unfold asIdx
    omega
  have e3 : ((((nextStart pm count r : Int) - (lastStart pm r : Int) : Int)) : Rat) =
      ((nextStart pm count r - lastStart pm r : Nat) : Rat) := by
    have hd : (nextStart pm count r : Int) - (lastStart pm r : Int) =
        ((nextStart pm count r - lastStart pm r : Nat) : Int) := by omega
    rw [hd]
    rfl
  unfold cumeDistAt partitionSize
  rw [if_pos (by omega), hidx, e3, roundDouble_natCast _ (by omega),
    roundDouble_natCast _ (by omega)]

/-- The loop of `PercentRank` on a chunk whose columns follow the masks writes the `double`
nearest to `percentRankAt` at every row. -/
theorem PercentRankLoop_eq (pm om : ValidityMask) (hinv : MaskInvariants pm om)
    (count : Nat) (h53 : count < 2 ^ 53) (b : BoundsChunk) :
    ∀ k i row (ex : WindowExecutor), row + k ≤ count →
      (row = 0 ∨ (ex.rank = rankAt pm om (row - 1) ∧
        ex.rank_equal = row - lastStart om (row - 1))) →
      (∀ j, j < k → b.partition_begin (i + j) = lastStart pm (row + j) ∧
        b.partition_end (i + j) = nextStart pm count (row + j) ∧
        b.peer_begin (i + j) = lastStart om (row + j)) →
      (WindowExecutor.PercentRankLoop b k i row ex).2 =
        (List.range k).map (fun j => some (roundDouble (percentRankAt pm om count (row + j)))) := by
  intro k
  induction k with
  | zero => intro i row ex _ _ _; rfl
  | succ k ih =>
    intro i row ex hk hex hb
    have hb0 := hb 0 (by omega)
    simp only [Nat.add_zero] at hb0
    have hn := NextRank_rank pm om hinv row ex hex
    rw [← hb0.1, ← hb0.2.2] at hn
    rw [WindowExecutor.PercentRankLoop]
    simp only []
    rw [ih (i + 1) (row + 1) _ (by omega)
      (Or.inr (by
        rw [Nat.add_sub_cancel, hn.1, hn.2]
        have := lastStart_le om row
        exact ⟨rfl, by rw [hb0.2.2]⟩))
      (fun j hj => by
        have := hb (j + 1) (by omega)
        rw [show i + 1 + j = i + (j + 1) by omega, show row + 1 + j = row + (j + 1) by omega]
        exact this)]
    rw [hn.1, hb0.1, hb0.2.1, percentRank_cell pm om count row (by omega) h53,
      List.range_succ_eq_map, List.map_cons, List.map_map]
    congr 1
    apply List.map_congr_left
    intro j _
    simp only [Function.comp, Nat.succ_eq_add_one]
    rw [show row + 1 + j = row + (j + 1) by omega]

/-- The loop of `CumeDist` on a chunk whose columns follow the masks writes the `double`
nearest to `cumeDistAt` at every row. -/
theorem CumeDistLoop_eq (pm om : ValidityMask) (count : Nat) (h53 : count < 2 ^ 53)
    (b : BoundsChunk) :
    ∀ k i row (ex : WindowExecutor), row + k ≤ count →
      (∀ j, j < k → b.partition_begin (i + j) = lastStart pm (row + j) ∧
        b.partition_end (i + j) = nextStart pm count (row + j) ∧
        b.peer_end (i + j) = nextStart om count (row + j)) →
      (WindowExecutor.CumeDistLoop b k i row ex).2 =
        (List.range k).map (fun j => some (roundDouble (cumeDistAt pm om count (row + j)))) := by
  intro k
  induction k with
  | zero => intro i row ex _ _; rfl
  | succ k ih =>
    intro i row ex hk hb
    have hb0 := hb 0 (by omega)
    simp only [Nat.add_zero] at hb0
    rw [WindowExecutor.CumeDistLoop]
    simp only []
    rw [ih (i + 1) (row + 1) _ (by omega)
      (fun j hj => by
        have := hb (j + 1) (by omega)
        rw [show i + 1 + j = i + (j + 1) by omega, show row + 1 + j = row + (j + 1) by omega]
        exact this)]
    rw [hb0.1, hb0.2.1, hb0.2.2, cumeDist_cell pm om count row (by omega) h53,
      List.range_succ_eq_map, List.map_cons, List.map_map]
    congr 1
    apply List.map_congr_left
    intro j _
    simp only [Function.comp, Nat.succ_eq_add_one]
    rw [show row + 1 + j = row + (j + 1) by omega]

end Window

namespace Window
open ValidityMask
open WindowBoundariesState

/-! ## The rank functions through `Evaluate` -/

theorem needs_peer_of_range_end (wexpr : BoundWindowExpression) (count : Nat)
    (hend : wexpr.end_boundary = .CURRENT_ROW_RANGE) :
    (WindowBoundariesState.new wexpr count).needs_peer = true := by
  simp [WindowBoundariesState.new, hend, BoundaryNeedsPeer]

end Window

namespace Window
open ValidityMask
open WindowBoundariesState

/-! ## PERCENT_RANK and CUME_DIST -/

/-- The mask with the single word 1 has no set bit after bit 0. -/
theorem ofWords_one_simple : ∀ i, 0 < i → (ofWords [1]).RowIsValidUnsafe i = false := by
  intro i hi
  by_contra h
  have hset : (ofWords [1]).RowIsValidUnsafe i = true := by simpa using h
  have hlt := ofWords_single_lt 1 i hset
  revert hset
  interval_cases i <;> decide

theorem nextStart_mono (m : ValidityMask) (count r r2 : Nat) (h : r ≤ r2) (h2 : r2 < count) :
    nextStart m count r ≤ nextStart m count r2 := by
  obtain ⟨f1, f2, f3, f4⟩ := nextStart_spec m count r (by omega)
  obtain ⟨g1, g2, g3, g4⟩ := nextStart_spec m count r2 h2
  by_contra hgt
  have hset := g4 (by omega)
  rw [f3 _ (by omega) (by omega)] at hset
  cases hset

theorem nextStart_const (m : ValidityMask) (count r r2 : Nat) (h : r ≤ r2) (h2 : r2 < count)
    (hun : ∀ q, r < q → q ≤ r2 → m.RowIsValidUnsafe q = false) :
    nextStart m count r = nextStart m count r2 := by
  obtain ⟨g1, g2, g3, g4⟩ := nextStart_spec m count r2 h2
  apply nextStart_unique m count r _ (by omega) g2 _ g4
  intro q h3 h4
  by_cases hq : q ≤ r2
  · exact hun q h3 hq
  · exact g3 q (by omega) h4

theorem lastStart_const (m : ValidityMask) (r : Nat) :
    ∀ j, (∀ q, r < q → q ≤ r + j → m.RowIsValidUnsafe q = false) →
      lastStart m (r + j) = lastStart m r := by
  intro j
  induction j with
  | zero => intro _; rfl
  | succ j ih =>
    intro h
    rw [show r + (j + 1) = (r + j) + 1 by omega, lastStart,
      h (r + j + 1) (by omega) (by omega)]
    simp only [Bool.false_eq_true, if_false]
    exact ih (fun q h1 h2 => h q h1 (by omega))

end Window

namespace Window
open ValidityMask
open WindowBoundariesState

/-! ## Rows of one peer group, and partitions of one row -/

theorem countSet_append (m : ValidityMask) (a j : Nat) :
    ∀ k, countSet m a (j + k) = countSet m a j + countSet m (a + j) k := by
  intro k
  induction k with
  | zero => rfl
  | succ k ih =>
    rw [show j + (k + 1) = (j + k) + 1 by omega, countSet_succ, ih, countSet_succ,
      show a + (j + k) = a + j + k by omega]
    omega

/-- Two rows `r1 ≤ r2` with no set bit of the order mask in `(r1, r2]` have the same
partition, the same peer group and the same dense rank. -/
theorem same_group_le (pm om : ValidityMask) (hinv : MaskInvariants pm om) (count r1 r2 : Nat)
    (h12 : r1 ≤ r2) (h2 : r2 < count)
    (hpeer : ∀ q, r1 < q → q ≤ r2 → om.RowIsValidUnsafe q = false) :
    lastStart pm r2 = lastStart pm r1 ∧ lastStart om r2 = lastStart om r1 ∧
      nextStart pm count r1 = nextStart pm count r2 ∧
      nextStart om count r1 = nextStart om count r2 ∧
      denseRankAt pm om r2 = denseRankAt pm om r1 := by
  have hpm : ∀ q, r1 < q → q ≤ r2 → pm.RowIsValidUnsafe q = false := by
    intro q hq1 hq2
    by_contra hb
    have hset := hinv.2.2 q (by simpa using hb)
    rw [hpeer q hq1 hq2] at hset
    cases hset
  obtain ⟨j, rfl⟩ : ∃ j, r2 = r1 + j := ⟨r2 - r1, by omega⟩
  have e1 := lastStart_const pm r1 j hpm
  have e2 := lastStart_const om r1 j hpeer
  refine ⟨e1, e2, nextStart_const pm count r1 _ h12 h2 hpm,
    nextStart_const om count r1 _ h12 h2 hpeer, ?_⟩
  have hle := lastStart_le pm r1
  unfold denseRankAt
  rw [e1, show r1 + j + 1 - lastStart pm r1 = (r1 + 1 - lastStart pm r1) + j by omega,
    countSet_append, show lastStart pm r1 + (r1 + 1 - lastStart pm r1) = r1 + 1 by omega,
    countSet_eq_zero om (r1 + 1) j (fun q hq1 hq2 => hpeer q (by omega) (by omega))]
  rfl

/-- Two rows of one peer group have the same values of the four rank functions. -/
theorem same_group_values (pm om : ValidityMask) (hinv : MaskInvariants pm om)
    (count r1 r2 : Nat) (h1 : r1 < count) (h2 : r2 < count)
    (hpeer : ∀ q, min r1 r2 < q → q ≤ max r1 r2 → om.RowIsValidUnsafe q = false) :
    rankAt pm om r1 = rankAt pm om r2 ∧ denseRankAt pm om r1 = denseRankAt pm om r2 ∧
      percentRankAt pm om count r1 = percentRankAt pm om count r2 ∧
      cumeDistAt pm om count r1 = cumeDistAt pm om count r2 := by
  rcases Nat.le_total r1 r2 with h | h
  · rw [Nat.min_eq_left h, Nat.max_eq_right h] at hpeer
    obtain ⟨e1, e2, e3, e4, e5⟩ := same_group_le pm om hinv count r1 r2 h h2 hpeer
    unfold percentRankAt cumeDistAt partitionSize rankAt
    rw [e1, e2, e3, e4, e5]
    exact ⟨rfl, rfl, rfl, rfl⟩
  · rw [Nat.min_eq_right h, Nat.max_eq_left h] at hpeer
    obtain ⟨e1, e2, e3, e4, e5⟩ := same_group_le pm om hinv count r2 r1 h h1 hpeer
    unfold percentRankAt cumeDistAt partitionSize rankAt
    rw [e1, e2, e3, e4, e5]
    exact ⟨rfl, rfl, rfl, rfl⟩

theorem map_range_getElem {α : Type} (f : Nat → α) (count r : Nat) (hr : r < count) :
    ((List.range count).map f)[r]? = some (f r) := by
  simp [hr]

end Window

namespace Window
open ValidityMask
open WindowBoundariesState

/-- C23 (counterexample): on the mask without a buffer with `l = 2`, `r = 3` and
`n = 2 ^ 64 - 1`, the range `[2, 3)` holds one set bit, fewer than `n`, and `FindNextStart`
returns the index 0 instead of `r = 3`: the sum `l + n - 1` wraps to 0. -/
theorem FindNextStart_index_wraps :
    allValid.AllValid = true ∧ countSet allValid 2 (3 - 2) = 1 ∧
      FindNextStart allValid 2 3 (2 ^ 64 - 1) = (0, 2 ^ 64 - 2) := by
  refine ⟨rfl, by decide, ?_⟩
  unfold FindNextStart
  rw [if_pos (show allValid.AllValid = true from rfl)]
  unfold sub64 add64
  norm_num

/-- The bound `r ≤ 2 ^ 64 - 64` on the scan of a materialised mask cannot be dropped: with
only bit 0 set, `l = 2 ^ 64 - 64`, `r = 2 ^ 64 - 1` and `n = 1`, the range holds no set bit,
and the skip of the blank block wraps `l` to 0, where bit 0 is found: the result is the
index 0 with `n = 0`. -/
theorem FindNextStart_skip_wraps :
    (ofWords [1]).AllValid = false ∧
      (∀ q, 2 ^ 64 - 64 ≤ q → q < 2 ^ 64 - 1 → (ofWords [1]).RowIsValidUnsafe q = false) ∧
      FindNextStart (ofWords [1]) (2 ^ 64 - 64) (2 ^ 64 - 1) 1 = (0, 0) := by
  refine ⟨rfl, ?_, by decide⟩
  intro q h1 _
  by_contra h
  have := ofWords_single_lt 1 q (by simpa using h)
  omega

/-- C23 (amended): `FindNextStart(mask, l, r, n)` for every mask, indices
`l ≤ r ≤ 2 ^ 64 - 64` and a count `1 ≤ n < 2 ^ 64` with `l + n - 1 < 2 ^ 64`, with `c` the number of
set bits of the mask in `[l, r)`. If `c ≥ n` it returns the index of the `n`-th set bit at or
after `l`, an index of `[l, r)` whose bit is set, and leaves `n = 0`. If `c < n` it returns
`r` and leaves the residual `n - c > 0`. -/
theorem FindNextStart_nth_set_bit (mask : ValidityMask) (l r n : Nat) (hn : 1 ≤ n)
    (hn64 : n < 2 ^ 64) (hlr : l ≤ r) (hr : r ≤ 2 ^ 64 - 64) (h64 : l + n - 1 < 2 ^ 64) :
    (n ≤ countSet mask l (r - l) →
      (FindNextStart mask l r n).2 = 0 ∧ l ≤ (FindNextStart mask l r n).1 ∧
        (FindNextStart mask l r n).1 < r ∧
        mask.RowIsValidUnsafe (FindNextStart mask l r n).1 = true ∧
        countSet mask l ((FindNextStart mask l r n).1 - l) = n - 1) ∧
    (countSet mask l (r - l) < n →
      (FindNextStart mask l r n).1 = r ∧
        (FindNextStart mask l r n).2 = n - countSet mask l (r - l) ∧
        0 < (FindNextStart mask l r n).2) := by
  have heq : FindNextStart mask l r n = findNext mask l (r - l) n :=
    FindNextStart_eq_findNext mask l r n hn hlr (by omega) hn64 h64 (skip_of_le mask r hr)
  rw [heq]
  constructor
  · intro hc
    obtain ⟨f1, f2, f3, f4, f5⟩ := findNext_found mask (r - l) l n hn hc
    exact ⟨f1, f2, by omega, f4, f5⟩
  · intro hc
    rw [findNext_short mask _ _ _ hc]
    exact ⟨by simp only []; omega, rfl, by simp only []; omega⟩

/-- C23 (amended), at a concrete input: on the mask with the bits 1 and 3 set, the second
set bit of `[0, 4)` is at index 3, and a third one is not found: the result is `r = 4` with
the residual 1. -/
theorem FindNextStart_nth_set_bit_witness :
    ((1 ≤ 2 ∧ 2 < 2 ^ 64 ∧ 0 ≤ 4 ∧ 4 ≤ 2 ^ 64 - 64 ∧ 0 + 2 - 1 < 2 ^ 64) ∧
      2 ≤ countSet (ofWords [10]) 0 (4 - 0)) ∧
    ((FindNextStart (ofWords [10]) 0 4 2).2 = 0 ∧ 0 ≤ (FindNextStart (ofWords [10]) 0 4 2).1 ∧
        (FindNextStart (ofWords [10]) 0 4 2).1 < 4 ∧
        (ofWords [10]).RowIsValidUnsafe (FindNextStart (ofWords [10]) 0 4 2).1 = true ∧
        countSet (ofWords [10]) 0 ((FindNextStart (ofWords [10]) 0 4 2).1 - 0) = 2 - 1) ∧
    FindNextStart (ofWords [10]) 0 4 2 = (3, 0) ∧ FindNextStart (ofWords [10]) 0 4 3 = (4, 1) :=
  ⟨⟨⟨by decide, by decide, by decide, by decide, by decide⟩, by decide⟩,
   (FindNextStart_nth_set_bit (ofWords [10]) 0 4 2 (by decide) (by decide) (by decide)
      (by decide) (by decide)).1 (by decide),
   by decide, by decide⟩

/-- C24 (the code at the failing input): on the materialised mask with only bit 0 set, with
`l = 1`, `r = 3` and `n = 1`, no bit of `[1, 3)` is set, so the result `l = 1` with the
residual 1 is due. `FindPrevStart` scans the mask word down to bit 0, below `l`, counts that
bit and returns `l` with the residual 0. On the mask with no bit set, which has the same
bits in `[1, 3)`, it returns the residual 1: the bit below `l` decides the residual. -/
theorem FindPrevStart_counts_bits_below_l :
    (ofWords [1]).AllValid = false ∧ countSet (ofWords [1]) 1 (3 - 1) = 0 ∧
      FindPrevStart (ofWords [1]) 1 3 1 = (1, 0) ∧
      (∀ q, 1 ≤ q → q < 3 →
        (ofWords [1]).RowIsValidUnsafe q = (ofWords [0]).RowIsValidUnsafe q) ∧
      FindPrevStart (ofWords [0]) 1 3 1 = (1, 1) := by
  refine ⟨rfl, by decide, by decide, ?_, by decide⟩
  intro q h1 h2
  interval_cases q <;> decide

end Window

namespace Window
open ValidityMask
open WindowBoundariesState

/-- C29 (counterexample): `RANK() OVER (ORDER BY o)` on `o = [10, 20, 20, 30]` gives
`[1, 2, 2, 4]`. The rows 1 and 2 are the peer group `G` of size 2 with rank 2, and row 3 is
the next peer group `H` with rank 4, which is not `2 + (2 - 1)`. -/
theorem Rank_next_group_not_size_minus_one :
    resultCells ((plainExecutor rankExpr 4).Evaluate 0 4 (ofWords [1]) (ofWords [11])) =
        some [some 1, some 2, some 2, some 4] ∧
      lastStart (ofWords [11]) 2 = 1 ∧ nextStart (ofWords [11]) 4 2 = 3 ∧
      lastStart (ofWords [11]) 3 = 3 ∧ (2 : Int) + (2 - 1) ≠ 4 := by
  refine ⟨by decide, by decide, by decide, by decide, by decide⟩

end Window

namespace Window
open ValidityMask
open WindowBoundariesState

/-! ## Partition bounds across batches -/

/-- The state after the rows `0 .. row - 1` keeps the key counts and the input size, its
partition start is `lastStart` of the partition mask at the last row, and its partition end
is `nextStart` there. -/
theorem AfterRows_inv (wexpr : BoundWindowExpression) (count : Nat) (range : WindowInputColumn)
    (pm om : ValidityMask) (h0 : pm.RowIsValidUnsafe 0 = true)
    (hkeys : wexpr.partitions = 0 → ∀ i, 0 < i → pm.RowIsValidUnsafe i = false)
    (hsize : count ≤ 2 ^ 64 - 64) :
    ∀ row s, AfterRows wexpr count range pm om row s →
      PartInv pm wexpr.partitions wexpr.orders.length row s ∧ s.input_size = count ∧
        (0 < row → row ≤ count → s.partition_end = nextStart pm count (row - 1)) := by
  intro row s hs
  induction hs with
  | init => exact ⟨⟨rfl, rfl, rfl⟩, rfl, fun h => by omega⟩
  | @step row s s' ci bs be _ _ hu ih =>
    exact PartEnd_step wexpr count pm om range bs be h0 hkeys hsize row ci s s' ih hu

/-- C30: for a window with at least one PARTITION BY key over `count ≤ 2 ^ 64 - 64` rows and a
partition mask with bit 0 set, a call of `Bounds` for a batch of `k` rows starting at row
`row0`, on the state left by the rows `0 .. row0 - 1` (the constructor's state for the first
batch, the state of the previous call for a later batch). When the call returns, its state
is the state after the rows `0 .. row0 + k - 1`, and at every position `i` of the batch, for
the row `r = row0 + i`: `partition_begin` is the largest index `p ≤ r` with the bit of the
partition mask set; `partition_end` is the smallest index `q > r` with the bit set, or
`count` when there is none; and `partition_begin ≤ r < partition_end ≤ count`. -/
theorem Bounds_partition_columns (wexpr : BoundWindowExpression) (count : Nat)
    (range : WindowInputColumn) (pm om : ValidityMask) (hpart : 0 < wexpr.partitions)
    (h0 : pm.RowIsValidUnsafe 0 = true) (hsize : count ≤ 2 ^ 64 - 64)
    (row0 : Nat) (s : WindowBoundariesState) (hs : AfterRows wexpr count range pm om row0 s)
    (k : Nat) (hk : row0 + k ≤ count) (b : BoundsChunk) (bs be : WindowInputExpression)
    (sb : WindowBoundariesState × BoundsChunk)
    (hb : s.Bounds b row0 range k bs be pm om = .ok sb) :
    AfterRows wexpr count range pm om (row0 + k) sb.1 ∧
    ∀ i, i < k →
      (sb.2.partition_begin i ≤ row0 + i ∧
        pm.RowIsValidUnsafe (sb.2.partition_begin i) = true ∧
        ∀ q, sb.2.partition_begin i < q → q ≤ row0 + i → pm.RowIsValidUnsafe q = false) ∧
      (row0 + i < sb.2.partition_end i ∧ sb.2.partition_end i ≤ count ∧
        (∀ q, row0 + i < q → q < sb.2.partition_end i → pm.RowIsValidUnsafe q = false) ∧
        (sb.2.partition_end i < count →
          pm.RowIsValidUnsafe (sb.2.partition_end i) = true)) := by
  have hkeys : wexpr.partitions = 0 → ∀ i, 0 < i → pm.RowIsValidUnsafe i = false :=
    fun h => by omega
  obtain ⟨hI, _, hR⟩ := BoundsLoop_inv range bs be pm om
    (fun row st => row ≤ count → AfterRows wexpr count range pm om row st)
    (fun row ci st st' hinv hu hle =>
      AfterRows.step ci bs be (hinv (by omega)) (by omega) hu)
    k 0 row0 s b sb.1 sb.2 (fun _ => hs) hb
  refine ⟨hI hk, ?_⟩
  intro i hi
  obtain ⟨si, hsi, hrow⟩ := hR i hi
  obtain ⟨⟨_, _, hps⟩, _, hE⟩ := AfterRows_inv wexpr count range pm om h0 hkeys hsize _ _
    (hsi (by omega))
  have hpe := hE (by omega) (by omega)
  unfold BoundsChunk.RowIs at hrow
  rw [Nat.add_sub_cancel] at hps hpe
  rw [Nat.zero_add] at hrow
  rw [hrow.1, hrow.2.1, hps, hpe]
  obtain ⟨f1, f2, f3, f4⟩ := nextStart_spec pm count (row0 + i) (by omega)
  exact ⟨⟨lastStart_le pm _, lastStart_set pm h0 _, lastStart_unset pm _⟩, f1, f2, f3, f4⟩

/-- C30, at a concrete input: `RANK() OVER (PARTITION BY p)` on `p = [a, a, b, b]`, processed
in two batches of two rows. The second call of `Bounds` starts at row 2 on the state left by
the first; both calls return, and the partition columns hold `[0, 2)` at the rows 0 and 1
and `[2, 4)` at the rows 2 and 3. -/
theorem Bounds_partition_columns_witness :
    (0 < rankPartitionExpr.partitions ∧ (ofWords [5]).RowIsValidUnsafe 0 = true ∧
      4 ≤ 2 ^ 64 - 64 ∧ 0 + 2 ≤ 4) ∧
    (∃ sb, (WindowBoundariesState.new rankPartitionExpr 4).Bounds (BoundsChunk.fill 0) 0
        .empty 2 (.const 0) (.const 0) (ofWords [5]) (ofWords [5]) = .ok sb ∧
      AfterRows rankPartitionExpr 4 .empty (ofWords [5]) (ofWords [5]) (0 + 2) sb.1 ∧
      ∀ i, i < 2 →
        (sb.2.partition_begin i ≤ 0 + i ∧
          (ofWords [5]).RowIsValidUnsafe (sb.2.partition_begin i) = true ∧
          ∀ q, sb.2.partition_begin i < q → q ≤ 0 + i →
            (ofWords [5]).RowIsValidUnsafe q = false) ∧
        (0 + i < sb.2.partition_end i ∧ sb.2.partition_end i ≤ 4 ∧
          (∀ q, 0 + i < q → q < sb.2.partition_end i →
            (ofWords [5]).RowIsValidUnsafe q = false) ∧
          (sb.2.partition_end i < 4 →
            (ofWords [5]).RowIsValidUnsafe (sb.2.partition_end i) = true))) ∧
    (frameAt ((WindowBoundariesState.new rankPartitionExpr 4).Bounds (BoundsChunk.fill 0) 0
        .empty 2 (.const 0) (.const 0) (ofWords [5]) (ofWords [5])) 1 = some (0, 0, 2, 2) ∧
      frameAt (thenBounds ((WindowBoundariesState.new rankPartitionExpr 4).Bounds
        (BoundsChunk.fill 0) 0 .empty 2 (.const 0) (.const 0) (ofWords [5]) (ofWords [5])) 2
        .empty 2 (.const 0) (.const 0) (ofWords [5]) (ofWords [5])) 0 = some (2, 2, 4, 4) ∧
      frameAt (thenBounds ((WindowBoundariesState.new rankPartitionExpr 4).Bounds
        (BoundsChunk.fill 0) 0 .empty 2 (.const 0) (.const 0) (ofWords [5]) (ofWords [5])) 2
        .empty 2 (.const 0) (.const 0) (ofWords [5]) (ofWords [5])) 1 = some (2, 2, 4, 4)) := by
  obtain ⟨sb, hb⟩ := BoundsLoop_ok_of_plain .empty (.const 0) (.const 0) (ofWords [5])
    (ofWords [5]) 2 0 0 (WindowBoundariesState.new rankPartitionExpr 4) (BoundsChunk.fill 0)
    (Or.inl rfl) (Or.inr (Or.inl rfl))
  exact ⟨⟨by decide, by decide, by decide, by decide⟩,
    ⟨sb, hb, Bounds_partition_columns rankPartitionExpr 4 .empty (ofWords [5]) (ofWords [5])
      (by decide) (by decide) (by decide) 0 _ .init 2 (by decide) (BoundsChunk.fill 0)
      (.const 0) (.const 0) sb hb⟩,
    by decide, by decide, by decide⟩

end Window

namespace Window
open ValidityMask
open WindowBoundariesState

/-! ## The frame `ROWS BETWEEN UNBOUNDED PRECEDING AND CURRENT ROW` -/

/-- With the start bound UNBOUNDED PRECEDING and the end bound CURRENT ROW in ROWS mode,
`Update` clamps the frame `[partition_start, row + 1)`. -/
theorem Update_eq_unbounded_current (s : WindowBoundariesState) (row ci : Nat)
    (range : WindowInputColumn) (bs be : WindowInputExpression) (pm om : ValidityMask)
    (hstart : s.start_boundary = .UNBOUNDED_PRECEDING)
    (hend : s.end_boundary = .CURRENT_ROW_ROWS) :
    s.Update row range ci bs be pm om =
      UpdateClamp { s.UpdatePartition row range pm om with
        window_start := ((s.UpdatePartition row range pm om).partition_start : Int),
        window_end := (row : Int) + 1 } := by
  have hs1 : (s.UpdatePartition row range pm om).start_boundary = .UNBOUNDED_PRECEDING ∧
      (s.UpdatePartition row range pm om).end_boundary = .CURRENT_ROW_ROWS := by
    obtain ⟨ps, pe1, ks, ke, vs, ve, p, hshape⟩ := UpdatePartition_shape s row range pm om
    rw [hshape]
    exact ⟨hstart, hend⟩
  unfold Update UpdateStart
  simp only [hs1.1]
  unfold UpdateEnd
  simp only [hs1.2]

/-- The clamping part of `Update` returns the state unchanged when both frame indices lie
within the partition. -/
theorem UpdateClamp_of_within (t : WindowBoundariesState)
    (h1 : (t.partition_start : Int) ≤ t.window_start)
    (h2 : t.window_start ≤ (t.partition_end : Int))
    (h3 : (t.partition_start : Int) ≤ t.window_end)
    (h4 : t.window_end ≤ (t.partition_end : Int)) : t.UpdateClamp = .ok t := by
  unfold UpdateClamp
  simp only []
  rw [if_neg (by omega), if_neg (by omega), if_neg (by omega), if_neg (by omega),
    if_neg (by omega)]

/-- With that frame, at a row of its partition, `Update` returns with the frame
`[partition_start, row + 1)`. -/
theorem Update_unbounded_current_ok (s : WindowBoundariesState) (row ci : Nat)
    (range : WindowInputColumn) (bs be : WindowInputExpression) (pm om : ValidityMask)
    (hstart : s.start_boundary = .UNBOUNDED_PRECEDING)
    (hend : s.end_boundary = .CURRENT_ROW_ROWS)
    (h1 : (s.UpdatePartition row range pm om).partition_start ≤ row)
    (h2 : row < (s.UpdatePartition row range pm om).partition_end) :
    s.Update row range ci bs be pm om =
      .ok { s.UpdatePartition row range pm om with
        window_start := ((s.UpdatePartition row range pm om).partition_start : Int),
        window_end := (row : Int) + 1 } := by
  rw [Update_eq_unbounded_current s row ci range bs be pm om hstart hend]
  apply UpdateClamp_of_within <;> simp only [] <;> omega

/-- With that frame, at a row of its partition, a successful `Update` leaves the frame
`[partition_start, row + 1)`. -/
theorem Update_frame_unbounded_current {s s' : WindowBoundariesState} {row ci : Nat}
    {range : WindowInputColumn} {bs be : WindowInputExpression} {pm om : ValidityMask}
    (hu : s.Update row range ci bs be pm om = .ok s')
    (hstart : s.start_boundary = .UNBOUNDED_PRECEDING)
    (hend : s.end_boundary = .CURRENT_ROW_ROWS)
    (h1 : s'.partition_start ≤ row) (h2 : row < s'.partition_end) :
    s'.window_start = (s'.partition_start : Int) ∧ s'.window_end = (row : Int) + 1 := by
  obtain ⟨ws, we, p, e, _⟩ := Update_shape hu
  have hps : s'.partition_start = (s.UpdatePartition row range pm om).partition_start := by
    rw [e]
  have hpe : s'.partition_end = (s.UpdatePartition row range pm om).partition_end := by
    rw [e]
  have hok := Update_unbounded_current_ok s row ci range bs be pm om hstart hend
    (by rw [← hps]; exact h1) (by rw [← hpe]; exact h2)
  rw [hok] at hu
  injection hu with hu
  rw [← hu]
  exact ⟨rfl, rfl⟩

end Window

namespace Window
open ValidityMask
open WindowBoundariesState

theorem asIdx_natCast (n : Nat) (h : n < 2 ^ 64) : asIdx (n : Int) = n := by
  unfold asIdx
  omega

end Window

namespace Window
open ValidityMask
open WindowBoundariesState

/-! ## Overflow of the ROWS offsets -/

theorem FindOrderedRangeBound_error (FROM : Bool) (over : WindowInputColumn)
    (sense : OrderType) (b e : Nat) (boundary : WindowInputExpression) (ci : Nat)
    (prev : Nat × Nat) (err : WindowError)
    (h : FindOrderedRangeBound FROM over sense b e boundary ci prev = .error err) :
    err.IsOutOfRange = false := by
  unfold FindOrderedRangeBound FindRangeBound at h
  cases sense <;> simp only [] at h
  · cases h; rfl
  · split at h
    · cases h; rfl
    · cases h
  · split at h
    · cases h; rfl
    · cases h

/-- The start switch of `Update` on a ROWS offset: the exact difference or sum when it fits
in `int64_t`, the overflow error when not; on the other bounds no overflow error. -/
theorem UpdateStart_rows (t : WindowBoundariesState) (row ci : Nat) (range : WindowInputColumn)
    (bs : WindowInputExpression) :
    (t.start_boundary = .EXPR_PRECEDING_ROWS →
      t.UpdateStart row range ci bs =
        if inInt64 ((row : Int) - bs.GetCell ci) then
          .ok { t with window_start := (row : Int) - bs.GetCell ci }
        else .error .OverflowRowsPrecedingStart) ∧
    (t.start_boundary = .EXPR_FOLLOWING_ROWS →
      t.UpdateStart row range ci bs =
        if inInt64 ((row : Int) + bs.GetCell ci) then
          .ok { t with window_start := (row : Int) + bs.GetCell ci }
        else .error .OverflowRowsFollowingStart) ∧
    (t.start_boundary ≠ .EXPR_PRECEDING_ROWS → t.start_boundary ≠ .EXPR_FOLLOWING_ROWS →
      ∀ e, t.UpdateStart row range ci bs = .error e → e.IsOutOfRange = false) := by
  refine ⟨fun h => ?_, fun h => ?_, fun h1 h2 e he => ?_⟩
  · unfold UpdateStart TrySubtractOperator inInt64
    simp only [h]
    split_ifs with hc <;> rfl
  · unfold UpdateStart TryAddOperator inInt64
    simp only [h]
    split_ifs with hc <;> rfl
  · unfold UpdateStart at he
    split at he
    · cases he
    · cases he
    · cases he
    · rename_i hb; exact absurd hb h1
    · rename_i hb; exact absurd hb h2
    · split at he
      · cases he
      · split at he
        · cases he
        · rename_i hf
          injection he with he
          subst he
          exact FindOrderedRangeBound_error _ _ _ _ _ _ _ _ _ hf
    · split at he
      · cases he
      · split at he
        · cases he
        · rename_i hf
          injection he with he
          subst he
          exact FindOrderedRangeBound_error _ _ _ _ _ _ _ _ _ hf
    · injection he with he
      subst he
      rfl

/-- The end switch of `Update` on a ROWS offset: the exact difference or sum when it fits
in `int64_t`, the overflow error when not; on the other bounds no overflow error. -/
theorem UpdateEnd_rows (t : WindowBoundariesState) (row ci : Nat) (range : WindowInputColumn)
    (be : WindowInputExpression) :
    (t.end_boundary = .EXPR_PRECEDING_ROWS →
      t.UpdateEnd row range ci be =
        if inInt64 ((row : Int) + 1 - be.GetCell ci) then
          .ok { t with window_end := (row : Int) + 1 - be.GetCell ci }
        else .error .OverflowRowsPrecedingEnd) ∧
    (t.end_boundary = .EXPR_FOLLOWING_ROWS →
      t.UpdateEnd row range ci be =
        if inInt64 ((row : Int) + 1 + be.GetCell ci) then
          .ok { t with window_end := (row : Int) + 1 + be.GetCell ci }
        else .error .OverflowRowsFollowingEnd) ∧
    (t.end_boundary ≠ .EXPR_PRECEDING_ROWS → t.end_boundary ≠ .EXPR_FOLLOWING_ROWS →
      ∀ e, t.UpdateEnd row range ci be = .error e → e.IsOutOfRange = false) := by
  refine ⟨fun h => ?_, fun h => ?_, fun h1 h2 e he => ?_⟩
  · unfold UpdateEnd TrySubtractOperator inInt64
    simp only [h]
    split_ifs with hc <;> rfl
  · unfold UpdateEnd TryAddOperator inInt64
    simp only [h]
    split_ifs with hc <;> rfl
  · unfold UpdateEnd at he
    split at he
    · cases he
    · cases he
    · cases he
    · rename_i hb; exact absurd hb h1
    · rename_i hb; exact absurd hb h2
    · split at he
      · cases he
      · split at he
        · cases he
        · rename_i hf
          injection he with he
          subst he
          exact FindOrderedRangeBound_error _ _ _ _ _ _ _ _ _ hf
    · split at he
      · cases he
      · split at he
        · cases he
        · rename_i hf
          injection he with he
          subst he
          exact FindOrderedRangeBound_error _ _ _ _ _ _ _ _ _ hf
    · injection he with he
      subst he
      rfl

theorem UpdateClamp_error (t : WindowBoundariesState) (e : WindowError)
    (h : t.UpdateClamp = .error e) : e.IsOutOfRange = false := by
  obtain ⟨s', hs'⟩ := UpdateClamp_ok t
  rw [hs'] at h
  cases h

theorem UpdateStart_overflow (t : WindowBoundariesState) (row ci : Nat)
    (range : WindowInputColumn) (bs : WindowInputExpression) :
    (∀ x, rowsStartExact t.start_boundary row (bs.GetCell ci) = some x → ¬ inInt64 x →
      ∃ e, t.UpdateStart row range ci bs = .error e ∧ e.IsOutOfRange = true) ∧
    (∀ x, rowsStartExact t.start_boundary row (bs.GetCell ci) = some x → inInt64 x →
      t.UpdateStart row range ci bs = .ok { t with window_start := x }) ∧
    (∀ e, t.UpdateStart row range ci bs = .error e → e.IsOutOfRange = true →
      ∃ x, rowsStartExact t.start_boundary row (bs.GetCell ci) = some x ∧ ¬ inInt64 x) := by
  obtain ⟨hp, hf, ho⟩ := UpdateStart_rows t row ci range bs
  refine ⟨fun x hx hov => ?_, fun x hx hin => ?_, fun e he hout => ?_⟩
  · unfold rowsStartExact at hx
    split at hx
    · rename_i hb
      injection hx with hx
      subst hx
      rw [hp hb, if_neg hov]
      exact ⟨_, rfl, rfl⟩
    · rename_i hb
      injection hx with hx
      subst hx
      rw [hf hb, if_neg hov]
      exact ⟨_, rfl, rfl⟩
    · cases hx
  · unfold rowsStartExact at hx
    split at hx
    · rename_i hb
      injection hx with hx
      subst hx
      rw [hp hb, if_pos hin]
    · rename_i hb
      injection hx with hx
      subst hx
      rw [hf hb, if_pos hin]
    · cases hx
  · by_cases h1 : t.start_boundary = .EXPR_PRECEDING_ROWS
    · rw [hp h1] at he
      split_ifs at he with hc
      exact ⟨_, by rw [h1]; rfl, hc⟩
    · by_cases h2 : t.start_boundary = .EXPR_FOLLOWING_ROWS
      · rw [hf h2] at he
        split_ifs at he with hc
        exact ⟨_, by rw [h2]; rfl, hc⟩
      · rw [ho h1 h2 e he] at hout
        cases hout

theorem UpdateEnd_overflow (t : WindowBoundariesState) (row ci : Nat)
    (range : WindowInputColumn) (be : WindowInputExpression) :
    (∀ y, rowsEndExact t.end_boundary row (be.GetCell ci) = some y → ¬ inInt64 y →
      ∃ e, t.UpdateEnd row range ci be = .error e ∧ e.IsOutOfRange = true) ∧
    (∀ y, rowsEndExact t.end_boundary row (be.GetCell ci) = some y → inInt64 y →
      t.UpdateEnd row range ci be = .ok { t with window_end := y }) ∧
    (∀ e, t.UpdateEnd row range ci be = .error e → e.IsOutOfRange = true →
      ∃ y, rowsEndExact t.end_boundary row (be.GetCell ci) = some y ∧ ¬ inInt64 y) := by
  obtain ⟨hp, hf, ho⟩ := UpdateEnd_rows t row ci range be
  refine ⟨fun x hx hov => ?_, fun x hx hin => ?_, fun e he hout => ?_⟩
  · unfold rowsEndExact at hx
    split at hx
    · rename_i hb
      injection hx with hx
      subst hx
      rw [hp hb, if_neg hov]
      exact ⟨_, rfl, rfl⟩
    · rename_i hb
      injection hx with hx
      subst hx
      rw [hf hb, if_neg hov]
      exact ⟨_, rfl, rfl⟩
    · cases hx
  · unfold rowsEndExact at hx
    split at hx
    · rename_i hb
      injection hx with hx
      subst hx
      rw [hp hb, if_pos hin]
    · rename_i hb
      injection hx with hx
      subst hx
      rw [hf hb, if_pos hin]
    · cases hx
  · by_cases h1 : t.end_boundary = .EXPR_PRECEDING_ROWS
    · rw [hp h1] at he
      split_ifs at he with hc
      exact ⟨_, by rw [h1]; rfl, hc⟩
    · by_cases h2 : t.end_boundary = .EXPR_FOLLOWING_ROWS
      · rw [hf h2] at he
        split_ifs at he with hc
        exact ⟨_, by rw [h2]; rfl, hc⟩
      · rw [ho h1 h2 e he] at hout
        cases hout

theorem UpdatePartition_boundaries (s : WindowBoundariesState) (row : Nat)
    (range : WindowInputColumn) (pm om : ValidityMask) :
    (s.UpdatePartition row range pm om).start_boundary = s.start_boundary ∧
    (s.UpdatePartition row range pm om).end_boundary = s.end_boundary := by
  obtain ⟨ps, pe1, ks, ke, vs, ve, p, hshape⟩ := UpdatePartition_shape s row range pm om
  rw [hshape]
  exact ⟨rfl, rfl⟩

theorem UpdateStart_end_boundary {t t' : WindowBoundariesState} {row ci : Nat}
    {range : WindowInputColumn} {bs : WindowInputExpression}
    (h : t.UpdateStart row range ci bs = .ok t') : t'.end_boundary = t.end_boundary := by
  obtain ⟨ws, p, hsh⟩ := UpdateStart_shape h
  rw [hsh]

/-- The start switch returns on the plain bounds of a start and on a ROWS offset that does
not overflow. -/
theorem UpdateStart_rows_ok (t : WindowBoundariesState) (row ci : Nat)
    (range : WindowInputColumn) (bs : WindowInputExpression)
    (hb : t.start_boundary = .UNBOUNDED_PRECEDING ∨ t.start_boundary = .CURRENT_ROW_ROWS ∨
      t.start_boundary = .CURRENT_ROW_RANGE ∨ t.start_boundary = .EXPR_PRECEDING_ROWS ∨
      t.start_boundary = .EXPR_FOLLOWING_ROWS)
    (hno : ∀ x, rowsStartExact t.start_boundary row (bs.GetCell ci) = some x → inInt64 x) :
    ∃ t', t.UpdateStart row range ci bs = .ok t' := by
  obtain ⟨hp, hf, -⟩ := UpdateStart_rows t row ci range bs
  rcases hb with hb | hb | hb | hb | hb
  · exact ⟨_, by unfold UpdateStart; rw [hb]⟩
  · exact ⟨_, by unfold UpdateStart; rw [hb]⟩
  · exact ⟨_, by unfold UpdateStart; rw [hb]⟩
  · rw [hp hb, if_pos (hno _ (by rw [hb]; rfl))]
    exact ⟨_, rfl⟩
  · rw [hf hb, if_pos (hno _ (by rw [hb]; rfl))]
    exact ⟨_, rfl⟩

end Window

namespace Window
open ValidityMask
open WindowBoundariesState

end Window

namespace Window
open ValidityMask
open WindowBoundariesState

/-! ## NULL bounds of a RANGE frame -/

theorem UpdateStart_null (t : WindowBoundariesState) (row ci : Nat)
    (range : WindowInputColumn) (bs : WindowInputExpression)
    (hb : t.start_boundary = .EXPR_PRECEDING_RANGE ∨ t.start_boundary = .EXPR_FOLLOWING_RANGE)
    (hnull : bs.CellIsNull ci = true) :
    t.UpdateStart row range ci bs = .ok { t with window_start := (t.peer_start : Int) } := by
  unfold UpdateStart
  rcases hb with hb | hb <;> simp only [hb, hnull, if_true]

theorem UpdateEnd_null (t : WindowBoundariesState) (row ci : Nat)
    (range : WindowInputColumn) (be : WindowInputExpression)
    (hb : t.end_boundary = .EXPR_PRECEDING_RANGE ∨ t.end_boundary = .EXPR_FOLLOWING_RANGE)
    (hnull : be.CellIsNull ci = true) :
    t.UpdateEnd row range ci be = .ok { t with window_end := (t.peer_end : Int) } := by
  unfold UpdateEnd
  rcases hb with hb | hb <;> simp only [hb, hnull, if_true]

theorem UpdateStart_prev_snd {t t' : WindowBoundariesState} {row ci : Nat}
    {range : WindowInputColumn} {bs : WindowInputExpression}
    (h : t.UpdateStart row range ci bs = .ok t') :
    t'.prev.2 = t.prev.2 ∧ t'.window_end = t.window_end := by
  unfold UpdateStart at h
  split at h
  all_goals first
    | (injection h with h; subst h; exact ⟨rfl, rfl⟩)
    | (split at h <;> first
        | (injection h with h; subst h; exact ⟨rfl, rfl⟩)
        | (split at h <;> first
            | (injection h with h; subst h; exact ⟨rfl, rfl⟩)
            | cases h)
        | cases h)
    | cases h

theorem UpdateEnd_prev_fst {t t' : WindowBoundariesState} {row ci : Nat}
    {range : WindowInputColumn} {be : WindowInputExpression}
    (h : t.UpdateEnd row range ci be = .ok t') :
    t'.prev.1 = t.prev.1 ∧ t'.window_start = t.window_start := by
  unfold UpdateEnd at h
  split at h
  all_goals first
    | (injection h with h; subst h; exact ⟨rfl, rfl⟩)
    | (split at h <;> first
        | (injection h with h; subst h; exact ⟨rfl, rfl⟩)
        | (split at h <;> first
            | (injection h with h; subst h; exact ⟨rfl, rfl⟩)
            | cases h)
        | cases h)
    | cases h

theorem UpdateClamp_within {t t' : WindowBoundariesState} (h : t.UpdateClamp = .ok t') :
    t'.prev = t.prev ∧
    ((t.partition_start : Int) ≤ t.window_start → t.window_start ≤ (t.partition_end : Int) →
      t'.window_start = t.window_start) ∧
    ((t.partition_start : Int) ≤ t.window_end → t.window_end ≤ (t.partition_end : Int) →
      t'.window_end = t.window_end) := by
  unfold UpdateClamp at h
  simp only [] at h
  split_ifs at h <;>
    first
    | (cases h; done)
    | (injection h with h
       subst h
       refine ⟨rfl, fun h1 h2 => ?_, fun h1 h2 => ?_⟩ <;> simp only [] <;> omega)

end Window

namespace Window
open ValidityMask
open WindowBoundariesState

/-! ## The end bound `EXPR_PRECEDING_RANGE` -/

theorem upper_bound_loop_le (over : WindowInputColumn) (comp : Int → Int → Bool) (val : Int) :
    ∀ fuel first count, upper_bound_loop over comp val fuel first count ≤ first + count := by
  intro fuel
  induction fuel with
  | zero =>
    intro first count
    rw [upper_bound_loop]
    omega
  | succ fuel ih =>
    intro first count
    rw [upper_bound_loop]
    by_cases hc : 0 < count
    · rw [if_pos hc]
      simp only []
      split
      · have := ih (first + count / 2 + 1) (count - (count / 2 + 1))
        omega
      · have := ih first (count / 2)
        omega
    · rw [if_neg hc]
      omega

/-- The upper bound that `FindTypedRangeBound` returns is not after the end of the searched
range (or its start, when the range is empty). -/
theorem FindTypedRangeBound_upper_le (comp : Int → Int → Bool) (over : WindowInputColumn)
    (b e : Nat) (boundary : WindowInputExpression) (ci : Nat) (prev : Nat × Nat) :
    FindTypedRangeBound comp false over b e boundary ci prev ≤ max b e := by
  unfold FindTypedRangeBound upper_bound
  simp only [Bool.false_eq_true, if_false]
  refine le_trans (upper_bound_loop_le _ _ _ _ _ _) ?_
  split_ifs <;> omega

theorem FindOrderedRangeBound_upper_le {over : WindowInputColumn} {sense : OrderType}
    {b e : Nat} {boundary : WindowInputExpression} {ci : Nat} {prev : Nat × Nat} {r : Nat}
    (h : FindOrderedRangeBound false over sense b e boundary ci prev = .ok r) :
    r ≤ max b e := by
  unfold FindOrderedRangeBound FindRangeBound at h
  cases sense <;> simp only [] at h
  · cases h
  · split at h
    · cases h
    · injection h with h
      rw [← h]
      exact FindTypedRangeBound_upper_le _ _ _ _ _ _ _
  · split at h
    · cases h
    · injection h with h
      rw [← h]
      exact FindTypedRangeBound_upper_le _ _ _ _ _ _ _

theorem UpdateEnd_preceding_range_le {t t' : WindowBoundariesState} {row ci : Nat}
    {range : WindowInputColumn} {be : WindowInputExpression}
    (hend : t.end_boundary = .EXPR_PRECEDING_RANGE) (hnn : be.CellIsNull ci = false)
    (h : t.UpdateEnd row range ci be = .ok t') :
    t'.window_end ≤ ((max t.valid_start row : Nat) : Int) ∧
      t'.partition_start = t.partition_start ∧ t'.partition_end = t.partition_end := by
  unfold UpdateEnd at h
  simp only [hend, hnn, Bool.false_eq_true, if_false] at h
  split at h
  · rename_i b hb
    injection h with h
    subst h
    have hle := FindOrderedRangeBound_upper_le hb
    refine ⟨?_, rfl, rfl⟩
    simp only []
    exact_mod_cast hle
  · cases h

theorem UpdateClamp_end_le {t t' : WindowBoundariesState} (h : t.UpdateClamp = .ok t') :
    t'.window_end ≤ max t.window_end (t.partition_start : Int) := by
  unfold UpdateClamp at h
  simp only [] at h
  split_ifs at h <;>
    first
    | (cases h; done)
    | (injection h with h
       subst h
       simp only []
       omega)

end Window

namespace Window
open ValidityMask
open WindowBoundariesState

theorem rangeEndThroughRow_gt (range : WindowInputColumn) (valid_start r : Nat) (v : Int)
    (hv : valid_start ≤ r) (hle : range.GetCell r ≤ v) :
    r + 1 ≤ rangeEndThroughRow range valid_start r v := by
  unfold rangeEndThroughRow
  rw [show r + 1 - valid_start = (r - valid_start) + 1 by omega, List.range_succ,
    List.foldl_append]
  simp only [List.foldl_cons, List.foldl_nil]
  rw [show valid_start + (r - valid_start) = r by omega, if_pos hle]

/-- C25: the end bound `EXPR_PRECEDING_RANGE` with a non-NULL cell `v` is searched in the
rows `[valid_start, row)`, without the current row. At a row of its partition that is not
before `valid_start`, a returning `Update` leaves `window_end ≤ row`: the frame
`[window_start, window_end)` does not contain the row, and when `order_value(row) ≤ v` (so
for the offset 0) `window_end` is less than one past the last row `i` of `[valid_start, row]`
with `order_value(i) ≤ v`. -/
theorem Update_range_preceding_end_excludes_row (s s' : WindowBoundariesState)
    (row ci : Nat) (range : WindowInputColumn) (bs be : WindowInputExpression)
    (pm om : ValidityMask)
    (hend : s.end_boundary = .EXPR_PRECEDING_RANGE) (hnn : be.CellIsNull ci = false)
    (hv : (s.UpdatePartition row range pm om).valid_start ≤ row)
    (hp : (s.UpdatePartition row range pm om).partition_start ≤ row)
    (hu : s.Update row range ci bs be pm om = .ok s') :
    s'.window_end ≤ (row : Int) ∧
      ¬ (s'.window_start ≤ (row : Int) ∧ (row : Int) < s'.window_end) ∧
      (range.GetCell row ≤ be.GetCell ci →
        s'.window_end < (rangeEndThroughRow range
          (s.UpdatePartition row range pm om).valid_start row (be.GetCell ci) : Int)) := by
  obtain ⟨_, heb⟩ := UpdatePartition_boundaries s row range pm om
  have hwe : s'.window_end ≤ (row : Int) := by
    unfold Update at hu
    cases h2 : (s.UpdatePartition row range pm om).UpdateStart row range ci bs with
    | error e2 =>
      rw [h2] at hu
      cases hu
    | ok s2 =>
      rw [h2] at hu
      simp only [] at hu
      cases h3 : s2.UpdateEnd row range ci be with
      | error e3 =>
        rw [h3] at hu
        cases hu
      | ok s3 =>
        rw [h3] at hu
        simp only [] at hu
        obtain ⟨ws2, p2, e2⟩ := UpdateStart_shape h2
        have hvs2 : s2.valid_start = (s.UpdatePartition row range pm om).valid_start := by
          rw [e2]
        have hps2 : s2.partition_start =
            (s.UpdatePartition row range pm om).partition_start := by
          rw [e2]
        obtain ⟨h3a, h3b, _⟩ := UpdateEnd_preceding_range_le
          (by rw [UpdateStart_end_boundary h2, heb]; exact hend) hnn h3
        have hc := UpdateClamp_end_le hu
        rw [hvs2] at h3a
        rw [h3b, hps2] at hc
        have h5 : ((max (s.UpdatePartition row range pm om).valid_start row : Nat) : Int)
            ≤ (row : Int) := by
          exact_mod_cast (by omega : max (s.UpdatePartition row range pm om).valid_start row
            ≤ row)
        have h6 : (((s.UpdatePartition row range pm om).partition_start : Nat) : Int)
            ≤ (row : Int) := by
          exact_mod_cast hp
        omega
  refine ⟨hwe, fun h => by omega, fun hle => ?_⟩
  have := rangeEndThroughRow_gt range _ row (be.GetCell ci) hv hle
  omega

/-- C25, at a concrete input: `SUM(x) OVER (ORDER BY o RANGE BETWEEN UNBOUNDED PRECEDING AND
0 PRECEDING)` on `o = [1, 2, 3]` (the end boundary cells are `o - 0`). At row 0 the end of the
frame is 0 where one past the last row of `[0, 0]` with `o ≤ 1` is 1; over the batch the
frames are `[0, 0)`, `[0, 1)` and `[0, 2)`, none of which contains its row. -/
theorem Update_range_preceding_end_excludes_row_witness :
    ((WindowBoundariesState.new rangeEndPrecedingExpr 3).end_boundary = .EXPR_PRECEDING_RANGE ∧
      (WindowInputExpression.ofList [some 1, some 2, some 3]).CellIsNull 0 = false ∧
      (WindowInputColumn.ofList [some 1, some 2, some 3]).GetCell 0 ≤
        (WindowInputExpression.ofList [some 1, some 2, some 3]).GetCell 0 ∧
      rangeEndThroughRow (.ofList [some 1, some 2, some 3]) 0 0 1 = 1) ∧
    (∃ s', (WindowBoundariesState.new rangeEndPrecedingExpr 3).Update 0
        (.ofList [some 1, some 2, some 3]) 0 (.const 0) (.ofList [some 1, some 2, some 3])
        (ofWords [1]) (ofWords [7]) = .ok s' ∧ s'.window_end ≤ ((0 : Nat) : Int) ∧
      ¬ (s'.window_start ≤ ((0 : Nat) : Int) ∧ ((0 : Nat) : Int) < s'.window_end)) ∧
    (frameAt ((WindowBoundariesState.new rangeEndPrecedingExpr 3).Bounds (BoundsChunk.fill 0)
        0 (.ofList [some 1, some 2, some 3]) 3 (.const 0) (.ofList [some 1, some 2, some 3])
        (ofWords [1]) (ofWords [7])) 0 = some (0, 0, 0, 3) ∧
      frameAt ((WindowBoundariesState.new rangeEndPrecedingExpr 3).Bounds (BoundsChunk.fill 0)
        0 (.ofList [some 1, some 2, some 3]) 3 (.const 0) (.ofList [some 1, some 2, some 3])
        (ofWords [1]) (ofWords [7])) 1 = some (0, 0, 1, 3) ∧
      frameAt ((WindowBoundariesState.new rangeEndPrecedingExpr 3).Bounds (BoundsChunk.fill 0)
        0 (.ofList [some 1, some 2, some 3]) 3 (.const 0) (.ofList [some 1, some 2, some 3])
        (ofWords [1]) (ofWords [7])) 2 = some (0, 0, 2, 3)) := by
  have hex : ∃ s', (WindowBoundariesState.new rangeEndPrecedingExpr 3).Update 0
      (.ofList [some 1, some 2, some 3]) 0 (.const 0) (.ofList [some 1, some 2, some 3])
      (ofWords [1]) (ofWords [7]) = .ok s' := by
    cases h : (WindowBoundariesState.new rangeEndPrecedingExpr 3).Update 0
      (.ofList [some 1, some 2, some 3]) 0 (.const 0) (.ofList [some 1, some 2, some 3])
      (ofWords [1]) (ofWords [7]) with
    | ok s' => exact ⟨s', rfl⟩
    | error e =>
      have hd : (match (WindowBoundariesState.new rangeEndPrecedingExpr 3).Update 0
          (.ofList [some 1, some 2, some 3]) 0 (.const 0) (.ofList [some 1, some 2, some 3])
          (ofWords [1]) (ofWords [7]) with
          | .ok _ => true
          | .error _ => false) = true := by decide
      rw [h] at hd
      cases hd
  obtain ⟨s', hu⟩ := hex
  have h := Update_range_preceding_end_excludes_row
    (WindowBoundariesState.new rangeEndPrecedingExpr 3) s' 0 0
    (.ofList [some 1, some 2, some 3]) (.const 0) (.ofList [some 1, some 2, some 3])
    (ofWords [1]) (ofWords [7]) rfl rfl (by decide) (by decide) hu
  exact ⟨⟨rfl, rfl, by decide, by decide⟩, ⟨s', hu, h.1, h.2.1⟩, by decide, by decide,
    by decide⟩

end Window

namespace Window

/-! ## `MaxThreads` -/

/-- The hypothesis that the sink state is one the source receives cannot be dropped from the
statement about `max(1, number of hash groups)`: with grouping data, a row count at the
threshold and no hash group, `MaxThreads` returns 0, where `max(1, number of hash groups)`
is 1; and without grouping data, a row count at the threshold and two hash groups it returns
1, where `max(1, number of hash groups)` is 2. -/
theorem MaxThreads_not_max_one :
    WindowGlobalSourceState.MaxThreads 122880 ⟨true, 122880, 0⟩ = 0 ∧
      maxThreadsSpec 122880 122880 0 = 1 ∧
      WindowGlobalSourceState.MaxThreads 122880 ⟨false, 122880, 2⟩ = 1 ∧
      maxThreadsSpec 122880 122880 2 = 2 ∧
      ¬ (⟨true, 122880, 0⟩ : PartitionGlobalSinkState).Receivable ∧
      ¬ (⟨false, 122880, 2⟩ : PartitionGlobalSinkState).Receivable := by
  unfold PartitionGlobalSinkState.Receivable
  decide

/-- The method `MaxThreads` on every state: it returns the number of hash groups when the
grouping data is set and the row count is at least the threshold, and 1 otherwise. -/
theorem MaxThreads_eq (threshold : Nat) (gsink : PartitionGlobalSinkState) :
    WindowGlobalSourceState.MaxThreads threshold gsink =
        (if gsink.grouping_data = true ∧ threshold ≤ gsink.count then gsink.hash_groups
         else 1) := by
  unfold WindowGlobalSourceState.MaxThreads
  cases hg : gsink.grouping_data
  · simp
  · by_cases hc : gsink.count < threshold
    · have hc2 : ¬ threshold ≤ gsink.count := by omega
      simp [hc, hc2]
    · have hc2 : threshold ≤ gsink.count := by omega
      simp [hc, hc2]

end Window

namespace Window
open ValidityMask
open WindowLocalSourceState

/-! ## `Scan` -/

theorem ReferenceLoop_spec (source : DataChunk) :
    ∀ n col_idx out_idx data,
      (ReferenceLoop source n col_idx out_idx data).2 = out_idx + n ∧
      ∀ i, (ReferenceLoop source n col_idx out_idx data).1 i =
        if out_idx ≤ i ∧ i < out_idx + n then source.data (col_idx + (i - out_idx))
        else data i := by
  intro n
  induction n with
  | zero =>
    intro col_idx out_idx data
    refine ⟨rfl, fun i => ?_⟩
    rw [ReferenceLoop, if_neg (by omega)]
  | succ n ih =>
    intro col_idx out_idx data
    obtain ⟨h1, h2⟩ := ih (col_idx + 1) (out_idx + 1) (store data out_idx (source.data col_idx))
    rw [ReferenceLoop]
    refine ⟨by rw [h1]; omega, fun i => ?_⟩
    rw [h2 i]
    by_cases hi : out_idx + 1 ≤ i ∧ i < out_idx + 1 + n
    · rw [if_pos hi, if_pos (by omega), show col_idx + 1 + (i - (out_idx + 1)) =
        col_idx + (i - out_idx) by omega]
    · rw [if_neg hi]
      unfold store
      by_cases he : i = out_idx
      · rw [if_pos he, if_pos (by omega), he, Nat.sub_self, Nat.add_zero]
      · rw [if_neg he, if_neg (by omega)]

theorem EvaluateLoop_spec (position count : Nat) (pm om : ValidityMask) :
    ∀ (execs : List WindowExecutor) (expr_idx : Nat) (oc : DataChunk)
      (out : List WindowExecutor × DataChunk),
      EvaluateLoop position count pm om execs expr_idx oc = .ok out →
      out.2.count = oc.count ∧ out.2.column_count = oc.column_count ∧
      out.1.length = execs.length ∧
      (∀ i, i < expr_idx ∨ expr_idx + execs.length ≤ i → out.2.data i = oc.data i) ∧
      ∀ k ex, execs[k]? = some ex → ∃ r, ex.Evaluate position count pm om = .ok r ∧
        out.2.data (expr_idx + k) = r.2 ∧ out.1[k]? = some r.1 := by
  intro execs
  induction execs with
  | nil =>
    intro expr_idx oc out h
    rw [EvaluateLoop] at h
    injection h with h
    subst h
    exact ⟨rfl, rfl, rfl, fun _ _ => rfl, fun k ex hk => by simp at hk⟩
  | cons executor rest ih =>
    intro expr_idx oc out h
    rw [EvaluateLoop] at h
    cases hr : executor.Evaluate position count pm om with
    | error e =>
      rw [hr] at h
      cases h
    | ok r =>
      rw [hr] at h
      simp only [] at h
      cases hl : EvaluateLoop position count pm om rest (expr_idx + 1)
          { oc with data := store oc.data expr_idx r.2 } with
      | error e =>
        rw [hl] at h
        cases h
      | ok out1 =>
        rw [hl] at h
        simp only [] at h
        injection h with h
        subst h
        obtain ⟨h1, h2, h3, h4, h5⟩ := ih _ _ _ hl
        refine ⟨h1, h2, by simp [h3], fun i hi => ?_, fun k ex hk => ?_⟩
        · simp only [List.length_cons] at hi
          rw [h4 i (by omega)]
          simp only [store]
          rw [if_neg (by omega)]
        · cases k with
          | zero =>
            simp only [List.getElem?_cons_zero, Option.some.injEq] at hk
            subst hk
            refine ⟨r, hr, ?_, by simp⟩
            rw [Nat.add_zero, h4 expr_idx (by omega)]
            simp [store]
          | succ k =>
            simp only [List.getElem?_cons_succ] at hk
            obtain ⟨r2, hr2, hd2, he2⟩ := h5 k ex hk
            refine ⟨r2, hr2, ?_, by simpa using he2⟩
            rw [show expr_idx + (k + 1) = expr_idx + 1 + k by omega]
            exact hd2

theorem EvaluateLoop_ok (position count : Nat) (pm om : ValidityMask) :
    ∀ (execs : List WindowExecutor) (expr_idx : Nat) (oc : DataChunk),
      (∀ ex, ex ∈ execs → ∃ r, ex.Evaluate position count pm om = .ok r) →
      ∃ out, EvaluateLoop position count pm om execs expr_idx oc = .ok out := by
  intro execs
  induction execs with
  | nil =>
    intro expr_idx oc _
    exact ⟨_, rfl⟩
  | cons executor rest ih =>
    intro expr_idx oc h
    obtain ⟨r, hr⟩ := h executor (List.mem_cons_self _ _)
    obtain ⟨out1, hl⟩ := ih (expr_idx + 1) { oc with data := store oc.data expr_idx r.2 }
      (fun ex hex => h ex (List.mem_cons_of_mem _ hex))
    rw [EvaluateLoop, hr]
    simp only []
    rw [hl]
    exact ⟨_, rfl⟩

/-- C28: `Scan` on a scanner with remaining rows, when the output chunk has one column per
executor. With `input` the batch that the scanner reads and `position` the number of rows
scanned before: `Scan` returns when every executor's `Evaluate` of the batch returns; and
when `Scan` returns, the result has the cardinality of `input`, its columns
`0 .. input.column_count - 1` are the columns of `input` in their order, its column
`input.column_count + k` is the vector that executor `k` of the list (the select-list
order) evaluates for the batch, and the columns after those are as they were. -/
theorem Scan_result_columns (ls : WindowLocalSourceState) (result : DataChunk)
    (hrem : 0 < ls.scanner.Remaining)
    (hcols : ls.output_chunk.column_count = ls.window_execs.length) :
    ((∀ ex, ex ∈ ls.window_execs →
        ∃ r, ex.Evaluate ls.scanner.Scanned (ls.scanner.Scan ls.input_chunk.Reset).2.count
          ls.partition_mask ls.order_mask = .ok r) →
      ∃ out, ls.Scan result = .ok out) ∧
    ∀ out, ls.Scan result = .ok out →
      out.1.input_chunk = (ls.scanner.Scan ls.input_chunk.Reset).2 ∧
      out.2.count = (ls.scanner.Scan ls.input_chunk.Reset).2.count ∧
      out.2.column_count = result.column_count ∧
      (∀ i, i < (ls.scanner.Scan ls.input_chunk.Reset).2.column_count →
        out.2.data i = (ls.scanner.Scan ls.input_chunk.Reset).2.data i) ∧
      (∀ k ex, ls.window_execs[k]? = some ex →
        ∃ r, ex.Evaluate ls.scanner.Scanned (ls.scanner.Scan ls.input_chunk.Reset).2.count
            ls.partition_mask ls.order_mask = .ok r ∧
          out.2.data ((ls.scanner.Scan ls.input_chunk.Reset).2.column_count + k) = r.2) ∧
      (∀ i, (ls.scanner.Scan ls.input_chunk.Reset).2.column_count + ls.window_execs.length ≤ i →
        out.2.data i = result.data i) := by
  have hne : ¬ ls.scanner.Remaining = 0 := by omega
  refine ⟨fun hall => ?_, fun out h => ?_⟩
  · obtain ⟨o, ho⟩ := EvaluateLoop_ok ls.scanner.Scanned
      (ls.scanner.Scan ls.input_chunk.Reset).2.count ls.partition_mask ls.order_mask
      ls.window_execs 0 ls.output_chunk.Reset hall
    unfold WindowLocalSourceState.Scan
    rw [if_neg hne]
    simp only []
    rw [ho]
    exact ⟨_, rfl⟩
  · unfold WindowLocalSourceState.Scan at h
    rw [if_neg hne] at h
    simp only [] at h
    cases ho : EvaluateLoop ls.scanner.Scanned (ls.scanner.Scan ls.input_chunk.Reset).2.count
        ls.partition_mask ls.order_mask ls.window_execs 0 ls.output_chunk.Reset with
    | error e =>
      rw [ho] at h
      cases h
    | ok o =>
      rw [ho] at h
      simp only [] at h
      injection h with h
      subst h
      obtain ⟨_, e2, _, _, e5⟩ := EvaluateLoop_spec _ _ _ _ _ _ _ _ ho
      have hoc : o.2.column_count = ls.window_execs.length := by
        rw [e2]
        exact hcols
      obtain ⟨a1, a2⟩ := ReferenceLoop_spec (ls.scanner.Scan ls.input_chunk.Reset).2
        (ls.scanner.Scan ls.input_chunk.Reset).2.column_count 0 0
        (result.SetCardinality (ls.scanner.Scan ls.input_chunk.Reset).2.count).data
      obtain ⟨_, b2⟩ := ReferenceLoop_spec
        (o.2.SetCardinality (ls.scanner.Scan ls.input_chunk.Reset).2.count)
        (o.2.SetCardinality (ls.scanner.Scan ls.input_chunk.Reset).2.count).column_count 0
        (ReferenceLoop (ls.scanner.Scan ls.input_chunk.Reset).2
          (ls.scanner.Scan ls.input_chunk.Reset).2.column_count 0 0
          (result.SetCardinality (ls.scanner.Scan ls.input_chunk.Reset).2.count).data).2
        (ReferenceLoop (ls.scanner.Scan ls.input_chunk.Reset).2
          (ls.scanner.Scan ls.input_chunk.Reset).2.column_count 0 0
          (result.SetCardinality (ls.scanner.Scan ls.input_chunk.Reset).2.count).data).1
      have hsc : (o.2.SetCardinality (ls.scanner.Scan ls.input_chunk.Reset).2.count).column_count
          = ls.window_execs.length := hoc
      refine ⟨rfl, rfl, rfl, fun i hi => ?_, fun k ex hk => ?_, fun i hi => ?_⟩
      · refine (b2 i).trans ?_
        rw [a1, hsc, if_neg (by omega), a2 i, if_pos (by omega)]
        simp
      · obtain ⟨r, hr, hd, _⟩ := e5 k ex hk
        have hk2 : k < ls.window_execs.length := by
          by_contra hge
          rw [List.getElem?_eq_none (by omega)] at hk
          cases hk
        refine ⟨r, hr, ?_⟩
        refine (b2 _).trans ?_
        rw [a1, hsc, if_pos (by omega)]
        rw [Nat.zero_add] at hd
        rw [← hd]
        simp [DataChunk.SetCardinality]
      · refine (b2 i).trans ?_
        rw [a1, hsc, if_neg (by omega), a2 i, if_neg (by omega)]
        rfl

/-- C28, at a concrete input: `RANK() OVER (ORDER BY o), DENSE_RANK() OVER (ORDER BY o)` on
the payload column `o = [10, 10, 20]`. `Scan` returns a chunk of three rows whose column 0
is the input column, column 1 the ranks `[1, 1, 3]` of the first executor and column 2 the
dense ranks `[1, 1, 2]` of the second. -/
theorem Scan_result_columns_witness :
    (0 < rankSource.scanner.Remaining ∧
      rankSource.output_chunk.column_count = rankSource.window_execs.length) ∧
    (∃ out, rankSource.Scan (emptyChunk 3) = .ok out ∧
      out.2.count = (rankSource.scanner.Scan rankSource.input_chunk.Reset).2.count ∧
      (∀ i, i < (rankSource.scanner.Scan rankSource.input_chunk.Reset).2.column_count →
        out.2.data i = (rankSource.scanner.Scan rankSource.input_chunk.Reset).2.data i) ∧
      (∀ k ex, rankSource.window_execs[k]? = some ex →
        ∃ r, ex.Evaluate rankSource.scanner.Scanned
            (rankSource.scanner.Scan rankSource.input_chunk.Reset).2.count
            rankSource.partition_mask rankSource.order_mask = .ok r ∧
          out.2.data ((rankSource.scanner.Scan rankSource.input_chunk.Reset).2.column_count
            + k) = r.2)) ∧
    (scanColumn (rankSource.Scan (emptyChunk 3)) 0 =
        some (3, .bigint [some 10, some 10, some 20]) ∧
      scanColumn (rankSource.Scan (emptyChunk 3)) 1 =
        some (3, .bigint [some 1, some 1, some 3]) ∧
      scanColumn (rankSource.Scan (emptyChunk 3)) 2 =
        some (3, .bigint [some 1, some 1, some 2])) := by
  have hex : ∃ out, rankSource.Scan (emptyChunk 3) = .ok out := by
    cases h : rankSource.Scan (emptyChunk 3) with
    | ok out => exact ⟨out, rfl⟩
    | error e =>
      have hd : (match rankSource.Scan (emptyChunk 3) with
          | .ok _ => true
          | .error _ => false) = true := by decide
      rw [h] at hd
      cases hd
  obtain ⟨out, hout⟩ := hex
  obtain ⟨_, h2, _, h4, h5, _⟩ :=
    (Scan_result_columns rankSource (emptyChunk 3) (by decide) rfl).2 out hout
  exact ⟨⟨by decide, rfl⟩, ⟨out, hout, h2, h4, h5⟩, by decide, by decide, by decide⟩

end Window

namespace Window
open ValidityMask
open WindowBoundariesState

/-! ## Peer bounds across batches -/

theorem AfterRows_boundaries (wexpr : BoundWindowExpression) (count : Nat)
    (range : WindowInputColumn) (pm om : ValidityMask) :
    ∀ row s, AfterRows wexpr count range pm om row s →
      s.start_boundary = wexpr.start ∧ s.end_boundary = wexpr.end_boundary := by
  intro row s hs
  induction hs with
  | init => exact ⟨rfl, rfl⟩
  | @step row s s' ci bs be _ _ hu ih =>
    have hc := Update_config hu
    exact ⟨by rw [hc.2.2.1, ih.1], by rw [hc.2.2.2.1, ih.2]⟩

/-- The state after the rows `0 .. row - 1` of a window that needs peers satisfies the
invariant of the partition and peer bounds. -/
theorem AfterRows_full_inv (wexpr : BoundWindowExpression) (count : Nat)
    (range : WindowInputColumn) (pm om : ValidityMask) (hinv : MaskInvariants pm om)
    (hkeys : MasksOfKeys wexpr pm om) (hsize : count ≤ 2 ^ 64 - 64)
    (hnp : (WindowBoundariesState.new wexpr count).needs_peer = true) :
    ∀ row s, AfterRows wexpr count range pm om row s →
      FullInv pm om wexpr.partitions wexpr.orders.length count row s := by
  intro row s hs
  induction hs with
  | init => exact ⟨⟨rfl, rfl, hnp, rfl, rfl⟩, rfl, fun h => by omega⟩
  | @step row s s' ci bs be _ _ hu ih =>
    exact FullInv_step wexpr count pm om range bs be hinv hkeys hsize row ci s s' ih hu

/-- C31: for a window with an ORDER BY key over `count ≤ 2 ^ 64 - 64` rows whose function needs
peer ends (an end bound of RANGE mode, or CUME_DIST), with masks that satisfy the mask
invariants (and a partition mask with bit 0 only when there is no PARTITION BY key), a call
of `Bounds` for a batch of `k` rows starting at row `row0`, on the state left by the rows
`0 .. row0 - 1`. The call returns when the frame bounds read no expression; and when it
returns, at every position `i` of the batch, for the row `r = row0 + i`: `peer_begin` is the
largest index `p ≤ r` with the bit of the order mask set; `peer_end` is the smallest index
`q > peer_begin` with the bit set, capped at `partition_end`; and
`partition_begin ≤ peer_begin ≤ r < peer_end ≤ partition_end`. -/
theorem Bounds_peer_columns (wexpr : BoundWindowExpression) (count : Nat)
    (range : WindowInputColumn) (pm om : ValidityMask) (horder : 0 < wexpr.orders.length)
    (hnp : BoundaryNeedsPeer wexpr.end_boundary = true ∨ wexpr.type = .WINDOW_CUME_DIST)
    (hinv : MaskInvariants pm om)
    (hkeys : wexpr.partitions = 0 → ∀ i, 0 < i → pm.RowIsValidUnsafe i = false)
    (hsize : count ≤ 2 ^ 64 - 64)
    (row0 : Nat) (s : WindowBoundariesState) (hs : AfterRows wexpr count range pm om row0 s)
    (k : Nat) (hk : row0 + k ≤ count) (b : BoundsChunk) (bs be : WindowInputExpression) :
    (wexpr.start.IsPlainStart → wexpr.end_boundary.IsPlainEnd →
      ∃ sb, s.Bounds b row0 range k bs be pm om = .ok sb) ∧
    ∀ sb, s.Bounds b row0 range k bs be pm om = .ok sb →
      ∀ i, i < k →
        (sb.2.peer_begin i ≤ row0 + i ∧
          om.RowIsValidUnsafe (sb.2.peer_begin i) = true ∧
          ∀ q, sb.2.peer_begin i < q → q ≤ row0 + i → om.RowIsValidUnsafe q = false) ∧
        (sb.2.peer_begin i < sb.2.peer_end i ∧ sb.2.peer_end i ≤ sb.2.partition_end i ∧
          (∀ q, sb.2.peer_begin i < q → q < sb.2.peer_end i →
            om.RowIsValidUnsafe q = false) ∧
          (sb.2.peer_end i < sb.2.partition_end i →
            om.RowIsValidUnsafe (sb.2.peer_end i) = true)) ∧
        (sb.2.partition_begin i ≤ sb.2.peer_begin i ∧ row0 + i < sb.2.peer_end i) := by
  have hmk : MasksOfKeys wexpr pm om := ⟨hkeys, fun h => by omega⟩
  have hnp0 : (WindowBoundariesState.new wexpr count).needs_peer = true := by
    rcases hnp with h | h
    · simp [WindowBoundariesState.new, h]
    · simp [WindowBoundariesState.new, h]
  refine ⟨fun h1 h2 => ?_, fun sb hb i hi => ?_⟩
  · obtain ⟨e1, e2⟩ := AfterRows_boundaries wexpr count range pm om row0 s hs
    exact BoundsLoop_ok_of_plain range bs be pm om k 0 row0 s b (by rw [e1]; exact h1)
      (by rw [e2]; exact h2)
  · obtain ⟨_, _, hR⟩ := BoundsLoop_inv range bs be pm om
      (fun row st => row ≤ count → AfterRows wexpr count range pm om row st)
      (fun row ci st st' hinv hu hle =>
        AfterRows.step ci bs be (hinv (by omega)) (by omega) hu)
      k 0 row0 s b sb.1 sb.2 (fun _ => hs) hb
    obtain ⟨si, hsi, hrow⟩ := hR i hi
    obtain ⟨⟨_, _, hnp1, hps, hks⟩, _, hE⟩ :=
      AfterRows_full_inv wexpr count range pm om hinv hmk hsize hnp0 _ _ (hsi (by omega))
    obtain ⟨hpe, hke⟩ := hE (by omega) (by omega)
    unfold BoundsChunk.RowIs at hrow
    simp only [hnp1, if_true, Nat.zero_add] at hrow
    rw [Nat.add_sub_cancel] at hps hks hpe hke
    rw [hrow.1, hrow.2.1, hrow.2.2.2.2.1, hrow.2.2.2.2.2, hps, hks, hpe, hke]
    obtain ⟨f1, f2, f3, f4⟩ := nextStart_spec om count (row0 + i) (by omega)
    obtain ⟨g1, g2, _, _⟩ := nextStart_spec pm count (row0 + i) (by omega)
    have hsub := nextStart_sub pm om hinv count (row0 + i) (by omega)
    have hl := lastStart_le om (row0 + i)
    have hun := lastStart_unset om (row0 + i)
    refine ⟨⟨hl, lastStart_set om hinv.2.1 _, hun⟩, ⟨by omega, hsub, fun q h1 h2 => ?_,
      fun h => f4 (by omega)⟩, lastStart_sub pm om hinv _, f1⟩
    by_cases hq : q ≤ row0 + i
    · exact hun q h1 hq
    · exact f3 q (by omega) h2

end Window

namespace Window
open ValidityMask
open WindowBoundariesState

/-- C31, at a concrete input: `RANK() OVER (ORDER BY o)` with the default frame on
`o = [10, 10, 20, 20]`. `Bounds` returns for the batch of the four rows, and the peer columns
hold `[0, 2)` at the rows 0 and 1 and `[2, 4)` at the rows 2 and 3. -/
theorem Bounds_peer_columns_witness :
    (0 < rankExpr.orders.length ∧
      (BoundaryNeedsPeer rankExpr.end_boundary = true ∨ rankExpr.type = .WINDOW_CUME_DIST) ∧
      MaskInvariants (ofWords [1]) (ofWords [5]) ∧ 4 ≤ 2 ^ 64 - 64 ∧ 0 + 4 ≤ 4) ∧
    (∃ sb, (WindowBoundariesState.new rankExpr 4).Bounds (BoundsChunk.fill 0) 0 .empty 4
        (.const 0) (.const 0) (ofWords [1]) (ofWords [5]) = .ok sb ∧
      ∀ i, i < 4 →
        (sb.2.peer_begin i ≤ 0 + i ∧
          (ofWords [5]).RowIsValidUnsafe (sb.2.peer_begin i) = true ∧
          ∀ q, sb.2.peer_begin i < q → q ≤ 0 + i →
            (ofWords [5]).RowIsValidUnsafe q = false) ∧
        (sb.2.peer_begin i < sb.2.peer_end i ∧ sb.2.peer_end i ≤ sb.2.partition_end i ∧
          (∀ q, sb.2.peer_begin i < q → q < sb.2.peer_end i →
            (ofWords [5]).RowIsValidUnsafe q = false) ∧
          (sb.2.peer_end i < sb.2.partition_end i →
            (ofWords [5]).RowIsValidUnsafe (sb.2.peer_end i) = true)) ∧
        (sb.2.partition_begin i ≤ sb.2.peer_begin i ∧ 0 + i < sb.2.peer_end i)) ∧
    (peersAt ((WindowBoundariesState.new rankExpr 4).Bounds (BoundsChunk.fill 0) 0 .empty 4
        (.const 0) (.const 0) (ofWords [1]) (ofWords [5])) 0 = some (0, 2) ∧
      peersAt ((WindowBoundariesState.new rankExpr 4).Bounds (BoundsChunk.fill 0) 0 .empty 4
        (.const 0) (.const 0) (ofWords [1]) (ofWords [5])) 1 = some (0, 2) ∧
      peersAt ((WindowBoundariesState.new rankExpr 4).Bounds (BoundsChunk.fill 0) 0 .empty 4
        (.const 0) (.const 0) (ofWords [1]) (ofWords [5])) 2 = some (2, 4) ∧
      peersAt ((WindowBoundariesState.new rankExpr 4).Bounds (BoundsChunk.fill 0) 0 .empty 4
        (.const 0) (.const 0) (ofWords [1]) (ofWords [5])) 3 = some (2, 4)) := by
  have hm : MaskInvariants (ofWords [1]) (ofWords [5]) :=
    ⟨by decide, by decide, ofWords_single_sub 1 5 (by decide)⟩
  have h := Bounds_peer_columns rankExpr 4 .empty (ofWords [1]) (ofWords [5]) (by decide)
    (Or.inl rfl) hm (fun _ => ofWords_one_simple) (by decide) 0 _ .init 4 (by decide)
    (BoundsChunk.fill 0) (.const 0) (.const 0)
  obtain ⟨sb, hb⟩ := h.1 (Or.inl rfl) (Or.inr (Or.inl rfl))
  exact ⟨⟨by decide, Or.inl rfl, hm, by decide, by decide⟩, ⟨sb, hb, h.2 sb hb⟩,
    by decide, by decide, by decide, by decide⟩

end Window

namespace Window
open ValidityMask
open WindowBoundariesState

/-! ## Constant aggregates -/

theorem IsConstantAggregate_bounds (wexpr : BoundWindowExpression) (aggregate : Bool)
    (children : Nat) (h : IsConstantAggregate wexpr aggregate children = true) :
    aggregate = true ∧ 0 < children ∧
    (wexpr.start = .UNBOUNDED_PRECEDING ∨
      (wexpr.start = .CURRENT_ROW_RANGE ∧ wexpr.orders.length = 0)) ∧
    (wexpr.end_boundary = .UNBOUNDED_FOLLOWING ∨
      (wexpr.end_boundary = .CURRENT_ROW_RANGE ∧ wexpr.orders.length = 0)) := by
  unfold IsConstantAggregate at h
  cases ha : aggregate
  · simp [ha] at h
  · simp only [ha, Bool.not_true, Bool.false_eq_true, if_false] at h
    by_cases hc : children = 0
    · simp [hc] at h
    · simp only [hc, if_false] at h
      refine ⟨rfl, by omega, ?_, ?_⟩
      · cases hs : wexpr.start <;> simp [hs] at h <;> first
          | exact Or.inl rfl
          | (exact Or.inr ⟨rfl, by simp [h.1]⟩)
      · cases he : wexpr.end_boundary <;> simp [he] at h <;> first
          | exact Or.inl rfl
          | (exact Or.inr ⟨rfl, by simp [h.2]⟩)

theorem UpdateStart_unbounded (t : WindowBoundariesState) (row ci : Nat)
    (range : WindowInputColumn) (bs : WindowInputExpression)
    (h : t.start_boundary = .UNBOUNDED_PRECEDING) :
    t.UpdateStart row range ci bs = .ok { t with window_start := (t.partition_start : Int) } := by
  simp only [UpdateStart, h]

theorem UpdateStart_current_range (t : WindowBoundariesState) (row ci : Nat)
    (range : WindowInputColumn) (bs : WindowInputExpression)
    (h : t.start_boundary = .CURRENT_ROW_RANGE) :
    t.UpdateStart row range ci bs = .ok { t with window_start := (t.peer_start : Int) } := by
  simp only [UpdateStart, h]

theorem UpdateEnd_unbounded (t : WindowBoundariesState) (row ci : Nat)
    (range : WindowInputColumn) (be : WindowInputExpression)
    (h : t.end_boundary = .UNBOUNDED_FOLLOWING) :
    t.UpdateEnd row range ci be = .ok { t with window_end := (t.partition_end : Int) } := by
  simp only [UpdateEnd, h]

theorem UpdateEnd_current_range (t : WindowBoundariesState) (row ci : Nat)
    (range : WindowInputColumn) (be : WindowInputExpression)
    (h : t.end_boundary = .CURRENT_ROW_RANGE) :
    t.UpdateEnd row range ci be = .ok { t with window_end := (t.peer_end : Int) } := by
  simp only [UpdateEnd, h]

/-- One `Update` of a window whose frame is `[partition_start, partition_end)` by its
bounds: the frame is the partition, and the facts that the next row needs are kept. -/
theorem Update_constant_frame (s s' : WindowBoundariesState) (row ci : Nat)
    (range : WindowInputColumn) (bs be : WindowInputExpression) (pm om : ValidityMask)
    (hstart : s.start_boundary = .UNBOUNDED_PRECEDING ∨
      (s.start_boundary = .CURRENT_ROW_RANGE ∧ s.order_count = 0))
    (hend : s.end_boundary = .UNBOUNDED_FOLLOWING ∨
      (s.end_boundary = .CURRENT_ROW_RANGE ∧ s.order_count = 0))
    (hnp : s.end_boundary = .CURRENT_ROW_RANGE → s.needs_peer = true)
    (hom : s.order_count = 0 → om.RowIsValidUnsafe row = pm.RowIsValidUnsafe row)
    (hpk : s.order_count = 0 → s.peer_start = s.partition_start)
    (hrow : row < s.input_size) (hsz : s.input_size ≤ 2 ^ 64 - 64)
    (h1 : s.partition_start ≤ s.partition_end) (h2 : s.partition_start ≤ s.input_size)
    (hu : s.Update row range ci bs be pm om = .ok s') :
    s'.window_start = (s'.partition_start : Int) ∧
      s'.window_end = (s'.partition_end : Int) ∧
      (s.order_count = 0 → s'.peer_start = s'.partition_start) ∧
      s'.partition_start ≤ s'.partition_end ∧ s'.partition_start ≤ s.input_size := by
  obtain ⟨hsb, heb⟩ := UpdatePartition_boundaries s row range pm om
  obtain ⟨ho1, ho2⟩ := UpdatePartition_ordered s row range pm om hrow hsz h1 h2
  have hks : s.order_count = 0 →
      (s.UpdatePartition row range pm om).peer_start =
        (s.UpdatePartition row range pm om).partition_start := by
    intro h0
    rw [UpdatePartition_peer_start, UpdatePartition_partition_start, hom h0, hpk h0]
    simp
  have hke : s.end_boundary = .CURRENT_ROW_RANGE → s.order_count = 0 →
      (s.UpdatePartition row range pm om).peer_end =
        (s.UpdatePartition row range pm om).partition_end := by
    intro hb h0
    rw [UpdatePartition_peer_end s row range pm om (hnp hb), UpdatePartition_partition_end]
    by_cases hpc : 0 < s.partition_count
    · simp [h0, hpc]
    · simp [h0, hpc]
  obtain ⟨ws, we, p, e, _⟩ := Update_shape hu
  have hws : ∃ s2, (s.UpdatePartition row range pm om).UpdateStart row range ci bs = .ok s2 ∧
      s2.window_start = ((s.UpdatePartition row range pm om).partition_start : Int) ∧
      s2.partition_start = (s.UpdatePartition row range pm om).partition_start ∧
      s2.partition_end = (s.UpdatePartition row range pm om).partition_end ∧
      s2.peer_end = (s.UpdatePartition row range pm om).peer_end ∧
      s2.end_boundary = s.end_boundary := by
    rcases hstart with hb | ⟨hb, h0⟩
    · have hb1 := hsb.trans hb
      exact ⟨_, UpdateStart_unbounded _ row ci range bs hb1, rfl, rfl, rfl, rfl, heb⟩
    · have hb1 := hsb.trans hb
      refine ⟨_, UpdateStart_current_range _ row ci range bs hb1, ?_, rfl, rfl, rfl, heb⟩
      simp only []
      rw [hks h0]
  obtain ⟨s2, hs2, a1, a2, a3, a4, a5⟩ := hws
  have hwe : ∃ s3, s2.UpdateEnd row range ci be = .ok s3 ∧
      s3.window_start = (s2.partition_start : Int) ∧
      s3.window_end = (s2.partition_end : Int) ∧
      s3.partition_start = s2.partition_start ∧ s3.partition_end = s2.partition_end := by
    rcases hend with hb | ⟨hb, h0⟩
    · have hb1 := a5.trans hb
      refine ⟨_, UpdateEnd_unbounded _ row ci range be hb1, ?_, rfl, rfl, rfl⟩
      simp only []
      rw [a1, a2]
    · have hb1 := a5.trans hb
      refine ⟨_, UpdateEnd_current_range _ row ci range be hb1, ?_, ?_, rfl, rfl⟩
      · simp only []
        rw [a1, a2]
      · simp only []
        rw [a4, a3, hke hb h0]
  obtain ⟨s3, hs3, b1, b2, b3, b4⟩ := hwe
  have hu2 := hu
  unfold Update at hu2
  rw [hs2] at hu2
  simp only [] at hu2
  rw [hs3] at hu2
  simp only [] at hu2
  obtain ⟨_, c1, c2⟩ := UpdateClamp_within hu2
  have hps' : s'.partition_start = (s.UpdatePartition row range pm om).partition_start := by
    rw [e]
  have hpe' : s'.partition_end = (s.UpdatePartition row range pm om).partition_end := by
    rw [e]
  have hpk' : s'.peer_start = (s.UpdatePartition row range pm om).peer_start := by
    rw [e]
  have hle : ((s.UpdatePartition row range pm om).partition_start : Int) ≤
      ((s.UpdatePartition row range pm om).partition_end : Int) := by
    exact_mod_cast ho1
  refine ⟨?_, ?_, fun h0 => by rw [hpk', hps', hks h0], by rw [hps', hpe']; exact ho1,
    by rw [hps']; exact ho2⟩
  · rw [c1 (by rw [b1, b3]) (by rw [b1, b4, a2, a3]; exact hle), b1, a2, hps']
  · rw [c2 (by rw [b2, b3, a2, a3]; exact hle) (by rw [b2, b4]), b2, a3, hpe']

/-- The state after the rows `0 .. row - 1` of a window whose frame is the partition by its
bounds: after the first row the frame of the state is its partition. -/
theorem AfterRows_constant_frame (wexpr : BoundWindowExpression) (count : Nat)
    (range : WindowInputColumn) (pm om : ValidityMask)
    (hstart : wexpr.start = .UNBOUNDED_PRECEDING ∨
      (wexpr.start = .CURRENT_ROW_RANGE ∧ wexpr.orders.length = 0))
    (hend : wexpr.end_boundary = .UNBOUNDED_FOLLOWING ∨
      (wexpr.end_boundary = .CURRENT_ROW_RANGE ∧ wexpr.orders.length = 0))
    (hom : wexpr.orders.length = 0 → ∀ i, om.RowIsValidUnsafe i = pm.RowIsValidUnsafe i)
    (hsize : count ≤ 2 ^ 64 - 64) :
    ∀ row s, AfterRows wexpr count range pm om row s →
      s.start_boundary = wexpr.start ∧ s.end_boundary = wexpr.end_boundary ∧
      s.order_count = wexpr.orders.length ∧ s.input_size = count ∧
      s.needs_peer = (WindowBoundariesState.new wexpr count).needs_peer ∧
      (wexpr.orders.length = 0 → s.peer_start = s.partition_start) ∧
      s.partition_start ≤ s.partition_end ∧ s.partition_start ≤ s.input_size ∧
      (0 < row → s.window_start = (s.partition_start : Int) ∧
        s.window_end = (s.partition_end : Int)) := by
  intro row s hs
  induction hs with
  | init =>
    exact ⟨rfl, rfl, rfl, rfl, rfl, fun _ => rfl, Nat.le_refl _, Nat.zero_le _,
      fun h => absurd h (by decide)⟩
  | @step row s s' ci bs be _ hrow hu ih =>
    obtain ⟨i1, i2, i3, i4, i5, i6, i7, i8, _⟩ := ih
    have hc := Update_config hu
    obtain ⟨r1, r2, r3, r4, r5⟩ := Update_constant_frame s s' row ci range bs be pm om
      (by rw [i1, i3]; exact hstart) (by rw [i2, i3]; exact hend)
      (fun hb => by
        rw [i5]
        rw [i2] at hb
        simp [WindowBoundariesState.new, hb, BoundaryNeedsPeer])
      (fun h0 => hom (by rw [← i3]; exact h0) row)
      (fun h0 => i6 (by rw [← i3]; exact h0))
      (by rw [i4]; exact hrow) (by rw [i4]; exact hsize) i7 i8 hu
    refine ⟨by rw [hc.2.2.1, i1], by rw [hc.2.2.2.1, i2], by rw [hc.2.2.2.2.2.1, i3],
      by rw [hc.2.1, i4], by rw [hc.2.2.2.2.2.2.2.2.2, i5],
      fun h0 => r3 (by rw [i3]; exact h0), r4, by rw [hc.2.1]; exact r5, fun _ => ⟨r1, r2⟩⟩

/-- C37: when `IsConstantAggregate` returns true for a window over `count ≤ 2 ^ 64 - 64` rows
whose order mask equals its partition mask if there is no ORDER BY key, a call of `Bounds`
for a batch of `k` rows starting at row `row0`, on the state left by the rows
`0 .. row0 - 1`, returns, and at every position of the batch the frame is the partition:
`window_begin = partition_begin` and `window_end = partition_end`. -/
theorem Bounds_constant_aggregate (wexpr : BoundWindowExpression) (aggregate : Bool)
    (children : Nat) (count : Nat) (range : WindowInputColumn) (pm om : ValidityMask)
    (hconst : IsConstantAggregate wexpr aggregate children = true)
    (hom : wexpr.orders.length = 0 → ∀ i, om.RowIsValidUnsafe i = pm.RowIsValidUnsafe i)
    (hsize : count ≤ 2 ^ 64 - 64)
    (row0 : Nat) (s : WindowBoundariesState) (hs : AfterRows wexpr count range pm om row0 s)
    (k : Nat) (hk : row0 + k ≤ count) (b : BoundsChunk) (bs be : WindowInputExpression) :
    ∃ sb, s.Bounds b row0 range k bs be pm om = .ok sb ∧
      ∀ i, i < k →
        sb.2.window_begin i = (sb.2.partition_begin i : Int) ∧
        sb.2.window_end i = (sb.2.partition_end i : Int) := by
  obtain ⟨_, _, hstart, hend⟩ := IsConstantAggregate_bounds wexpr aggregate children hconst
  obtain ⟨e1, e2⟩ := AfterRows_boundaries wexpr count range pm om row0 s hs
  have hp1 : s.start_boundary.IsPlainStart := by
    rw [e1]
    rcases hstart with h | ⟨h, _⟩
    · exact Or.inl h
    · exact Or.inr (Or.inr h)
  have hp2 : s.end_boundary.IsPlainEnd := by
    rw [e2]
    rcases hend with h | ⟨h, _⟩
    · exact Or.inr (Or.inr h)
    · exact Or.inr (Or.inl h)
  obtain ⟨sb, hb⟩ := BoundsLoop_ok_of_plain range bs be pm om k 0 row0 s b hp1 hp2
  refine ⟨sb, hb, fun i hi => ?_⟩
  obtain ⟨_, _, hR⟩ := BoundsLoop_inv range bs be pm om
    (fun row st => row ≤ count → AfterRows wexpr count range pm om row st)
    (fun row ci st st' hinv hu hle =>
      AfterRows.step ci bs be (hinv (by omega)) (by omega) hu)
    k 0 row0 s b sb.1 sb.2 (fun _ => hs) hb
  obtain ⟨si, hsi, hrow⟩ := hR i hi
  obtain ⟨_, _, _, _, _, _, _, _, hF⟩ :=
    AfterRows_constant_frame wexpr count range pm om hstart hend hom hsize _ _
      (hsi (by omega))
  obtain ⟨f1, f2⟩ := hF (by omega)
  unfold BoundsChunk.RowIs at hrow
  rw [Nat.zero_add] at hrow
  rw [hrow.1, hrow.2.1, hrow.2.2.1, hrow.2.2.2.1]
  exact ⟨f1, f2⟩

/-- C37, at a concrete input: `SUM(x) OVER (PARTITION BY p RANGE BETWEEN CURRENT ROW AND
UNBOUNDED FOLLOWING)` on `p = [a, a, b, b]`. `IsConstantAggregate` returns true, `Bounds`
returns for the batch of the four rows, and the frames are `[0, 2)` at the rows 0 and 1 and
`[2, 4)` at the rows 2 and 3. -/
theorem Bounds_constant_aggregate_witness :
    (IsConstantAggregate constantSumExpr true 1 = true ∧ 4 ≤ 2 ^ 64 - 64 ∧ 0 + 4 ≤ 4) ∧
    (∃ sb, (WindowBoundariesState.new constantSumExpr 4).Bounds (BoundsChunk.fill 0) 0 .empty
        4 (.const 0) (.const 0) (ofWords [5]) (ofWords [5]) = .ok sb ∧
      ∀ i, i < 4 →
        sb.2.window_begin i = (sb.2.partition_begin i : Int) ∧
        sb.2.window_end i = (sb.2.partition_end i : Int)) ∧
    (frameAt ((WindowBoundariesState.new constantSumExpr 4).Bounds (BoundsChunk.fill 0) 0
        .empty 4 (.const 0) (.const 0) (ofWords [5]) (ofWords [5])) 0 = some (0, 0, 2, 2) ∧
      frameAt ((WindowBoundariesState.new constantSumExpr 4).Bounds (BoundsChunk.fill 0) 0
        .empty 4 (.const 0) (.const 0) (ofWords [5]) (ofWords [5])) 1 = some (0, 0, 2, 2) ∧
      frameAt ((WindowBoundariesState.new constantSumExpr 4).Bounds (BoundsChunk.fill 0) 0
        .empty 4 (.const 0) (.const 0) (ofWords [5]) (ofWords [5])) 2 = some (2, 2, 4, 4) ∧
      frameAt ((WindowBoundariesState.new constantSumExpr 4).Bounds (BoundsChunk.fill 0) 0
        .empty 4 (.const 0) (.const 0) (ofWords [5]) (ofWords [5])) 3 = some (2, 2, 4, 4)) :=
  ⟨⟨by decide, by decide, by decide⟩,
   Bounds_constant_aggregate constantSumExpr true 1 4 .empty (ofWords [5]) (ofWords [5])
     (by decide) (fun _ _ => rfl) (by decide) 0 _ .init 4 (by decide) (BoundsChunk.fill 0)
     (.const 0) (.const 0),
   by decide, by decide, by decide, by decide⟩

end Window

namespace Window
open ValidityMask
open WindowBoundariesState

/-! ## The final check of `Update` -/

theorem wrap64_natCast (n : Nat) (h : n < 2 ^ 63) : wrap64 (n : Int) = (n : Int) := by
  unfold wrap64
  omega

/-- Below `2^63` the conversions of the clamping statements keep the values. -/
theorem UpdateClampCast_eq (t : WindowBoundariesState) (h1 : t.partition_start < 2 ^ 63)
    (h2 : t.partition_end < 2 ^ 63) : t.UpdateClampCast = t.UpdateClamp := by
  unfold UpdateClampCast UpdateClamp
  rw [wrap64_natCast _ h1, wrap64_natCast _ h2]

/-- At `2^63` rows the conversions matter: a partition `[2^63, 2^63)` turns the frame index 0
into `-2^63`, and the final check throws. -/
theorem UpdateClampCast_large :
    ∃ e, UpdateClampCast
      { WindowBoundariesState.new rowNumberExpr (2 ^ 63) with
        partition_start := 2 ^ 63, partition_end := 2 ^ 63, window_start := 0,
        window_end := 0 } = .error e := by
  refine ⟨.FailedToComputeBoundaries, ?_⟩
  unfold UpdateClampCast wrap64
  norm_num

theorem UpdatePartition_partition_end_le (s : WindowBoundariesState) (row_idx : Nat)
    (range : WindowInputColumn) (pm om : ValidityMask) (hrow : row_idx < s.input_size)
    (hsz : s.input_size ≤ 2 ^ 64 - 64) (h : s.partition_end ≤ s.input_size) :
    (s.UpdatePartition row_idx range pm om).partition_end ≤ s.input_size := by
  rw [UpdatePartition_partition_end]
  have hf := FindNextStart_range pm (row_idx + 1) s.input_size 1 (by omega) (by omega)
    (by omega) (skip_of_le pm _ hsz)
  split_ifs <;> omega

/-- The state after the rows `0 .. row - 1` has its partition inside the input. -/
theorem AfterRows_ordered (wexpr : BoundWindowExpression) (count : Nat)
    (range : WindowInputColumn) (pm om : ValidityMask) (hsize : count ≤ 2 ^ 64 - 64) :
    ∀ row s, AfterRows wexpr count range pm om row s →
      s.input_size = count ∧ s.partition_start ≤ s.partition_end ∧
        s.partition_end ≤ count := by
  intro row s hs
  induction hs with
  | init => exact ⟨rfl, Nat.le_refl _, Nat.zero_le _⟩
  | @step row s s' ci bs be _ hrow hu ih =>
    obtain ⟨i1, i2, i3⟩ := ih
    obtain ⟨ws, we, p, e, _⟩ := Update_shape hu
    have ho := UpdatePartition_ordered s row range pm om (by omega) (by omega) i2 (by omega)
    have hl := UpdatePartition_partition_end_le s row range pm om (by omega) (by omega)
      (by omega)
    have hsz := UpdatePartition_input_size s row range pm om
    subst e
    simp only []
    exact ⟨by omega, ho.1, by omega⟩

theorem FindOrderedRangeBound_error_ne (FROM : Bool) (over : WindowInputColumn)
    (sense : OrderType) (b e : Nat) (boundary : WindowInputExpression) (ci : Nat)
    (prev : Nat × Nat) (err : WindowError)
    (h : FindOrderedRangeBound FROM over sense b e boundary ci prev = .error err) :
    err ≠ .FailedToComputeBoundaries := by
  unfold FindOrderedRangeBound FindRangeBound at h
  cases sense <;> simp only [] at h
  · cases h
    intro hc
    cases hc
  · split at h
    · cases h
      intro hc
      cases hc
    · cases h
  · split at h
    · cases h
      intro hc
      cases hc
    · cases h

theorem UpdateStart_error_ne (t : WindowBoundariesState) (row ci : Nat)
    (range : WindowInputColumn) (bs : WindowInputExpression) (e : WindowError)
    (he : t.UpdateStart row range ci bs = .error e) : e ≠ .FailedToComputeBoundaries := by
  unfold UpdateStart at he
  split at he
  · cases he
  · cases he
  · cases he
  · split at he
    · cases he
    · cases he
      intro hc
      cases hc
  · split at he
    · cases he
    · cases he
      intro hc
      cases hc
  · split at he
    · cases he
    · split at he
      · cases he
      · rename_i hf
        injection he with he
        subst he
        exact FindOrderedRangeBound_error_ne _ _ _ _ _ _ _ _ _ hf
  · split at he
    · cases he
    · split at he
      · cases he
      · rename_i hf
        injection he with he
        subst he
        exact FindOrderedRangeBound_error_ne _ _ _ _ _ _ _ _ _ hf
  · cases he
    intro hc
    cases hc

theorem UpdateEnd_error_ne (t : WindowBoundariesState) (row ci : Nat)
    (range : WindowInputColumn) (be : WindowInputExpression) (e : WindowError)
    (he : t.UpdateEnd row range ci be = .error e) : e ≠ .FailedToComputeBoundaries := by
  unfold UpdateEnd at he
  split at he
  · cases he
  · cases he
  · cases he
  · split at he
    · cases he
    · cases he
      intro hc
      cases hc
  · split at he
    · cases he
    · cases he
      intro hc
      cases hc
  · split at he
    · cases he
    · split at he
      · cases he
      · rename_i hf
        injection he with he
        subst he
        exact FindOrderedRangeBound_error_ne _ _ _ _ _ _ _ _ _ hf
  · split at he
    · cases he
    · split at he
      · cases he
      · rename_i hf
        injection he with he
        subst he
        exact FindOrderedRangeBound_error_ne _ _ _ _ _ _ _ _ _ hf
  · cases he
    intro hc
    cases hc

/-- C38: `Update` at a row `row < count` of an input of `count < 2^63` rows, on the state
left by the rows `0 .. row - 1`, for every pair of boundary kinds and all boundary cells.
An error of `Update` is never the one of the final check; whenever the two switches return,
the conversions of the clamping statements keep the values and the final check passes; and
after `Update` `0 ≤ partition_start ≤ window_start` and `partition_start ≤ window_end`. -/
theorem Update_final_check_passes (wexpr : BoundWindowExpression) (count : Nat)
    (range : WindowInputColumn) (pm om : ValidityMask) (hsize : count < 2 ^ 63)
    (row : Nat) (s : WindowBoundariesState) (hs : AfterRows wexpr count range pm om row s)
    (hrow : row < count) (ci : Nat) (bs be : WindowInputExpression) :
    (∀ e, s.Update row range ci bs be pm om = .error e → e ≠ .FailedToComputeBoundaries) ∧
    (∀ s2 s3, (s.UpdatePartition row range pm om).UpdateStart row range ci bs = .ok s2 →
      s2.UpdateEnd row range ci be = .ok s3 →
      s3.UpdateClampCast = s3.UpdateClamp ∧
        ∃ s', s3.UpdateClamp = .ok s' ∧ s.Update row range ci bs be pm om = .ok s') ∧
    (∀ s', s.Update row range ci bs be pm om = .ok s' →
      (0 : Int) ≤ (s'.partition_start : Int) ∧ (s'.partition_start : Int) ≤ s'.window_start ∧
        (s'.partition_start : Int) ≤ s'.window_end) := by
  have h64 : count ≤ 2 ^ 64 - 64 := by omega
  obtain ⟨i1, i2, i3⟩ := AfterRows_ordered wexpr count range pm om h64 row s hs
  have ho := UpdatePartition_ordered s row range pm om (by omega) (by omega) i2 (by omega)
  have hl := UpdatePartition_partition_end_le s row range pm om (by omega) (by omega)
    (by omega)
  refine ⟨fun e he => ?_, fun s2 s3 h2 h3 => ?_, fun s' hu => ?_⟩
  · unfold Update at he
    cases h2 : (s.UpdatePartition row range pm om).UpdateStart row range ci bs with
    | error e2 =>
      rw [h2] at he
      injection he with he
      subst he
      exact UpdateStart_error_ne _ _ _ _ _ _ h2
    | ok s2 =>
      rw [h2] at he
      simp only [] at he
      cases h3 : s2.UpdateEnd row range ci be with
      | error e3 =>
        rw [h3] at he
        injection he with he
        subst he
        exact UpdateEnd_error_ne _ _ _ _ _ _ h3
      | ok s3 =>
        rw [h3] at he
        simp only [] at he
        obtain ⟨s', hc⟩ := UpdateClamp_ok s3
        rw [hc] at he
        cases he
  · obtain ⟨ws2, p2, e2⟩ := UpdateStart_shape h2
    obtain ⟨we3, p3, e3⟩ := UpdateEnd_shape h3
    have hps : s3.partition_start = (s.UpdatePartition row range pm om).partition_start := by
      rw [e3, e2]
    have hpe : s3.partition_end = (s.UpdatePartition row range pm om).partition_end := by
      rw [e3, e2]
    obtain ⟨s', hc⟩ := UpdateClamp_ok s3
    refine ⟨UpdateClampCast_eq s3 (by omega) (by omega), s', hc, ?_⟩
    unfold Update
    rw [h2]
    simp only []
    rw [h3]
    exact hc
  · obtain ⟨ws, we, p, e, hw⟩ := Update_shape hu
    obtain ⟨w1, _, w3, _⟩ := hw ho.1
    subst e
    simp only []
    exact ⟨by omega, w1, w3⟩

/-- C38, at a concrete input: `ROWS BETWEEN 1 PRECEDING AND 1 FOLLOWING` at row 0 of four
rows. The start `0 - 1` is negative; `Update` returns, and the frame starts at the partition
start 0. -/
theorem Update_final_check_passes_witness :
    (4 < 2 ^ 63 ∧ 0 < 4) ∧
    ∃ s', (WindowBoundariesState.new rowsAroundExpr 4).Update 0 .empty 0 (.const 1) (.const 1)
        (ofWords [1]) (ofWords [15]) = .ok s' ∧
      (0 : Int) ≤ (s'.partition_start : Int) ∧ (s'.partition_start : Int) ≤ s'.window_start ∧
      (s'.partition_start : Int) ≤ s'.window_end := by
  have h := Update_final_check_passes rowsAroundExpr 4 .empty (ofWords [1]) (ofWords [15])
    (by decide) 0 _ .init (by decide) 0 (.const 1) (.const 1)
  cases hu : (WindowBoundariesState.new rowsAroundExpr 4).Update 0 .empty 0 (.const 1)
      (.const 1) (ofWords [1]) (ofWords [15]) with
  | ok s' => exact ⟨⟨by decide, by decide⟩, s', rfl, h.2.2 s' hu⟩
  | error e =>
    have hd : (match (WindowBoundariesState.new rowsAroundExpr 4).Update 0 .empty 0
        (.const 1) (.const 1) (ofWords [1]) (ofWords [15]) with
        | .ok _ => true
        | .error _ => false) = true := by decide
    rw [hu] at hd
    cases hd

end Window

namespace Window
open ValidityMask
open WindowBoundariesState

/-! ## The fast paths of the mask scans against the general loops -/

theorem RowIsValidUnsafe_of_all_ones (mask : ValidityMask)
    (h : ∀ e, mask.GetValidityEntry e = 2 ^ 64 - 1) (q : Nat) :
    mask.RowIsValidUnsafe q = true := by
  unfold RowIsValidUnsafe GetEntryIndex EntryRowIsValid BITS_PER_VALUE
  simp only [h, Nat.testBit_two_pow_sub_one]
  exact decide_eq_true (Nat.mod_lt _ (by decide))

/-- C35 (counterexample): with `l = 2`, `r = 3` and `n = 2 ^ 64 - 1` the general loop on the
materialised mask with every bit set returns the index `r = 3`, and the fast path on the
mask without a buffer returns the index 0, because the sum `l + n - 1` wraps; the residuals
are the same. -/
theorem FindNextStart_fast_path_wraps :
    allSet.AllValid = false ∧ allValid.AllValid = true ∧
      FindNextStart allSet 2 3 (2 ^ 64 - 1) = (3, 2 ^ 64 - 2) ∧
      FindNextStart allValid 2 3 (2 ^ 64 - 1) = (0, 2 ^ 64 - 2) := by
  refine ⟨rfl, rfl, ?_, ?_⟩
  · rw [FindNextStart_buffer allSet (by decide) 2 3 _ (by norm_num) (by norm_num)
        (skip_of_le allSet 3 (by norm_num)),
      findNext_all_set allSet (RowIsValidUnsafe_of_all_ones allSet (fun _ => rfl)) _ _ _
        (by norm_num)]
    norm_num
  · unfold FindNextStart
    rw [if_pos (show allValid.AllValid = true from rfl)]
    unfold sub64 add64
    norm_num

/-- C35 (amended): for indices `l ≤ r < 2 ^ 64` and a count `1 ≤ n < 2 ^ 64` with
`l + n - 1 < 2 ^ 64`, the general loop of `FindNextStart` on a materialised mask whose words
are all ones and the fast path on a mask without a buffer return the same index and leave
the same residual: the index `min (l + n - 1) r` and the residual `n - min n (r - l)`. The
general loop returns these for every `l ≤ r` and `n ≥ 1`. -/
theorem FindNextStart_fast_path_agrees (m1 m2 : ValidityMask) (l r n : Nat)
    (h1 : m1.AllValid = false) (hones : ∀ e, m1.GetValidityEntry e = 2 ^ 64 - 1)
    (h2 : m2.AllValid = true) (hlr : l ≤ r) (hn : 1 ≤ n) :
    FindNextStart m1 l r n = (min (l + n - 1) r, n - min n (r - l)) ∧
      (r < 2 ^ 64 → n < 2 ^ 64 → l + n - 1 < 2 ^ 64 →
        FindNextStart m2 l r n = FindNextStart m1 l r n) := by
  have hloop : FindNextStart m1 l r n = (min (l + n - 1) r, n - min n (r - l)) := by
    rw [FindNextStart_buffer m1 (by simp [h1]) l r n hn hlr
        (fun q _ _ hz => absurd hz (by rw [hones]; norm_num)),
      findNext_all_set m1 (RowIsValidUnsafe_of_all_ones m1 hones) _ _ _ hn,
      show l + (r - l) = r by omega]
  refine ⟨hloop, fun hr hn64 h64 => ?_⟩
  obtain ⟨f1, f2⟩ := FindNextStart_fast m2 h2 l r n hn hlr hr hn64
  rw [hloop]
  exact Prod.ext (f2 h64) f1

/-- C35 (amended), at a concrete input: `l = 3`, `r = 70` and `n = 5` give the index 7 with
the residual 0 on both paths, and `n = 100` gives the index 70 with the residual 33. -/
theorem FindNextStart_fast_path_agrees_witness :
    (allSet.AllValid = false ∧ allValid.AllValid = true ∧ 3 ≤ 70 ∧ 1 ≤ 5) ∧
    FindNextStart allSet 3 70 5 = (min (3 + 5 - 1) 70, 5 - min 5 (70 - 3)) ∧
    ((70 < 2 ^ 64 ∧ 5 < 2 ^ 64 ∧ 3 + 5 - 1 < 2 ^ 64) ∧
      FindNextStart allValid 3 70 5 = FindNextStart allSet 3 70 5) ∧
    (FindNextStart allSet 3 70 5 = (7, 0) ∧ FindNextStart allValid 3 70 5 = (7, 0) ∧
      FindNextStart allSet 3 70 100 = (70, 33) ∧
      FindNextStart allValid 3 70 100 = (70, 33)) :=
  ⟨⟨rfl, rfl, by decide, by decide⟩,
   (FindNextStart_fast_path_agrees allSet allValid 3 70 5 rfl (fun _ => rfl) rfl (by decide)
     (by decide)).1,
   ⟨⟨by decide, by decide, by decide⟩,
    (FindNextStart_fast_path_agrees allSet allValid 3 70 5 rfl (fun _ => rfl) rfl (by decide)
      (by decide)).2 (by decide) (by decide) (by decide)⟩,
   by decide, by decide, by decide, by decide⟩

/-- C36 (the code at the failing input): with `l = 1`, `r = 3` and `n = 3`, more than the
two rows of `[1, 3)`, the fast path on the mask without a buffer returns the index `l = 1`
with the residual `n - (r - l) = 1`. The general loop on the materialised mask with every
bit set scans the mask word down to bit 0, below `l`, counts that bit as the third one and
returns the index 1 with the residual 0. With `n = 2` both return the index 1 with the
residual 0. -/
theorem FindPrevStart_fast_path_differs :
    allSet.AllValid = false ∧ allValid.AllValid = true ∧
      FindPrevStart allValid 1 3 3 = (1, 1) ∧ FindPrevStart allSet 1 3 3 = (1, 0) ∧
      FindPrevStart allValid 1 3 2 = (1, 0) ∧ FindPrevStart allSet 1 3 2 = (1, 0) := by
  refine ⟨rfl, rfl, by decide, by decide, by decide, by decide⟩

end Window

namespace Window
open ValidityMask
open WindowBoundariesState

/-! ## The RANGE start search with hints -/

/-- The scan of the specification ends at the first row that is not below `v`. -/
theorem lowerBoundSpec_spec (over : WindowInputColumn) (v : Int) :
    ∀ k b, b ≤ lowerBoundSpec over v b k ∧ lowerBoundSpec over v b k ≤ b + k ∧
      (∀ i, b ≤ i → i < lowerBoundSpec over v b k → over.GetCell i < v) ∧
      (lowerBoundSpec over v b k < b + k → v ≤ over.GetCell (lowerBoundSpec over v b k)) := by
  intro k
  induction k with
  | zero =>
    intro b
    simp only [lowerBoundSpec]
    exact ⟨Nat.le_refl _, Nat.le_refl _, fun i h1 h2 => by omega, fun h => by omega⟩
  | succ k ih =>
    intro b
    rw [lowerBoundSpec]
    by_cases hc : over.GetCell b < v
    · rw [if_pos hc]
      obtain ⟨h1, h2, h3, h4⟩ := ih (b + 1)
      refine ⟨by omega, by omega, fun i hi1 hi2 => ?_, fun h => h4 (by omega)⟩
      by_cases hb : i = b
      · rw [hb]; exact hc
      · exact h3 i (by omega) hi2
    · rw [if_neg hc]
      exact ⟨Nat.le_refl _, by omega, fun i h1 h2 => by omega, fun _ => by omega⟩

/-- An index of `[b, b + k]` with every row before it below `v` and its own row, if any, not
below `v`, is the lower bound of the specification. -/
theorem lowerBoundSpec_unique (over : WindowInputColumn) (v : Int) (b k r : Nat)
    (h1 : b ≤ r) (h2 : r ≤ b + k) (h3 : ∀ i, b ≤ i → i < r → over.GetCell i < v)
    (h4 : r < b + k → v ≤ over.GetCell r) : lowerBoundSpec over v b k = r := by
  obtain ⟨f1, f2, f3, f4⟩ := lowerBoundSpec_spec over v k b
  by_contra hne
  rcases Nat.lt_or_gt_of_ne hne with hlt | hgt
  · have := h3 _ f1 hlt
    have := f4 (by omega)
    omega
  · have := f3 _ h1 hgt
    have := h4 (by omega)
    omega

/-- The binary search of `std::lower_bound` on a sorted range: every row before the result
is below `val`, and no row from the result on is. -/
theorem lower_bound_loop_spec (over : WindowInputColumn) (val : Int) :
    ∀ fuel first count, count ≤ fuel →
      SortedAscending over first (first + count) →
      ∃ r, lower_bound_loop over (fun a b => decide (a < b)) val fuel first count = r ∧
        first ≤ r ∧ r ≤ first + count ∧
        (∀ i, first ≤ i → i < r → over.GetCell i < val) ∧
        (∀ i, r ≤ i → i < first + count → val ≤ over.GetCell i) := by
  intro fuel
  induction fuel with
  | zero =>
    intro first count hf _
    refine ⟨first, by rw [lower_bound_loop], Nat.le_refl _, by omega,
      fun i h1 h2 => by omega, fun i h1 h2 => by omega⟩
  | succ fuel ih =>
    intro first count hf hs
    rw [lower_bound_loop]
    by_cases hc : 0 < count
    · rw [if_pos hc]
      simp only []
      by_cases hlt : over.GetCell (first + count / 2) < val
      · rw [if_pos (by simpa using hlt)]
        obtain ⟨r, hr, r1, r2, r3, r4⟩ := ih (first + count / 2 + 1)
          (count - (count / 2 + 1)) (by omega)
          (fun i j h1 h2 h3 => hs i j (by omega) h2 (by omega))
        refine ⟨r, hr, by omega, by omega, fun i h1 h2 => ?_,
          fun i h1 h2 => r4 i h1 (by omega)⟩
        by_cases hi : i ≤ first + count / 2
        · have := hs i (first + count / 2) h1 hi (by omega)
          omega
        · exact r3 i (by omega) h2
      · rw [if_neg (by simpa using hlt)]
        obtain ⟨r, hr, r1, r2, r3, r4⟩ := ih first (count / 2) (by omega)
          (fun i j h1 h2 h3 => hs i j h1 h2 (by omega))
        refine ⟨r, hr, r1, by omega, r3, fun i h1 h2 => ?_⟩
        by_cases hi : i < first + count / 2
        · exact r4 i h1 hi
        · have := hs (first + count / 2) i (by omega) (by omega) h2
          omega
    · rw [if_neg hc]
      refine ⟨first, rfl, Nat.le_refl _, by omega, fun i h1 h2 => by omega,
        fun i h1 h2 => by omega⟩

/-- The range that `FindTypedRangeBound` searches for an ascending column: it starts at
`order_begin`, or at `prev.first` when that hint lies inside the range and its value is not
above `val`; it ends at `order_end`, or just after `prev.second` when that hint lies in the
range and its value is not below `val`. -/
theorem FindTypedRangeBound_shape (FROM : Bool) (over : WindowInputColumn) (ob oe : Nat)
    (boundary : WindowInputExpression) (ci : Nat) (prev : Nat × Nat) :
    ∃ first last,
      FindTypedRangeBound (fun a b => decide (a < b)) FROM over ob oe boundary ci prev =
        (if FROM then lower_bound over first last (boundary.GetCell ci)
            (fun a b => decide (a < b))
         else upper_bound over first last (boundary.GetCell ci)
            (fun a b => decide (a < b))) ∧
      (first = ob ∨ (first = prev.1 ∧ ob < prev.1 ∧ prev.1 < oe ∧
        over.GetCell prev.1 ≤ boundary.GetCell ci)) ∧
      (last = oe ∨ (last = prev.2 + 1 ∧ ob ≤ prev.2 ∧ prev.2 < oe ∧
        boundary.GetCell ci ≤ over.GetCell prev.2)) := by
  unfold FindTypedRangeBound
  simp only [decide_eq_true_eq, not_lt]
  by_cases h1 : ob < prev.1 ∧ prev.1 < oe ∧ over.GetCell prev.1 ≤ boundary.GetCell ci
  · by_cases h2 : ob ≤ prev.2 ∧ prev.2 < oe ∧ boundary.GetCell ci ≤ over.GetCell prev.2
    · rw [if_pos h1, if_pos h2]
      exact ⟨_, _, rfl, Or.inr ⟨by omega, h1⟩, Or.inr ⟨by omega, h2⟩⟩
    · rw [if_pos h1, if_neg h2]
      exact ⟨_, _, rfl, Or.inr ⟨by omega, h1⟩, Or.inl rfl⟩
  · by_cases h2 : ob ≤ prev.2 ∧ prev.2 < oe ∧ boundary.GetCell ci ≤ over.GetCell prev.2
    · rw [if_neg h1, if_pos h2]
      exact ⟨_, _, rfl, Or.inl rfl, Or.inr ⟨by omega, h2⟩⟩
    · rw [if_neg h1, if_neg h2]
      exact ⟨_, _, rfl, Or.inl rfl, Or.inl rfl⟩

/-- C33: the RANGE start search with hints is the search without hints. For a column sorted
ascending on `[order_begin, order_end)`, every bound value `v`, every `prev.second`, and a
`prev.first` that is outside `(order_begin, order_end)` or is the lower bound of a value
`v' ≤ v` on a range of the same column that starts at or before `order_begin`,
`FindTypedRangeBound<T, LessThan, true>` returns the lower bound of `v` on
`[order_begin, order_end)`: an index `r` of `[order_begin, order_end]` with every row of
`[order_begin, r)` below `v` and, when `r < order_end`, `column[r] ≥ v`. -/
theorem FindTypedRangeBound_start_lower_bound (over : WindowInputColumn) (ob oe : Nat)
    (boundary : WindowInputExpression) (ci : Nat) (prev : Nat × Nat)
    (hle : ob ≤ oe) (hs : SortedAscending over ob oe)
    (hprev : ¬ (ob < prev.1 ∧ prev.1 < oe) ∨
      ∃ ob' k' v', ob' ≤ ob ∧ v' ≤ boundary.GetCell ci ∧
        prev.1 = lowerBoundSpec over v' ob' k') :
    FindTypedRangeBound (fun a b => decide (a < b)) true over ob oe boundary ci prev =
        lowerBoundSpec over (boundary.GetCell ci) ob (oe - ob) ∧
      ob ≤ lowerBoundSpec over (boundary.GetCell ci) ob (oe - ob) ∧
      lowerBoundSpec over (boundary.GetCell ci) ob (oe - ob) ≤ oe ∧
      (∀ i, ob ≤ i → i < lowerBoundSpec over (boundary.GetCell ci) ob (oe - ob) →
        over.GetCell i < boundary.GetCell ci) ∧
      (lowerBoundSpec over (boundary.GetCell ci) ob (oe - ob) < oe →
        boundary.GetCell ci ≤
          over.GetCell (lowerBoundSpec over (boundary.GetCell ci) ob (oe - ob))) := by
  obtain ⟨f1, f2, f3, f4⟩ := lowerBoundSpec_spec over (boundary.GetCell ci) (oe - ob) ob
  refine ⟨?_, f1, by omega, f3, fun h => f4 (by omega)⟩
  have H1 : ob < prev.1 → prev.1 < oe → ∀ i, ob ≤ i → i < prev.1 →
      over.GetCell i < boundary.GetCell ci := by
    intro h1 h2 i hi1 hi2
    rcases hprev with hp | ⟨ob', k', v', hob, hv, hp⟩
    · exact absurd ⟨h1, h2⟩ hp
    · obtain ⟨_, _, g3, _⟩ := lowerBoundSpec_spec over v' k' ob'
      have := g3 i (by omega) (by rw [← hp]; exact hi2)
      omega
  obtain ⟨first, last, heq, hfirst, hlast⟩ :=
    FindTypedRangeBound_shape true over ob oe boundary ci prev
  rw [heq]
  simp only [if_true]
  have hbelow : ob ≤ first ∧ first ≤ oe ∧
      ∀ i, ob ≤ i → i < first → over.GetCell i < boundary.GetCell ci := by
    rcases hfirst with h | ⟨h, h1, h2, _⟩
    · rw [h]
      exact ⟨Nat.le_refl _, hle, fun i a b => by omega⟩
    · rw [h]
      exact ⟨by omega, by omega, H1 h1 h2⟩
  have habove : last ≤ oe ∧ first ≤ last ∧
      ∀ i, last ≤ i → i < oe → boundary.GetCell ci ≤ over.GetCell i := by
    rcases hlast with h | ⟨h, h1, h2, h3⟩
    · rw [h]
      exact ⟨Nat.le_refl _, hbelow.2.1, fun i a b => by omega⟩
    · rw [h]
      refine ⟨by omega, ?_, fun i a b => ?_⟩
      · by_contra hgt
        have := hbelow.2.2 prev.2 h1 (by omega)
        omega
      · have := hs prev.2 i h1 (by omega) b
        omega
  obtain ⟨b1, b2, b3⟩ := hbelow
  obtain ⟨a1, a2, a3⟩ := habove
  unfold lower_bound
  obtain ⟨r, hr, r1, r2, r3, r4⟩ := lower_bound_loop_spec over (boundary.GetCell ci)
    (last - first) first (last - first) (Nat.le_refl _)
    (fun i j h1 h2 h3 => hs i j (by omega) h2 (by omega))
  rw [hr]
  symm
  apply lowerBoundSpec_unique over _ ob (oe - ob) r (by omega) (by omega)
  · intro i h1 h2
    by_cases hi : i < first
    · exact b3 i h1 hi
    · exact r3 i (by omega) h2
  · intro h
    by_cases hi : r < last
    · exact r4 r (Nat.le_refl _) (by omega)
    · exact a3 r (by omega) (by omega)

/-- C33, at a concrete input: the column `[1, 2, 2, 3, 5]`, the range `[1, 5)` and the bound
value 5, with the hints `(3, 4)` of the previous row, whose start 3 is the lower bound of 3
on `[0, 5)`. The search starts at the hint and returns 4, the lower bound of 5. -/
theorem FindTypedRangeBound_start_lower_bound_witness :
    (1 ≤ 5 ∧
      SortedAscending (.ofList [some 1, some 2, some 2, some 3, some 5]) 1 5 ∧
      (0 ≤ 1 ∧ (3 : Int) ≤ (WindowInputExpression.const 5).GetCell 0 ∧
        (3, 4).1 = lowerBoundSpec (.ofList [some 1, some 2, some 2, some 3, some 5]) 3 0 5)) ∧
    FindTypedRangeBound (fun a b => decide (a < b)) true
        (.ofList [some 1, some 2, some 2, some 3, some 5]) 1 5 (.const 5) 0 (3, 4) =
      lowerBoundSpec (.ofList [some 1, some 2, some 2, some 3, some 5])
        ((WindowInputExpression.const 5).GetCell 0) 1 (5 - 1) ∧
    lowerBoundSpec (.ofList [some 1, some 2, some 2, some 3, some 5])
        ((WindowInputExpression.const 5).GetCell 0) 1 (5 - 1) = 4 := by
  have hs : SortedAscending (.ofList [some 1, some 2, some 2, some 3, some 5]) 1 5 := by
    intro i j h1 h2 h3
    interval_cases j <;> interval_cases i <;> decide
  have hp : (0 ≤ 1 ∧ (3 : Int) ≤ (WindowInputExpression.const 5).GetCell 0 ∧
      (3, 4).1 = lowerBoundSpec (.ofList [some 1, some 2, some 2, some 3, some 5]) 3 0 5) :=
    ⟨by decide, by decide, by decide⟩
  exact ⟨⟨by decide, hs, hp⟩,
    (FindTypedRangeBound_start_lower_bound (.ofList [some 1, some 2, some 2, some 3, some 5])
      1 5 (.const 5) 0 (3, 4) (by decide) hs (Or.inr ⟨0, 5, 3, hp⟩)).1, by decide⟩

end Window

namespace Window
open ValidityMask
open WindowBoundariesState

/-! ## The RANGE end search with hints -/

theorem upperBoundSpec_ge (over : WindowInputColumn) (v : Int) (b : Nat) :
    ∀ k i, b ≤ i → i < b + k → over.GetCell i ≤ v → i + 1 ≤ upperBoundSpec over v b k := by
  intro k
  induction k with
  | zero => intro i h1 h2; omega
  | succ k ih =>
    intro i h1 h2 h3
    rw [upperBoundSpec]
    by_cases hc : over.GetCell (b + k) ≤ v
    · rw [if_pos hc]
      omega
    · rw [if_neg hc]
      by_cases hi : i = b + k
      · rw [hi] at h3
        exact absurd h3 hc
      · exact ih i h1 (by omega) h3

/-- C34: the end hint cuts the search of `FindTypedRangeBound<T, LessThan, false>` just
after `prev.second`. When the hint lies in `[order_begin, order_end)`, the start hint is not
after it, and the rows `prev.second` and `prev.second + 1` of the range both hold the bound
value `v`, the function returns at most `prev.second + 1`, which is less than the upper bound
of `v` on the range (one past the last row with `column ≤ v`). -/
theorem FindTypedRangeBound_end_hint_cuts (over : WindowInputColumn) (ob oe : Nat)
    (boundary : WindowInputExpression) (ci : Nat) (prev : Nat × Nat)
    (h1 : ob ≤ prev.2) (h2 : prev.2 + 1 < oe) (hp : prev.1 ≤ prev.2)
    (hv : over.GetCell prev.2 = boundary.GetCell ci)
    (hv1 : over.GetCell (prev.2 + 1) = boundary.GetCell ci) :
    FindTypedRangeBound (fun a b => decide (a < b)) false over ob oe boundary ci prev ≤
        prev.2 + 1 ∧
      prev.2 + 2 ≤ upperBoundSpec over (boundary.GetCell ci) ob (oe - ob) := by
  constructor
  · unfold FindTypedRangeBound upper_bound
    simp only [decide_eq_true_eq, not_lt, Bool.false_eq_true, if_false]
    rw [if_pos (show ob ≤ prev.2 ∧ prev.2 < oe ∧ boundary.GetCell ci ≤ over.GetCell prev.2
      from ⟨h1, by omega, by omega⟩)]
    refine le_trans (upper_bound_loop_le _ _ _ _ _ _) ?_
    split_ifs <;> omega
  · have := upperBoundSpec_ge over (boundary.GetCell ci) ob (oe - ob) (prev.2 + 1) (by omega)
      (by omega) (by omega)
    omega

/-- C34, at a concrete input: `SUM(x) OVER (ORDER BY o RANGE BETWEEN CURRENT ROW AND
0 FOLLOWING)` on `o = [1, 2, 2, 2]`. At row 1 the range is `[1, 4)`, the bound value is 2
and the hint `prev.second = 1` is the end of the frame of row 0. The search returns 2 where
the upper bound is 4; over the batch the ends of the frames are 1, 2, 3, 4, so the peers
1, 2, 3 get three different frames. -/
theorem FindTypedRangeBound_end_hint_cuts_witness :
    ((1 : Nat) ≤ (0, 1).2 ∧ (0, 1).2 + 1 < 4 ∧ ((0, 1) : Nat × Nat).1 ≤ (0, 1).2 ∧
      (WindowInputColumn.ofList [some 1, some 2, some 2, some 2]).GetCell (0, 1).2 =
        (WindowInputExpression.ofList [some 1, some 2, some 2, some 2]).GetCell 1 ∧
      (WindowInputColumn.ofList [some 1, some 2, some 2, some 2]).GetCell ((0, 1).2 + 1) =
        (WindowInputExpression.ofList [some 1, some 2, some 2, some 2]).GetCell 1) ∧
    (FindTypedRangeBound (fun a b => decide (a < b)) false
        (.ofList [some 1, some 2, some 2, some 2]) 1 4
        (.ofList [some 1, some 2, some 2, some 2]) 1 (0, 1) ≤ (0, 1).2 + 1 ∧
      (0, 1).2 + 2 ≤ upperBoundSpec (.ofList [some 1, some 2, some 2, some 2])
        ((WindowInputExpression.ofList [some 1, some 2, some 2, some 2]).GetCell 1) 1
        (4 - 1)) ∧
    (FindTypedRangeBound (fun a b => decide (a < b)) false
        (.ofList [some 1, some 2, some 2, some 2]) 1 4
        (.ofList [some 1, some 2, some 2, some 2]) 1 (0, 1) = 2 ∧
      upperBoundSpec (.ofList [some 1, some 2, some 2, some 2]) 2 1 (4 - 1) = 4) ∧
    (frameAt ((WindowBoundariesState.new rangeCurrentFollowingExpr 4).Bounds
        (BoundsChunk.fill 0) 0 (.ofList [some 1, some 2, some 2, some 2]) 4 (.const 0)
        (.ofList [some 1, some 2, some 2, some 2]) (ofWords [1]) (ofWords [3])) 0
        = some (0, 0, 1, 4) ∧
      frameAt ((WindowBoundariesState.new rangeCurrentFollowingExpr 4).Bounds
        (BoundsChunk.fill 0) 0 (.ofList [some 1, some 2, some 2, some 2]) 4 (.const 0)
        (.ofList [some 1, some 2, some 2, some 2]) (ofWords [1]) (ofWords [3])) 1
        = some (0, 1, 2, 4) ∧
      frameAt ((WindowBoundariesState.new rangeCurrentFollowingExpr 4).Bounds
        (BoundsChunk.fill 0) 0 (.ofList [some 1, some 2, some 2, some 2]) 4 (.const 0)
        (.ofList [some 1, some 2, some 2, some 2]) (ofWords [1]) (ofWords [3])) 2
        = some (0, 1, 3, 4) ∧
      frameAt ((WindowBoundariesState.new rangeCurrentFollowingExpr 4).Bounds
        (BoundsChunk.fill 0) 0 (.ofList [some 1, some 2, some 2, some 2]) 4 (.const 0)
        (.ofList [some 1, some 2, some 2, some 2]) (ofWords [1]) (ofWords [3])) 3
        = some (0, 1, 4, 4)) :=
  ⟨⟨by decide, by decide, by decide, by decide, by decide⟩,
   FindTypedRangeBound_end_hint_cuts (.ofList [some 1, some 2, some 2, some 2]) 1 4
     (.ofList [some 1, some 2, some 2, some 2]) 1 (0, 1) (by decide) (by decide) (by decide)
     (by decide) (by decide),
   ⟨by decide, by decide⟩, by decide, by decide, by decide, by decide⟩

end Window

namespace Window
open ValidityMask
open WindowBoundariesState

/-! ## The valid range of a partition -/

theorem NewPartition_valid_start (s : WindowBoundariesState) (pb : Nat)
    (range : WindowInputColumn) (pm om : ValidityMask) :
    (s.NewPartition pb range pm om).valid_start =
      if pb < (s.NewPartition pb range pm om).partition_end ∧ s.has_preceding_range = true ∧
          range.CellIsNull pb = true then
        (FindNextStart om (pb + 1) (s.NewPartition pb range pm om).partition_end 1).1
      else pb := by
  rw [NewPartition_partition_end]
  unfold NewPartition
  simp only []
  split_ifs <;> rfl

theorem NewPartition_valid_end (s : WindowBoundariesState) (pb : Nat)
    (range : WindowInputColumn) (pm om : ValidityMask) :
    (s.NewPartition pb range pm om).valid_end =
      if (s.NewPartition pb range pm om).valid_start <
            (s.NewPartition pb range pm om).partition_end ∧
          s.has_following_range = true then
        (if range.CellIsNull ((s.NewPartition pb range pm om).partition_end - 1) = true then
          (FindPrevStart om (s.NewPartition pb range pm om).valid_start
            (s.NewPartition pb range pm om).partition_end 1).1
         else (s.NewPartition pb range pm om).partition_end)
      else (s.NewPartition pb range pm om).partition_end := by
  rw [NewPartition_valid_start, NewPartition_partition_end]
  unfold NewPartition
  simp only []
  split_ifs <;> rfl

end Window

namespace Window
open ValidityMask
open WindowBoundariesState

theorem lastStart_ge_of_set (m : ValidityMask) (p : Nat) (hb : m.RowIsValidUnsafe p = true) :
    ∀ r, p ≤ r → p ≤ lastStart m r ∧ m.RowIsValidUnsafe (lastStart m r) = true := by
  intro r
  induction r with
  | zero =>
    intro hp
    have : p = 0 := by omega
    subst this
    exact ⟨Nat.le_refl _, hb⟩
  | succ r ih =>
    intro hp
    rw [lastStart]
    by_cases hc : m.RowIsValidUnsafe (r + 1) = true
    · rw [if_pos hc]
      exact ⟨hp, hc⟩
    · rw [if_neg hc]
      by_cases hq : p = r + 1
      · rw [hq] at hb
        exact absurd hb hc
      · exact ih (by omega)

theorem lastStart_unique (m : ValidityMask) (p r : Nat) (hp : p ≤ r)
    (hb : m.RowIsValidUnsafe p = true)
    (hun : ∀ q, p < q → q ≤ r → m.RowIsValidUnsafe q = false) : lastStart m r = p := by
  obtain ⟨h1, h2⟩ := lastStart_ge_of_set m p hb r hp
  have h3 := lastStart_le m r
  by_contra hne
  rw [hun _ (by omega) h3] at h2
  cases h2

/-- The backward search for one row from the end of a range whose first bit is set ends at
the last set bit of the range. -/
theorem FindPrevStart_one_last (om : ValidityMask) (pb pe : Nat) (hlt : pb < pe)
    (hsz : pe < 2 ^ 64) (hb : om.RowIsValidUnsafe pb = true) :
    (FindPrevStart om pb pe 1).1 = lastStart om (pe - 1) := by
  rcases FindPrevStart_one om pb pe hlt hsz with ⟨_, h2, h3, h4, h5⟩ | ⟨_, h2⟩
  · symm
    exact lastStart_unique om _ (pe - 1) (by omega) h4 (fun q a b => h5 q a (by omega))
  · rw [h2 pb (Nat.le_refl _) hlt] at hb
    cases hb

theorem UpdatePartition_new (s : WindowBoundariesState) (pb : Nat)
    (range : WindowInputColumn) (pm om : ValidityMask)
    (hk : 0 < s.partition_count + s.order_count) (hb : pm.RowIsValidUnsafe pb = true) :
    (s.UpdatePartition pb range pm om).valid_start =
        (s.NewPartition pb range pm om).valid_start ∧
      (s.UpdatePartition pb range pm om).valid_end =
        (s.NewPartition pb range pm om).valid_end ∧
      (s.UpdatePartition pb range pm om).partition_start = pb ∧
      (s.UpdatePartition pb range pm om).partition_end =
        (s.NewPartition pb range pm om).partition_end := by
  have hps := NewPartition_partition_start s pb range pm om
  unfold UpdatePartition
  have hk2 : s.partition_count + s.order_count > 0 := hk
  simp only [hk2, hb, if_true, Bool.not_true, Bool.not_false]
  split_ifs <;> exact ⟨rfl, rfl, hps, rfl⟩

/-- C32 (counterexample): `RANGE BETWEEN CURRENT ROW AND 1 FOLLOWING` over
`ORDER BY o NULLS FIRST` on `o = [NULL, 1, 2]`, a partition `[0, 3)` whose NULL ordering
value forms the first peer group. There is no PRECEDING RANGE bound, so the leading NULL is
kept: at the first row `valid_start = 0` and `valid_end = 3`, and the row 0 of
`[valid_start, valid_end)` has a NULL ordering value. -/
theorem NewPartition_keeps_leading_null :
    NullsOnePeerGroup (.ofList [none, some 1, some 2]) (ofWords [7]) 0 3 ∧
      ((WindowBoundariesState.new rangeCurrentFollowingExpr 3).NewPartition 0
        (.ofList [none, some 1, some 2]) (ofWords [1]) (ofWords [7])).partition_end = 3 ∧
      ((WindowBoundariesState.new rangeCurrentFollowingExpr 3).NewPartition 0
        (.ofList [none, some 1, some 2]) (ofWords [1]) (ofWords [7])).valid_start = 0 ∧
      ((WindowBoundariesState.new rangeCurrentFollowingExpr 3).NewPartition 0
        (.ofList [none, some 1, some 2]) (ofWords [1]) (ofWords [7])).valid_end = 3 ∧
      (WindowInputColumn.ofList [none, some 1, some 2]).CellIsNull 0 = true := by
  refine ⟨⟨fun _ i h1 h2 => ?_, fun h => absurd h (by decide), fun h => absurd h (by decide)⟩,
    by decide, by decide, by decide, by decide⟩
  interval_cases i <;> decide

end Window

namespace Window
open ValidityMask
open WindowBoundariesState

/-- C32 (amended): the valid range computed at the first row `pb` of a partition, with `pe`,
`vs` and `ve` the `partition_end`, `valid_start` and `valid_end` that `NewPartition` leaves,
for an order mask with the bit of `pb` set and NULL ordering values that form one peer group
at the start or at the end of `[pb, pe)`.
With a PRECEDING RANGE bound and a NULL at `pb`, `vs` is the first row of the partition
with a non-NULL ordering value (`pe` if there is none).
With a FOLLOWING RANGE bound and a NULL at `pe - 1`, when `vs < pe`, `ve` is the first row
of the trailing NULL peer group; when `vs = pe` (every row NULL, excluded as leading NULLs),
`ve` stays `pe`.
Always `pb ≤ vs ≤ ve ≤ pe`. No row of `[vs, ve)` has a NULL ordering value when a leading
NULL comes with a PRECEDING RANGE bound and a trailing NULL with a FOLLOWING RANGE bound.
After `Update` at the row `pb`, the first of its partition, the state holds `vs` and `ve`. -/
theorem NewPartition_valid_range (s : WindowBoundariesState) (pb : Nat)
    (range : WindowInputColumn) (pm om : ValidityMask) (pe vs ve : Nat)
    (hrow : pb < s.input_size) (hsz : s.input_size ≤ 2 ^ 64 - 64)
    (hpe : (s.NewPartition pb range pm om).partition_end = pe)
    (hvs : (s.NewPartition pb range pm om).valid_start = vs)
    (hve : (s.NewPartition pb range pm om).valid_end = ve)
    (hom : om.RowIsValidUnsafe pb = true) (hnull : NullsOnePeerGroup range om pb pe) :
    (pb < pe ∧ pe ≤ s.input_size) ∧
    (s.has_preceding_range = true → range.CellIsNull pb = true →
      vs = nextStart om pe pb ∧ pb < vs ∧
        (∀ i, pb ≤ i → i < vs → range.CellIsNull i = true) ∧
        (vs < pe → range.CellIsNull vs = false)) ∧
    (s.has_following_range = true → range.CellIsNull (pe - 1) = true → vs < pe →
      ve = lastStart om (pe - 1) ∧ ve < pe ∧ om.RowIsValidUnsafe ve = true ∧
        (∀ i, ve ≤ i → i < pe → range.CellIsNull i = true) ∧
        (∀ i, pb ≤ i → i < ve → range.CellIsNull i = false)) ∧
    (pe ≤ vs → ve = pe) ∧
    (pb ≤ vs ∧ vs ≤ ve ∧ ve ≤ pe) ∧
    ((range.CellIsNull pb = true → s.has_preceding_range = true) →
      (range.CellIsNull (pe - 1) = true → s.has_following_range = true) →
      ∀ i, vs ≤ i → i < ve → range.CellIsNull i = false) ∧
    (∀ s' ci bs be, pm.RowIsValidUnsafe pb = true → 0 < s.partition_count + s.order_count →
      s.Update pb range ci bs be pm om = .ok s' →
      s'.partition_start = pb ∧ s'.partition_end = pe ∧ s'.valid_start = vs ∧
        s'.valid_end = ve) := by
  obtain ⟨hL, hT, hN⟩ := hnull
  have hpe1 : pb < pe ∧ pe ≤ s.input_size := by
    rw [← hpe, NewPartition_partition_end]
    have hf := FindNextStart_range pm (pb + 1) s.input_size 1 (by omega) (by omega)
      (by omega) (skip_of_le pm _ hsz)
    split_ifs <;> omega
  obtain ⟨hlt, hle⟩ := hpe1
  obtain ⟨n1, n2, n3, n4⟩ := nextStart_spec om pe pb hlt
  have hone : (FindNextStart om (pb + 1) pe 1).1 = nextStart om pe pb :=
    FindNextStart_one om pe pb hlt (by omega)
  have hvs1 : vs = if pb < pe ∧ s.has_preceding_range = true ∧ range.CellIsNull pb = true
      then nextStart om pe pb else pb := by
    rw [← hvs, NewPartition_valid_start, hpe, hone]
  have hve1 : ve = if vs < pe ∧ s.has_following_range = true then
      (if range.CellIsNull (pe - 1) = true then (FindPrevStart om vs pe 1).1 else pe)
      else pe := by
    rw [← hve, NewPartition_valid_end, hpe, hvs]
  have hvsle : pb ≤ vs ∧ vs ≤ pe := by
    rw [hvs1]
    split_ifs <;> omega
  -- with a trailing NULL and `vs < pe`, no leading row was excluded
  have hvspb : range.CellIsNull (pe - 1) = true → vs < pe → vs = pb := by
    intro hn hlt2
    by_cases hc : pb < pe ∧ s.has_preceding_range = true ∧ range.CellIsNull pb = true
    · rw [hvs1, if_pos hc] at hlt2
      have := (hL hc.2.2 (pe - 1) (by omega) (by omega)).1 hn
      omega
    · rw [hvs1, if_neg hc]
  have hB : s.has_following_range = true → range.CellIsNull (pe - 1) = true → vs < pe →
      ve = lastStart om (pe - 1) ∧ pb ≤ ve ∧ ve < pe ∧ om.RowIsValidUnsafe ve = true := by
    intro hf hn hlt2
    have hpb := hvspb hn hlt2
    rw [hve1, if_pos ⟨hlt2, hf⟩, if_pos hn, hpb, FindPrevStart_one_last om pb pe hlt
      (by omega) hom]
    obtain ⟨g1, g2⟩ := lastStart_ge_of_set om pb hom (pe - 1) (by omega)
    have g3 := lastStart_le om (pe - 1)
    exact ⟨rfl, g1, by omega, g2⟩
  refine ⟨⟨hlt, hle⟩, fun hp hn => ?_, fun hf hn hlt2 => ?_, fun hge => ?_, ?_,
    fun hA hBn i hi1 hi2 => ?_, fun s' ci bs be hb hk hu => ?_⟩
  · have hv : vs = nextStart om pe pb := by
      rw [hvs1, if_pos ⟨hlt, hp, hn⟩]
    refine ⟨hv, by omega, fun i h1 h2 => ?_, fun h => ?_⟩
    · exact (hL hn i h1 (by omega)).2 (by omega)
    · cases hc : range.CellIsNull vs
      · rfl
      · have := (hL hn vs (by omega) h).1 hc
        omega
  · obtain ⟨b1, b2, b3, b4⟩ := hB hf hn hlt2
    refine ⟨b1, b3, b4, fun i h1 h2 => ?_, fun i h1 h2 => ?_⟩
    · exact (hT hn i (by omega) h2).2 (by omega)
    · cases hc : range.CellIsNull i
      · rfl
      · have := (hT hn i h1 (by omega)).1 hc
        omega
  · rw [hve1, if_neg (by omega)]
  · refine ⟨hvsle.1, ?_, ?_⟩
    · by_cases hc : vs < pe ∧ s.has_following_range = true
      · by_cases hn : range.CellIsNull (pe - 1) = true
        · obtain ⟨b1, b2, b3, _⟩ := hB hc.2 hn hc.1
          have := hvspb hn hc.1
          omega
        · rw [hve1, if_pos hc, if_neg hn]
          omega
      · rw [hve1, if_neg hc]
        omega
    · by_cases hc : vs < pe ∧ s.has_following_range = true
      · by_cases hn : range.CellIsNull (pe - 1) = true
        · obtain ⟨b1, b2, b3, _⟩ := hB hc.2 hn hc.1
          omega
        · rw [hve1, if_pos hc, if_neg hn]
      · rw [hve1, if_neg hc]
  · have hve_le : ve ≤ pe := by
      by_cases hc : vs < pe ∧ s.has_following_range = true
      · by_cases hn : range.CellIsNull (pe - 1) = true
        · obtain ⟨b1, b2, b3, _⟩ := hB hc.2 hn hc.1
          omega
        · rw [hve1, if_pos hc, if_neg hn]
      · rw [hve1, if_neg hc]
    cases hn0 : range.CellIsNull pb
    · cases hn1 : range.CellIsNull (pe - 1)
      · exact hN hn0 hn1 i (by omega) (by omega)
      · have hf := hBn hn1
        obtain ⟨b1, b2, b3, b4⟩ := hB hf hn1 (by omega)
        cases hc : range.CellIsNull i
        · rfl
        · have := (hT hn1 i (by omega) (by omega)).1 hc
          omega
    · have hp := hA hn0
      have hv : vs = nextStart om pe pb := by
        rw [hvs1, if_pos ⟨hlt, hp, hn0⟩]
      cases hc : range.CellIsNull i
      · rfl
      · have := (hL hn0 i (by omega) (by omega)).1 hc
        omega
  · obtain ⟨u1, u2, u3, u4⟩ := UpdatePartition_new s pb range pm om hk hb
    obtain ⟨ws, we, p, e, _⟩ := Update_shape hu
    subst e
    simp only []
    exact ⟨u3, by rw [u4, hpe], by rw [u1, hvs], by rw [u2, hve]⟩

end Window

namespace Window
open ValidityMask
open WindowBoundariesState

/-- C32 (amended), at a concrete input: `RANGE BETWEEN 1 PRECEDING AND 1 FOLLOWING` over
`ORDER BY o NULLS FIRST` on `o = [NULL, NULL, 1, 2]`. At the first row the two leading NULLs
are excluded: `valid_start = 2`, `valid_end = 4`, and the rows 2 and 3 are not NULL. -/
theorem NewPartition_valid_range_witness :
    (0 < (WindowBoundariesState.new rangeAroundExpr 4).input_size ∧
      (WindowBoundariesState.new rangeAroundExpr 4).input_size ≤ 2 ^ 64 - 64 ∧
      ((WindowBoundariesState.new rangeAroundExpr 4).NewPartition 0
        (.ofList [none, none, some 1, some 2]) (ofWords [1]) (ofWords [13])).partition_end
        = 4 ∧
      ((WindowBoundariesState.new rangeAroundExpr 4).NewPartition 0
        (.ofList [none, none, some 1, some 2]) (ofWords [1]) (ofWords [13])).valid_start
        = 2 ∧
      ((WindowBoundariesState.new rangeAroundExpr 4).NewPartition 0
        (.ofList [none, none, some 1, some 2]) (ofWords [1]) (ofWords [13])).valid_end
        = 4 ∧
      (ofWords [13]).RowIsValidUnsafe 0 = true ∧
      NullsOnePeerGroup (.ofList [none, none, some 1, some 2]) (ofWords [13]) 0 4) ∧
    (2 = nextStart (ofWords [13]) 4 0 ∧ 0 < 2 ∧
      (∀ i, 0 ≤ i → i < 2 →
        (WindowInputColumn.ofList [none, none, some 1, some 2]).CellIsNull i = true) ∧
      (2 < 4 → (WindowInputColumn.ofList [none, none, some 1, some 2]).CellIsNull 2 = false)) ∧
    (0 ≤ 2 ∧ 2 ≤ 4 ∧ 4 ≤ 4) ∧
    (∀ i, 2 ≤ i → i < 4 →
      (WindowInputColumn.ofList [none, none, some 1, some 2]).CellIsNull i = false) := by
  have hn : NullsOnePeerGroup (.ofList [none, none, some 1, some 2]) (ofWords [13]) 0 4 := by
    refine ⟨fun _ i h1 h2 => ?_, fun h => absurd h (by decide), fun h => absurd h (by decide)⟩
    interval_cases i <;> decide
  obtain ⟨_, h2, _, _, h5, h6, _⟩ := NewPartition_valid_range
    (WindowBoundariesState.new rangeAroundExpr 4) 0 (.ofList [none, none, some 1, some 2])
    (ofWords [1]) (ofWords [13]) 4 2 4 (by decide) (by decide) (by decide) (by decide)
    (by decide) (by decide) hn
  exact ⟨⟨by decide, by decide, by decide, by decide, by decide, by decide, hn⟩,
    h2 rfl rfl, h5, h6 (fun _ => rfl) (fun h => absurd h (by decide))⟩

end Window

namespace Window
open ValidityMask
open WindowExecutor

/-! ## The IGNORE NULLS mask built by `Sink` -/

theorem store_apply {α : Type} (a : Nat → α) (i : Nat) (v : α) (j : Nat) :
    store a i v j = if j = i then v else a j := rfl

/-- The bits of a mask with a buffer after `Set(row, valid)`. -/
theorem Set_RowIsValidUnsafe (w : Nat → Nat) (row : Nat) (valid : Bool) (q : Nat) :
    (ValidityMask.Set ⟨some w⟩ row valid).AllValid = false ∧
      (ValidityMask.Set ⟨some w⟩ row valid).RowIsValidUnsafe q =
        if q = row then valid else (⟨some w⟩ : ValidityMask).RowIsValidUnsafe q := by
  refine ⟨rfl, ?_⟩
  unfold ValidityMask.Set RowIsValidUnsafe GetValidityEntry GetEntryIndex EntryRowIsValid
    BITS_PER_VALUE
  simp only [store_apply]
  have hlt : q % 64 < 64 := Nat.mod_lt _ (by decide)
  have hones : Nat.testBit (2 ^ 64 - 1) (q % 64) = true := by
    rw [Nat.testBit_two_pow_sub_one]
    exact decide_eq_true hlt
  norm_num at hones
  by_cases he : q / 64 = row / 64
  · rw [if_pos he]
    by_cases hq : q = row
    · subst hq
      rw [if_pos rfl]
      cases valid
      · simp [Nat.testBit_and, Nat.testBit_xor, Nat.testBit_two_pow, hones]
      · simp [Nat.testBit_or, Nat.testBit_two_pow]
    · rw [if_neg hq]
      have hb : row % 64 ≠ q % 64 := by omega
      cases valid
      · simp [Nat.testBit_and, Nat.testBit_xor, Nat.testBit_two_pow, hb, he, hones]
      · simp [Nat.testBit_or, Nat.testBit_two_pow, hb, he]
  · rw [if_neg he, if_neg (by intro h; rw [h] at he; exact he rfl)]

/-- The entries after the copy loop of `Sink`. -/
theorem CopyEntries_apply (src : ValidityMask) :
    ∀ k d s dst e, CopyEntries src k d s dst e =
      if d ≤ e ∧ e < d + k then src.GetValidityEntry (s + (e - d)) else dst e := by
  intro k
  induction k with
  | zero =>
    intro d s dst e
    rw [CopyEntries, if_neg (by omega)]
  | succ k ih =>
    intro d s dst e
    rw [CopyEntries, ih]
    by_cases h : d + 1 ≤ e ∧ e < d + 1 + k
    · rw [if_pos h, if_pos (by omega), show s + 1 + (e - (d + 1)) = s + (e - d) by omega]
    · rw [if_neg h, store_apply]
      by_cases he : e = d
      · rw [if_pos he, if_pos (by omega), he, Nat.sub_self, Nat.add_zero]
      · rw [if_neg he, if_neg (by omega)]

/-- The bits after the bit-by-bit loop of `Sink` on a mask with a buffer. -/
theorem SetRows_spec (validity : ValidityMask) (input_idx : Nat) :
    ∀ k i (w : Nat → Nat),
      (SetRows validity input_idx k i ⟨some w⟩).AllValid = false ∧
      ∀ q, (SetRows validity input_idx k i ⟨some w⟩).RowIsValidUnsafe q =
        if input_idx + i ≤ q ∧ q < input_idx + i + k then validity.RowIsValid (q - input_idx)
        else (⟨some w⟩ : ValidityMask).RowIsValidUnsafe q := by
  intro k
  induction k with
  | zero =>
    intro i w
    refine ⟨rfl, fun q => ?_⟩
    rw [SetRows, if_neg (by omega)]
  | succ k ih =>
    intro i w
    rw [SetRows]
    have hset : ∃ w', ValidityMask.Set ⟨some w⟩ (input_idx + i) (validity.RowIsValid i) =
        ⟨some w'⟩ := ⟨_, rfl⟩
    obtain ⟨w', hw'⟩ := hset
    have hs := Set_RowIsValidUnsafe w (input_idx + i) (validity.RowIsValid i)
    rw [hw'] at hs ⊢
    obtain ⟨h1, h2⟩ := ih (i + 1) w'
    refine ⟨h1, fun q => ?_⟩
    rw [h2 q]
    by_cases hq : input_idx + (i + 1) ≤ q ∧ q < input_idx + (i + 1) + k
    · rw [if_pos hq, if_pos (by omega)]
    · rw [if_neg hq, (hs q).2]
      by_cases he : q = input_idx + i
      · rw [if_pos he, if_pos (by omega), he, show input_idx + i - input_idx = i by omega]
      · rw [if_neg he, if_neg (by omega)]

end Window

namespace Window
open ValidityMask
open WindowExecutor

theorem RowIsValid_of_buffer (w : Nat → Nat) (q : Nat) :
    (⟨some w⟩ : ValidityMask).RowIsValid q = (⟨some w⟩ : ValidityMask).RowIsValidUnsafe q := rfl

theorem RowIsValid_eq_unsafe (mask : ValidityMask) (h : mask.AllValid = false) (q : Nat) :
    mask.RowIsValid q = mask.RowIsValidUnsafe q := by
  unfold RowIsValid
  rw [h]
  rfl

theorem RowIsValid_of_all_valid (mask : ValidityMask) (h : mask.AllValid = true) (q : Nat) :
    mask.RowIsValid q = true := by
  unfold RowIsValid
  rw [h]
  rfl

theorem Sink_wexpr (ex : WindowExecutor) (children : Nat) (batch : PayloadBatch)
    (input_idx total_count : Nat) :
    (ex.Sink children batch input_idx total_count).wexpr = ex.wexpr := by
  unfold Sink
  split_ifs <;> rfl

/-- The mask that `Sink` writes to: the mask of the executor, materialised when it has no
buffer; it has a buffer and the same valid rows. -/
theorem Sink_target (m : ValidityMask) (total_count : Nat) :
    ∃ w0, (if m.AllValid = true then ValidityMask.Initialize total_count else m) = ⟨some w0⟩ ∧
      ∀ q, (⟨some w0⟩ : ValidityMask).RowIsValidUnsafe q = m.RowIsValid q := by
  cases hm : m.validity_mask with
  | none =>
    have hall : m.AllValid = true := by unfold AllValid; rw [hm]; rfl
    refine ⟨fun _ => 2 ^ 64 - 1, by rw [if_pos hall]; rfl, fun q => ?_⟩
    rw [RowIsValid_of_all_valid m hall]
    exact RowIsValidUnsafe_of_all_ones ⟨some (fun _ => 2 ^ 64 - 1)⟩ (fun _ => rfl) q
  | some w =>
    have hall : m.AllValid = false := by unfold AllValid; rw [hm]; rfl
    have hmw : m = ⟨some w⟩ := by
      cases m
      simp only [] at hm
      rw [hm]
    refine ⟨w, by rw [if_neg (by simp [hall])]; exact hmw, fun q => ?_⟩
    rw [hmw]
    rfl

/-- One call of `Sink` for a batch at `input_idx`, when the rows from `input_idx` on are
still valid in the mask: the rows before `input_idx` keep their bits, the rows of the batch
get the validity of the batch, and the rows after the batch are still valid. -/
theorem Sink_step (ex : WindowExecutor) (children : Nat) (batch : PayloadBatch)
    (input_idx total_count : Nat) (hc : 0 < children) (hcheck : check_nulls ex.wexpr = true)
    (hspill : batch.SpillValid)
    (hrest : ∀ i, input_idx ≤ i → ex.ignore_nulls.RowIsValid i = true) :
    (∀ i, i < input_idx →
      (ex.Sink children batch input_idx total_count).ignore_nulls.RowIsValid i =
        ex.ignore_nulls.RowIsValid i) ∧
    (∀ i, input_idx ≤ i → i < input_idx + batch.count →
      (ex.Sink children batch input_idx total_count).ignore_nulls.RowIsValid i =
        batch.validity.RowIsValid (i - input_idx)) ∧
    (∀ i, input_idx + batch.count ≤ i →
      (ex.Sink children batch input_idx total_count).ignore_nulls.RowIsValid i = true) := by
  by_cases hall : batch.validity.AllValid = true
  · have hex : ex.Sink children batch input_idx total_count = ex := by
      unfold Sink
      rw [if_neg (by simp [hall])]
    rw [hex]
    refine ⟨fun i _ => rfl, fun i h1 h2 => ?_, fun i h => hrest i (by omega)⟩
    rw [hrest i h1, RowIsValid_of_all_valid _ hall]
  · have hall2 : batch.validity.AllValid = false := by simpa using hall
    obtain ⟨w0, hw0, hbits⟩ := Sink_target ex.ignore_nulls total_count
    by_cases hal : input_idx % BITS_PER_VALUE = 0
    · have hex : (ex.Sink children batch input_idx total_count).ignore_nulls =
          ⟨some (CopyEntries batch.validity (ValidityMask.EntryCount batch.count)
            (ValidityMask.EntryCount input_idx) 0
            (⟨some w0⟩ : ValidityMask).GetValidityEntry)⟩ := by
        unfold Sink
        rw [if_pos ⟨by omega, hcheck, hall2⟩]
        simp only []
        rw [if_pos hal, hw0]
      have hbit : ∀ q, (ex.Sink children batch input_idx total_count).ignore_nulls.RowIsValid q
          = if input_idx ≤ q ∧ q < input_idx + 64 * ValidityMask.EntryCount batch.count then
              batch.validity.RowIsValidUnsafe (q - input_idx)
            else ex.ignore_nulls.RowIsValid q := by
        intro q
        rw [hex, RowIsValid_of_buffer, ← hbits q]
        unfold BITS_PER_VALUE at hal
        unfold RowIsValidUnsafe GetEntryIndex ValidityMask.EntryCount BITS_PER_VALUE
        simp only []
        have hge : (⟨some (CopyEntries batch.validity ((batch.count + (64 - 1)) / 64)
            ((input_idx + (64 - 1)) / 64) 0 (⟨some w0⟩ : ValidityMask).GetValidityEntry)⟩ :
            ValidityMask).GetValidityEntry (q / 64) =
            CopyEntries batch.validity ((batch.count + (64 - 1)) / 64)
              ((input_idx + (64 - 1)) / 64) 0 (⟨some w0⟩ : ValidityMask).GetValidityEntry
              (q / 64) := rfl
        rw [hge, CopyEntries_apply]
        by_cases hq : input_idx ≤ q ∧ q < input_idx + 64 * ((batch.count + (64 - 1)) / 64)
        · rw [if_pos hq, if_pos (by omega),
            show 0 + (q / 64 - (input_idx + (64 - 1)) / 64) = (q - input_idx) / 64 by omega,
            show (q - input_idx) % 64 = q % 64 by omega]
        · rw [if_neg hq, if_neg (by omega)]
      refine ⟨fun i h => ?_, fun i h1 h2 => ?_, fun i h => ?_⟩
      · rw [hbit i, if_neg (by omega)]
      · have hec : batch.count ≤ 64 * ValidityMask.EntryCount batch.count := by
          unfold ValidityMask.EntryCount BITS_PER_VALUE
          omega
        rw [hbit i, if_pos (by omega), RowIsValid_eq_unsafe _ hall2]
      · rw [hbit i]
        by_cases hq : input_idx ≤ i ∧ i < input_idx + 64 * ValidityMask.EntryCount batch.count
        · rw [if_pos hq]
          exact hspill (i - input_idx) (by have h64 : BITS_PER_VALUE = 64 := rfl; rw [h64]; omega) (by omega)
        · rw [if_neg hq]
          exact hrest i (by omega)
    · have hex : (ex.Sink children batch input_idx total_count).ignore_nulls =
          SetRows batch.validity input_idx batch.count 0 ⟨some w0⟩ := by
        unfold Sink
        rw [if_pos ⟨by omega, hcheck, hall2⟩]
        simp only []
        rw [if_neg hal, hw0]
      obtain ⟨s1, s2⟩ := SetRows_spec batch.validity input_idx batch.count 0 w0
      have hbit : ∀ q, (ex.Sink children batch input_idx total_count).ignore_nulls.RowIsValid q
          = if input_idx ≤ q ∧ q < input_idx + batch.count then
              batch.validity.RowIsValid (q - input_idx)
            else ex.ignore_nulls.RowIsValid q := by
        intro q
        rw [hex, RowIsValid_eq_unsafe _ s1, s2 q, hbits q]
        simp only [Nat.add_zero]
      refine ⟨fun i h => ?_, fun i h1 h2 => ?_, fun i h => ?_⟩
      · rw [hbit i, if_neg (by omega)]
      · rw [hbit i, if_pos ⟨h1, h2⟩]
      · rw [hbit i, if_neg (by omega)]
        exact hrest i (by omega)

end Window

namespace Window
open ValidityMask
open WindowExecutor

/-- The mask after the batches from `input_idx` on are sunk, when the rows from `input_idx`
on are still valid in the mask: the rows before keep their bits, and a row `input_idx + j`
is valid exactly when the row `j` of the batches is non-NULL. -/
theorem SinkAll_spec (children total_count : Nat) (hc : 0 < children) :
    ∀ (batches : List PayloadBatch) (input_idx : Nat) (ex : WindowExecutor),
      check_nulls ex.wexpr = true → (∀ b, b ∈ batches → b.SpillValid) →
      (∀ i, input_idx ≤ i → ex.ignore_nulls.RowIsValid i = true) →
      (∀ i, i < input_idx →
        (SinkAll children total_count batches input_idx ex).ignore_nulls.RowIsValid i =
          ex.ignore_nulls.RowIsValid i) ∧
      (∀ i, input_idx ≤ i →
        (SinkAll children total_count batches input_idx ex).ignore_nulls.RowIsValid i =
          payloadValid batches (i - input_idx)) := by
  intro batches
  induction batches with
  | nil =>
    intro input_idx ex _ _ hrest
    exact ⟨fun i _ => rfl, fun i h => hrest i h⟩
  | cons b rest ih =>
    intro input_idx ex hcheck hspill hrest
    obtain ⟨s1, s2, s3⟩ := Sink_step ex children b input_idx total_count hc hcheck
      (hspill b (List.mem_cons_self _ _)) hrest
    obtain ⟨r1, r2⟩ := ih (input_idx + b.count) (ex.Sink children b input_idx total_count)
      (by rw [Sink_wexpr]; exact hcheck) (fun b' hb' => hspill b' (List.mem_cons_of_mem _ hb'))
      s3
    rw [SinkAll]
    refine ⟨fun i h => ?_, fun i h => ?_⟩
    · rw [r1 i (by omega), s1 i h]
    · rw [payloadValid]
      by_cases hi : i - input_idx < b.count
      · rw [if_pos hi, r1 i (by omega), s2 i h (by omega)]
      · rw [if_neg hi, r2 i (by omega), show i - (input_idx + b.count) =
          i - input_idx - b.count by omega]

/-- The hypothesis on the bits past the rows of a batch cannot be dropped: the copy of whole
entries takes them along. Two batches of three rows for an IGNORE NULLS navigation function,
the first with a NULL at row 0 and a validity entry whose bits past its three rows are
clear (which no buffer allocated with all bits set has), sunk at `input_idx = 0`, the second
without NULL and skipped: after the last `Sink` the bit of row 3, the first row of the
second batch, is clear, although the payload is non-NULL there. -/
theorem Sink_entry_copy_spills :
    check_nulls (ignoreNullsExecutor 6).wexpr = true ∧
      (ignoreNullsExecutor 6).ignore_nulls.AllValid = true ∧
      totalCount [⟨3, ofWords [6]⟩, ⟨3, allValid⟩] = 6 ∧
      payloadValid [⟨3, ofWords [6]⟩, ⟨3, allValid⟩] 3 = true ∧
      (SinkAll 1 6 [⟨3, ofWords [6]⟩, ⟨3, allValid⟩] 0
        (ignoreNullsExecutor 6)).ignore_nulls.RowIsValid 3 = false := by
  decide

end Window

namespace TextTreeRenderer
open Window

/-! ## `AdjustTextForRendering` -/

theorem segments_succ (n : Nat) : segments (n + 1) = segments n ++ [⟨n + 1, n + 1⟩] := by
  unfold segments
  rw [List.range_succ, List.map_append]
  rfl

theorem segments_length (n : Nat) : (segments n).length = n := by
  unfold segments
  simp

theorem segments_getD (n i : Nat) (h : i < n) :
    (segments n).getD i ⟨0, 0⟩ = ⟨i + 1, i + 1⟩ := by
  unfold segments
  simp [List.getD, h]

/-- The first loop on an ASCII string of `SIZE` characters: it ends after all characters
when the string fits, and after `max_render_width + 1` characters when it does not. -/
theorem SegmentLoop_spec (INPUT : List Char) (SIZE max_render_width : Nat)
    (hsize : SIZE < 2 ^ 64) :
    ∀ fuel pos, pos ≤ SIZE → SIZE - pos ≤ fuel → pos ≤ max_render_width →
      SegmentLoop INPUT SIZE max_render_width fuel pos pos (segments pos) =
        if SIZE ≤ max_render_width then (SIZE, segments SIZE)
        else (max_render_width + 1, segments (max_render_width + 1)) := by
  intro fuel
  induction fuel with
  | zero =>
    intro pos h1 h2 h3
    have : pos = SIZE := by omega
    subst this
    rw [SegmentLoop, if_pos h3]
  | succ fuel ih =>
    intro pos h1 h2 h3
    rw [SegmentLoop]
    by_cases hlt : pos < SIZE
    · rw [if_pos hlt]
      have hadd : add64 pos (RenderWidth INPUT SIZE pos) = pos + 1 := by
        unfold add64 RenderWidth
        omega
      simp only [hadd, NextGraphemeCluster, ← segments_succ]
      by_cases hgt : pos + 1 > max_render_width
      · rw [if_pos hgt, if_neg (by omega), show pos = max_render_width by omega]
      · rw [if_neg hgt]
        exact ih (pos + 1) (by omega) (by omega) (by omega)
    · rw [if_neg hlt]
      have : pos = SIZE := by omega
      subst this
      rw [if_pos h3]

/-- The truncation loop on the segments of an ASCII string for a width of at least 6: it
returns at the segment of width `max_render_width - 5`. -/
theorem TruncateLoop_spec (source : List Char) (max_render_width n : Nat)
    (h6 : 6 ≤ max_render_width) (h64 : max_render_width < 2 ^ 64) :
    ∀ pos, max_render_width - 5 ≤ pos → pos ≤ n →
      TruncateLoop source max_render_width (segments n) pos =
        some (source.take (max_render_width - 5) ++ dots ++ List.replicate 2 ' ') := by
  have h4 : sub64 max_render_width 4 = max_render_width - 4 := by
    unfold sub64
    omega
  intro pos
  induction pos with
  | zero => intro h1 _; omega
  | succ pos ih =>
    intro h1 h2
    rw [TruncateLoop]
    simp only [segments_getD n pos (by omega), h4]
    by_cases hc : pos + 1 < max_render_width - 4
    · rw [if_pos hc]
      have hp : pos + 1 = max_render_width - 5 := by omega
      have hs : sub64 (sub64 max_render_width (pos + 1)) 3 = 2 := by
        unfold sub64
        omega
      rw [hs, hp]
    · rw [if_neg hc]
      exact ih (by omega) (by omega)

end TextTreeRenderer

namespace TextTreeRenderer
open Window

theorem SegmentLoop_eq (source : List Char) (max_render_width : Nat)
    (hsize : source.length < 2 ^ 64) :
    SegmentLoop source source.length max_render_width source.length 0 0 [] =
      if source.length ≤ max_render_width then (source.length, segments source.length)
      else (max_render_width + 1, segments (max_render_width + 1)) :=
  SegmentLoop_spec source source.length max_render_width hsize source.length 0
    (Nat.zero_le _) (Nat.le_refl _) (Nat.zero_le _)

/-- The truncation loop for a width below 4: the test is made on the wrapped difference,
which the last segment passes. -/
theorem TruncateLoop_wrap (source : List Char) (max_render_width : Nat)
    (h4 : max_render_width < 4) :
    TruncateLoop source max_render_width (segments (max_render_width + 1))
        (max_render_width + 1) =
      some (source.take (max_render_width + 1) ++ dots ++ List.replicate (2 ^ 64 - 4) ' ') := by
  rw [TruncateLoop]
  simp only [segments_getD (max_render_width + 1) max_render_width (by omega)]
  have h1 : sub64 max_render_width 4 = 2 ^ 64 + max_render_width - 4 := by
    unfold sub64
    omega
  have h2 : sub64 (sub64 max_render_width (max_render_width + 1)) 3 = 2 ^ 64 - 4 := by
    unfold sub64
    omega
  rw [h1, h2, if_pos (by omega)]

/-- The truncation loop for the widths 4 and 5: no segment passes the test. -/
theorem TruncateLoop_none (source : List Char) (max_render_width n : Nat)
    (h4 : 4 ≤ max_render_width) (h6 : max_render_width < 6) :
    ∀ pos, pos ≤ n → TruncateLoop source max_render_width (segments n) pos = none := by
  have h1 : sub64 max_render_width 4 = max_render_width - 4 := by
    unfold sub64
    omega
  intro pos
  induction pos with
  | zero => intro _; rfl
  | succ pos ih =>
    intro h
    rw [TruncateLoop]
    simp only [segments_getD n pos (by omega), h1]
    rw [if_neg (by omega)]
    exact ih (by omega)

/-- The function on a source that is too wide, in terms of the truncation loop. -/
theorem AdjustTextForRendering_wide (source : List Char) (max_render_width : Nat)
    (hsize : source.length < 2 ^ 64) (hwide : max_render_width < source.length) :
    AdjustTextForRendering source max_render_width =
      match TruncateLoop source max_render_width (segments (max_render_width + 1))
          (max_render_width + 1) with
      | some result => result
      | none =>
        List.replicate (add64 (sub64 max_render_width (max_render_width + 1) / 2)
            (if sub64 max_render_width (max_render_width + 1) % 2 = 0 then 0 else 1)) ' ' ++
          dots ++ List.replicate (sub64 max_render_width (max_render_width + 1) / 2) ' ' := by
  have hr := SegmentLoop_eq source max_render_width hsize
  rw [if_neg (by omega)] at hr
  unfold AdjustTextForRendering
  simp only [hr, segments_length]
  have hgt : max_render_width + 1 > max_render_width := by omega
  simp only [hgt, if_true]

/-- The function on a source that fits. -/
theorem AdjustTextForRendering_fits (source : List Char) (max_render_width : Nat)
    (hsize : source.length < 2 ^ 64) (hmax : max_render_width < 2 ^ 64)
    (hfit : source.length ≤ max_render_width) :
    AdjustTextForRendering source max_render_width =
      List.replicate ((max_render_width - source.length) / 2 +
          (max_render_width - source.length) % 2) ' ' ++ source ++
        List.replicate ((max_render_width - source.length) / 2) ' ' := by
  have hr := SegmentLoop_eq source max_render_width hsize
  rw [if_pos hfit] at hr
  unfold AdjustTextForRendering
  simp only [hr]
  have hgt : ¬ source.length > max_render_width := by omega
  simp only [hgt, if_false]
  have hsub : sub64 max_render_width source.length = max_render_width - source.length := by
    unfold sub64
    omega
  rw [hsub]
  have hadd : add64 ((max_render_width - source.length) / 2)
      (if (max_render_width - source.length) % 2 = 0 then 0 else 1) =
      (max_render_width - source.length) / 2 + (max_render_width - source.length) % 2 := by
    unfold add64
    split_ifs <;> omega
  rw [hadd]

/-- The length of the result for a source that is too wide and a width below 4. -/
theorem AdjustTextForRendering_below_four (source : List Char) (max_render_width : Nat)
    (hsize : source.length < 2 ^ 64) (hwide : max_render_width < source.length)
    (h4 : max_render_width < 4) :
    (AdjustTextForRendering source max_render_width).length = 2 ^ 64 + max_render_width := by
  rw [AdjustTextForRendering_wide source max_render_width hsize hwide,
    TruncateLoop_wrap source max_render_width h4]
  simp only [List.length_append, List.length_replicate, List.length_take, dots,
    List.length_cons, List.length_nil]
  omega

/-- The length of the result for a source that is too wide and the widths 4 and 5. -/
theorem AdjustTextForRendering_four_five (source : List Char) (max_render_width : Nat)
    (hsize : source.length < 2 ^ 64) (hwide : max_render_width < source.length)
    (h4 : 4 ≤ max_render_width) (h6 : max_render_width < 6) :
    (AdjustTextForRendering source max_render_width).length = 2 ^ 64 + 2 := by
  rw [AdjustTextForRendering_wide source max_render_width hsize hwide,
    TruncateLoop_none source max_render_width (max_render_width + 1) h4 h6
      (max_render_width + 1) (Nat.le_refl _)]
  have hs : sub64 max_render_width (max_render_width + 1) = 2 ^ 64 - 1 := by
    unfold sub64
    omega
  rw [hs]
  have ha : add64 ((2 ^ 64 - 1) / 2) (if (2 ^ 64 - 1) % 2 = 0 then 0 else 1) = 2 ^ 63 := by
    unfold add64
    rw [if_neg (by omega)]
    omega
  rw [ha]
  have hd : dots.length = 3 := rfl
  rw [List.length_append, List.length_append, List.length_replicate, List.length_replicate,
    hd]
  omega

/-- C40 (counterexample): the ASCII string `abcd` with `max_render_width = 3`. The string is
too wide, and the test `width < max_render_width - 4` is made on the wrapped difference
`2^64 - 1`, so the loop returns at the last segment with `2^64 - 4` spaces requested: no
string of render width 3 is returned. With `abcdef` and `max_render_width = 5` no segment
passes the test, and the padding is computed from the wrapped difference `5 - 6`. -/
theorem AdjustTextForRendering_narrow :
    (AdjustTextForRendering ['a', 'b', 'c', 'd'] 3).length = 2 ^ 64 + 3 ∧
      (AdjustTextForRendering ['a', 'b', 'c', 'd', 'e', 'f'] 5).length = 2 ^ 64 + 2 :=
  ⟨AdjustTextForRendering_below_four ['a', 'b', 'c', 'd'] 3 (by norm_num) (by decide)
      (by decide),
    AdjustTextForRendering_four_five ['a', 'b', 'c', 'd', 'e', 'f'] 5 (by norm_num)
      (by decide) (by decide) (by decide)⟩

/-- C40 (amended): `AdjustTextForRendering(source, max_render_width)` on an ASCII string.
A source that fits is returned unchanged between the spaces that centre it, with the extra
space on the left when the padding is odd. A source that is too wide is, for
`max_render_width ≥ 6`, cut to its first `max_render_width - 5` characters, followed by
`...` and two spaces. In both cases the result has the render width `max_render_width`. -/
theorem AdjustTextForRendering_width (source : List Char) (max_render_width : Nat)
    (hsize : source.length < 2 ^ 64) (hmax : max_render_width < 2 ^ 64) :
    (source.length ≤ max_render_width →
      AdjustTextForRendering source max_render_width =
          List.replicate ((max_render_width - source.length) / 2 +
              (max_render_width - source.length) % 2) ' ' ++ source ++
            List.replicate ((max_render_width - source.length) / 2) ' ' ∧
        (AdjustTextForRendering source max_render_width).length = max_render_width) ∧
    (max_render_width < source.length → 6 ≤ max_render_width →
      AdjustTextForRendering source max_render_width =
          source.take (max_render_width - 5) ++ dots ++ List.replicate 2 ' ' ∧
        (AdjustTextForRendering source max_render_width).length = max_render_width) := by
  constructor
  · intro hfit
    have heq := AdjustTextForRendering_fits source max_render_width hsize hmax hfit
    refine ⟨heq, ?_⟩
    rw [heq]
    simp only [List.length_append, List.length_replicate]
    omega
  · intro hwide h6
    have heq : AdjustTextForRendering source max_render_width =
        source.take (max_render_width - 5) ++ dots ++ List.replicate 2 ' ' := by
      rw [AdjustTextForRendering_wide source max_render_width hsize hwide,
        TruncateLoop_spec source max_render_width (max_render_width + 1) h6 hmax
          (max_render_width + 1) (by omega) (Nat.le_refl _)]
    refine ⟨heq, ?_⟩
    rw [heq]
    simp only [List.length_append, List.length_replicate, List.length_take, dots,
      List.length_cons, List.length_nil]
    omega

/-- C40 (amended), at concrete inputs: `ab` in the width 7 becomes three spaces, `ab` and
two spaces; `abcdefghij` in the width 8 becomes `abc...` and two spaces. -/
theorem AdjustTextForRendering_width_witness :
    ((['a', 'b'] : List Char).length < 2 ^ 64 ∧ 7 < 2 ^ 64 ∧
      (['a', 'b'] : List Char).length ≤ 7) ∧
    (AdjustTextForRendering ['a', 'b'] 7 =
        List.replicate ((7 - (['a', 'b'] : List Char).length) / 2 +
            (7 - (['a', 'b'] : List Char).length) % 2) ' ' ++ ['a', 'b'] ++
          List.replicate ((7 - (['a', 'b'] : List Char).length) / 2) ' ' ∧
      (AdjustTextForRendering ['a', 'b'] 7).length = 7) ∧
    (AdjustTextForRendering ['a', 'b', 'c', 'd', 'e', 'f', 'g', 'h', 'i', 'j'] 8 =
        List.take (8 - 5) ['a', 'b', 'c', 'd', 'e', 'f', 'g', 'h', 'i', 'j'] ++ dots ++
          List.replicate 2 ' ' ∧
      (AdjustTextForRendering ['a', 'b', 'c', 'd', 'e', 'f', 'g', 'h', 'i', 'j'] 8).length =
        8) ∧
    (AdjustTextForRendering ['a', 'b'] 7 = [' ', ' ', ' ', 'a', 'b', ' ', ' '] ∧
      AdjustTextForRendering ['a', 'b', 'c', 'd', 'e', 'f', 'g', 'h', 'i', 'j'] 8 =
        ['a', 'b', 'c', '.', '.', '.', ' ', ' ']) :=
  ⟨⟨by norm_num, by norm_num, by decide⟩,
   (AdjustTextForRendering_width ['a', 'b'] 7 (by norm_num) (by norm_num)).1 (by decide),
   (AdjustTextForRendering_width ['a', 'b', 'c', 'd', 'e', 'f', 'g', 'h', 'i', 'j'] 8
      (by norm_num) (by norm_num)).2 (by decide) (by decide),
   by decide, by decide⟩

end TextTreeRenderer
namespace Window
open ValidityMask
open WindowBoundariesState

/-! ## Executors across batches -/

theorem NextRank_fields (ex : WindowExecutor) (pb kb row : Nat) :
    (ex.NextRank pb kb row).wexpr = ex.wexpr ∧ (ex.NextRank pb kb row).state = ex.state ∧
      (ex.NextRank pb kb row).bounds = ex.bounds ∧ (ex.NextRank pb kb row).range = ex.range := by
  unfold WindowExecutor.NextRank
  simp only []
  split_ifs <;> exact ⟨rfl, rfl, rfl, rfl⟩

/-- The four rank loops leave the same executor. -/
theorem RankLoops_fst (b : BoundsChunk) :
    ∀ k i row (ex : WindowExecutor),
      (WindowExecutor.DenseRankLoop b k i row ex).1 = (WindowExecutor.RankLoop b k i row ex).1 ∧
      (WindowExecutor.PercentRankLoop b k i row ex).1 =
        (WindowExecutor.RankLoop b k i row ex).1 ∧
      (WindowExecutor.CumeDistLoop b k i row ex).1 = (WindowExecutor.RankLoop b k i row ex).1 := by
  intro k
  induction k with
  | zero => intro i row ex; exact ⟨rfl, rfl, rfl⟩
  | succ k ih =>
    intro i row ex
    obtain ⟨h1, h2, h3⟩ := ih (i + 1) (row + 1)
      (ex.NextRank (b.partition_begin i) (b.peer_begin i) row)
    rw [WindowExecutor.DenseRankLoop, WindowExecutor.PercentRankLoop,
      WindowExecutor.CumeDistLoop, WindowExecutor.RankLoop]
    exact ⟨h1, h2, h3⟩

theorem RankLoop_fields (b : BoundsChunk) :
    ∀ k i row (ex : WindowExecutor),
      (WindowExecutor.RankLoop b k i row ex).1.wexpr = ex.wexpr ∧
      (WindowExecutor.RankLoop b k i row ex).1.state = ex.state ∧
      (WindowExecutor.RankLoop b k i row ex).1.bounds = ex.bounds ∧
      (WindowExecutor.RankLoop b k i row ex).1.range = ex.range := by
  intro k
  induction k with
  | zero => intro i row ex; exact ⟨rfl, rfl, rfl, rfl⟩
  | succ k ih =>
    intro i row ex
    obtain ⟨h1, h2, h3, h4⟩ := ih (i + 1) (row + 1)
      (ex.NextRank (b.partition_begin i) (b.peer_begin i) row)
    obtain ⟨g1, g2, g3, g4⟩ := NextRank_fields ex (b.partition_begin i) (b.peer_begin i) row
    rw [WindowExecutor.RankLoop]
    exact ⟨h1.trans g1, h2.trans g2, h3.trans g3, h4.trans g4⟩

/-- One call of `NextRank` on the partition and peer starts of row `row` carries the
invariant of the rank counters to the next row. -/
theorem NextRank_inv (pm om : ValidityMask) (hinv : MaskInvariants pm om) (row : Nat)
    (ex : WindowExecutor) (h : RankInv pm om row ex) :
    RankInv pm om (row + 1) (ex.NextRank (lastStart pm row) (lastStart om row) row) := by
  right
  rw [Nat.add_sub_cancel]
  have hr := NextRank_rank pm om hinv row ex (by
    rcases h with h | h
    · exact Or.inl h
    · exact Or.inr ⟨h.1, h.2.1⟩)
  refine ⟨hr.1, hr.2, ?_⟩
  rw [denseRankAt_step pm om hinv row]
  unfold WindowExecutor.NextRank
  simp only []
  by_cases h1 : lastStart pm row = row
  · simp [h1]
  · have hrow : row ≠ 0 := by
      intro h0; subst h0; exact h1 rfl
    have hex2 : ex.dense_rank = denseRankAt pm om (row - 1) := by
      rcases h with h | h
      · exact absurd h hrow
      · exact h.2.2
    by_cases h2 : lastStart om row = row
    · simp [h1, h2, hex2]
    · simp [h1, h2, hex2]

/-- The loop of `Rank` on a chunk whose partition and peer starts follow the masks carries
the invariant of the rank counters over the batch. -/
theorem RankLoop_inv (pm om : ValidityMask) (hinv : MaskInvariants pm om) (b : BoundsChunk) :
    ∀ k i row (ex : WindowExecutor), RankInv pm om row ex →
      (∀ j, j < k → b.partition_begin (i + j) = lastStart pm (row + j) ∧
        b.peer_begin (i + j) = lastStart om (row + j)) →
      RankInv pm om (row + k) (WindowExecutor.RankLoop b k i row ex).1 := by
  intro k
  induction k with
  | zero => intro i row ex h _; exact h
  | succ k ih =>
    intro i row ex h hb
    have hb0 := hb 0 (by omega)
    simp only [Nat.add_zero] at hb0
    rw [WindowExecutor.RankLoop, show row + (k + 1) = row + 1 + k by omega]
    apply ih (i + 1) (row + 1)
    · rw [hb0.1, hb0.2]
      exact NextRank_inv pm om hinv row ex h
    · intro j hj
      have := hb (j + 1) (by omega)
      rw [show i + 1 + j = i + (j + 1) by omega, show row + 1 + j = row + (j + 1) by omega]
      exact this

/-- A returning `Evaluate` has called `Bounds` with success; it leaves the state and the
chunk of that call and keeps the expression and the ordering column. -/
theorem Evaluate_shape {ex : WindowExecutor} {row k : Nat} {pm om : ValidityMask}
    {out : WindowExecutor × WindowExecutor.ResultVector}
    (h : ex.Evaluate row k pm om = .ok out) :
    ∃ sb, ex.state.Bounds ex.bounds row ex.range k ex.boundary_start ex.boundary_end pm om =
        .ok sb ∧
      out.1.state = sb.1 ∧ out.1.bounds = sb.2 ∧ out.1.wexpr = ex.wexpr ∧
      out.1.range = ex.range := by
  unfold WindowExecutor.Evaluate at h
  cases hb : ex.state.Bounds ex.bounds row ex.range k ex.boundary_start ex.boundary_end pm om with
  | error e =>
    rw [hb] at h
    cases h
  | ok sb =>
    rw [hb] at h
    refine ⟨sb, rfl, ?_⟩
    simp only [] at h
    split at h
    all_goals first
      | (injection h with h; subst h; exact ⟨rfl, rfl, rfl, rfl⟩)
      | (injection h with h; subst h
         simp only [WindowExecutor.DenseRank, WindowExecutor.Rank, WindowExecutor.PercentRank,
           WindowExecutor.CumeDist, (RankLoops_fst _ _ _ _ _).1, (RankLoops_fst _ _ _ _ _).2.1,
           (RankLoops_fst _ _ _ _ _).2.2]
         obtain ⟨g1, g2, g3, g4⟩ := RankLoop_fields sb.2 k 0 row
           { ex with state := sb.1, bounds := sb.2 }
         exact ⟨g2, g3, g1, g4⟩)
      | (split at h
         · cases h
         · injection h with h; subst h; exact ⟨rfl, rfl, rfl, rfl⟩)

/-- A call of `Bounds` for a batch within the input, on the state after the rows before it:
the state it leaves is that after the rows of the batch, and every position holds the cells
of the state after its row. -/
theorem Bounds_rows (wexpr : BoundWindowExpression) (count : Nat) (range : WindowInputColumn)
    (pm om : ValidityMask) (row0 : Nat) (s : WindowBoundariesState)
    (hs : AfterRows wexpr count range pm om row0 s) (k : Nat) (hk : row0 + k ≤ count)
    (b : BoundsChunk) (bs be : WindowInputExpression)
    (sb : WindowBoundariesState × BoundsChunk)
    (hb : s.Bounds b row0 range k bs be pm om = .ok sb) :
    AfterRows wexpr count range pm om (row0 + k) sb.1 ∧
      ∀ i, i < k → ∃ si, AfterRows wexpr count range pm om (row0 + i + 1) si ∧
        sb.2.RowIs i si b := by
  obtain ⟨hI, _, hR⟩ := BoundsLoop_inv range bs be pm om
    (fun row st => row ≤ count → AfterRows wexpr count range pm om row st)
    (fun row ci st st' hinv hu hle =>
      AfterRows.step ci bs be (hinv (by omega)) (by omega) hu)
    k 0 row0 s b sb.1 sb.2 (fun _ => hs) hb
  refine ⟨hI hk, fun i hi => ?_⟩
  obtain ⟨si, hsi, hrow⟩ := hR i hi
  rw [Nat.zero_add] at hrow
  exact ⟨si, hsi (by omega), hrow⟩

/-- The state after the rows `0 .. row` is the result of `Update` at `row` on a state after
the rows `0 .. row - 1`. -/
theorem AfterRows_succ (wexpr : BoundWindowExpression) (count : Nat)
    (range : WindowInputColumn) (pm om : ValidityMask) (row : Nat) (s' : WindowBoundariesState)
    (h : AfterRows wexpr count range pm om (row + 1) s') :
    ∃ s ci bs be, AfterRows wexpr count range pm om row s ∧ row < count ∧
      s.Update row range ci bs be pm om = .ok s' := by
  cases h with
  | step ci bs be hs hrow hu => exact ⟨_, ci, bs, be, hs, hrow, hu⟩

theorem AfterRows_part_inv (wexpr : BoundWindowExpression) (count : Nat)
    (range : WindowInputColumn) (pm om : ValidityMask)
    (hkeys : 0 < wexpr.partitions + wexpr.orders.length ∨
      ∀ i, 0 < i → pm.RowIsValidUnsafe i = false) :
    ∀ row s, AfterRows wexpr count range pm om row s →
      PartInv pm wexpr.partitions wexpr.orders.length row s := by
  intro row s hs
  induction hs with
  | init => exact ⟨rfl, rfl, rfl⟩
  | @step row s s' ci bs be _ _ hu ih =>
    exact PartInv_step pm om _ _ range bs be hkeys row ci s s' ih hu

theorem AfterRows_peer_inv (wexpr : BoundWindowExpression) (count : Nat)
    (range : WindowInputColumn) (pm om : ValidityMask)
    (hsub : ∀ i, pm.RowIsValidUnsafe i = true → om.RowIsValidUnsafe i = true)
    (hkeys : 0 < wexpr.partitions + wexpr.orders.length ∨ SimpleMasks pm om)
    (hnp : (WindowBoundariesState.new wexpr count).needs_peer = true) :
    ∀ row s, AfterRows wexpr count range pm om row s →
      PeerInv pm om wexpr.partitions wexpr.orders.length row s := by
  intro row s hs
  induction hs with
  | init => exact ⟨rfl, rfl, hnp, rfl, rfl⟩
  | @step row s s' ci bs be _ _ hu ih =>
    exact PeerInv_step pm om _ _ range bs be hsub hkeys row ci s s' ih hu

/-- The executor after the rows `0 .. row - 1` holds the expression and the ordering column
of the hash bin, and its boundary state is that after these rows. -/
theorem AfterBatches_state (wexpr : BoundWindowExpression) (count : Nat)
    (range : WindowInputColumn) (pm om : ValidityMask) :
    ∀ row ex, WindowExecutor.AfterBatches wexpr count range pm om row ex →
      ex.wexpr = wexpr ∧ ex.range = range ∧ AfterRows wexpr count range pm om row ex.state := by
  intro row ex h
  induction h with
  | init => exact ⟨rfl, rfl, .init⟩
  | execute off dflt bs be _ ih => exact ih
  | @evaluate row ex out k _ hk he ih =>
    obtain ⟨sb, hb, e1, _, e3, e4⟩ := Evaluate_shape he
    obtain ⟨i1, i2, i3⟩ := ih
    rw [i2] at hb
    refine ⟨e3.trans i1, e4.trans i2, ?_⟩
    rw [e1]
    exact (Bounds_rows wexpr count range pm om row ex.state i3 k hk ex.bounds _ _ sb hb).1

/-- The partition start column of a batch, for every frame. -/
theorem Batch_partition_begin (wexpr : BoundWindowExpression) (count : Nat)
    (range : WindowInputColumn) (pm om : ValidityMask)
    (hkeys : 0 < wexpr.partitions + wexpr.orders.length ∨
      ∀ i, 0 < i → pm.RowIsValidUnsafe i = false)
    (row0 : Nat) (s : WindowBoundariesState) (hs : AfterRows wexpr count range pm om row0 s)
    (k : Nat) (hk : row0 + k ≤ count) (b : BoundsChunk) (bs be : WindowInputExpression)
    (sb : WindowBoundariesState × BoundsChunk)
    (hb : s.Bounds b row0 range k bs be pm om = .ok sb) :
    ∀ i, i < k → sb.2.partition_begin i = lastStart pm (row0 + i) := by
  intro i hi
  obtain ⟨si, hsi, hrow⟩ := (Bounds_rows wexpr count range pm om row0 s hs k hk b bs be sb hb).2
    i hi
  obtain ⟨_, _, hps⟩ := AfterRows_part_inv wexpr count range pm om hkeys _ _ hsi
  rw [Nat.add_sub_cancel] at hps
  rw [hrow.1, hps]

/-- The partition and peer start columns of a batch, for a window that needs peers. -/
theorem Batch_starts (wexpr : BoundWindowExpression) (count : Nat)
    (range : WindowInputColumn) (pm om : ValidityMask)
    (hsub : ∀ i, pm.RowIsValidUnsafe i = true → om.RowIsValidUnsafe i = true)
    (hkeys : 0 < wexpr.partitions + wexpr.orders.length ∨ SimpleMasks pm om)
    (hnp : (WindowBoundariesState.new wexpr count).needs_peer = true)
    (row0 : Nat) (s : WindowBoundariesState) (hs : AfterRows wexpr count range pm om row0 s)
    (k : Nat) (hk : row0 + k ≤ count) (b : BoundsChunk) (bs be : WindowInputExpression)
    (sb : WindowBoundariesState × BoundsChunk)
    (hb : s.Bounds b row0 range k bs be pm om = .ok sb) :
    ∀ i, i < k → sb.2.partition_begin (0 + i) = lastStart pm (row0 + i) ∧
      sb.2.peer_begin (0 + i) = lastStart om (row0 + i) := by
  intro i hi
  obtain ⟨si, hsi, hrow⟩ := (Bounds_rows wexpr count range pm om row0 s hs k hk b bs be sb hb).2
    i hi
  obtain ⟨_, _, hnp1, hps, hks⟩ :=
    AfterRows_peer_inv wexpr count range pm om hsub hkeys hnp _ _ hsi
  rw [Nat.add_sub_cancel] at hps hks
  unfold BoundsChunk.RowIs at hrow
  simp only [hnp1, if_true] at hrow
  rw [Nat.zero_add, hrow.1, hrow.2.2.2.2.1, hps, hks]
  exact ⟨rfl, rfl⟩

/-- The two partition columns of a batch, for every frame. -/
theorem Batch_partition (wexpr : BoundWindowExpression) (count : Nat)
    (range : WindowInputColumn) (pm om : ValidityMask) (h0 : pm.RowIsValidUnsafe 0 = true)
    (hkeys : wexpr.partitions = 0 → ∀ i, 0 < i → pm.RowIsValidUnsafe i = false)
    (hsize : count ≤ 2 ^ 64 - 64)
    (row0 : Nat) (s : WindowBoundariesState) (hs : AfterRows wexpr count range pm om row0 s)
    (k : Nat) (hk : row0 + k ≤ count) (b : BoundsChunk) (bs be : WindowInputExpression)
    (sb : WindowBoundariesState × BoundsChunk)
    (hb : s.Bounds b row0 range k bs be pm om = .ok sb) :
    ∀ i, i < k → sb.2.partition_begin i = lastStart pm (row0 + i) ∧
      sb.2.partition_end i = nextStart pm count (row0 + i) := by
  intro i hi
  obtain ⟨si, hsi, hrow⟩ := (Bounds_rows wexpr count range pm om row0 s hs k hk b bs be sb hb).2
    i hi
  obtain ⟨⟨_, _, hps⟩, _, hE⟩ := AfterRows_inv wexpr count range pm om h0 hkeys hsize _ _ hsi
  have hpe := hE (by omega) (by omega)
  rw [Nat.add_sub_cancel] at hps hpe
  rw [hrow.1, hrow.2.1, hps, hpe]
  exact ⟨rfl, rfl⟩

/-- The four partition and peer columns of a batch, for a window that needs peers. -/
theorem Batch_peers (wexpr : BoundWindowExpression) (count : Nat)
    (range : WindowInputColumn) (pm om : ValidityMask) (hinv : MaskInvariants pm om)
    (hkeys : MasksOfKeys wexpr pm om) (hsize : count ≤ 2 ^ 64 - 64)
    (hnp : (WindowBoundariesState.new wexpr count).needs_peer = true)
    (row0 : Nat) (s : WindowBoundariesState) (hs : AfterRows wexpr count range pm om row0 s)
    (k : Nat) (hk : row0 + k ≤ count) (b : BoundsChunk) (bs be : WindowInputExpression)
    (sb : WindowBoundariesState × BoundsChunk)
    (hb : s.Bounds b row0 range k bs be pm om = .ok sb) :
    ∀ i, i < k → sb.2.partition_begin i = lastStart pm (row0 + i) ∧
      sb.2.partition_end i = nextStart pm count (row0 + i) ∧
      sb.2.peer_begin i = lastStart om (row0 + i) ∧
      sb.2.peer_end i = nextStart om count (row0 + i) := by
  intro i hi
  obtain ⟨si, hsi, hrow⟩ := (Bounds_rows wexpr count range pm om row0 s hs k hk b bs be sb hb).2
    i hi
  obtain ⟨⟨_, _, hnp1, hps, hks⟩, _, hE⟩ :=
    AfterRows_full_inv wexpr count range pm om hinv hkeys hsize hnp _ _ hsi
  obtain ⟨hpe, hke⟩ := hE (by omega) (by omega)
  unfold BoundsChunk.RowIs at hrow
  simp only [hnp1, if_true] at hrow
  rw [Nat.add_sub_cancel] at hps hks hpe hke
  rw [hrow.1, hrow.2.1, hrow.2.2.2.2.1, hrow.2.2.2.2.2, hps, hks, hpe, hke]
  exact ⟨rfl, rfl, rfl, rfl⟩

/-- A call of `Bounds` on a state after some rows returns when the frame bounds read no
expression. -/
theorem Bounds_ok_of_plain (wexpr : BoundWindowExpression) (count : Nat)
    (range : WindowInputColumn) (pm om : ValidityMask) (row0 : Nat)
    (s : WindowBoundariesState) (hs : AfterRows wexpr count range pm om row0 s)
    (hstart : wexpr.start.IsPlainStart) (hend : wexpr.end_boundary.IsPlainEnd)
    (k : Nat) (b : BoundsChunk) (bs be : WindowInputExpression) :
    ∃ sb, s.Bounds b row0 range k bs be pm om = .ok sb := by
  obtain ⟨e1, e2⟩ := AfterRows_boundaries wexpr count range pm om row0 s hs
  exact BoundsLoop_ok_of_plain range bs be pm om k 0 row0 s b (by rw [e1]; exact hstart)
    (by rw [e2]; exact hend)

/-- When `Bounds` returns, `Evaluate` returns for every function but NTILE. -/
theorem Evaluate_ok_of_Bounds (ex : WindowExecutor) (row k : Nat) (pm om : ValidityMask)
    (htype : ex.wexpr.type ≠ .WINDOW_NTILE)
    (sb : WindowBoundariesState × BoundsChunk)
    (hb : ex.state.Bounds ex.bounds row ex.range k ex.boundary_start ex.boundary_end pm om =
      .ok sb) :
    ∃ out, ex.Evaluate row k pm om = .ok out := by
  unfold WindowExecutor.Evaluate
  rw [hb]
  simp only []
  split
  all_goals first
    | exact ⟨_, rfl⟩
    | (rename_i ht; exact absurd ht htype)

/-- The executor after the rows `0 .. row - 1` of a rank function whose window needs peers
satisfies the invariant of the rank counters. -/
theorem AfterBatches_rank (wexpr : BoundWindowExpression) (count : Nat)
    (range : WindowInputColumn) (pm om : ValidityMask) (hinv : MaskInvariants pm om)
    (hkeys : 0 < wexpr.partitions + wexpr.orders.length ∨ SimpleMasks pm om)
    (hnp : (WindowBoundariesState.new wexpr count).needs_peer = true)
    (htype : wexpr.type = .WINDOW_RANK ∨ wexpr.type = .WINDOW_RANK_DENSE ∨
      wexpr.type = .WINDOW_PERCENT_RANK ∨ wexpr.type = .WINDOW_CUME_DIST) :
    ∀ row ex, WindowExecutor.AfterBatches wexpr count range pm om row ex →
      RankInv pm om row ex := by
  intro row ex h
  induction h with
  | init => exact Or.inl rfl
  | execute off dflt bs be _ ih => exact ih
  | @evaluate row ex out k hprev hk he ih =>
    obtain ⟨i1, i2, i3⟩ := AfterBatches_state wexpr count range pm om row ex hprev
    obtain ⟨sb, hb, _⟩ := Evaluate_shape he
    have hchunk := Batch_starts wexpr count range pm om hinv.2.2 hkeys hnp row ex.state i3 k hk
      ex.bounds ex.boundary_start ex.boundary_end sb (by rw [← i2]; exact hb)
    have hinv1 : RankInv pm om row { ex with state := sb.1, bounds := sb.2 } := ih
    have hfin := RankLoop_inv pm om hinv sb.2 k 0 row _ hinv1 hchunk
    have hout : out.1 = (WindowExecutor.RankLoop sb.2 k 0 row
        { ex with state := sb.1, bounds := sb.2 }).1 := by
      unfold WindowExecutor.Evaluate at he
      rw [hb] at he
      simp only [] at he
      rw [← i1] at htype
      rcases htype with ht | ht | ht | ht
      · simp only [ht] at he
        injection he with he
        rw [← he]
        rfl
      · simp only [ht] at he
        injection he with he
        rw [← he]
        exact (RankLoops_fst sb.2 k 0 row _).1
      · simp only [ht] at he
        injection he with he
        rw [← he]
        exact (RankLoops_fst sb.2 k 0 row _).2.1
      · simp only [ht] at he
        injection he with he
        rw [← he]
        exact (RankLoops_fst sb.2 k 0 row _).2.2
    rw [hout]
    exact hfin

end Window
namespace Window
open ValidityMask
open WindowBoundariesState

/-! ## The result of one batch, on the executor left by the batches before it -/

/-- With frame bounds that read no expression, `Evaluate` of a batch returns on every
executor that the batches before it leave, for every function but NTILE. -/
theorem Evaluate_ok_of_plain (wexpr : BoundWindowExpression) (count : Nat)
    (range : WindowInputColumn) (pm om : ValidityMask)
    (htype : wexpr.type ≠ .WINDOW_NTILE)
    (hstart : wexpr.start.IsPlainStart) (hend : wexpr.end_boundary.IsPlainEnd)
    (row k : Nat) (ex : WindowExecutor)
    (hex : WindowExecutor.AfterBatches wexpr count range pm om row ex) :
    ∃ out, ex.Evaluate row k pm om = .ok out := by
  obtain ⟨i1, i2, i3⟩ := AfterBatches_state wexpr count range pm om row ex hex
  obtain ⟨sb, hb⟩ := Bounds_ok_of_plain wexpr count range pm om row ex.state i3 hstart hend k
    ex.bounds ex.boundary_start ex.boundary_end
  exact Evaluate_ok_of_Bounds ex row k pm om (by rw [i1]; exact htype) sb
    (by rw [i2]; exact hb)

/-- The cells of ROW_NUMBER for the batch `[row, row + k)`. -/
theorem RowNumber_batch (wexpr : BoundWindowExpression) (count : Nat)
    (range : WindowInputColumn) (pm om : ValidityMask)
    (htype : wexpr.type = .WINDOW_ROW_NUMBER)
    (hkeys : 0 < wexpr.partitions + wexpr.orders.length ∨
      ∀ i, 0 < i → pm.RowIsValidUnsafe i = false)
    (row k : Nat) (ex : WindowExecutor)
    (hex : WindowExecutor.AfterBatches wexpr count range pm om row ex) (hk : row + k ≤ count)
    (out : WindowExecutor × WindowExecutor.ResultVector)
    (he : ex.Evaluate row k pm om = .ok out) :
    out.2 = .bigint ((List.range k).map
      (fun j => some (((row + j : Nat) : Int) - (lastStart pm (row + j) : Int) + 1))) := by
  obtain ⟨i1, i2, i3⟩ := AfterBatches_state wexpr count range pm om row ex hex
  obtain ⟨sb, hb, _⟩ := Evaluate_shape he
  have hchunk := Batch_partition_begin wexpr count range pm om hkeys row ex.state i3 k hk
    ex.bounds ex.boundary_start ex.boundary_end sb (by rw [← i2]; exact hb)
  unfold WindowExecutor.Evaluate at he
  rw [hb] at he
  simp only [] at he
  rw [← i1] at htype
  simp only [htype] at he
  injection he with he
  rw [← he]
  simp only [WindowExecutor.RowNumber]
  rw [RowNumberLoop_eq]
  congr 1
  apply List.map_congr_left
  intro j hj
  rw [List.mem_range] at hj
  rw [Nat.zero_add, hchunk j hj]

/-- The cells of RANK for the batch `[row, row + k)`, for a window that needs peers. -/
theorem Rank_batch (wexpr : BoundWindowExpression) (count : Nat)
    (range : WindowInputColumn) (pm om : ValidityMask) (hinv : MaskInvariants pm om)
    (htype : wexpr.type = .WINDOW_RANK)
    (hkeys : 0 < wexpr.partitions + wexpr.orders.length ∨ SimpleMasks pm om)
    (hnp : (WindowBoundariesState.new wexpr count).needs_peer = true)
    (row k : Nat) (ex : WindowExecutor)
    (hex : WindowExecutor.AfterBatches wexpr count range pm om row ex) (hk : row + k ≤ count)
    (out : WindowExecutor × WindowExecutor.ResultVector)
    (he : ex.Evaluate row k pm om = .ok out) :
    out.2 = .bigint ((List.range k).map
      (fun j => some ((rankAt pm om (row + j) : Nat) : Int))) := by
  obtain ⟨i1, i2, i3⟩ := AfterBatches_state wexpr count range pm om row ex hex
  have hrank := AfterBatches_rank wexpr count range pm om hinv hkeys hnp (Or.inl htype) row ex hex
  obtain ⟨sb, hb, _⟩ := Evaluate_shape he
  have hchunk := Batch_starts wexpr count range pm om hinv.2.2 hkeys hnp row ex.state i3 k hk
    ex.bounds ex.boundary_start ex.boundary_end sb (by rw [← i2]; exact hb)
  unfold WindowExecutor.Evaluate at he
  rw [hb] at he
  simp only [] at he
  rw [← i1] at htype
  simp only [htype] at he
  injection he with he
  rw [← he]
  simp only [WindowExecutor.Rank]
  rw [RankLoop_eq pm om hinv sb.2 k 0 row _ (by
    rcases hrank with h | h
    · exact Or.inl h
    · exact Or.inr ⟨h.1, h.2.1⟩) hchunk]

/-- The cells of DENSE_RANK for the batch `[row, row + k)`, for a window that needs peers. -/
theorem DenseRank_batch (wexpr : BoundWindowExpression) (count : Nat)
    (range : WindowInputColumn) (pm om : ValidityMask) (hinv : MaskInvariants pm om)
    (htype : wexpr.type = .WINDOW_RANK_DENSE)
    (hkeys : 0 < wexpr.partitions + wexpr.orders.length ∨ SimpleMasks pm om)
    (hnp : (WindowBoundariesState.new wexpr count).needs_peer = true)
    (row k : Nat) (ex : WindowExecutor)
    (hex : WindowExecutor.AfterBatches wexpr count range pm om row ex) (hk : row + k ≤ count)
    (out : WindowExecutor × WindowExecutor.ResultVector)
    (he : ex.Evaluate row k pm om = .ok out) :
    out.2 = .bigint ((List.range k).map
      (fun j => some ((denseRankAt pm om (row + j) : Nat) : Int))) := by
  obtain ⟨i1, i2, i3⟩ := AfterBatches_state wexpr count range pm om row ex hex
  have hrank := AfterBatches_rank wexpr count range pm om hinv hkeys hnp
    (Or.inr (Or.inl htype)) row ex hex
  obtain ⟨sb, hb, _⟩ := Evaluate_shape he
  have hchunk := Batch_starts wexpr count range pm om hinv.2.2 hkeys hnp row ex.state i3 k hk
    ex.bounds ex.boundary_start ex.boundary_end sb (by rw [← i2]; exact hb)
  unfold WindowExecutor.Evaluate at he
  rw [hb] at he
  simp only [] at he
  rw [← i1] at htype
  simp only [htype] at he
  injection he with he
  rw [← he]
  simp only [WindowExecutor.DenseRank]
  rw [DenseRankLoop_eq pm om hinv sb.2 k 0 row _ (by
    rcases hrank with h | h
    · exact Or.inl h
    · exact Or.inr h.2.2) hchunk]

theorem MasksOfKeys_simple (wexpr : BoundWindowExpression) (pm om : ValidityMask)
    (hkeys : MasksOfKeys wexpr pm om) :
    0 < wexpr.partitions + wexpr.orders.length ∨ SimpleMasks pm om := by
  by_cases h : 0 < wexpr.partitions + wexpr.orders.length
  · exact Or.inl h
  · right
    intro i hi
    have h1 := hkeys.1 (by omega) i hi
    exact ⟨h1, by rw [hkeys.2 (by omega) i]; exact h1⟩

/-- The cells of PERCENT_RANK for the batch `[row, row + k)`, for a window that needs peers
over fewer than `2^53` rows. -/
theorem PercentRank_batch (wexpr : BoundWindowExpression) (count : Nat)
    (range : WindowInputColumn) (pm om : ValidityMask) (hinv : MaskInvariants pm om)
    (htype : wexpr.type = .WINDOW_PERCENT_RANK)
    (hkeys : MasksOfKeys wexpr pm om) (h53 : count < 2 ^ 53)
    (hnp : (WindowBoundariesState.new wexpr count).needs_peer = true)
    (row k : Nat) (ex : WindowExecutor)
    (hex : WindowExecutor.AfterBatches wexpr count range pm om row ex) (hk : row + k ≤ count)
    (out : WindowExecutor × WindowExecutor.ResultVector)
    (he : ex.Evaluate row k pm om = .ok out) :
    out.2 = .double ((List.range k).map
      (fun j => some (roundDouble (percentRankAt pm om count (row + j))))) := by
  obtain ⟨i1, i2, i3⟩ := AfterBatches_state wexpr count range pm om row ex hex
  have hrank := AfterBatches_rank wexpr count range pm om hinv
    (MasksOfKeys_simple wexpr pm om hkeys) hnp (Or.inr (Or.inr (Or.inl htype))) row ex hex
  obtain ⟨sb, hb, _⟩ := Evaluate_shape he
  have hchunk := Batch_peers wexpr count range pm om hinv hkeys
    (by have : (2 : Nat) ^ 53 ≤ 2 ^ 64 - 64 := by norm_num
        omega) hnp row ex.state i3 k hk
    ex.bounds ex.boundary_start ex.boundary_end sb (by rw [← i2]; exact hb)
  unfold WindowExecutor.Evaluate at he
  rw [hb] at he
  simp only [] at he
  rw [← i1] at htype
  simp only [htype] at he
  injection he with he
  rw [← he]
  simp only [WindowExecutor.PercentRank]
  rw [PercentRankLoop_eq pm om hinv count h53 sb.2 k 0 row _ hk (by
    rcases hrank with h | h
    · exact Or.inl h
    · exact Or.inr ⟨h.1, h.2.1⟩) (fun j hj => by
      rw [Nat.zero_add]
      exact ⟨(hchunk j hj).1, (hchunk j hj).2.1, (hchunk j hj).2.2.1⟩)]

/-- The cells of CUME_DIST for the batch `[row, row + k)`, over fewer than `2^53` rows. -/
theorem CumeDist_batch (wexpr : BoundWindowExpression) (count : Nat)
    (range : WindowInputColumn) (pm om : ValidityMask) (hinv : MaskInvariants pm om)
    (htype : wexpr.type = .WINDOW_CUME_DIST)
    (hkeys : MasksOfKeys wexpr pm om) (h53 : count < 2 ^ 53)
    (row k : Nat) (ex : WindowExecutor)
    (hex : WindowExecutor.AfterBatches wexpr count range pm om row ex) (hk : row + k ≤ count)
    (out : WindowExecutor × WindowExecutor.ResultVector)
    (he : ex.Evaluate row k pm om = .ok out) :
    out.2 = .double ((List.range k).map
      (fun j => some (roundDouble (cumeDistAt pm om count (row + j))))) := by
  obtain ⟨i1, i2, i3⟩ := AfterBatches_state wexpr count range pm om row ex hex
  have hnp : (WindowBoundariesState.new wexpr count).needs_peer = true := by
    simp [WindowBoundariesState.new, htype]
  obtain ⟨sb, hb, _⟩ := Evaluate_shape he
  have hchunk := Batch_peers wexpr count range pm om hinv hkeys
    (by have : (2 : Nat) ^ 53 ≤ 2 ^ 64 - 64 := by norm_num
        omega) hnp row ex.state i3 k hk
    ex.bounds ex.boundary_start ex.boundary_end sb (by rw [← i2]; exact hb)
  unfold WindowExecutor.Evaluate at he
  rw [hb] at he
  simp only [] at he
  rw [← i1] at htype
  simp only [htype] at he
  injection he with he
  rw [← he]
  simp only [WindowExecutor.CumeDist]
  rw [CumeDistLoop_eq pm om count h53 sb.2 k 0 row _ hk (fun j hj => by
      rw [Nat.zero_add]
      exact ⟨(hchunk j hj).1, (hchunk j hj).2.1, (hchunk j hj).2.2.2⟩)]

end Window
namespace Window
open ValidityMask
open WindowBoundariesState

/-! ## ROW_NUMBER and DENSE_RANK, batch by batch -/

/-- C2: ROW_NUMBER on a hash bin of `count` rows, evaluated batch by batch: any batch
`[row, row + k)` of the bin, on any executor that the batches of the rows `0 .. row - 1`
leave. Whenever `Evaluate` returns, the value at row `r` of the batch is
`r - partition_begin(r) + 1`, where `partition_begin(r)` is the last row up to `r` whose
partition bit is set; hence the rows of a partition that starts at `p` and has `N` rows
receive `1, 2, ..., N` in row order, in whichever batches they lie. With a frame that reads
no boundary expression (such as the default frame) `Evaluate` does return. -/
theorem RowNumber_values (wexpr : BoundWindowExpression) (count : Nat)
    (range : WindowInputColumn) (pm om : ValidityMask)
    (htype : wexpr.type = .WINDOW_ROW_NUMBER)
    (hkeys : 0 < wexpr.partitions + wexpr.orders.length ∨
      ∀ i, 0 < i → pm.RowIsValidUnsafe i = false)
    (row k : Nat) (ex : WindowExecutor)
    (hex : WindowExecutor.AfterBatches wexpr count range pm om row ex)
    (hk : row + k ≤ count) :
    (∀ out, ex.Evaluate row k pm om = .ok out →
        out.2 = .bigint ((List.range k).map
          (fun j => some (((row + j : Nat) : Int) - (lastStart pm (row + j) : Int) + 1))) ∧
        ∀ p N, pm.RowIsValidUnsafe p = true →
          (∀ i, p < i → i < p + N → pm.RowIsValidUnsafe i = false) →
          ∀ j, j < N → row ≤ p + j → p + j < row + k →
            out.2.cells[p + j - row]? = some (some ((j : Int) + 1))) ∧
    (wexpr.start.IsPlainStart → wexpr.end_boundary.IsPlainEnd →
      ∃ out, ex.Evaluate row k pm om = .ok out) := by
  constructor
  · intro out he
    have hcells := RowNumber_batch wexpr count range pm om htype hkeys row k ex hex hk out he
    refine ⟨hcells, ?_⟩
    intro p N hp hrun j hj h1 h2
    rw [hcells]
    simp only [WindowExecutor.ResultVector.cells]
    rw [List.getElem?_map, List.getElem?_range (by omega)]
    have hl := lastStart_run pm p hp j (fun i hi hi2 => hrun i hi (by omega))
    simp only [Option.map_some']
    rw [show row + (p + j - row) = p + j by omega, hl]
    congr 2
    push_cast
    omega
  · intro h1 h2
    exact Evaluate_ok_of_plain wexpr count range pm om (by rw [htype]; decide) h1 h2 row k ex hex

/-- C2, at a concrete input: partitions `[a, a, a, b]` evaluated in two batches of two rows
give `[1, 2]` and then `[3, 1]`. -/
theorem RowNumber_values_witness :
    (rowNumberExpr.type = .WINDOW_ROW_NUMBER ∧
      (0 < rowNumberExpr.partitions + rowNumberExpr.orders.length ∨
        ∀ i, 0 < i → (ofWords [9]).RowIsValidUnsafe i = false) ∧ 2 + 2 ≤ 4) ∧
    resultCells ((plainExecutor rowNumberExpr 4).Evaluate 0 2 (ofWords [9]) (ofWords [11])) =
      some [some 1, some 2] ∧
    resultCells (thenEvaluate
        ((plainExecutor rowNumberExpr 4).Evaluate 0 2 (ofWords [9]) (ofWords [11])) 2 2
        (ofWords [9]) (ofWords [11])) =
      some [some 3, some 1] := by
  refine ⟨⟨rfl, Or.inl (by decide), by decide⟩, ?_⟩
  have h0 : WindowExecutor.AfterBatches rowNumberExpr 4 .empty (ofWords [9]) (ofWords [11]) 0
      (plainExecutor rowNumberExpr 4) := .init _ _ _ _ _ _ _ _
  have h1 := RowNumber_values rowNumberExpr 4 .empty (ofWords [9]) (ofWords [11]) rfl
    (Or.inl (by decide)) 0 2 _ h0 (by decide)
  obtain ⟨out1, hout1⟩ := h1.2 (Or.inl rfl) (Or.inr (Or.inl rfl))
  have hv1 := (h1.1 out1 hout1).1
  have h2 := RowNumber_values rowNumberExpr 4 .empty (ofWords [9]) (ofWords [11]) rfl
    (Or.inl (by decide)) (0 + 2) 2 _ (.evaluate 2 h0 (by decide) hout1) (by decide)
  obtain ⟨out2, hout2⟩ := h2.2 (Or.inl rfl) (Or.inr (Or.inl rfl))
  have hv2 := (h2.1 out2 hout2).1
  rw [hout1]
  simp only [thenEvaluate]
  rw [show (2 : Nat) = 0 + 2 from rfl, hout2]
  simp only [resultCells, hv1, hv2, WindowExecutor.ResultVector.cells]
  decide

/-- C4: DENSE_RANK with the default frame on a hash bin of `count` rows whose masks satisfy
the mask invariants, evaluated batch by batch: any batch `[row, row + k)` of the bin, on any
executor that the batches of the rows `0 .. row - 1` leave. `Evaluate` returns, and the
value at row `r` of the batch is the number of set bits of the order mask at the positions
`partition_begin(r), ..., r`. That number is 1 on the first peer group of every partition,
and from one row to the next in the same partition it grows by one exactly when the next row
starts a peer group. -/
theorem DenseRank_values (wexpr : BoundWindowExpression) (count : Nat)
    (range : WindowInputColumn) (pm om : ValidityMask)
    (htype : wexpr.type = .WINDOW_RANK_DENSE)
    (hstart : wexpr.start = .UNBOUNDED_PRECEDING) (hend : wexpr.end_boundary = .CURRENT_ROW_RANGE)
    (hinv : MaskInvariants pm om)
    (hkeys : 0 < wexpr.partitions + wexpr.orders.length ∨ SimpleMasks pm om)
    (row k : Nat) (ex : WindowExecutor)
    (hex : WindowExecutor.AfterBatches wexpr count range pm om row ex)
    (hk : row + k ≤ count) :
    (∃ out, ex.Evaluate row k pm om = .ok out ∧
      out.2 = .bigint ((List.range k).map
        (fun j => some ((denseRankAt pm om (row + j) : Nat) : Int)))) ∧
    (∀ r, lastStart om r = lastStart pm r → denseRankAt pm om r = 1) ∧
    (∀ r, pm.RowIsValidUnsafe (r + 1) = false →
      denseRankAt pm om (r + 1) =
        denseRankAt pm om r + (if om.RowIsValidUnsafe (r + 1) then 1 else 0)) := by
  refine ⟨?_, denseRankAt_first_group pm om hinv, ?_⟩
  · obtain ⟨out, he⟩ := Evaluate_ok_of_plain wexpr count range pm om (by rw [htype]; decide)
      (Or.inl hstart) (Or.inr (Or.inl hend)) row k ex hex
    exact ⟨out, he, DenseRank_batch wexpr count range pm om hinv htype hkeys
      (needs_peer_of_range_end wexpr count hend) row k ex hex hk out he⟩
  · intro r hb
    have hb2 : ¬ pm.RowIsValidUnsafe (r + 1) = true := by simp [hb]
    have h1 : lastStart pm (r + 1) ≠ r + 1 :=
      fun h => hb2 ((lastStart_eq_self pm hinv.1 (r + 1)).1 h)
    rw [denseRankAt_step pm om hinv (r + 1), if_neg h1, Nat.add_sub_cancel]
    by_cases ho : om.RowIsValidUnsafe (r + 1) = true
    · rw [if_pos ((lastStart_eq_self om hinv.2.1 (r + 1)).2 ho)]; simp [ho]
    · rw [if_neg (fun h => ho ((lastStart_eq_self om hinv.2.1 (r + 1)).1 h))]; simp [ho]

/-- C4, at a concrete input: `DENSE_RANK() OVER (ORDER BY o)` on `o = [10, 20, 20, 30]`,
evaluated in two batches of two rows, gives `[1, 2]` and then `[2, 3]`. -/
theorem DenseRank_values_witness :
    (denseRankExpr.type = .WINDOW_RANK_DENSE ∧ denseRankExpr.start = .UNBOUNDED_PRECEDING ∧
      denseRankExpr.end_boundary = .CURRENT_ROW_RANGE ∧
      (0 < denseRankExpr.partitions + denseRankExpr.orders.length ∨
        SimpleMasks (ofWords [1]) (ofWords [11])) ∧ 2 + 2 ≤ 4) ∧
    resultCells ((plainExecutor denseRankExpr 4).Evaluate 0 2 (ofWords [1]) (ofWords [11])) =
      some [some 1, some 2] ∧
    resultCells (thenEvaluate
        ((plainExecutor denseRankExpr 4).Evaluate 0 2 (ofWords [1]) (ofWords [11])) 2 2
        (ofWords [1]) (ofWords [11])) =
      some [some 2, some 3] := by
  refine ⟨⟨rfl, rfl, rfl, Or.inl (by decide), by decide⟩, ?_⟩
  have hm : MaskInvariants (ofWords [1]) (ofWords [11]) :=
    ⟨by decide, by decide, ofWords_single_sub 1 11 (by decide)⟩
  have h0 : WindowExecutor.AfterBatches denseRankExpr 4 .empty (ofWords [1]) (ofWords [11]) 0
      (plainExecutor denseRankExpr 4) := .init _ _ _ _ _ _ _ _
  obtain ⟨out1, hout1, hv1⟩ := (DenseRank_values denseRankExpr 4 .empty (ofWords [1])
    (ofWords [11]) rfl rfl rfl hm (Or.inl (by decide)) 0 2 _ h0 (by decide)).1
  obtain ⟨out2, hout2, hv2⟩ := (DenseRank_values denseRankExpr 4 .empty (ofWords [1])
    (ofWords [11]) rfl rfl rfl hm (Or.inl (by decide)) (0 + 2) 2 _
    (.evaluate 2 h0 (by decide) hout1) (by decide)).1
  rw [hout1]
  simp only [thenEvaluate]
  rw [show (2 : Nat) = 0 + 2 from rfl, hout2]
  simp only [resultCells, hv1, hv2, WindowExecutor.ResultVector.cells]
  decide

end Window
namespace Window
open ValidityMask
open WindowBoundariesState

/-! ## PERCENT_RANK and CUME_DIST, batch by batch -/

theorem percentRankAt_unit (pm om : ValidityMask) (hinv : MaskInvariants pm om)
    (count r : Nat) (hr : r < count) :
    0 ≤ percentRankAt pm om count r ∧ percentRankAt pm om count r ≤ 1 := by
  obtain ⟨f1, _, _, _⟩ := nextStart_spec pm count r hr
  have h1 := lastStart_sub pm om hinv r
  have h2 := lastStart_le om r
  unfold percentRankAt
  by_cases h : partitionSize pm count r > 1
  · rw [if_pos h]
    have hnum : ((rankAt pm om r : Nat) : Rat) - 1 =
        ((lastStart om r - lastStart pm r : Nat) : Rat) := by
      unfold rankAt
      push_cast
      ring
    have hden : ((partitionSize pm count r : Nat) : Rat) - 1 =
        ((partitionSize pm count r - 1 : Nat) : Rat) := by
      rw [Nat.cast_sub (by omega)]
      simp
    have hpos : (0 : Rat) < ((partitionSize pm count r - 1 : Nat) : Rat) :=
      Nat.cast_pos.2 (by omega)
    rw [hnum, hden]
    refine ⟨div_nonneg (Nat.cast_nonneg _) (Nat.cast_nonneg _), ?_⟩
    rw [div_le_one hpos]
    have hle : lastStart om r - lastStart pm r ≤ partitionSize pm count r - 1 := by
      unfold partitionSize
      omega
    exact_mod_cast hle
  · rw [if_neg h]
    exact ⟨le_refl _, zero_le_one⟩

theorem percentRankAt_first (pm om : ValidityMask) (count r : Nat)
    (h : lastStart om r = lastStart pm r) : percentRankAt pm om count r = 0 := by
  unfold percentRankAt rankAt
  rw [h]
  split
  · simp
  · rfl

theorem cumeDistAt_unit (pm om : ValidityMask) (hinv : MaskInvariants pm om)
    (count r : Nat) (hr : r < count) :
    0 < cumeDistAt pm om count r ∧ cumeDistAt pm om count r ≤ 1 := by
  have h1 := lastStart_le pm r
  have h2 := (nextStart_spec om count r hr).1
  have h3 := nextStart_sub pm om hinv count r hr
  have hpos : (0 : Rat) < ((partitionSize pm count r : Nat) : Rat) :=
    Nat.cast_pos.2 (by unfold partitionSize; omega)
  unfold cumeDistAt
  refine ⟨div_pos (Nat.cast_pos.2 (by omega)) hpos, ?_⟩
  rw [div_le_one hpos]
  have hle : nextStart om count r - lastStart pm r ≤ partitionSize pm count r := by
    unfold partitionSize
    omega
  exact_mod_cast hle

theorem cumeDistAt_mono (pm om : ValidityMask) (count r r2 : Nat) (h12 : r ≤ r2)
    (hr2 : r2 < count) (hsame : lastStart pm r = lastStart pm r2) :
    cumeDistAt pm om count r ≤ cumeDistAt pm om count r2 := by
  have hun : ∀ q, r < q → q ≤ r2 → pm.RowIsValidUnsafe q = false := by
    intro q h1 h2
    have hl := lastStart_le pm r
    exact lastStart_unset pm r2 q (by omega) h2
  have hpe := nextStart_const pm count r r2 h12 hr2 hun
  have hmono := nextStart_mono om count r r2 h12 hr2
  unfold cumeDistAt partitionSize
  rw [hpe, hsame]
  apply div_le_div_of_nonneg_right _ (Nat.cast_nonneg _)
  have hle : nextStart om count r - lastStart pm r2 ≤
      nextStart om count r2 - lastStart pm r2 := by omega
  exact_mod_cast hle

theorem cumeDistAt_last (pm om : ValidityMask) (hinv : MaskInvariants pm om)
    (count r : Nat) (hr : r < count)
    (hlast : ∀ q, r < q → q < nextStart pm count r → om.RowIsValidUnsafe q = false) :
    cumeDistAt pm om count r = 1 := by
  have h1 := lastStart_le pm r
  obtain ⟨f1, f2, f3, f4⟩ := nextStart_spec pm count r hr
  have heq : nextStart om count r = nextStart pm count r :=
    nextStart_unique om count r _ f1 f2 hlast (fun h => hinv.2.2 _ (f4 h))
  unfold cumeDistAt partitionSize
  rw [heq]
  exact div_self (Nat.cast_ne_zero.2 (by omega))

/-- The `double` nearest to two thirds, `0.66666666666666662965923251249478198587894439697265625`. -/
theorem roundDouble_two_thirds :
    roundDouble (2 / 3) = 6004799503160661 / 9007199254740992 := by
  rw [roundDouble_of_binade (2 / 3) (-1) (by norm_num) (by norm_num)]
  have hq : (2 / 3 : Rat) / 2 ^ ((-1 : Int) - 52) = 18014398509481984 / 3 := by
    rw [show ((-1 : Int) - 52) = -(53 : Nat) by norm_num, zpow_neg, zpow_natCast]
    norm_num
  have hfl : ⌊(18014398509481984 / 3 : Rat)⌋ = 6004799503160661 := by
    rw [Int.floor_eq_iff]
    constructor <;> norm_num
  rw [hq]
  unfold roundHalfEven
  rw [hfl, if_pos (by norm_num)]
  rw [show ((-1 : Int) - 52) = -(53 : Nat) by norm_num, zpow_neg, zpow_natCast]
  norm_num

/-- The values of PERCENT_RANK in the words of the specification for `o = [10, 20, 20, 30]`. -/
theorem percentRankAt_example :
    percentRankAt (ofWords [1]) (ofWords [11]) 4 0 = 0 ∧
    percentRankAt (ofWords [1]) (ofWords [11]) 4 1 = 1 / 3 ∧
    percentRankAt (ofWords [1]) (ofWords [11]) 4 2 = 1 / 3 ∧
    percentRankAt (ofWords [1]) (ofWords [11]) 4 3 = 1 := by
  unfold percentRankAt
  rw [show partitionSize (ofWords [1]) 4 0 = 4 by decide,
    show partitionSize (ofWords [1]) 4 1 = 4 by decide,
    show partitionSize (ofWords [1]) 4 2 = 4 by decide,
    show partitionSize (ofWords [1]) 4 3 = 4 by decide,
    show rankAt (ofWords [1]) (ofWords [11]) 0 = 1 by decide,
    show rankAt (ofWords [1]) (ofWords [11]) 1 = 2 by decide,
    show rankAt (ofWords [1]) (ofWords [11]) 2 = 2 by decide,
    show rankAt (ofWords [1]) (ofWords [11]) 3 = 4 by decide]
  norm_num

/-- The values of CUME_DIST in the words of the specification for `o = [10, 20, 30]`. -/
theorem cumeDistAt_example :
    cumeDistAt (ofWords [1]) (ofWords [7]) 3 0 = 1 / 3 ∧
    cumeDistAt (ofWords [1]) (ofWords [7]) 3 1 = 2 / 3 ∧
    cumeDistAt (ofWords [1]) (ofWords [7]) 3 2 = 1 := by
  unfold cumeDistAt partitionSize
  rw [show nextStart (ofWords [1]) 3 0 = 3 by decide,
    show nextStart (ofWords [1]) 3 1 = 3 by decide,
    show nextStart (ofWords [1]) 3 2 = 3 by decide,
    show nextStart (ofWords [7]) 3 0 = 1 by decide,
    show nextStart (ofWords [7]) 3 1 = 2 by decide,
    show nextStart (ofWords [7]) 3 2 = 3 by decide,
    show lastStart (ofWords [1]) 0 = 0 by decide,
    show lastStart (ofWords [1]) 1 = 0 by decide,
    show lastStart (ofWords [1]) 2 = 0 by decide]
  norm_num

theorem masks_example_11 : MaskInvariants (ofWords [1]) (ofWords [11]) :=
  ⟨by decide, by decide, ofWords_single_sub 1 11 (by decide)⟩

theorem masks_example_7 : MaskInvariants (ofWords [1]) (ofWords [7]) :=
  ⟨by decide, by decide, ofWords_single_sub 1 7 (by decide)⟩

/-- C16 (counterexample): `PERCENT_RANK() OVER (ORDER BY o)` on `o = [10, 20, 20, 30]`, the
four rows in one batch. At the rows 1 and 2 the value `(RANK - 1) / (size - 1)` is `1/3`;
the cell that `Evaluate` writes is the `double` `6004799503160661 / 2^54`, which is not the
rational `1/3`. -/
theorem PercentRank_not_exact :
    doubleCells ((plainExecutor percentRankExpr 4).Evaluate 0 4 (ofWords [1]) (ofWords [11])) =
      some [some 0, some (6004799503160661 / 18014398509481984),
        some (6004799503160661 / 18014398509481984), some 1] ∧
    percentRankAt (ofWords [1]) (ofWords [11]) 4 1 = 1 / 3 ∧
    (6004799503160661 / 18014398509481984 : Rat) ≠ 1 / 3 := by
  refine ⟨?_, percentRankAt_example.2.1, by norm_num⟩
  have hk : MasksOfKeys percentRankExpr (ofWords [1]) (ofWords [11]) :=
    ⟨fun _ => ofWords_one_simple, fun h => absurd h (by decide)⟩
  have h0 : WindowExecutor.AfterBatches percentRankExpr 4 .empty (ofWords [1]) (ofWords [11]) 0
      (plainExecutor percentRankExpr 4) := .init _ _ _ _ _ _ _ _
  obtain ⟨out, he⟩ := Evaluate_ok_of_plain percentRankExpr 4 .empty (ofWords [1]) (ofWords [11])
    (by decide) (Or.inl rfl) (Or.inr (Or.inl rfl)) 0 4 _ h0
  have hv := PercentRank_batch percentRankExpr 4 .empty (ofWords [1]) (ofWords [11])
    masks_example_11 rfl hk (by norm_num) rfl 0 4 _ h0 (by decide) out he
  obtain ⟨e0, e1, e2, e3⟩ := percentRankAt_example
  rw [he]
  obtain ⟨o1, o2⟩ := out
  simp only [] at hv
  subst hv
  simp only [doubleCells, List.range_succ, List.range_zero, List.nil_append, List.map_append,
    List.map_cons, List.map_nil, List.cons_append, Nat.zero_add, Nat.add_zero, e0, e1, e2, e3,
    roundDouble_zero, roundDouble_third, roundDouble_one]

/-- C16: PERCENT_RANK on a hash bin of `count < 2^53` rows, for a window whose end bound is
in RANGE mode (as in the default frame) and masks that satisfy the mask invariants and agree
with the keys, evaluated batch by batch: any batch `[row, row + k)` of the bin, on any
executor that the batches of the rows `0 .. row - 1` leave. Whenever `Evaluate` returns, the
cell at row `r` of the batch is the `double` nearest to `percentRankAt`, which is
`(RANK(r) - 1) / (size - 1)` when the partition of `r` has more than one row and 0
otherwise, where `RANK(r)` is `rankAt`;
with frame bounds that read no expression `Evaluate` does return. That `double` lies in
`[0, 1]` and is 0 on the first peer group of every partition. -/
theorem PercentRank_values (wexpr : BoundWindowExpression) (count : Nat)
    (range : WindowInputColumn) (pm om : ValidityMask)
    (htype : wexpr.type = .WINDOW_PERCENT_RANK)
    (hend : BoundaryNeedsPeer wexpr.end_boundary = true)
    (hinv : MaskInvariants pm om) (hkeys : MasksOfKeys wexpr pm om) (h53 : count < 2 ^ 53)
    (row k : Nat) (ex : WindowExecutor)
    (hex : WindowExecutor.AfterBatches wexpr count range pm om row ex)
    (hk : row + k ≤ count) :
    (∀ out, ex.Evaluate row k pm om = .ok out →
      out.2 = .double ((List.range k).map
        (fun j => some (roundDouble (percentRankAt pm om count (row + j)))))) ∧
    (wexpr.start.IsPlainStart → wexpr.end_boundary.IsPlainEnd →
      ∃ out, ex.Evaluate row k pm om = .ok out) ∧
    (∀ r, r < count → 0 ≤ roundDouble (percentRankAt pm om count r) ∧
      roundDouble (percentRankAt pm om count r) ≤ 1) ∧
    (∀ r, lastStart om r = lastStart pm r → roundDouble (percentRankAt pm om count r) = 0) := by
  refine ⟨fun out he => PercentRank_batch wexpr count range pm om hinv htype hkeys h53
      (by simp [WindowBoundariesState.new, hend]) row k ex hex hk out he,
    fun h1 h2 => Evaluate_ok_of_plain wexpr count range pm om (by rw [htype]; decide) h1 h2
      row k ex hex, ?_, ?_⟩
  · intro r hr
    obtain ⟨h1, h2⟩ := percentRankAt_unit pm om hinv count r hr
    constructor
    · have := roundDouble_mono 0 _ (le_refl _) h1
      rwa [roundDouble_zero] at this
    · have := roundDouble_mono _ 1 h1 h2
      rwa [roundDouble_one] at this
  · intro r h
    rw [percentRankAt_first pm om count r h, roundDouble_zero]

/-- C16, at a concrete input: `PERCENT_RANK() OVER (ORDER BY o)` on `o = [10, 20, 20, 30]`,
evaluated in two batches of two rows, gives `[0, d]` and then `[d, 1]`, where `d` is the
`double` nearest to `1/3`. -/
theorem PercentRank_values_witness :
    (percentRankExpr.type = .WINDOW_PERCENT_RANK ∧
      BoundaryNeedsPeer percentRankExpr.end_boundary = true ∧
      MaskInvariants (ofWords [1]) (ofWords [11]) ∧
      MasksOfKeys percentRankExpr (ofWords [1]) (ofWords [11]) ∧ 4 < 2 ^ 53 ∧ 2 + 2 ≤ 4) ∧
    doubleCells ((plainExecutor percentRankExpr 4).Evaluate 0 2 (ofWords [1]) (ofWords [11])) =
      some [some 0, some (6004799503160661 / 18014398509481984)] ∧
    doubleCells (thenEvaluate
        ((plainExecutor percentRankExpr 4).Evaluate 0 2 (ofWords [1]) (ofWords [11])) 2 2
        (ofWords [1]) (ofWords [11])) =
      some [some (6004799503160661 / 18014398509481984), some 1] := by
  have hk : MasksOfKeys percentRankExpr (ofWords [1]) (ofWords [11]) :=
    ⟨fun _ => ofWords_one_simple, fun h => absurd h (by decide)⟩
  refine ⟨⟨rfl, rfl, masks_example_11, hk, by norm_num, by decide⟩, ?_⟩
  have h0 : WindowExecutor.AfterBatches percentRankExpr 4 .empty (ofWords [1]) (ofWords [11]) 0
      (plainExecutor percentRankExpr 4) := .init _ _ _ _ _ _ _ _
  have t1 := PercentRank_values percentRankExpr 4 .empty (ofWords [1]) (ofWords [11]) rfl rfl
    masks_example_11 hk (by norm_num) 0 2 _ h0 (by decide)
  obtain ⟨out1, hout1⟩ := t1.2.1 (Or.inl rfl) (Or.inr (Or.inl rfl))
  have hv1 := t1.1 out1 hout1
  have t2 := PercentRank_values percentRankExpr 4 .empty (ofWords [1]) (ofWords [11]) rfl rfl
    masks_example_11 hk (by norm_num) (0 + 2) 2 _ (.evaluate 2 h0 (by decide) hout1)
    (by decide)
  obtain ⟨out2, hout2⟩ := t2.2.1 (Or.inl rfl) (Or.inr (Or.inl rfl))
  have hv2 := t2.1 out2 hout2
  obtain ⟨e0, e1, e2, e3⟩ := percentRankAt_example
  rw [hout1]
  simp only [thenEvaluate]
  rw [show (2 : Nat) = 0 + 2 from rfl, hout2]
  obtain ⟨o1, o2⟩ := out1
  obtain ⟨p1, p2⟩ := out2
  simp only [] at hv1 hv2
  subst hv1
  subst hv2
  simp only [doubleCells, List.range_succ, List.range_zero, List.nil_append, List.map_append,
    List.map_cons, List.map_nil, List.cons_append, Nat.zero_add, Nat.add_zero, e0, e1, e2, e3,
    roundDouble_zero, roundDouble_third, roundDouble_one]
  exact ⟨trivial, trivial⟩

/-- C17 (counterexample): `CUME_DIST() OVER (ORDER BY o)` on `o = [10, 20, 30]`, the three
rows in one batch. At the rows 0 and 1 the value `(peer_end - partition_begin) / size` is
`1/3` and `2/3`; the cells that `Evaluate` writes are the `double`s `6004799503160661 / 2^54`
and `6004799503160661 / 2^53`, which are not these rationals. -/
theorem CumeDist_not_exact :
    doubleCells ((plainExecutor cumeDistExpr 3).Evaluate 0 3 (ofWords [1]) (ofWords [7])) =
      some [some (6004799503160661 / 18014398509481984),
        some (6004799503160661 / 9007199254740992), some 1] ∧
    cumeDistAt (ofWords [1]) (ofWords [7]) 3 0 = 1 / 3 ∧
    cumeDistAt (ofWords [1]) (ofWords [7]) 3 1 = 2 / 3 ∧
    (6004799503160661 / 18014398509481984 : Rat) ≠ 1 / 3 ∧
    (6004799503160661 / 9007199254740992 : Rat) ≠ 2 / 3 := by
  refine ⟨?_, cumeDistAt_example.1, cumeDistAt_example.2.1, by norm_num, by norm_num⟩
  have hk : MasksOfKeys cumeDistExpr (ofWords [1]) (ofWords [7]) :=
    ⟨fun _ => ofWords_one_simple, fun h => absurd h (by decide)⟩
  have h0 : WindowExecutor.AfterBatches cumeDistExpr 3 .empty (ofWords [1]) (ofWords [7]) 0
      (plainExecutor cumeDistExpr 3) := .init _ _ _ _ _ _ _ _
  obtain ⟨out, he⟩ := Evaluate_ok_of_plain cumeDistExpr 3 .empty (ofWords [1]) (ofWords [7])
    (by decide) (Or.inl rfl) (Or.inr (Or.inl rfl)) 0 3 _ h0
  have hv := CumeDist_batch cumeDistExpr 3 .empty (ofWords [1]) (ofWords [7])
    masks_example_7 rfl hk (by norm_num) 0 3 _ h0 (by decide) out he
  obtain ⟨e0, e1, e2⟩ := cumeDistAt_example
  rw [he]
  obtain ⟨o1, o2⟩ := out
  simp only [] at hv
  subst hv
  simp only [doubleCells, List.range_succ, List.range_zero, List.nil_append, List.map_append,
    List.map_cons, List.map_nil, List.cons_append, Nat.zero_add, Nat.add_zero, e0, e1, e2,
    roundDouble_third, roundDouble_two_thirds, roundDouble_one]

/-- C17: CUME_DIST on a hash bin of `count < 2^53` rows, for any frame and masks that satisfy
the mask invariants and agree with the keys, evaluated batch by batch: any batch
`[row, row + k)` of the bin, on any executor that the batches of the rows `0 .. row - 1`
leave. Whenever `Evaluate` returns, the cell at row `r` of the batch is the `double` nearest
to `cumeDistAt`, which is
`(peer_end(r) - partition_begin(r)) / (partition_end(r) - partition_begin(r))`, with
`peer_end(r)` one past the last row of the peer group of `r`; with frame bounds that read no
expression `Evaluate` does return. That `double` lies in `(0, 1]`, is non-decreasing within
a partition, and is 1 on the last peer group of every partition. -/
theorem CumeDist_values (wexpr : BoundWindowExpression) (count : Nat)
    (range : WindowInputColumn) (pm om : ValidityMask)
    (htype : wexpr.type = .WINDOW_CUME_DIST)
    (hinv : MaskInvariants pm om) (hkeys : MasksOfKeys wexpr pm om) (h53 : count < 2 ^ 53)
    (row k : Nat) (ex : WindowExecutor)
    (hex : WindowExecutor.AfterBatches wexpr count range pm om row ex)
    (hk : row + k ≤ count) :
    (∀ out, ex.Evaluate row k pm om = .ok out →
      out.2 = .double ((List.range k).map
        (fun j => some (roundDouble (cumeDistAt pm om count (row + j)))))) ∧
    (wexpr.start.IsPlainStart → wexpr.end_boundary.IsPlainEnd →
      ∃ out, ex.Evaluate row k pm om = .ok out) ∧
    (∀ r, r < count → 0 < roundDouble (cumeDistAt pm om count r) ∧
      roundDouble (cumeDistAt pm om count r) ≤ 1) ∧
    (∀ r r2, r ≤ r2 → r2 < count → lastStart pm r = lastStart pm r2 →
      roundDouble (cumeDistAt pm om count r) ≤ roundDouble (cumeDistAt pm om count r2)) ∧
    (∀ r, r < count →
      (∀ q, r < q → q < nextStart pm count r → om.RowIsValidUnsafe q = false) →
      roundDouble (cumeDistAt pm om count r) = 1) := by
  refine ⟨fun out he => CumeDist_batch wexpr count range pm om hinv htype hkeys h53
      row k ex hex hk out he,
    fun h1 h2 => Evaluate_ok_of_plain wexpr count range pm om (by rw [htype]; decide) h1 h2
      row k ex hex, ?_, ?_, ?_⟩
  · intro r hr
    obtain ⟨h1, h2⟩ := cumeDistAt_unit pm om hinv count r hr
    refine ⟨roundDouble_pos _ h1, ?_⟩
    have := roundDouble_mono _ 1 (le_of_lt h1) h2
    rwa [roundDouble_one] at this
  · intro r r2 h12 hr2 hsame
    exact roundDouble_mono _ _ (le_of_lt (cumeDistAt_unit pm om hinv count r (by omega)).1)
      (cumeDistAt_mono pm om count r r2 h12 hr2 hsame)
  · intro r hr hlast
    rw [cumeDistAt_last pm om hinv count r hr hlast, roundDouble_one]

/-- C17, at a concrete input: `CUME_DIST() OVER (ORDER BY o)` on `o = [10, 20, 30]`,
evaluated in a batch of two rows and a batch of one row, gives the `double`s nearest to
`1/3` and `2/3`, and then `[1]`. -/
theorem CumeDist_values_witness :
    (cumeDistExpr.type = .WINDOW_CUME_DIST ∧
      MaskInvariants (ofWords [1]) (ofWords [7]) ∧
      MasksOfKeys cumeDistExpr (ofWords [1]) (ofWords [7]) ∧ 3 < 2 ^ 53 ∧ 2 + 1 ≤ 3) ∧
    doubleCells ((plainExecutor cumeDistExpr 3).Evaluate 0 2 (ofWords [1]) (ofWords [7])) =
      some [some (6004799503160661 / 18014398509481984),
        some (6004799503160661 / 9007199254740992)] ∧
    doubleCells (thenEvaluate
        ((plainExecutor cumeDistExpr 3).Evaluate 0 2 (ofWords [1]) (ofWords [7])) 2 1
        (ofWords [1]) (ofWords [7])) =
      some [some 1] := by
  have hk : MasksOfKeys cumeDistExpr (ofWords [1]) (ofWords [7]) :=
    ⟨fun _ => ofWords_one_simple, fun h => absurd h (by decide)⟩
  refine ⟨⟨rfl, masks_example_7, hk, by norm_num, by decide⟩, ?_⟩
  have h0 : WindowExecutor.AfterBatches cumeDistExpr 3 .empty (ofWords [1]) (ofWords [7]) 0
      (plainExecutor cumeDistExpr 3) := .init _ _ _ _ _ _ _ _
  have t1 := CumeDist_values cumeDistExpr 3 .empty (ofWords [1]) (ofWords [7]) rfl
    masks_example_7 hk (by norm_num) 0 2 _ h0 (by decide)
  obtain ⟨out1, hout1⟩ := t1.2.1 (Or.inl rfl) (Or.inr (Or.inl rfl))
  have hv1 := t1.1 out1 hout1
  have t2 := CumeDist_values cumeDistExpr 3 .empty (ofWords [1]) (ofWords [7]) rfl
    masks_example_7 hk (by norm_num) (0 + 2) 1 _ (.evaluate 2 h0 (by decide) hout1)
    (by decide)
  obtain ⟨out2, hout2⟩ := t2.2.1 (Or.inl rfl) (Or.inr (Or.inl rfl))
  have hv2 := t2.1 out2 hout2
  obtain ⟨e0, e1, e2⟩ := cumeDistAt_example
  rw [hout1]
  simp only [thenEvaluate]
  rw [show (2 : Nat) = 0 + 2 from rfl, hout2]
  obtain ⟨o1, o2⟩ := out1
  obtain ⟨p1, p2⟩ := out2
  simp only [] at hv1 hv2
  subst hv1
  subst hv2
  simp only [doubleCells, List.range_succ, List.range_zero, List.nil_append, List.map_append,
    List.map_cons, List.map_nil, List.cons_append, Nat.zero_add, Nat.add_zero, e0, e1, e2,
    roundDouble_third, roundDouble_two_thirds, roundDouble_one]
  exact ⟨trivial, trivial⟩

end Window
namespace Window
open ValidityMask
open WindowBoundariesState

/-! ## Single-row partitions and consecutive peer groups, batch by batch -/

/-- The loop of `CumeDist` writes 1 at every position whose partition and peer group end one
row after the partition start. -/
theorem CumeDistLoop_cell (b : BoundsChunk) :
    ∀ k i row (ex : WindowExecutor) j, j < k →
      b.partition_end (i + j) = b.partition_begin (i + j) + 1 →
      b.peer_end (i + j) = b.partition_begin (i + j) + 1 →
      (WindowExecutor.CumeDistLoop b k i row ex).2[j]? = some (some 1) := by
  intro k
  induction k with
  | zero => intro i row ex j hj; omega
  | succ k ih =>
    intro i row ex j hj hb hp
    rw [WindowExecutor.CumeDistLoop]
    cases j with
    | zero =>
      simp only [Nat.add_zero] at hb hp
      have h1 : ((b.partition_begin i + 1 : Nat) : Int) - (b.partition_begin i : Int) = 1 := by
        push_cast
        ring
      simp only [hb, hp, h1, List.getElem?_cons_zero]
      rw [wrap64_small 1 (by norm_num) (by norm_num), if_pos (by norm_num),
        show asIdx 1 = 1 from by decide]
      simp only [Int.cast_one, Nat.cast_one, roundDouble_one, div_one]
    | succ j =>
      simp only [List.getElem?_cons_succ]
      exact ih (i + 1) (row + 1) _ j (by omega)
        (by rw [show i + 1 + j = i + (j + 1) by omega]; exact hb)
        (by rw [show i + 1 + j = i + (j + 1) by omega]; exact hp)

/-- The cell of NTILE at a position whose partition has one row, when the loop returns. -/
theorem NtileLoop_cell (ex : WindowExecutor) (b : BoundsChunk) (k row : Nat)
    (cells : List (Option Int))
    (hb : ∀ j, j < k → b.partition_begin (0 + j) ≤ row + j ∧ row + j < b.partition_end (0 + j))
    (hN : WindowExecutor.NtileLoop ex b k 0 row = .ok cells) (j : Nat) (hj : j < k) :
    cells[j]? = some (ntileCell (ex.payload_collection 0 (row + j)) (b.partition_begin (0 + j))
      (b.partition_end (0 + j)) (row + j)) := by
  rcases NtileLoop_spec ex b k 0 row hb with h | h
  · rw [h.2] at hN
    cases hN
  · rw [h.2] at hN
    injection hN with hN
    rw [← hN, map_range_getElem _ k j hj]

/-- C19: a row `r` whose partition is the single row `r` (the bit of the partition mask is
set at `r`, and at `r + 1` unless `r` is the last row), wherever `r` lies among the rows of
its hash bin of `count` rows, for every frame and for masks that satisfy the mask invariants
and agree with the keys, evaluated batch by batch: any batch `[row, row + k)` that holds
`r`, on any executor that the batches of the rows `0 .. row - 1` leave. Whenever `Evaluate`
returns, the cell at `r` is 1 for RANK, 0 for PERCENT_RANK, 1 for CUME_DIST, and 1 for NTILE
with an argument `n ≥ 1` at `r`. With frame bounds that read no expression `Evaluate` does
return, for NTILE when no argument of the batch is below 1. -/
theorem Single_row_partition (wexpr : BoundWindowExpression) (count : Nat)
    (range : WindowInputColumn) (pm om : ValidityMask)
    (hinv : MaskInvariants pm om) (hkeys : MasksOfKeys wexpr pm om)
    (hsize : count ≤ 2 ^ 64 - 64)
    (row k : Nat) (ex : WindowExecutor)
    (hex : WindowExecutor.AfterBatches wexpr count range pm om row ex)
    (hk : row + k ≤ count)
    (r : Nat) (hr1 : row ≤ r) (hr2 : r < row + k) (hfirst : pm.RowIsValidUnsafe r = true)
    (hlast : r + 1 < count → pm.RowIsValidUnsafe (r + 1) = true) :
    (∀ out, ex.Evaluate row k pm om = .ok out →
      (wexpr.type = .WINDOW_RANK → out.2.cells[r - row]? = some (some 1)) ∧
      (wexpr.type = .WINDOW_PERCENT_RANK →
        ∃ cells, out.2 = .double cells ∧ cells[r - row]? = some (some 0)) ∧
      (wexpr.type = .WINDOW_CUME_DIST →
        ∃ cells, out.2 = .double cells ∧ cells[r - row]? = some (some 1)) ∧
      (wexpr.type = .WINDOW_NTILE → ∀ n : Int, 1 ≤ n → ex.payload_collection 0 r = some n →
        out.2.cells[r - row]? = some (some 1))) ∧
    (wexpr.start.IsPlainStart → wexpr.end_boundary.IsPlainEnd →
      (wexpr.type = .WINDOW_NTILE →
        ∀ j, j < k → ∀ v, ex.payload_collection 0 (row + j) = some v → 1 ≤ v) →
      ∃ out, ex.Evaluate row k pm om = .ok out) := by
  have hr : r < count := by omega
  have hps : lastStart pm r = r := (lastStart_eq_self pm hinv.1 r).2 hfirst
  have hpe : nextStart pm count r = r + 1 :=
    nextStart_unique pm count r (r + 1) (by omega) (by omega) (fun q h1 h2 => by omega) hlast
  have hke : nextStart om count r = r + 1 := by
    have h1 := (nextStart_spec om count r hr).1
    have h2 := nextStart_sub pm om hinv count r hr
    omega
  obtain ⟨i1, i2, i3⟩ := AfterBatches_state wexpr count range pm om row ex hex
  obtain ⟨j, rfl⟩ : ∃ j, r = row + j := ⟨r - row, by omega⟩
  have hj : j < k := by omega
  rw [Nat.add_sub_cancel_left]
  constructor
  · intro out he
    obtain ⟨sb, hb, _⟩ := Evaluate_shape he
    have hb2 : ex.state.Bounds ex.bounds row range k ex.boundary_start ex.boundary_end pm om =
        .ok sb := by rw [← i2]; exact hb
    have hpart := Batch_partition wexpr count range pm om hinv.1 hkeys.1 hsize row ex.state i3
      k hk ex.bounds ex.boundary_start ex.boundary_end sb hb2
    have hpj := hpart j hj
    rw [hps, hpe] at hpj
    unfold WindowExecutor.Evaluate at he
    rw [hb] at he
    simp only [] at he
    rw [← i1]
    refine ⟨fun ht => ?_, fun ht => ?_, fun ht => ?_, fun ht n hn hp => ?_⟩
    · simp only [ht] at he
      injection he with he
      rw [← he]
      simp only [WindowExecutor.ResultVector.cells, WindowExecutor.Rank]
      exact RankLoop_cell sb.2 k 0 row _ j hj (by rw [Nat.zero_add, hpj.1])
    · simp only [ht] at he
      injection he with he
      rw [← he]
      simp only [WindowExecutor.PercentRank]
      exact ⟨_, rfl, PercentRankLoop_cell sb.2 k 0 row _ j hj (by
        rw [Nat.zero_add, hpj.1, hpj.2])⟩
    · have hnp : (WindowBoundariesState.new wexpr count).needs_peer = true := by
        rw [i1] at ht
        simp [WindowBoundariesState.new, ht]
      have hpeers := Batch_peers wexpr count range pm om hinv hkeys hsize hnp row ex.state i3
        k hk ex.bounds ex.boundary_start ex.boundary_end sb hb2 j hj
      rw [hke] at hpeers
      simp only [ht] at he
      injection he with he
      rw [← he]
      simp only [WindowExecutor.CumeDist]
      exact ⟨_, rfl, CumeDistLoop_cell sb.2 k 0 row _ j hj (by
        rw [Nat.zero_add, hpj.1, hpj.2]) (by rw [Nat.zero_add, hpj.1, hpeers.2.2.2])⟩
    · simp only [ht] at he
      cases hN : WindowExecutor.Ntile { ex with state := sb.1, bounds := sb.2 } sb.2 k row with
      | error e =>
        rw [hN] at he
        cases he
      | ok cells =>
        rw [hN] at he
        injection he with he
        rw [← he]
        simp only [WindowExecutor.ResultVector.cells]
        have hrows : ∀ q, q < k → sb.2.partition_begin (0 + q) ≤ row + q ∧
            row + q < sb.2.partition_end (0 + q) := by
          intro q hq
          have h1 := hpart q hq
          have h2 := lastStart_le pm (row + q)
          have h3 := (nextStart_spec pm count (row + q) (by omega)).1
          rw [Nat.zero_add, h1.1, h1.2]
          exact ⟨h2, h3⟩
        rw [NtileLoop_cell _ sb.2 k row cells hrows hN j hj]
        simp only [Nat.zero_add, hpj.1, hpj.2]
        rw [show ({ ex with state := sb.1, bounds := sb.2 } : WindowExecutor).payload_collection
          = ex.payload_collection from rfl, hp]
        have hB : 1 ≤ n.toNat := by omega
        simp [ntileCell, ntileValue, Nat.min_eq_right hB]
  · intro h1 h2 hargs
    obtain ⟨sb, hb⟩ := Bounds_ok_of_plain wexpr count range pm om row ex.state i3 h1 h2 k
      ex.bounds ex.boundary_start ex.boundary_end
    by_cases ht : wexpr.type = .WINDOW_NTILE
    · have hpart := Batch_partition wexpr count range pm om hinv.1 hkeys.1 hsize row ex.state i3
        k hk ex.bounds ex.boundary_start ex.boundary_end sb hb
      have hrows : ∀ q, q < k → sb.2.partition_begin (0 + q) ≤ row + q ∧
          row + q < sb.2.partition_end (0 + q) := by
        intro q hq
        have g1 := hpart q hq
        have g2 := lastStart_le pm (row + q)
        have g3 := (nextStart_spec pm count (row + q) (by omega)).1
        rw [Nat.zero_add, g1.1, g1.2]
        exact ⟨g2, g3⟩
      have htx : ex.wexpr.type = .WINDOW_NTILE := by rw [i1]; exact ht
      have hb3 : ex.state.Bounds ex.bounds row ex.range k ex.boundary_start ex.boundary_end
          pm om = .ok sb := by rw [i2]; exact hb
      unfold WindowExecutor.Evaluate
      rw [hb3]
      simp only [htx, WindowExecutor.Ntile]
      rcases NtileLoop_spec { ex with state := sb.1, bounds := sb.2 } sb.2 k 0 row hrows with
        h | h
      · obtain ⟨⟨q, hq, v, hv, hlt⟩, _⟩ := h
        have := hargs ht q hq v hv
        omega
      · rw [h.2]
        exact ⟨_, rfl⟩
    · exact Evaluate_ok_of_Bounds ex row k pm om (by rw [i1]; exact ht) sb
        (by rw [i2]; exact hb)

/-- C19, at a concrete input: `RANK() OVER (PARTITION BY p)` on `p = [a, a, b]`, evaluated in
a batch of two rows and a batch of one row; row 2 is a partition of a single row, after the
other rows of its hash bin, and the second batch gives `[1]`. -/
theorem Single_row_partition_witness :
    (MaskInvariants (ofWords [5]) (ofWords [5]) ∧
      MasksOfKeys rankPartitionExpr (ofWords [5]) (ofWords [5]) ∧ 3 ≤ 2 ^ 64 - 64 ∧
      2 + 1 ≤ 3 ∧ 2 ≤ 2 ∧ 2 < 2 + 1 ∧ (ofWords [5]).RowIsValidUnsafe 2 = true ∧
      (2 + 1 < 3 → (ofWords [5]).RowIsValidUnsafe (2 + 1) = true) ∧
      rankPartitionExpr.type = .WINDOW_RANK) ∧
    (∃ out1 out2,
      (plainExecutor rankPartitionExpr 3).Evaluate 0 2 (ofWords [5]) (ofWords [5]) = .ok out1 ∧
      out1.1.Evaluate 2 1 (ofWords [5]) (ofWords [5]) = .ok out2 ∧
      out2.2.cells[2 - 2]? = some (some 1)) ∧
    resultCells (thenEvaluate
      ((plainExecutor rankPartitionExpr 3).Evaluate 0 2 (ofWords [5]) (ofWords [5])) 2 1
      (ofWords [5]) (ofWords [5])) = some [some 1] := by
  have hm : MaskInvariants (ofWords [5]) (ofWords [5]) :=
    ⟨by decide, by decide, fun _ h => h⟩
  have hk : MasksOfKeys rankPartitionExpr (ofWords [5]) (ofWords [5]) :=
    ⟨fun h => absurd h (by decide), fun _ _ => rfl⟩
  have h0 : WindowExecutor.AfterBatches rankPartitionExpr 3 .empty (ofWords [5]) (ofWords [5]) 0
      (plainExecutor rankPartitionExpr 3) := .init _ _ _ _ _ _ _ _
  obtain ⟨out1, hout1⟩ := Evaluate_ok_of_plain rankPartitionExpr 3 .empty (ofWords [5])
    (ofWords [5]) (by decide) (Or.inl rfl) (Or.inr (Or.inl rfl)) 0 2 _ h0
  have t := Single_row_partition rankPartitionExpr 3 .empty (ofWords [5]) (ofWords [5]) hm hk
    (by decide) (0 + 2) 1 _ (.evaluate 2 h0 (by decide) hout1) (by decide) 2 (by decide)
    (by decide) (by decide) (by decide)
  obtain ⟨out2, hout2⟩ := t.2 (Or.inl rfl) (Or.inr (Or.inl rfl)) (fun h => absurd h (by decide))
  exact ⟨⟨hm, hk, by decide, by decide, by decide, by decide, by decide, by decide, rfl⟩,
    ⟨out1, out2, hout1, hout2, (t.1 out2 hout2).1 rfl⟩, by decide⟩

/-- C29 (amended): RANK for a window that needs peers (an end bound in RANGE mode, as in the
default frame) on a hash bin of `count` rows whose masks satisfy the mask invariants,
evaluated batch by batch. For a row `g` of a peer group `G` and a row `h` of the next peer
group `H` of the same partition (the peer group of `h` starts where that of `g` ends, and
both rows have the same partition start), in the same batch or in two batches, each on any
executor that the batches of the rows before it leave: whenever the two calls of `Evaluate`
return, the rank written at `h` is the rank written at `g` plus the size of `G`. With frame
bounds that read no expression they do return. -/
theorem Rank_next_group (wexpr : BoundWindowExpression) (count : Nat)
    (range : WindowInputColumn) (pm om : ValidityMask)
    (htype : wexpr.type = .WINDOW_RANK)
    (hnp : (WindowBoundariesState.new wexpr count).needs_peer = true)
    (hinv : MaskInvariants pm om)
    (hkeys : 0 < wexpr.partitions + wexpr.orders.length ∨ SimpleMasks pm om)
    (rowg kg : Nat) (exg : WindowExecutor)
    (hexg : WindowExecutor.AfterBatches wexpr count range pm om rowg exg)
    (hkg : rowg + kg ≤ count)
    (rowh kh : Nat) (exh : WindowExecutor)
    (hexh : WindowExecutor.AfterBatches wexpr count range pm om rowh exh)
    (hkh : rowh + kh ≤ count)
    (g h : Nat) (hg1 : rowg ≤ g) (hg2 : g < rowg + kg) (hh1 : rowh ≤ h) (hh2 : h < rowh + kh)
    (hnext : lastStart om h = nextStart om count g)
    (hsame : lastStart pm h = lastStart pm g) :
    (∀ outg outh, exg.Evaluate rowg kg pm om = .ok outg →
      exh.Evaluate rowh kh pm om = .ok outh →
      ∃ vg vh, outg.2.cells[g - rowg]? = some (some vg) ∧
        outh.2.cells[h - rowh]? = some (some vh) ∧
        vh = vg + ((nextStart om count g - lastStart om g : Nat) : Int)) ∧
    (wexpr.start.IsPlainStart → wexpr.end_boundary.IsPlainEnd →
      (∃ outg, exg.Evaluate rowg kg pm om = .ok outg) ∧
        ∃ outh, exh.Evaluate rowh kh pm om = .ok outh) := by
  constructor
  · intro outg outh heg heh
    have cg := Rank_batch wexpr count range pm om hinv htype hkeys hnp rowg kg exg hexg hkg
      outg heg
    have ch := Rank_batch wexpr count range pm om hinv htype hkeys hnp rowh kh exh hexh hkh
      outh heh
    refine ⟨((rankAt pm om g : Nat) : Int), ((rankAt pm om h : Nat) : Int), ?_, ?_, ?_⟩
    · rw [cg]
      simp only [WindowExecutor.ResultVector.cells]
      rw [map_range_getElem _ kg (g - rowg) (by omega), show rowg + (g - rowg) = g by omega]
    · rw [ch]
      simp only [WindowExecutor.ResultVector.cells]
      rw [map_range_getElem _ kh (h - rowh) (by omega), show rowh + (h - rowh) = h by omega]
    · have h1 := lastStart_sub pm om hinv g
      have h2 := lastStart_le om g
      have h3 := (nextStart_spec om count g (by omega)).1
      unfold rankAt
      rw [hnext, hsame]
      omega
  · intro h1 h2
    exact ⟨Evaluate_ok_of_plain wexpr count range pm om (by rw [htype]; decide) h1 h2 rowg kg
        exg hexg,
      Evaluate_ok_of_plain wexpr count range pm om (by rw [htype]; decide) h1 h2 rowh kh exh
        hexh⟩

/-- C29 (amended), at a concrete input: `RANK() OVER (ORDER BY o)` on `o = [10, 20, 20, 30]`,
evaluated in a batch of three rows and a batch of one row; the rank 4 of row 3, in the
second batch, is the rank 2 of row 2, in the first, plus the size 2 of its peer group. -/
theorem Rank_next_group_witness :
    (rankExpr.type = .WINDOW_RANK ∧
      (WindowBoundariesState.new rankExpr 4).needs_peer = true ∧
      MaskInvariants (ofWords [1]) (ofWords [11]) ∧
      (0 < rankExpr.partitions + rankExpr.orders.length ∨
        SimpleMasks (ofWords [1]) (ofWords [11])) ∧
      0 + 3 ≤ 4 ∧ 3 + 1 ≤ 4 ∧ 0 ≤ 2 ∧ 2 < 0 + 3 ∧ 3 ≤ 3 ∧ 3 < 3 + 1 ∧
      lastStart (ofWords [11]) 3 = nextStart (ofWords [11]) 4 2 ∧
      lastStart (ofWords [1]) 3 = lastStart (ofWords [1]) 2) ∧
    (∃ out1 out2,
      (plainExecutor rankExpr 4).Evaluate 0 3 (ofWords [1]) (ofWords [11]) = .ok out1 ∧
      out1.1.Evaluate 3 1 (ofWords [1]) (ofWords [11]) = .ok out2 ∧
      ∃ vg vh, out1.2.cells[2 - 0]? = some (some vg) ∧ out2.2.cells[3 - 3]? = some (some vh) ∧
        vh = vg + ((nextStart (ofWords [11]) 4 2 - lastStart (ofWords [11]) 2 : Nat) : Int)) ∧
    resultCells ((plainExecutor rankExpr 4).Evaluate 0 3 (ofWords [1]) (ofWords [11])) =
      some [some 1, some 2, some 2] ∧
    resultCells (thenEvaluate
      ((plainExecutor rankExpr 4).Evaluate 0 3 (ofWords [1]) (ofWords [11])) 3 1
      (ofWords [1]) (ofWords [11])) = some [some 4] ∧
    nextStart (ofWords [11]) 4 2 - lastStart (ofWords [11]) 2 = 2 := by
  have h0 : WindowExecutor.AfterBatches rankExpr 4 .empty (ofWords [1]) (ofWords [11]) 0
      (plainExecutor rankExpr 4) := .init _ _ _ _ _ _ _ _
  obtain ⟨out1, hout1⟩ := Evaluate_ok_of_plain rankExpr 4 .empty (ofWords [1])
    (ofWords [11]) (by decide) (Or.inl rfl) (Or.inr (Or.inl rfl)) 0 3 _ h0
  have t := Rank_next_group rankExpr 4 .empty (ofWords [1]) (ofWords [11]) rfl rfl
    masks_example_11 (Or.inl (by decide)) 0 3 _ h0 (by decide) (0 + 3) 1 _
    (.evaluate 3 h0 (by decide) hout1) (by decide) 2 3 (by decide) (by decide) (by decide)
    (by decide) (by decide) (by decide)
  obtain ⟨out2, hout2⟩ := (t.2 (Or.inl rfl) (Or.inr (Or.inl rfl))).2
  exact ⟨⟨rfl, rfl, masks_example_11, Or.inl (by decide), by decide, by decide, by decide,
      by decide, by decide, by decide, by decide, by decide⟩,
    ⟨out1, out2, hout1, hout2, t.1 out1 out2 hout1 hout2⟩, by decide, by decide, by decide⟩

/-- The flag `needs_peer` is that of the constructor after any rows. -/
theorem AfterRows_needs_peer (wexpr : BoundWindowExpression) (count : Nat)
    (range : WindowInputColumn) (pm om : ValidityMask) :
    ∀ row s, AfterRows wexpr count range pm om row s →
      s.needs_peer = (WindowBoundariesState.new wexpr count).needs_peer := by
  intro row s hs
  induction hs with
  | init => rfl
  | @step row s s' ci bs be _ _ hu ih =>
    rw [(Update_config hu).2.2.2.2.2.2.2.2.2, ih]

/-- For a window that needs no peers, a call of `Bounds` leaves the PEER_BEGIN cells of the
chunk as they were. -/
theorem Batch_stale_peers (wexpr : BoundWindowExpression) (count : Nat)
    (range : WindowInputColumn) (pm om : ValidityMask)
    (hnp : (WindowBoundariesState.new wexpr count).needs_peer = false)
    (row0 : Nat) (s : WindowBoundariesState) (hs : AfterRows wexpr count range pm om row0 s)
    (k : Nat) (hk : row0 + k ≤ count) (b : BoundsChunk) (bs be : WindowInputExpression)
    (sb : WindowBoundariesState × BoundsChunk)
    (hb : s.Bounds b row0 range k bs be pm om = .ok sb) :
    ∀ i, i < k → sb.2.peer_begin i = b.peer_begin i := by
  intro i hi
  obtain ⟨si, hsi, hrow⟩ := (Bounds_rows wexpr count range pm om row0 s hs k hk b bs be sb hb).2
    i hi
  have h := AfterRows_needs_peer wexpr count range pm om _ _ hsi
  rw [hnp] at h
  unfold BoundsChunk.RowIs at hrow
  simp only [h, Bool.false_eq_true, if_false] at hrow
  exact hrow.2.2.2.2.1

/-- The cells of a returning `Evaluate` for RANK are those of the loop of `Rank` on the chunk
that `Bounds` leaves. -/
theorem Rank_batch_raw {ex : WindowExecutor} {row k : Nat} {pm om : ValidityMask}
    {out : WindowExecutor × WindowExecutor.ResultVector}
    {sb : WindowBoundariesState × BoundsChunk}
    (he : ex.Evaluate row k pm om = .ok out)
    (hb : ex.state.Bounds ex.bounds row ex.range k ex.boundary_start ex.boundary_end pm om =
      .ok sb)
    (ht : ex.wexpr.type = .WINDOW_RANK) :
    out.2 = .bigint (WindowExecutor.RankLoop sb.2 k 0 row
      { ex with state := sb.1, bounds := sb.2 }).2 := by
  unfold WindowExecutor.Evaluate at he
  rw [hb] at he
  simp only [] at he
  simp only [ht] at he
  injection he with he
  rw [← he]
  rfl

theorem NextRank_first (ex : WindowExecutor) (kb row : Nat) :
    (ex.NextRank row kb row).rank = 1 ∧ (ex.NextRank row kb row).rank_equal = 1 := by
  unfold WindowExecutor.NextRank
  simp

theorem NextRank_counters (ex : WindowExecutor) (pb kb row : Nat) (h : pb ≠ row) :
    (ex.NextRank pb kb row).rank = (if kb = row then ex.rank + ex.rank_equal else ex.rank) ∧
      (ex.NextRank pb kb row).rank_equal = (if kb = row then 1 else ex.rank_equal + 1) := by
  unfold WindowExecutor.NextRank
  simp only [if_neg h]
  split_ifs <;> simp

/-- The ranks that the loop of `Rank` writes for the rows 0, 1 and 2 of one partition: the
ranks of the rows 1 and 2 are equal exactly when the PEER_BEGIN cell of row 2 is not 2. -/
theorem RankLoop_three (b : BoundsChunk) (ex : WindowExecutor) (k : Nat)
    (hp : ∀ j, j < 3 → b.partition_begin j = 0) :
    ∃ (v1 v2 : Int) (rest : List (Option Int)),
      (WindowExecutor.RankLoop b (k + 3) 0 0 ex).2 = some 1 :: some v1 :: some v2 :: rest ∧
      (v1 = v2 ↔ b.peer_begin 2 ≠ 2) := by
  obtain ⟨a1, a2⟩ := NextRank_first ex (b.peer_begin 0) 0
  obtain ⟨b1, b2⟩ := NextRank_counters (ex.NextRank 0 (b.peer_begin 0) 0) 0 (b.peer_begin 1) 1
    (by decide)
  obtain ⟨c1, _⟩ := NextRank_counters
    ((ex.NextRank 0 (b.peer_begin 0) 0).NextRank 0 (b.peer_begin 1) 1) 0 (b.peer_begin 2) 2
    (by decide)
  refine ⟨((((ex.NextRank 0 (b.peer_begin 0) 0).NextRank 0 (b.peer_begin 1) 1).rank : Nat) : Int),
    (((((ex.NextRank 0 (b.peer_begin 0) 0).NextRank 0 (b.peer_begin 1) 1).NextRank 0
      (b.peer_begin 2) 2).rank : Nat) : Int),
    (WindowExecutor.RankLoop b k 3 3 (((ex.NextRank 0 (b.peer_begin 0) 0).NextRank 0
      (b.peer_begin 1) 1).NextRank 0 (b.peer_begin 2) 2)).2, ?_, ?_⟩
  · rw [WindowExecutor.RankLoop, WindowExecutor.RankLoop, WindowExecutor.RankLoop]
    simp only [Nat.zero_add, hp 0 (by decide), hp 1 (by decide), hp 2 (by decide), a1,
      Nat.cast_one]
  · rw [c1, b1, b2, a1, a2]
    by_cases h1 : b.peer_begin 1 = 1 <;> by_cases h2 : b.peer_begin 2 = 2 <;>
      simp [h1, h2]

/-- `RANK() OVER (ORDER BY o ROWS BETWEEN UNBOUNDED PRECEDING AND CURRENT ROW)` on
`o = [10, 20, 20, 30]`, for every contents `b0` of the `bounds` chunk at its allocation: the
peers 1 and 2 get the same rank exactly when the PEER_BEGIN cell of row 2 is not 2. -/
theorem Rank_rows_frame_cells (b0 : BoundsChunk) :
    ∃ (v1 v2 : Int) (rest : List (Option Int)),
      resultCells ((WindowExecutor.new rankRowsExpr 4 b0 (fun _ _ => none) (.const 1) .null
        (.const 0) (.const 0) .empty .allValid (fun _ _ => none)).Evaluate 0 4 (ofWords [1])
        (ofWords [11])) = some (some 1 :: some v1 :: some v2 :: rest) ∧
      (v1 = v2 ↔ b0.peer_begin 2 ≠ 2) := by
  have h0 : WindowExecutor.AfterBatches rankRowsExpr 4 .empty (ofWords [1]) (ofWords [11]) 0
      (WindowExecutor.new rankRowsExpr 4 b0 (fun _ _ => none) (.const 1) .null
        (.const 0) (.const 0) .empty .allValid (fun _ _ => none)) := .init _ _ _ _ _ _ _ _
  obtain ⟨out, he⟩ := Evaluate_ok_of_plain rankRowsExpr 4 .empty (ofWords [1]) (ofWords [11])
    (by decide) (Or.inl rfl) (Or.inl rfl) 0 4 _ h0
  obtain ⟨sb, hb, _⟩ := Evaluate_shape he
  have hpb := Batch_partition_begin rankRowsExpr 4 .empty (ofWords [1]) (ofWords [11])
    (Or.inl (by decide)) 0 _ .init 4 (by decide) b0 _ _ sb hb
  have hkb := Batch_stale_peers rankRowsExpr 4 .empty (ofWords [1]) (ofWords [11]) rfl 0 _
    .init 4 (by decide) b0 _ _ sb hb
  have hl : ∀ j, j < 3 → sb.2.partition_begin j = 0 := by
    intro j hj
    rw [hpb j (by omega)]
    have : j = 0 ∨ j = 1 ∨ j = 2 := by omega
    rcases this with h | h | h <;> subst h <;> decide
  obtain ⟨v1, v2, rest, hc, hv⟩ := RankLoop_three sb.2 _ 1 hl
  refine ⟨v1, v2, rest, ?_, ?_⟩
  · rw [he]
    simp only [resultCells]
    rw [Rank_batch_raw he hb rfl]
    simp only [WindowExecutor.ResultVector.cells]
    exact congrArg some hc
  · rw [hv, hkb 2 (by decide)]

/-- C18 (the code at the failing input): `RANK() OVER (ORDER BY o ROWS BETWEEN UNBOUNDED
PRECEDING AND CURRENT ROW)` on `o = [10, 20, 20, 30]`, where the rows 1 and 2 are peers (no
bit of the order mask is set at row 2). The end bound is not a RANGE bound, so `needs_peer`
is off and `Bounds` never writes the PEER_BEGIN column that `Rank` reads. Whatever the
`bounds` chunk held when it was allocated, the peers get the same rank exactly when its
PEER_BEGIN cell of row 2 is not 2. On a chunk whose PEER_BEGIN cells hold `0, 1, 2, 3` the
result is `[1, 2, 3, 4]`: the peers get the ranks 2 and 3. On a zero-filled chunk the result
is `[1, 1, 1, 1]`. The default frame on the same chunks gives `[1, 2, 2, 4]`. -/
theorem Peers_differ_on_rows_frame :
    (∀ q, min 1 2 < q → q ≤ max 1 2 → (ofWords [11]).RowIsValidUnsafe q = false) ∧
    (WindowBoundariesState.new rankRowsExpr 4).needs_peer = false ∧
    (∀ b0 : BoundsChunk, ∃ (v1 v2 : Int) (rest : List (Option Int)),
      resultCells ((WindowExecutor.new rankRowsExpr 4 b0 (fun _ _ => none) (.const 1) .null
        (.const 0) (.const 0) .empty .allValid (fun _ _ => none)).Evaluate 0 4 (ofWords [1])
        (ofWords [11])) = some (some 1 :: some v1 :: some v2 :: rest) ∧
      (v1 = v2 ↔ b0.peer_begin 2 ≠ 2)) ∧
    resultCells ((WindowExecutor.new rankRowsExpr 4 staleBounds (fun _ _ => none) (.const 1)
        .null (.const 0) (.const 0) .empty .allValid (fun _ _ => none)).Evaluate 0 4
        (ofWords [1]) (ofWords [11])) = some [some 1, some 2, some 3, some 4] ∧
    resultCells ((WindowExecutor.new rankRowsExpr 4 (BoundsChunk.fill 0) (fun _ _ => none)
        (.const 1) .null (.const 0) (.const 0) .empty .allValid (fun _ _ => none)).Evaluate 0 4
        (ofWords [1]) (ofWords [11])) = some [some 1, some 1, some 1, some 1] ∧
    resultCells ((WindowExecutor.new rankExpr 4 staleBounds (fun _ _ => none) (.const 1)
        .null (.const 0) (.const 0) .empty .allValid (fun _ _ => none)).Evaluate 0 4
        (ofWords [1]) (ofWords [11])) = some [some 1, some 2, some 2, some 4] := by
  refine ⟨?_, by decide, Rank_rows_frame_cells, by decide, by decide, by decide⟩
  intro q hq1 hq2
  have hq3 : 1 < q := hq1
  have hq4 : q ≤ 2 := hq2
  have hq : q = 2 := by omega
  subst hq
  decide

end Window
namespace Window
open ValidityMask
open WindowBoundariesState

/-! ## The running frame of an aggregate, batch by batch -/

/-- The frame columns of a batch for the frame `ROWS BETWEEN UNBOUNDED PRECEDING AND CURRENT
ROW`. -/
theorem Batch_running_frame (wexpr : BoundWindowExpression) (count : Nat)
    (range : WindowInputColumn) (pm om : ValidityMask)
    (hstart : wexpr.start = .UNBOUNDED_PRECEDING)
    (hend : wexpr.end_boundary = .CURRENT_ROW_ROWS) (h0 : pm.RowIsValidUnsafe 0 = true)
    (hkeys : wexpr.partitions = 0 → ∀ i, 0 < i → pm.RowIsValidUnsafe i = false)
    (hsize : count ≤ 2 ^ 64 - 64)
    (row0 : Nat) (s : WindowBoundariesState) (hs : AfterRows wexpr count range pm om row0 s)
    (k : Nat) (hk : row0 + k ≤ count) (b : BoundsChunk) (bs be : WindowInputExpression)
    (sb : WindowBoundariesState × BoundsChunk)
    (hb : s.Bounds b row0 range k bs be pm om = .ok sb) :
    ∀ i, i < k → sb.2.window_begin i = (lastStart pm (row0 + i) : Int) ∧
      sb.2.window_end i = ((row0 + i : Nat) : Int) + 1 := by
  intro i hi
  obtain ⟨si, hsi, hrow⟩ := (Bounds_rows wexpr count range pm om row0 s hs k hk b bs be sb hb).2
    i hi
  obtain ⟨⟨_, _, hps⟩, _, hE⟩ := AfterRows_inv wexpr count range pm om h0 hkeys hsize _ _ hsi
  have hpe := hE (by omega) (by omega)
  rw [Nat.add_sub_cancel] at hps hpe
  obtain ⟨s0, ci, bs0, be0, hs0, _, hu⟩ := AfterRows_succ wexpr count range pm om _ si hsi
  obtain ⟨e1, e2⟩ := AfterRows_boundaries wexpr count range pm om _ s0 hs0
  have hf := Update_frame_unbounded_current hu (by rw [e1]; exact hstart)
    (by rw [e2]; exact hend) (by rw [hps]; exact lastStart_le pm _)
    (by rw [hpe]; exact (nextStart_spec pm count _ (by omega)).1)
  rw [hrow.2.2.1, hrow.2.2.2.1, hf.1, hf.2, hps]
  exact ⟨rfl, rfl⟩

/-- C22: an aggregate with the frame `ROWS BETWEEN UNBOUNDED PRECEDING AND CURRENT ROW` on a
hash bin of `count` rows whose partition mask has bit 0 set and agrees with the keys,
evaluated batch by batch: any batch `[row, row + k)` of the bin, on any executor that the
batches of the rows `0 .. row - 1` leave. `Evaluate` returns; at every row `r` of the batch
the frame that `Update` computes and `Bounds` writes is `[partition_begin(r), r + 1)`, and
the cell is the aggregate over it. At the last row of a partition the frame is the whole
partition `[partition_begin, partition_end)`, and the cell is the aggregate over the
partition. -/
theorem Aggregate_running_frame (wexpr : BoundWindowExpression) (count : Nat)
    (range : WindowInputColumn) (pm om : ValidityMask)
    (htype : wexpr.type = .WINDOW_AGGREGATE) (hstart : wexpr.start = .UNBOUNDED_PRECEDING)
    (hend : wexpr.end_boundary = .CURRENT_ROW_ROWS) (h0 : pm.RowIsValidUnsafe 0 = true)
    (hkeys : wexpr.partitions = 0 → ∀ i, 0 < i → pm.RowIsValidUnsafe i = false)
    (hsize : count ≤ 2 ^ 64 - 64)
    (row k : Nat) (ex : WindowExecutor)
    (hex : WindowExecutor.AfterBatches wexpr count range pm om row ex)
    (hk : row + k ≤ count) :
    ∃ out cells, ex.Evaluate row k pm om = .ok out ∧ out.2 = .bigint cells ∧
      (∀ i, i < k →
        out.1.bounds.partition_begin i = lastStart pm (row + i) ∧
        out.1.bounds.partition_end i = nextStart pm count (row + i) ∧
        out.1.bounds.window_begin i = (lastStart pm (row + i) : Int) ∧
        out.1.bounds.window_end i = ((row + i : Nat) : Int) + 1 ∧
        cells[i]? = some (ex.aggregate_state (lastStart pm (row + i)) (row + i + 1))) ∧
      (∀ i, i < k → row + i + 1 = nextStart pm count (row + i) →
        out.1.bounds.window_begin i = (out.1.bounds.partition_begin i : Int) ∧
        out.1.bounds.window_end i = (out.1.bounds.partition_end i : Int) ∧
        cells[i]? = some (ex.aggregate_state (lastStart pm (row + i))
          (nextStart pm count (row + i)))) := by
  obtain ⟨i1, i2, i3⟩ := AfterBatches_state wexpr count range pm om row ex hex
  obtain ⟨sb, hb⟩ := Bounds_ok_of_plain wexpr count range pm om row ex.state i3
    (Or.inl hstart) (Or.inl hend) k ex.bounds ex.boundary_start ex.boundary_end
  have hpart := Batch_partition wexpr count range pm om h0 hkeys hsize row ex.state i3 k hk
    ex.bounds ex.boundary_start ex.boundary_end sb hb
  have hframe := Batch_running_frame wexpr count range pm om hstart hend h0 hkeys hsize row
    ex.state i3 k hk ex.bounds ex.boundary_start ex.boundary_end sb hb
  have hcells : ∀ i, i < k →
      (WindowExecutor.Aggregate { ex with state := sb.1, bounds := sb.2 } sb.2 k row)[i]? =
        some (ex.aggregate_state (lastStart pm (row + i)) (row + i + 1)) := by
    intro i hi
    obtain ⟨c3, c4⟩ := hframe i hi
    have hl := lastStart_le pm (row + i)
    unfold WindowExecutor.Aggregate
    rw [map_range_getElem _ k i hi, c3, c4, asIdx_natCast _ (by omega),
      show ((row + i : Nat) : Int) + 1 = ((row + i + 1 : Nat) : Int) by push_cast; rfl,
      asIdx_natCast _ (by omega)]
  have htx : ex.wexpr.type = .WINDOW_AGGREGATE := by rw [i1]; exact htype
  have hb3 : ex.state.Bounds ex.bounds row ex.range k ex.boundary_start ex.boundary_end
      pm om = .ok sb := by rw [i2]; exact hb
  refine ⟨({ ex with state := sb.1, bounds := sb.2 },
      .bigint (WindowExecutor.Aggregate { ex with state := sb.1, bounds := sb.2 } sb.2 k row)),
    _, ?_, rfl, ?_, ?_⟩
  · unfold WindowExecutor.Evaluate
    rw [hb3]
    simp only [htx]
  · intro i hi
    exact ⟨(hpart i hi).1, (hpart i hi).2, (hframe i hi).1, (hframe i hi).2, hcells i hi⟩
  · intro i hi hlast
    obtain ⟨c1, c2⟩ := hpart i hi
    obtain ⟨c3, c4⟩ := hframe i hi
    refine ⟨?_, ?_, by rw [← hlast]; exact hcells i hi⟩
    · show sb.2.window_begin i = (sb.2.partition_begin i : Int)
      rw [c3, c1]
    · show sb.2.window_end i = (sb.2.partition_end i : Int)
      rw [c4, c2, ← hlast]
      push_cast
      rfl

/-- C22, at a concrete input: `SUM(x) OVER (PARTITION BY p ROWS BETWEEN UNBOUNDED PRECEDING
AND CURRENT ROW)` on `x = [1, 2, 3, 4]`, `p = [a, a, a, b]`, evaluated in two batches of two
rows, gives `[1, 3]` and then `[6, 4]`; at the rows 2 and 3, the last of their partitions,
the cell is the sum over the partition. -/
theorem Aggregate_running_frame_witness :
    (runningSumExpr.type = .WINDOW_AGGREGATE ∧ runningSumExpr.start = .UNBOUNDED_PRECEDING ∧
      runningSumExpr.end_boundary = .CURRENT_ROW_ROWS ∧
      (ofWords [9]).RowIsValidUnsafe 0 = true ∧ 4 ≤ 2 ^ 64 - 64 ∧ 2 + 2 ≤ 4) ∧
    (∃ out1 out2 cells,
      (runningSumExecutor 4 [some 1, some 2, some 3, some 4]).Evaluate 0 2 (ofWords [9])
        (ofWords [9]) = .ok out1 ∧
      out1.1.Evaluate 2 2 (ofWords [9]) (ofWords [9]) = .ok out2 ∧ out2.2 = .bigint cells ∧
      (∀ i, i < 2 →
        out2.1.bounds.window_begin i = (lastStart (ofWords [9]) (2 + i) : Int) ∧
        out2.1.bounds.window_end i = ((2 + i : Nat) : Int) + 1) ∧
      (∀ i, i < 2 → 2 + i + 1 = nextStart (ofWords [9]) 4 (2 + i) →
        out2.1.bounds.window_begin i = (out2.1.bounds.partition_begin i : Int) ∧
        out2.1.bounds.window_end i = (out2.1.bounds.partition_end i : Int) ∧
        cells[i]? = some (out1.1.aggregate_state (lastStart (ofWords [9]) (2 + i))
          (nextStart (ofWords [9]) 4 (2 + i))))) ∧
    resultCells ((runningSumExecutor 4 [some 1, some 2, some 3, some 4]).Evaluate 0 2
      (ofWords [9]) (ofWords [9])) = some [some 1, some 3] ∧
    resultCells (thenEvaluate
      ((runningSumExecutor 4 [some 1, some 2, some 3, some 4]).Evaluate 0 2
        (ofWords [9]) (ofWords [9])) 2 2 (ofWords [9]) (ofWords [9])) =
      some [some 6, some 4] := by
  have h0 : WindowExecutor.AfterBatches runningSumExpr 4 .empty (ofWords [9]) (ofWords [9]) 0
      (runningSumExecutor 4 [some 1, some 2, some 3, some 4]) := .init _ _ _ _ _ _ _ _
  obtain ⟨out1, _, hout1, _⟩ := Aggregate_running_frame runningSumExpr 4 .empty (ofWords [9])
    (ofWords [9]) rfl rfl rfl (by decide) (fun h => absurd h (by decide)) (by decide) 0 2 _ h0
    (by decide)
  obtain ⟨out2, cells, hout2, hc, hrows, hlast⟩ := Aggregate_running_frame runningSumExpr 4
    .empty (ofWords [9]) (ofWords [9]) rfl rfl rfl (by decide) (fun h => absurd h (by decide))
    (by decide) (0 + 2) 2 _ (.evaluate 2 h0 (by decide) hout1) (by decide)
  refine ⟨⟨rfl, rfl, rfl, by decide, by decide, by decide⟩,
    ⟨out1, out2, cells, hout1, hout2, hc, fun i hi => ?_, fun i hi hl => ?_⟩,
    by decide, by decide⟩
  · have := hrows i hi
    rw [Nat.zero_add] at this
    exact ⟨this.2.2.1, this.2.2.2.1⟩
  · have := hlast i hi (by rw [Nat.zero_add]; exact hl)
    rw [Nat.zero_add] at this
    exact this

end Window
namespace Window
open ValidityMask
open WindowBoundariesState

/-- The partition and peer bounds after the first part of `Update` at row `row`, for a
state that satisfies the invariant of the rows before `row`. -/
theorem FullInv_bounds (wexpr : BoundWindowExpression) (count : Nat) (pm om : ValidityMask)
    (range : WindowInputColumn) (bs be : WindowInputExpression)
    (hinv : MaskInvariants pm om) (hkeys : MasksOfKeys wexpr pm om) (hsize : count ≤ 2 ^ 64 - 64)
    (row ci : Nat) (s s' : WindowBoundariesState)
    (hI : FullInv pm om wexpr.partitions wexpr.orders.length count row s)
    (hrow : row < count) (hu : s.Update row range ci bs be pm om = .ok s') :
    (s.UpdatePartition row range pm om).partition_start = lastStart pm row ∧
    (s.UpdatePartition row range pm om).peer_start = lastStart om row ∧
    (s.UpdatePartition row range pm om).partition_end = nextStart pm count row ∧
    (s.UpdatePartition row range pm om).peer_end = nextStart om count row ∧
    s'.peer_start = lastStart om row ∧ s'.peer_end = nextStart om count row := by
  obtain ⟨⟨_, _, _, hps, hks⟩, _, hE⟩ :=
    FullInv_step wexpr count pm om range bs be hinv hkeys hsize row ci s s' hI hu
  obtain ⟨hpe, hke⟩ := hE (by omega) (by omega)
  rw [Nat.add_sub_cancel] at hps hks hpe hke
  obtain ⟨ws, we, p, e, _⟩ := Update_shape hu
  rw [e] at hps hks hpe hke
  exact ⟨hps, hks, hpe, hke, by rw [e]; exact hks, by rw [e]; exact hke⟩

/-- The state after the rows `0 .. row - 1` holds the start of the peer group of the
previous row, whether or not the window needs peer ends. -/
theorem AfterRows_peer_start (wexpr : BoundWindowExpression) (count : Nat)
    (range : WindowInputColumn) (pm om : ValidityMask)
    (hsub : ∀ i, pm.RowIsValidUnsafe i = true → om.RowIsValidUnsafe i = true)
    (hkeys : 0 < wexpr.partitions + wexpr.orders.length ∨ SimpleMasks pm om) :
    ∀ row s, AfterRows wexpr count range pm om row s →
      s.partition_count = wexpr.partitions ∧ s.order_count = wexpr.orders.length ∧
        s.peer_start = lastStart om (row - 1) := by
  intro row s hs
  induction hs with
  | init => exact ⟨rfl, rfl, rfl⟩
  | @step row s s' ci bs be _ _ hu ih =>
    obtain ⟨h1, h2, h5⟩ := ih
    have hc := Update_config hu
    have hk := Update_peer_start hu
    refine ⟨by rw [hc.2.2.2.2.1, h1], by rw [hc.2.2.2.2.2.1, h2], ?_⟩
    rw [hk, h1, h2, h5, Nat.add_sub_cancel]
    cases row with
    | zero =>
      simp only [lastStart]
      split_ifs <;> rfl
    | succ r =>
      simp only [Nat.add_sub_cancel, lastStart]
      rcases hkeys with hk | hk
      · by_cases ho : om.RowIsValidUnsafe (r + 1) = true
        · simp [hk, ho]
        · have hpm : ¬ pm.RowIsValidUnsafe (r + 1) = true := fun h => ho (hsub _ h)
          simp [ho, hpm]
      · have := hk (r + 1) (by omega)
        simp [this.1, this.2]

/-- The partition bounds and the peer start after the first part of `Update` at row `row`,
for the state after the rows before `row`, whether or not the window needs peer ends. -/
theorem AfterRows_start_bounds (wexpr : BoundWindowExpression) (count : Nat)
    (pm om : ValidityMask) (range : WindowInputColumn) (bs be : WindowInputExpression)
    (hinv : MaskInvariants pm om) (hkeys : MasksOfKeys wexpr pm om) (hsize : count ≤ 2 ^ 64 - 64)
    (row ci : Nat) (s s' : WindowBoundariesState)
    (hs : AfterRows wexpr count range pm om row s)
    (hrow : row < count) (hu : s.Update row range ci bs be pm om = .ok s') :
    (s.UpdatePartition row range pm om).partition_start = lastStart pm row ∧
    (s.UpdatePartition row range pm om).peer_start = lastStart om row ∧
    (s.UpdatePartition row range pm om).partition_end = nextStart pm count row ∧
    s'.peer_start = lastStart om row := by
  have hs' : AfterRows wexpr count range pm om (row + 1) s' := .step ci bs be hs hrow hu
  obtain ⟨⟨_, _, hps⟩, _, hE⟩ := AfterRows_inv wexpr count range pm om hinv.1 hkeys.1 hsize _ _ hs'
  have hpe := hE (by omega) (by omega)
  obtain ⟨_, _, hks⟩ := AfterRows_peer_start wexpr count range pm om hinv.2.2
    (MasksOfKeys_simple wexpr pm om hkeys) _ _ hs'
  rw [Nat.add_sub_cancel] at hps hks hpe
  obtain ⟨ws, we, p, e, _⟩ := Update_shape hu
  have hks' := hks
  rw [e] at hps hks hpe
  exact ⟨hps, hks, hpe, hks'⟩

/-- C26: a NULL bound of a RANGE frame, at a row `row` of a hash bin of `count` rows whose
masks satisfy the mask invariants and agree with the keys. For the boundary state `s` after
the rows `0 .. row - 1` (processed in order, in any batching) of any window, with `s1` the
state after the partition part of `Update` at `row`:
when the start bound is a RANGE offset whose cell is NULL (whatever the end bound is), the
start switch only stores `peer_start` in `window_start` (whatever the ordering column holds,
and the range hints as they are), and after a returning `Update` `window_start` is the start
of the peer group of `row` and the first hint is that of `s1`;
when the end bound is a RANGE offset whose cell is NULL, the end switch only stores
`peer_end` in `window_end`, and after a returning `Update` `window_end` is one past the last
row of the peer group of `row` and the second hint is that of `s1`;
and when both hold `Update` returns with both hints those of `s1`. -/
theorem Update_null_range_bound (wexpr : BoundWindowExpression) (count : Nat)
    (pm om : ValidityMask) (range : WindowInputColumn) (bs be : WindowInputExpression)
    (hinv : MaskInvariants pm om) (hkeys : MasksOfKeys wexpr pm om) (hsize : count ≤ 2 ^ 64 - 64)
    (row ci : Nat) (s : WindowBoundariesState)
    (hs : AfterRows wexpr count range pm om row s)
    (hrow : row < count) :
    ((s.start_boundary = .EXPR_PRECEDING_RANGE ∨ s.start_boundary = .EXPR_FOLLOWING_RANGE) →
      bs.CellIsNull ci = true →
      (∀ range2, (s.UpdatePartition row range pm om).UpdateStart row range2 ci bs =
        .ok { s.UpdatePartition row range pm om with
          window_start := ((s.UpdatePartition row range pm om).peer_start : Int) }) ∧
      ∀ s', s.Update row range ci bs be pm om = .ok s' →
        s'.window_start = (lastStart om row : Int) ∧ s'.peer_start = lastStart om row ∧
        s'.prev.1 = (s.UpdatePartition row range pm om).prev.1) ∧
    ((s.end_boundary = .EXPR_PRECEDING_RANGE ∨ s.end_boundary = .EXPR_FOLLOWING_RANGE) →
      be.CellIsNull ci = true →
      (∀ s2 range2, (s.UpdatePartition row range pm om).UpdateStart row range ci bs = .ok s2 →
        s2.UpdateEnd row range2 ci be = .ok { s2 with window_end := (s2.peer_end : Int) }) ∧
      ∀ s', s.Update row range ci bs be pm om = .ok s' →
        s'.window_end = (nextStart om count row : Int) ∧
        s'.peer_end = nextStart om count row ∧
        s'.prev.2 = (s.UpdatePartition row range pm om).prev.2) ∧
    ((s.start_boundary = .EXPR_PRECEDING_RANGE ∨ s.start_boundary = .EXPR_FOLLOWING_RANGE) →
      (s.end_boundary = .EXPR_PRECEDING_RANGE ∨ s.end_boundary = .EXPR_FOLLOWING_RANGE) →
      bs.CellIsNull ci = true → be.CellIsNull ci = true →
      ∃ s', s.Update row range ci bs be pm om = .ok s' ∧
        s'.prev = (s.UpdatePartition row range pm om).prev) := by
  obtain ⟨hsb, heb⟩ := UpdatePartition_boundaries s row range pm om
  have hl1 := lastStart_sub pm om hinv row
  have hl2 := lastStart_le om row
  obtain ⟨hn1, _, _, _⟩ := nextStart_spec om count row hrow
  have hn2 := nextStart_sub pm om hinv count row hrow
  have hn3 := (nextStart_spec pm count row hrow).1
  refine ⟨fun hb hnull => ⟨fun range2 => UpdateStart_null _ row ci range2 bs
      (by rw [hsb]; exact hb) hnull, fun s' hu => ?_⟩,
    fun hb hnull => ⟨fun s2 range2 h2 => UpdateEnd_null s2 row ci range2 be
      (by rw [UpdateStart_end_boundary h2, heb]; exact hb) hnull, fun s' hu => ?_⟩,
    fun hb1 hb2 hnull1 hnull2 => ?_⟩
  · obtain ⟨hps, hks, hpe, hks'⟩ :=
      AfterRows_start_bounds wexpr count pm om range bs be hinv hkeys hsize row ci s s' hs hrow hu
    have hu2 := hu
    unfold Update at hu2
    rw [UpdateStart_null _ row ci range bs (by rw [hsb]; exact hb) hnull] at hu2
    simp only [] at hu2
    cases h3 : UpdateEnd { s.UpdatePartition row range pm om with
        window_start := ((s.UpdatePartition row range pm om).peer_start : Int) }
        row range ci be with
    | error e3 =>
      rw [h3] at hu2
      cases hu2
    | ok s3 =>
      rw [h3] at hu2
      simp only [] at hu2
      obtain ⟨hp3, hw3⟩ := UpdateEnd_prev_fst h3
      obtain ⟨we3, p3, e3⟩ := UpdateEnd_shape h3
      have hps3 : s3.partition_start = lastStart pm row := by rw [e3]; exact hps
      have hpe3 : s3.partition_end = nextStart pm count row := by rw [e3]; exact hpe
      have hw3b : s3.window_start = (lastStart om row : Int) := by
        rw [hw3]
        simp only []
        rw [hks]
      obtain ⟨hprev, hws, _⟩ := UpdateClamp_within hu2
      refine ⟨?_, hks', ?_⟩
      · rw [hws (by rw [hps3, hw3b]; exact_mod_cast hl1)
          (by rw [hpe3, hw3b]; exact_mod_cast (by omega : lastStart om row ≤
            nextStart pm count row)), hw3b]
      · rw [hprev, hp3]
  · have hnp : (WindowBoundariesState.new wexpr count).needs_peer = true := by
      obtain ⟨_, e2⟩ := AfterRows_boundaries wexpr count range pm om row s hs
      rw [e2] at hb
      rcases hb with hb | hb <;> simp [WindowBoundariesState.new, hb, BoundaryNeedsPeer]
    have hI := AfterRows_full_inv wexpr count range pm om hinv hkeys hsize hnp row s hs
    obtain ⟨hps, hks, hpe, hke, _, hke'⟩ :=
      FullInv_bounds wexpr count pm om range bs be hinv hkeys hsize row ci s s' hI hrow hu
    have hu2 := hu
    unfold Update at hu2
    cases h2 : (s.UpdatePartition row range pm om).UpdateStart row range ci bs with
    | error e2 =>
      rw [h2] at hu2
      cases hu2
    | ok s2 =>
      rw [h2] at hu2
      simp only [] at hu2
      rw [UpdateEnd_null s2 row ci range be
        (by rw [UpdateStart_end_boundary h2, heb]; exact hb) hnull] at hu2
      simp only [] at hu2
      obtain ⟨hp2, _⟩ := UpdateStart_prev_snd h2
      obtain ⟨ws2, p2, e2⟩ := UpdateStart_shape h2
      have hps2 : s2.partition_start = lastStart pm row := by rw [e2]; exact hps
      have hpe2 : s2.partition_end = nextStart pm count row := by rw [e2]; exact hpe
      have hke2 : s2.peer_end = nextStart om count row := by rw [e2]; exact hke
      obtain ⟨hprev, _, hwe⟩ := UpdateClamp_within hu2
      simp only [] at hprev hwe
      refine ⟨?_, hke', ?_⟩
      · rw [hwe (by rw [hps2, hke2]; exact_mod_cast (by omega : lastStart pm row ≤
            nextStart om count row))
          (by rw [hpe2, hke2]; exact_mod_cast hn2), hke2]
      · rw [hprev, hp2]
  · have h2 := UpdateStart_null (s.UpdatePartition row range pm om) row ci range bs
      (by rw [hsb]; exact hb1) hnull1
    have h3 := UpdateEnd_null { s.UpdatePartition row range pm om with
        window_start := ((s.UpdatePartition row range pm om).peer_start : Int) }
      row ci range be (by simp only []; rw [heb]; exact hb2) hnull2
    obtain ⟨s', hc⟩ := UpdateClamp_ok
      { s.UpdatePartition row range pm om with
        window_start := ((s.UpdatePartition row range pm om).peer_start : Int),
        window_end := ((s.UpdatePartition row range pm om).peer_end : Int) }
    refine ⟨s', ?_, ?_⟩
    · unfold Update
      rw [h2]
      simp only []
      rw [h3]
      exact hc
    · rw [(UpdateClamp_within hc).1]

/-- C26, at concrete inputs on `o = [1, 1, 2, 3]`, at row 0.
`SUM(x) OVER (ORDER BY o RANGE BETWEEN NULL PRECEDING AND NULL FOLLOWING)`: `Update` returns
with the frame `[0, 2)`, the peer group of row 0, and the range hints of the state after the
partition part.
`SUM(x) OVER (ORDER BY o RANGE BETWEEN NULL PRECEDING AND UNBOUNDED FOLLOWING)`, a window
that needs no peer ends: `Update` returns with the frame `[0, 4)`, which starts at the start
of the peer group of row 0. -/
theorem Update_null_range_bound_witness :
    (MaskInvariants (ofWords [1]) (ofWords [13]) ∧
      MasksOfKeys rangeAroundExpr (ofWords [1]) (ofWords [13]) ∧
      MasksOfKeys rangeStartPrecedingExpr (ofWords [1]) (ofWords [13]) ∧ 4 ≤ 2 ^ 64 - 64 ∧
      AfterRows rangeAroundExpr 4 (.ofList [some 1, some 1, some 2, some 3]) (ofWords [1])
        (ofWords [13]) 0 (WindowBoundariesState.new rangeAroundExpr 4) ∧
      AfterRows rangeStartPrecedingExpr 4 (.ofList [some 1, some 1, some 2, some 3])
        (ofWords [1]) (ofWords [13]) 0 (WindowBoundariesState.new rangeStartPrecedingExpr 4) ∧
      0 < 4 ∧
      (WindowBoundariesState.new rangeAroundExpr 4).start_boundary = .EXPR_PRECEDING_RANGE ∧
      (WindowBoundariesState.new rangeAroundExpr 4).end_boundary = .EXPR_FOLLOWING_RANGE ∧
      (WindowBoundariesState.new rangeStartPrecedingExpr 4).start_boundary =
        .EXPR_PRECEDING_RANGE ∧
      (WindowBoundariesState.new rangeStartPrecedingExpr 4).needs_peer = false ∧
      WindowInputExpression.null.CellIsNull 0 = true) ∧
    (∃ s', (WindowBoundariesState.new rangeAroundExpr 4).Update 0
        (.ofList [some 1, some 1, some 2, some 3]) 0 .null .null (ofWords [1])
        (ofWords [13]) = .ok s' ∧
      s'.window_start = 0 ∧ s'.window_end = 2 ∧
      s'.prev = ((WindowBoundariesState.new rangeAroundExpr 4).UpdatePartition 0
        (.ofList [some 1, some 1, some 2, some 3]) (ofWords [1]) (ofWords [13])).prev) ∧
    (∃ s', (WindowBoundariesState.new rangeStartPrecedingExpr 4).Update 0
        (.ofList [some 1, some 1, some 2, some 3]) 0 .null .null (ofWords [1])
        (ofWords [13]) = .ok s' ∧ s'.window_start = 0 ∧ s'.window_end = 4) := by
  have hm : MaskInvariants (ofWords [1]) (ofWords [13]) :=
    ⟨by decide, by decide, ofWords_single_sub 1 13 (by decide)⟩
  have hk : MasksOfKeys rangeAroundExpr (ofWords [1]) (ofWords [13]) :=
    ⟨fun _ => ofWords_one_simple, fun h => absurd h (by decide)⟩
  have hk2 : MasksOfKeys rangeStartPrecedingExpr (ofWords [1]) (ofWords [13]) :=
    ⟨fun _ => ofWords_one_simple, fun h => absurd h (by decide)⟩
  obtain ⟨h1, h2, h3⟩ := Update_null_range_bound rangeAroundExpr 4 (ofWords [1])
    (ofWords [13]) (.ofList [some 1, some 1, some 2, some 3]) .null .null hm hk (by decide)
    0 0 (WindowBoundariesState.new rangeAroundExpr 4) .init (by decide)
  obtain ⟨g1, _, _⟩ := Update_null_range_bound rangeStartPrecedingExpr 4 (ofWords [1])
    (ofWords [13]) (.ofList [some 1, some 1, some 2, some 3]) .null .null hm hk2 (by decide)
    0 0 (WindowBoundariesState.new rangeStartPrecedingExpr 4) .init (by decide)
  obtain ⟨s', hu, hprev⟩ := h3 (Or.inl rfl) (Or.inr rfl) rfl rfl
  obtain ⟨hws, _, _⟩ := (h1 (Or.inl rfl) rfl).2 s' hu
  obtain ⟨hwe, _, _⟩ := (h2 (Or.inr rfl) rfl).2 s' hu
  refine ⟨⟨hm, hk, hk2, by decide, .init, .init, by decide, rfl, rfl, rfl, rfl, rfl⟩,
    ⟨s', hu, ?_, ?_, hprev⟩, ?_⟩
  · rw [hws, show lastStart (ofWords [13]) 0 = 0 by decide]
    rfl
  · rw [hwe, show nextStart (ofWords [13]) 4 0 = 2 by decide]
    rfl
  · have hex : ∃ s', (WindowBoundariesState.new rangeStartPrecedingExpr 4).Update 0
        (.ofList [some 1, some 1, some 2, some 3]) 0 .null .null (ofWords [1])
        (ofWords [13]) = .ok s' ∧ s'.window_end = 4 := ⟨_, rfl, rfl⟩
    obtain ⟨t, ht, hte⟩ := hex
    refine ⟨t, ht, ?_, hte⟩
    rw [((g1 (Or.inl rfl) rfl).2 t ht).1, show lastStart (ofWords [13]) 0 = 0 by decide]
    rfl

end Window
